import Mathlib

/-!
Block matching motion estimation (TechDemo): embedding and verification.

Shallow embedding of the block matching core of the repository:

* `interpolate`, `SAD`                      (bmsupport.cc)
* `fullsearch`                              (fullsearch.cc)
* `pmvfast`, `large_diamond_search`,
  `small_diamond_search`, `is_valid`        (pmvfast.cc)
* `save_vectors`, `load_vectors`            (bmsupport.cc)
* `block_compensate`                        (blockcompensate.cc)
* `subpixel_search`                         (subpixel.cc)

Conventions of the embedding.

* `float` values are rationals (`ℚ`).  Every float the algorithms produce on
  integer or quarter-pixel locations is a dyadic rational of small magnitude, on
  which the float operations of the source (`+`, `-`, `*`, comparison, `floor`,
  `roundf`) are exact, so the rational model computes the same values.
* `int` values are `Int`; image dimensions and block sizes are `Nat`.
* `cv::Mat` is a record of its dimensions and of the byte memory its data pointer
  addresses.  `at<unsigned char>(r, c)` performs no bounds check: it reads the
  byte at linear offset `r * step + c`, with `step = cols * channels` for the
  continuous 8-bit matrices the programs load.
* `std::vector<cv::Vec2f>` is a list of pairs of rationals.
* `for` loops are folds over the list of values of the loop variable; `while`
  loops are iterated with an explicit fuel, and shown to stop within it.
* `SAD` accumulates absolute differences of bytes in a `float`; the sum is an
  integer (exact below `2^24`), so distortions are `Int` and the sentinels `1e7`
  and `10000` are the integers `10000000` and `10000`.
* A default-constructed `cv::Vec2f` is `(0, 0)`.
* The codec copies the object representation of the vectors: there a `float` is
  its 32-bit pattern, a file is its list of bytes, and the outcome of opening a
  file is a parameter.
* A `std::ofstream` buffers what it is given: a write reaches the device when the
  buffer cannot hold it, or when the destructor of the stream runs.  The device
  takes bytes while it has room.  The sizes of the buffer are those of libstdc++.
-/

namespace TechDemo

/-! ## Data model -/

/-- A `cv::Mat` of 8-bit samples: dimensions, channel count and the byte
memory addressed relative to its data pointer. -/
structure Mat where
  cols : Nat
  rows : Nat
  channels : Nat
  data : Int → Nat

/-- The unchecked accessor `img.at<unsigned char>(r, c)`: the byte at linear
offset `r * step + c`. -/
def Mat.at (img : Mat) (r c : Int) : Nat :=
  img.data (r * ((img.cols : Int) * (img.channels : Int)) + c) % 256

/-- A `cv::Vec2f`, component 0 (x) then component 1 (y). -/
abbrev Vec2f := ℚ × ℚ

/-- The values taken by `v` in `for(v = lo; v <= hi; v++)`. -/
def forRange (lo hi : Int) : List Int :=
  (List.range (hi + 1 - lo).toNat).map (fun (k : Nat) => lo + (k : Int))

/-- The function `std::clamp(v, lo, hi)`. -/
def clamp (v lo hi : Int) : Int :=
  if v < lo then lo else if hi < v then hi else v

/-- The function `std::roundf`: nearest integer, halves away from zero. -/
def roundf (v : ℚ) : Int :=
  if 0 ≤ v then ⌊v + 1 / 2⌋ else ⌈v - 1 / 2⌉

/-- Conversion of a `float` to `int`: truncation toward zero. -/
def truncf (v : ℚ) : Int :=
  if 0 ≤ v then ⌊v⌋ else ⌈v⌉

/-! ## bmsupport.cc -/

/-- Bilinear interpolation `interpolate(img, fx, fy)` (bmsupport.cc:20-68). -/
def interpolate (img : Mat) (fx fy : ℚ) : Nat :=
  if img.channels ≠ 1 then 0
  else if fx ≥ (img.cols : ℚ) ∨ fy ≥ (img.rows : ℚ) then 0
  else
    let ix : Int := ⌊fx⌋
    let iy : Int := ⌊fy⌋
    let a : ℚ := fx - (ix : ℚ)
    let b : ℚ := fy - (iy : ℚ)
    let wide : Int := img.cols
    let high : Int := img.rows
    let ix1 : Int := ix + 1
    let iy1 : Int := iy + 1
    let g : ℚ := if (ix ≥ 0 ∨ ix < wide) ∧ iy ≥ 0 ∧ iy < high then (img.at iy ix : ℚ) else 0
    let h : ℚ := if (ix ≥ 0 ∨ ix < wide) ∧ iy ≥ 0 ∧ iy1 < high then (img.at iy1 ix : ℚ) else 0
    let i : ℚ := if (ix1 ≥ 0 ∧ ix1 < wide) ∧ iy ≥ 0 ∧ iy < high then (img.at iy ix1 : ℚ) else 0
    let j : ℚ := if (ix1 ≥ 0 ∧ ix1 < wide) ∧ iy ≥ 0 ∧ iy1 < high then (img.at iy1 ix1 : ℚ) else 0
    let oma : ℚ := 1 - a
    let omb : ℚ := 1 - b
    let omab : ℚ := oma * omb
    let ab : ℚ := a * b
    let aomb : ℚ := a * omb
    let boma : ℚ := b * oma
    (roundf (omab * g + boma * h + aomb * i + ab * j)).toNat % 256

/-- The pixel locations `(row, column)` that `interpolate(img, fx, fy)` passes to
`img.at`, in program order (bmsupport.cc:40-56). -/
def interpolate_reads (img : Mat) (fx fy : ℚ) : List (Int × Int) :=
  if img.channels ≠ 1 then []
  else if fx ≥ (img.cols : ℚ) ∨ fy ≥ (img.rows : ℚ) then []
  else
    let ix : Int := ⌊fx⌋
    let iy : Int := ⌊fy⌋
    let wide : Int := img.cols
    let high : Int := img.rows
    let ix1 : Int := ix + 1
    let iy1 : Int := iy + 1
    (if (ix ≥ 0 ∨ ix < wide) ∧ iy ≥ 0 ∧ iy < high then [(iy, ix)] else []) ++
    (if (ix ≥ 0 ∨ ix < wide) ∧ iy ≥ 0 ∧ iy1 < high then [(iy1, ix)] else []) ++
    (if (ix1 ≥ 0 ∧ ix1 < wide) ∧ iy ≥ 0 ∧ iy < high then [(iy, ix1)] else []) ++
    (if (ix1 ≥ 0 ∧ ix1 < wide) ∧ iy ≥ 0 ∧ iy1 < high then [(iy1, ix1)] else [])

/-- Block distortion `SAD(ref, search, rx, ry, sx, sy, size)` (bmsupport.cc:71-87).
The accumulator holds a sum of integers, so the result is an integer. -/
def SAD (ref search : Mat) (rx ry : Int) (sx sy : ℚ) (size : Nat) : Int :=
  (List.range size).foldl
    (fun (sad : Int) (y : Nat) =>
      (List.range size).foldl
        (fun (sad : Int) (x : Nat) =>
          sad + |(ref.at (ry + (y : Int)) (rx + (x : Int)) : Int)
                  - (interpolate search (sx + (x : ℚ)) (sy + (y : ℚ)) : Int)|)
        sad)
    0

/-! ## fullsearch.cc -/

/-- Search range for full search (`#define RANGE 16`). -/
def RANGE : Int := 16

/-- One evaluation of the inner search loop (fullsearch.cc:53-61): the state is
`(bestbdm, bestvec)`. -/
def fullsearch_step (current previous : Mat) (blk_size : Nat) (ox oy : Int)
    (st : Int × Vec2f) (x y : Int) : Int × Vec2f :=
  let bdm := SAD current previous ox oy (x : ℚ) (y : ℚ) blk_size
  if bdm < st.1 ∨ (bdm = st.1 ∧ x = ox ∧ y = oy) then
    (bdm, (((x - ox : Int) : ℚ), ((y - oy : Int) : ℚ)))
  else st

/-- Lower bound of the search origin on one axis (fullsearch.cc:39-44), for block
origin `o` and previous frame dimension `dim`. -/
def fullsearch_min (o : Int) (dim : Nat) : Int := clamp (o - RANGE) 0 (dim : Int)

/-- Upper bound of the search origin on one axis (fullsearch.cc:39-45). -/
def fullsearch_max (o : Int) (dim blk_size : Nat) : Int :=
  clamp (o + RANGE) 0 ((dim : Int) - (blk_size : Int))

/-- The search of one block (fullsearch.cc:31-63), started from `bestbdm = 1e7` and
`bestvec = (0, 0)`: final `(bestbdm, bestvec)`. -/
def fullsearch_search (current previous : Mat) (blk_size : Nat) (bx by_ : Nat) :
    Int × Vec2f :=
  let ox : Int := (bx : Int) * (blk_size : Int)
  let oy : Int := (by_ : Int) * (blk_size : Int)
  let xmin := fullsearch_min ox previous.cols
  let xmax := fullsearch_max ox previous.cols blk_size
  let ymin := fullsearch_min oy previous.rows
  let ymax := fullsearch_max oy previous.rows blk_size
  (forRange ymin ymax).foldl
    (fun (st : Int × Vec2f) (y : Int) =>
      (forRange xmin xmax).foldl
        (fun (st : Int × Vec2f) (x : Int) =>
          fullsearch_step current previous blk_size ox oy st x y) st)
    (10000000, (0, 0))

/-- The vector pushed for block `(bx, by)` (fullsearch.cc:65). -/
def fullsearch_block (current previous : Mat) (blk_size : Nat) (bx by_ : Nat) : Vec2f :=
  (fullsearch_search current previous blk_size bx by_).2

/-- The function `fullsearch(current, previous, blk_size)` (fullsearch.cc:13-70). -/
def fullsearch (current previous : Mat) (blk_size : Nat) : List Vec2f :=
  let blocks_wide := current.cols / blk_size
  let blocks_high := current.rows / blk_size
  (List.range blocks_high).foldl
    (fun (mv : List Vec2f) (by_ : Nat) =>
      (List.range blocks_wide).foldl
        (fun (mv : List Vec2f) (bx : Nat) =>
          mv ++ [fullsearch_block current previous blk_size bx by_]) mv)
    []

/-! ## pmvfast.cc -/

/-- The test `is_valid(sx, sy, blk_size, img)` (pmvfast.cc:354-362). -/
def is_valid (sx sy : ℚ) (blk_size : Nat) (img : Mat) : Bool :=
  decide (sx ≥ 0 ∧ sy ≥ 0 ∧ sx + (blk_size : ℚ) < (img.cols : ℚ)
    ∧ sy + (blk_size : ℚ) < (img.rows : ℚ))

/-- The neighbour vectors collected for block `(bx, by)` (pmvfast.cc:58-64). -/
def pmvfast_predictors (motion : List Vec2f) (blocks_wide bx by_ : Nat) : List Vec2f :=
  (if bx > 0 then [motion.getD (by_ * blocks_wide + (bx - 1)) (0, 0)] else []) ++
  (if by_ > 0 then
    [motion.getD ((by_ - 1) * blocks_wide + bx) (0, 0)] ++
    (if bx + 1 < blocks_wide then [motion.getD ((by_ - 1) * blocks_wide + (bx + 1)) (0, 0)]
     else [])
   else [])

/-- The median vector `(medx, medy)` of the predictors (pmvfast.cc:66-92); both
components are `int` in the source. -/
def pmvfast_median (predictors : List Vec2f) : Int × Int :=
  match predictors with
  | [] => (0, 0)
  | [p] => (truncf p.1, truncf p.2)
  | [p, q] => (truncf ((p.1 + q.1) / 2), truncf ((p.2 + q.2) / 2))
  | ps =>
    let px := (ps.map Prod.fst).insertionSort (fun (u v : ℚ) => u ≤ v)
    let py := (ps.map Prod.snd).insertionSort (fun (u v : ℚ) => u ≤ v)
    (truncf (px.getD (px.length / 2) 0), truncf (py.getD (py.length / 2) 0))

/-- Minimum SAD of the predictors (pmvfast.cc:110-125): the state is
`(best_predictor, min_sad)`, started from `((0,0), 10000)`. -/
def pmvfast_best_predictor (current previous : Mat) (blk_size : Nat) (ox oy : Int)
    (predictors : List Vec2f) : Vec2f × Int :=
  predictors.foldl
    (fun (st : Vec2f × Int) (p : Vec2f) =>
      if is_valid ((ox : ℚ) + p.1) ((oy : ℚ) + p.2) blk_size previous then
        let pred_sad := SAD current previous ox oy ((ox : ℚ) + p.1) ((oy : ℚ) + p.2) blk_size
        if pred_sad < st.2 then (p, pred_sad) else st
      else st)
    ((0, 0), 10000)

/-- The nine search vectors of the large diamond around `c` (pmvfast.cc:178-187). -/
def large_search_mv (c : Vec2f) : List Vec2f :=
  [c, (c.1, c.2 - 2), (c.1 + 2, c.2), (c.1, c.2 + 2), (c.1 - 2, c.2),
   (c.1 + 1, c.2 - 1), (c.1 + 1, c.2 + 1), (c.1 - 1, c.2 + 1), (c.1 - 1, c.2 - 1)]

/-- The five search vectors of the small diamond around `c` (pmvfast.cc:286-291). -/
def small_search_mv (c : Vec2f) : List Vec2f :=
  [c, (c.1, c.2 - 1), (c.1 + 1, c.2), (c.1, c.2 + 1), (c.1 - 1, c.2)]

/-- Next candidate positions of the large diamond (pmvfast.cc:220-257). -/
def large_next (best_mv_pos : Nat) : List Nat :=
  match best_mv_pos with
  | 1 => [4, 8, 1, 5, 2]
  | 2 => [1, 5, 2, 6, 3]
  | 3 => [2, 6, 3, 7, 4]
  | 4 => [3, 7, 4, 8, 1]
  | 5 => [1, 5, 2]
  | 6 => [2, 6, 3]
  | 7 => [3, 7, 4]
  | 8 => [4, 8, 1]
  | _ => []

/-- Next candidate positions of the small diamond (pmvfast.cc:325-346). -/
def small_next (best_mv_pos : Nat) : List Nat :=
  match best_mv_pos with
  | 1 => [1, 2, 4]
  | 2 => [1, 2, 3]
  | 3 => [2, 3, 4]
  | 4 => [3, 4, 1]
  | _ => []

/-- The candidate loop of one round of a diamond search (pmvfast.cc:193-211,
297-316): the state is `(best_mv_pos, best_sad)`. -/
def diamond_eval (current previous : Mat) (blk_size : Nat) (ox oy : Int)
    (search_mv : List Vec2f) (candidate_pos : List Nat) (st : Nat × Int) : Nat × Int :=
  candidate_pos.foldl
    (fun (st : Nat × Int) (cand_no : Nat) =>
      let v := search_mv.getD cand_no (0, 0)
      if is_valid ((ox : ℚ) + v.1) ((oy : ℚ) + v.2) blk_size previous then
        let bdm := SAD current previous ox oy ((ox : ℚ) + v.1) ((oy : ℚ) + v.2) blk_size
        if bdm < st.2 then (cand_no, bdm) else st
      else st)
    st

/-- State of a diamond search between two rounds of its `while` loop: the field,
the candidate positions still to evaluate and the best SAD so far. -/
structure DiamondState where
  mv : List Vec2f
  candidate_pos : List Nat
  best_sad : Int

/-- One round of the `while(process)` loop of a diamond search with search
vectors `pattern` and transition table `next`: `Sum.inr mv` when the loop stops
(`best_mv_pos = 0`), `Sum.inl s` when it goes on with state `s`. -/
def diamond_round (pattern : Vec2f → List Vec2f) (next : Nat → List Nat)
    (current previous : Mat) (blk_size : Nat) (ox oy : Int) (mv_block_index : Nat)
    (s : DiamondState) : DiamondState ⊕ List Vec2f :=
  let centre_mv := s.mv.getD mv_block_index (0, 0)
  let search_mv := pattern centre_mv
  let r := diamond_eval current previous blk_size ox oy search_mv s.candidate_pos
    (0, s.best_sad)
  if r.1 = 0 then Sum.inr s.mv
  else Sum.inl
    { mv := s.mv.set mv_block_index (search_mv.getD r.1 (0, 0))
      candidate_pos := next r.1
      best_sad := r.2 }

/-- The `while(process)` loop of a diamond search, run for at most `fuel` rounds;
`none` when the fuel does not suffice. -/
def diamond_loop (pattern : Vec2f → List Vec2f) (next : Nat → List Nat)
    (current previous : Mat) (blk_size : Nat) (ox oy : Int) (mv_block_index : Nat) :
    Nat → DiamondState → Option (List Vec2f)
  | 0, _ => none
  | fuel + 1, s =>
    match diamond_round pattern next current previous blk_size ox oy mv_block_index s with
    | Sum.inr mv => some mv
    | Sum.inl s' =>
      diamond_loop pattern next current previous blk_size ox oy mv_block_index fuel s'

/-- Number of rounds granted to a diamond search: `best_sad` starts at `10^7` and
strictly decreases with every move of the centre. -/
def diamond_fuel : Nat := 10000001

/-- The function `large_diamond_search` (pmvfast.cc:156-262), as fuelled loop. -/
def large_diamond_search (current previous : Mat) (blockx blocky blk_size : Nat)
    (mv : List Vec2f) : Option (List Vec2f) :=
  let blocks_wide := current.cols / blk_size
  let ox : Int := (blockx : Int) * (blk_size : Int)
  let oy : Int := (blocky : Int) * (blk_size : Int)
  let mv_block_index := blocky * blocks_wide + blockx
  diamond_loop large_search_mv large_next current previous blk_size ox oy mv_block_index
    diamond_fuel { mv := mv, candidate_pos := List.range 9, best_sad := 10000000 }

/-- The function `small_diamond_search` (pmvfast.cc:264-351), as fuelled loop. -/
def small_diamond_search (current previous : Mat) (blockx blocky blk_size : Nat)
    (mv : List Vec2f) : Option (List Vec2f) :=
  let blocks_wide := current.cols / blk_size
  let ox : Int := (blockx : Int) * (blk_size : Int)
  let oy : Int := (blocky : Int) * (blk_size : Int)
  let mv_block_index := blocky * blocks_wide + blockx
  diamond_loop small_search_mv small_next current previous blk_size ox oy mv_block_index
    diamond_fuel { mv := mv, candidate_pos := List.range 5, best_sad := 10000000 }

/-- The body of the block loop of `pmvfast` for block `(bx, by)` (pmvfast.cc:52-149):
the field after the block has been processed.  `T1` (pmvfast.cc:127) is computed
by the source and never read, it is left out.  The test `magmed < 0.1` on
`magmed = sqrt(medx*medx + medy*medy)` is written on the square,
`100 * (medx*medx + medy*medy) < 1`. -/
def pmvfast_block (current previous : Mat) (blk_size : Nat) (motion : List Vec2f)
    (bx by_ : Nat) : Option (List Vec2f) :=
  let blocks_wide := current.cols / blk_size
  let K : Int := if blk_size = 8 then 384 else 1536
  let med_vec_stop : Int := if blk_size = 8 then 64 else 256
  let T2_offset : Int := if blk_size = 8 then 64 else 256
  let ox : Int := (bx : Int) * (blk_size : Int)
  let oy : Int := (by_ : Int) * (blk_size : Int)
  let predictors := pmvfast_predictors motion blocks_wide bx by_
  let med := pmvfast_median predictors
  if is_valid (((ox + med.1 : Int)) : ℚ) (((oy + med.2 : Int)) : ℚ) blk_size previous
      ∧ SAD current previous ox oy ((ox + med.1 : Int) : ℚ) ((oy + med.2 : Int) : ℚ) blk_size
          < med_vec_stop then
    some (motion.set (by_ * blocks_wide + bx) ((med.1 : ℚ), (med.2 : ℚ)))
  else
    let bp := pmvfast_best_predictor current previous blk_size ox oy predictors
    let T2 : Int := bp.2 + T2_offset
    let motion1 := motion.set (by_ * blocks_wide + bx) bp.1
    let use_small_diamond : Bool :=
      decide (100 * (med.1 * med.1 + med.2 * med.2) < 1 ∧ T2 < K)
    if use_small_diamond then small_diamond_search current previous bx by_ blk_size motion1
    else large_diamond_search current previous bx by_ blk_size motion1

/-- The function `pmvfast(current, previous, blk_size)` (pmvfast.cc:20-154); `none`
only if a diamond search ran out of fuel. -/
def pmvfast (current previous : Mat) (blk_size : Nat) : Option (List Vec2f) :=
  let blocks_wide := current.cols / blk_size
  let blocks_high := current.rows / blk_size
  (List.range blocks_high).foldl
    (fun (acc : Option (List Vec2f)) (by_ : Nat) =>
      (List.range blocks_wide).foldl
        (fun (acc : Option (List Vec2f)) (bx : Nat) => acc.bind (fun motion =>
          pmvfast_block current previous blk_size motion bx by_)) acc)
    (some (List.replicate (blocks_wide * blocks_high) (0, 0)))

/-- The candidate origins `(x, y)` of block `(bx, by)` in the order in which the
search loops visit them (fullsearch.cc:49-51): `y` outer, `x` inner, ascending. -/
def fullsearch_candidates (previous : Mat) (blk_size bx by_ : Nat) : List (Int × Int) :=
  let ox : Int := (bx : Int) * (blk_size : Int)
  let oy : Int := (by_ : Int) * (blk_size : Int)
  let xmin := fullsearch_min ox previous.cols
  let xmax := fullsearch_max ox previous.cols blk_size
  let ymin := fullsearch_min oy previous.rows
  let ymax := fullsearch_max oy previous.rows blk_size
  (forRange ymin ymax).flatMap
    (fun (y : Int) => (forRange xmin xmax).map (fun (x : Int) => (x, y)))

/-- The update of `fullsearch_step` for an arbitrary cost `f` of a candidate and
zero-motion location `z`. -/
def scan_step (f : Int × Int → Int) (z : Int × Int) (st : Int × Vec2f) (c : Int × Int) :
    Int × Vec2f :=
  if f c < st.1 ∨ (f c = st.1 ∧ c.1 = z.1 ∧ c.2 = z.2) then
    (f c, (((c.1 - z.1 : Int) : ℚ), ((c.2 - z.2 : Int) : ℚ)))
  else st

/-- The distortion of candidate origin `c` for block `(bx, by)`. -/
def block_cost (current previous : Mat) (blk_size bx by_ : Nat) (c : Int × Int) : Int :=
  SAD current previous ((bx : Int) * (blk_size : Int)) ((by_ : Int) * (blk_size : Int))
    (c.1 : ℚ) (c.2 : ℚ) blk_size

/-- Frame pair of the shift test: `previous` is `current` shifted by `(dx, dy)`,
the uncovered border filled with the constant `fill`; content at `(x, y)` of the
current frame is found at `(x + dx, y + dy)` of the previous frame. -/
def is_shifted (current previous : Mat) (dx dy : Int) (fill : Nat) : Prop :=
  ∀ r < previous.rows, ∀ c < previous.cols,
    previous.at (r : Int) (c : Int) =
      if 0 ≤ (r : Int) - dy ∧ (r : Int) - dy < (current.rows : Int)
          ∧ 0 ≤ (c : Int) - dx ∧ (c : Int) - dx < (current.cols : Int)
      then current.at ((r : Int) - dy) ((c : Int) - dx) else fill

instance (current previous : Mat) (dx dy : Int) (fill : Nat) :
    Decidable (is_shifted current previous dx dy fill) := by
  unfold is_shifted
  infer_instance

/-- Value of the neighbour at `(row, column) = (r, c)` under zero fill: the stored
pixel inside `[0,cols) x [0,rows)`, `0` outside. -/
def zero_fill (img : Mat) (r c : Int) : ℚ :=
  if 0 ≤ c ∧ c < (img.cols : Int) ∧ 0 ≤ r ∧ r < (img.rows : Int) then (img.at r c : ℚ) else 0

/-- A textured `n x n` single-channel frame. -/
def textured (n : Nat) : Mat :=
  ⟨n, n, 1, fun a => ((a * 37 + a * a * 11) % 256).toNat⟩

/-- The single-channel frame `img` shifted by `(dx, dy)`, the uncovered border
filled with `fill`. -/
def shifted (img : Mat) (dx dy : Int) (fill : Nat) : Mat :=
  { cols := img.cols
    rows := img.rows
    channels := img.channels
    data := fun a =>
      if 0 ≤ a / (img.cols : Int) - dy ∧ a / (img.cols : Int) - dy < (img.rows : Int)
          ∧ 0 ≤ a % (img.cols : Int) - dx ∧ a % (img.cols : Int) - dx < (img.cols : Int)
      then img.data ((a / (img.cols : Int) - dy) * (img.cols : Int) + (a % (img.cols : Int) - dx))
      else fill }

/-- A textured single-channel frame of 4 columns and 6 rows. -/
def textured_4x6 : Mat :=
  ⟨4, 6, 1, fun a => ((a * 7 + a * a * 9) % 256).toNat⟩

/-- A 2x2 single-channel frame of constant value 255. -/
def white2 : Mat := ⟨2, 2, 1, fun a => if 0 ≤ a ∧ a < 4 then 255 else 0⟩

/-- The exact bilinear blend at `(fx, fy)` of the four zero-filled neighbours, with
weights `(1-a)(1-b)`, `b(1-a)`, `a(1-b)`, `ab`. -/
def bilinear (img : Mat) (fx fy : ℚ) : ℚ :=
  (1 - (fx - (⌊fx⌋ : ℚ))) * (1 - (fy - (⌊fy⌋ : ℚ))) * zero_fill img ⌊fy⌋ ⌊fx⌋
    + (fy - (⌊fy⌋ : ℚ)) * (1 - (fx - (⌊fx⌋ : ℚ))) * zero_fill img (⌊fy⌋ + 1) ⌊fx⌋
    + (fx - (⌊fx⌋ : ℚ)) * (1 - (fy - (⌊fy⌋ : ℚ))) * zero_fill img ⌊fy⌋ (⌊fx⌋ + 1)
    + (fx - (⌊fx⌋ : ℚ)) * (fy - (⌊fy⌋ : ℚ)) * zero_fill img (⌊fy⌋ + 1) (⌊fx⌋ + 1)

/-- A 400x200 frame of constant value 255. -/
def big_current : Mat := ⟨400, 200, 1, fun _ => 255⟩

/-- A 400x200 frame that is 0 except for the pixel in row 0, column 200. -/
def big_previous : Mat := ⟨400, 200, 1, fun a => if a = 200 then 1 else 0⟩

/-! ## Further definitions: field prefix, codec, compensation, subpixel search -/

/-- The field held by `pmvfast` after the first `n` blocks in raster order
(pmvfast.cc:48-151). -/
def pmvfast_upto (current previous : Mat) (blk_size n : Nat) : Option (List Vec2f) :=
  (List.range n).foldl
    (fun (acc : Option (List Vec2f)) (i : Nat) => acc.bind (fun motion =>
      pmvfast_block current previous blk_size motion
        (i % (current.cols / blk_size)) (i / (current.cols / blk_size))))
    (some (List.replicate (current.cols / blk_size * (current.rows / blk_size)) (0, 0)))

/-- Object representation of a `float` holding the 32-bit pattern `w`: its four
bytes, lowest address first (little-endian host). -/
def float_bytes (w : Nat) : List Nat :=
  [w % 256, w / 256 % 256, w / 65536 % 256, w / 16777216 % 256]

/-- The 32-bit pattern of the `float` whose object representation is the bytes
`b0, b1, b2, b3`, lowest address first. -/
def bytes_float (b0 b1 b2 b3 : Nat) : Nat :=
  b0 % 256 + 256 * (b1 % 256) + 65536 * (b2 % 256) + 16777216 * (b3 % 256)

/-- A `cv::Vec2f` as the codec sees it: the 32-bit patterns of its two floats, x
then y.  The codec copies object representations and never interprets them. -/
abbrev Vec2fBits := Nat × Nat

/-- The eight bytes of a `cv::Vec2f` object (`sizeof(cv::Vec2f) = 8`). -/
def vec_bytes (v : Vec2fBits) : List Nat := float_bytes v.1 ++ float_bytes v.2

/-- State of a `std::ofstream` on an open file: its good bit, the bytes the device
has taken so far (the contents of the file), the bytes held in the buffer of the
stream, and the number of bytes the device still accepts. -/
structure OFStream where
  good : Bool
  written : List Nat
  pending : List Nat
  room : Nat

/-- Usable size of the buffer of a file stream (`BUFSIZ - 1` in libstdc++). -/
def filebuf_size : Nat := 8191

/-- Size from which a file stream passes a write on to the device instead of
buffering it (the chunk of `basic_filebuf::xsputn` in libstdc++). -/
def filebuf_chunk : Nat := 1024

/-- The call `output.write(p, n)` for the `n` bytes `bytes`.  A stream that is not
good writes nothing.  A write shorter than both the chunk and the free space of the
buffer only fills the buffer.  Any other write passes the buffer and the bytes on to
the device, which takes them while it has room: a short write sets the bad bit. -/
def OFStream.write (s : OFStream) (bytes : List Nat) : OFStream :=
  if s.good = false then s
  else if bytes.length < min filebuf_chunk (filebuf_size - s.pending.length) then
    ⟨true, s.written, s.pending ++ bytes, s.room⟩
  else if s.pending.length + bytes.length ≤ s.room then
    ⟨true, s.written ++ (s.pending ++ bytes), [], s.room - (s.pending.length + bytes.length)⟩
  else
    ⟨false, s.written ++ (s.pending ++ bytes).take s.room, s.pending, 0⟩

/-- The contents of the file once the destructor of the stream has run: it passes
the buffer on to the device, which takes the bytes it has room for; a failure at
this point is reported to no one. -/
def OFStream.close (s : OFStream) : List Nat :=
  s.written ++ s.pending.take s.room

/-- The function `save_vectors(mv, output_filename)` (bmsupport.cc:90-110), branch
compiled before C++20 (one `write` per vector).  `output` is `none` when the file
cannot be opened and `some room` when it opens on a device accepting `room` bytes.
Returns the result, which is the state of the stream before its destructor runs
(bmsupport.cc:109), and the contents of the file after the call. -/
def save_vectors (mv : List Vec2fBits) (output : Option Nat) : Bool × List Nat :=
  match output with
  | none => (false, [])
  | some room =>
    let s := mv.foldl (fun (s : OFStream) (v : Vec2fBits) => s.write (vec_bytes v))
      (⟨true, [], [], room⟩ : OFStream)
    (s.good, s.close)

/-- The function `save_vectors` (bmsupport.cc:90-110), branch compiled from C++20 on
(one `write` of the whole array). -/
def save_vectors_cxx20 (mv : List Vec2fBits) (output : Option Nat) : Bool × List Nat :=
  match output with
  | none => (false, [])
  | some room =>
    let s := (⟨true, [], [], room⟩ : OFStream).write (mv.flatMap vec_bytes)
    (s.good, s.close)

/-- The read loop of `load_vectors` (bmsupport.cc:118-123) on the bytes left in the
file: a read of 8 bytes succeeds while 8 bytes are left. -/
def load_records : List Nat → List Vec2fBits → List Vec2fBits
  | b0 :: b1 :: b2 :: b3 :: b4 :: b5 :: b6 :: b7 :: rest, mv =>
    load_records rest (mv ++ [(bytes_float b0 b1 b2 b3, bytes_float b4 b5 b6 b7)])
  | _, mv => mv

/-- The function `load_vectors(mv_filename, mv)` (bmsupport.cc:113-126).  `input` is
`none` when the file cannot be opened, else its bytes.  Returns the result and the
vector `mv` after the call. -/
def load_vectors (input : Option (List Nat)) (mv : List Vec2fBits) :
    Bool × List Vec2fBits :=
  match input with
  | none => (false, mv)
  | some bytes => (true, load_records bytes mv)

/-- The assignment `img.at<unsigned char>(r, c) = v`: stores the byte at linear
offset `r * step + c`. -/
def Mat.write (img : Mat) (r c : Int) (v : Nat) : Mat :=
  ⟨img.cols, img.rows, img.channels,
    fun a => if a = r * ((img.cols : Int) * (img.channels : Int)) + c then v else img.data a⟩

/-- The statement of the innermost loop of `block_compensate`
(blockcompensate.cc:47-55) for block `(bx, by)` and offsets `(i, j)`. -/
def compensate_pixel (previous_image : Mat) (mv : List Vec2f) (blk_size : Nat)
    (out : Mat) (bx by_ i j : Nat) : Mat :=
  let blocks_wide := previous_image.cols / blk_size
  let y : Int := (by_ : Int) * (blk_size : Int) + (j : Int)
  let x : Int := (bx : Int) * (blk_size : Int) + (i : Int)
  let boff := by_ * blocks_wide
  let v := mv.getD (boff + bx) (0, 0)
  out.write y x (interpolate previous_image ((x : ℚ) + v.1) ((y : ℚ) + v.2))

set_option linter.unusedVariables false in
/-- The function `block_compensate(previous_image, mv, blk_size, output_image)`
(blockcompensate.cc:15-60): the output image after the call.  `output_image` is the
image passed in; `fresh` is the content of the memory that `cv::Mat(rows, cols,
type)` allocates (blockcompensate.cc:21), which is not initialised. -/
def block_compensate (previous_image : Mat) (mv : List Vec2f) (blk_size : Nat)
    (output_image : Mat) (fresh : Int → Nat) : Mat :=
  let output_image : Mat :=
    ⟨previous_image.cols, previous_image.rows, previous_image.channels, fresh⟩
  let blocks_wide := previous_image.cols / blk_size
  let blocks_high := previous_image.rows / blk_size
  if mv.length ≠ blocks_wide * blocks_high then output_image
  else
    (List.range blocks_high).foldl
      (fun (out : Mat) (by_ : Nat) =>
        (List.range blocks_wide).foldl
          (fun (out : Mat) (bx : Nat) =>
            (List.range blk_size).foldl
              (fun (out : Mat) (j : Nat) =>
                (List.range blk_size).foldl
                  (fun (out : Mat) (i : Nat) =>
                    compensate_pixel previous_image mv blk_size out bx by_ i j) out)
              out)
          out)
      output_image

/-- One evaluation of the inner loop of `subpixel_search` (subpixel.cc:53-62) for the
quarter-pixel offset `(x, y)`: the state is `(best, best_vec)`. -/
def subpixel_step (current previous : Mat) (blk_size : Nat) (ox oy : Int)
    (integer_vec : Vec2f) (st : Int × Vec2f) (x y : Int) : Int × Vec2f :=
  let dx : ℚ := integer_vec.1 + (x : ℚ) * (1 / 4)
  let dy : ℚ := integer_vec.2 + (y : ℚ) * (1 / 4)
  let error := SAD current previous ox oy ((ox : ℚ) + dx) ((oy : ℚ) + dy) blk_size
  if error < st.1 then (error, (dx, dy)) else st

/-- Limits `(minx, maxx)` of the quarter-pixel offsets on one axis (subpixel.cc:34-45)
for block origin `o`, integer component `v` and frame dimension `dim`. -/
def subpixel_limits (o : Int) (v : ℚ) (blk_size dim : Nat) : Int × Int :=
  (if (o : ℚ) + v ≤ 0 then 0 else -3,
   if (o : ℚ) + v + (blk_size : ℚ) ≥ (dim : ℚ) then 0 else 3)

/-- The refinement of the vector `integer_vec` of block `(bx, by)`
(subpixel.cc:26-64): final `(best, best_vec)`. -/
def subpixel_refine (current previous : Mat) (blk_size bx by_ : Nat) (integer_vec : Vec2f) :
    Int × Vec2f :=
  let ox : Int := (bx : Int) * (blk_size : Int)
  let oy : Int := (by_ : Int) * (blk_size : Int)
  let lx := subpixel_limits ox integer_vec.1 blk_size previous.cols
  let ly := subpixel_limits oy integer_vec.2 blk_size previous.rows
  (forRange ly.1 ly.2).foldl
    (fun (st : Int × Vec2f) (y : Int) =>
      (forRange lx.1 lx.2).foldl
        (fun (st : Int × Vec2f) (x : Int) =>
          subpixel_step current previous blk_size ox oy integer_vec st x y) st)
    (10000000, integer_vec)

/-- The body of the block loop of `subpixel_search` for block `(bx, by)`
(subpixel.cc:22-66): the field after the block has been refined. -/
def subpixel_block (current previous : Mat) (blk_size : Nat) (motion : List Vec2f)
    (bx by_ : Nat) : List Vec2f :=
  let blocks_wide := current.cols / blk_size
  let integer_vec := motion.getD (by_ * blocks_wide + bx) (0, 0)
  motion.set (by_ * blocks_wide + bx)
    (subpixel_refine current previous blk_size bx by_ integer_vec).2

/-- The function `subpixel_search(current, previous, blk_size, motion)`
(subpixel.cc:12-69): the field after the call. -/
def subpixel_search (current previous : Mat) (blk_size : Nat) (motion : List Vec2f) :
    List Vec2f :=
  let blocks_wide := current.cols / blk_size
  let blocks_high := current.rows / blk_size
  (List.range blocks_high).foldl
    (fun (motion : List Vec2f) (by_ : Nat) =>
      (List.range blocks_wide).foldl
        (fun (motion : List Vec2f) (bx : Nat) =>
          subpixel_block current previous blk_size motion bx by_) motion)
    motion

/-- A 1x1 single-channel image holding the value 7. -/
def pixel7 : Mat := ⟨1, 1, 1, fun _ => 7⟩

/-! ## Further definitions: frames, scan orders and sampling sites -/

/-- A 24x24 frame of constant value 255. -/
def bright24 : Mat := ⟨24, 24, 1, fun _ => 255⟩

/-- A 24x24 frame that is 0 except for the pixel in row 0, column 9. -/
def dark24 : Mat := ⟨24, 24, 1, fun a => if a = 9 then 1 else 0⟩

/-- The search locations `(sx, sy)` at which one round of a diamond search calls
`SAD`: those of the candidates of the worklist that pass `is_valid`
(pmvfast.cc:193-200, 298-305). -/
def diamond_round_sites (pattern : Vec2f → List Vec2f) (previous : Mat) (blk_size : Nat)
    (ox oy : Int) (mv_block_index : Nat) (s : DiamondState) : List (ℚ × ℚ) :=
  let search_mv := pattern (s.mv.getD mv_block_index (0, 0))
  (s.candidate_pos.map (fun (cand_no : Nat) =>
      ((ox : ℚ) + (search_mv.getD cand_no (0, 0)).1,
        (oy : ℚ) + (search_mv.getD cand_no (0, 0)).2))).filter
    (fun (p : ℚ × ℚ) => is_valid p.1 p.2 blk_size previous)

/-- The search locations at which a diamond search calls `SAD`, round after round,
within `fuel` rounds. -/
def diamond_loop_sites (pattern : Vec2f → List Vec2f) (next : Nat → List Nat)
    (current previous : Mat) (blk_size : Nat) (ox oy : Int) (mv_block_index : Nat) :
    Nat → DiamondState → List (ℚ × ℚ)
  | 0, _ => []
  | fuel + 1, s =>
    diamond_round_sites pattern previous blk_size ox oy mv_block_index s ++
      (match diamond_round pattern next current previous blk_size ox oy mv_block_index s with
      | Sum.inr _ => []
      | Sum.inl s' =>
        diamond_loop_sites pattern next current previous blk_size ox oy mv_block_index fuel s')

/-- The search locations at which the body of the block loop of `pmvfast` calls
`SAD` for block `(bx, by)`, directly (pmvfast.cc:96-99, 115-118) and inside the
diamond search it runs. -/
def pmvfast_block_sites (current previous : Mat) (blk_size : Nat) (motion : List Vec2f)
    (bx by_ : Nat) : List (ℚ × ℚ) :=
  let blocks_wide := current.cols / blk_size
  let K : Int := if blk_size = 8 then 384 else 1536
  let med_vec_stop : Int := if blk_size = 8 then 64 else 256
  let T2_offset : Int := if blk_size = 8 then 64 else 256
  let ox : Int := (bx : Int) * (blk_size : Int)
  let oy : Int := (by_ : Int) * (blk_size : Int)
  let predictors := pmvfast_predictors motion blocks_wide bx by_
  let med := pmvfast_median predictors
  let med_site : List (ℚ × ℚ) :=
    if is_valid (((ox + med.1 : Int)) : ℚ) (((oy + med.2 : Int)) : ℚ) blk_size previous then
      [(((ox + med.1 : Int) : ℚ), ((oy + med.2 : Int) : ℚ))]
    else []
  if is_valid (((ox + med.1 : Int)) : ℚ) (((oy + med.2 : Int)) : ℚ) blk_size previous
      ∧ SAD current previous ox oy ((ox + med.1 : Int) : ℚ) ((oy + med.2 : Int) : ℚ) blk_size
          < med_vec_stop then
    med_site
  else
    let bp := pmvfast_best_predictor current previous blk_size ox oy predictors
    let T2 : Int := bp.2 + T2_offset
    let motion1 := motion.set (by_ * blocks_wide + bx) bp.1
    let use_small_diamond : Bool :=
      decide (100 * (med.1 * med.1 + med.2 * med.2) < 1 ∧ T2 < K)
    med_site ++
      (predictors.map (fun (p : Vec2f) => ((ox : ℚ) + p.1, (oy : ℚ) + p.2))).filter
        (fun (q : ℚ × ℚ) => is_valid q.1 q.2 blk_size previous) ++
      (if use_small_diamond then
        diamond_loop_sites small_search_mv small_next current previous blk_size ox oy
          (by_ * blocks_wide + bx) diamond_fuel
          { mv := motion1, candidate_pos := List.range 5, best_sad := 10000000 }
      else
        diamond_loop_sites large_search_mv large_next current previous blk_size ox oy
          (by_ * blocks_wide + bx) diamond_fuel
          { mv := motion1, candidate_pos := List.range 9, best_sad := 10000000 })

/-- The search locations at which `pmvfast(current, previous, blk_size)` calls `SAD`,
block after block in raster order. -/
def pmvfast_sites (current previous : Mat) (blk_size : Nat) : List (ℚ × ℚ) :=
  (List.range (current.rows / blk_size * (current.cols / blk_size))).flatMap
    (fun (i : Nat) =>
      match pmvfast_upto current previous blk_size i with
      | some motion =>
        pmvfast_block_sites current previous blk_size motion
          (i % (current.cols / blk_size)) (i / (current.cols / blk_size))
      | none => [])

/-- The quarter-pixel offsets `(x, y)` scanned for block `(bx, by)` with input vector
`integer_vec`, in the order in which the loops of `subpixel_search` visit them
(subpixel.cc:51-53): `y` outer, `x` inner, ascending from `(minx, miny)`. -/
def subpixel_offsets (previous : Mat) (blk_size bx by_ : Nat) (integer_vec : Vec2f) :
    List (Int × Int) :=
  let ox : Int := (bx : Int) * (blk_size : Int)
  let oy : Int := (by_ : Int) * (blk_size : Int)
  let lx := subpixel_limits ox integer_vec.1 blk_size previous.cols
  let ly := subpixel_limits oy integer_vec.2 blk_size previous.rows
  (forRange ly.1 ly.2).flatMap (fun (y : Int) => (forRange lx.1 lx.2).map (fun (x : Int) => (x, y)))

/-- The distortion that `subpixel_search` evaluates for the quarter-pixel offset `c`
of block `(bx, by)` with input vector `integer_vec` (subpixel.cc:55-57). -/
def subpixel_cost (current previous : Mat) (blk_size bx by_ : Nat) (integer_vec : Vec2f)
    (c : Int × Int) : Int :=
  SAD current previous ((bx : Int) * (blk_size : Int)) ((by_ : Int) * (blk_size : Int))
    ((((bx : Int) * (blk_size : Int) : Int) : ℚ) + (integer_vec.1 + (c.1 : ℚ) * (1 / 4)))
    ((((by_ : Int) * (blk_size : Int) : Int) : ℚ) + (integer_vec.2 + (c.2 : ℚ) * (1 / 4)))
    blk_size

/-- The locations `(sx + x, sy + y)` that `SAD(ref, search, rx, ry, sx, sy, size)`
passes to the sampler (bmsupport.cc:77-83). -/
def SAD_locations (sx sy : ℚ) (size : Nat) : List (ℚ × ℚ) :=
  (List.range size).flatMap (fun (y : Nat) =>
    (List.range size).map (fun (x : Nat) => (sx + (x : ℚ), sy + (y : ℚ))))

/-- The locations that the refinement of block `(bx, by)` with input vector
`integer_vec` passes to the sampler, over all scanned quarter-pixel offsets. -/
def subpixel_locations (previous : Mat) (blk_size bx by_ : Nat) (integer_vec : Vec2f) :
    List (ℚ × ℚ) :=
  (subpixel_offsets previous blk_size bx by_ integer_vec).flatMap (fun (c : Int × Int) =>
    SAD_locations
      ((((bx : Int) * (blk_size : Int) : Int) : ℚ) + (integer_vec.1 + (c.1 : ℚ) * (1 / 4)))
      ((((by_ : Int) * (blk_size : Int) : Int) : ℚ) + (integer_vec.2 + (c.2 : ℚ) * (1 / 4)))
      blk_size)

/-- The field held by `subpixel_search` after the first `n` blocks in raster order
(subpixel.cc:17-67). -/
def subpixel_upto (current previous : Mat) (blk_size : Nat) (motion : List Vec2f) (n : Nat) :
    List Vec2f :=
  (List.range n).foldl
    (fun (m : List Vec2f) (i : Nat) =>
      subpixel_block current previous blk_size m
        (i % (current.cols / blk_size)) (i / (current.cols / blk_size)))
    motion

/-- The locations that `subpixel_search(current, previous, blk_size, motion)` passes
to the sampler, block after block in raster order; each block reads its input vector
from the field as the blocks before it have left it. -/
def subpixel_search_locations (current previous : Mat) (blk_size : Nat)
    (motion : List Vec2f) : List (ℚ × ℚ) :=
  (List.range (current.rows / blk_size * (current.cols / blk_size))).flatMap
    (fun (i : Nat) =>
      subpixel_locations previous blk_size
        (i % (current.cols / blk_size)) (i / (current.cols / blk_size))
        ((subpixel_upto current previous blk_size motion i).getD i (0, 0)))

/-- A 400x200 frame of constant value 0. -/
def big_zero : Mat := ⟨400, 200, 1, fun _ => 0⟩

/-! ## Arithmetic helpers -/

theorem mem_forRange (lo hi x : Int) : x ∈ forRange lo hi ↔ lo ≤ x ∧ x ≤ hi := by
  unfold forRange
  simp only [List.mem_map, List.mem_range]
  constructor
  · rintro ⟨k, hk, rfl⟩
    constructor <;> omega
  · rintro ⟨h1, h2⟩
    exact ⟨(x - lo).toNat, by omega, by omega⟩

theorem roundf_natCast (n : Nat) : roundf (n : ℚ) = (n : Int) := by
  unfold roundf
  have h0 : (0 : ℚ) ≤ (n : ℚ) := Nat.cast_nonneg n
  rw [if_pos h0, Int.floor_eq_iff]
  constructor
  · push_cast; linarith
  · push_cast; linarith

theorem roundf_bounds (v : ℚ) (h0 : 0 ≤ v) (h1 : v ≤ 255) :
    0 ≤ roundf v ∧ roundf v ≤ 255 := by
  unfold roundf
  rw [if_pos h0]
  constructor
  · exact Int.floor_nonneg.mpr (by linarith)
  · have : ⌊v + 1 / 2⌋ < 256 := by
      rw [Int.floor_lt]; push_cast; linarith
    omega

theorem Mat.at_lt (img : Mat) (r c : Int) : img.at r c < 256 := by
  unfold Mat.at
  exact Nat.mod_lt _ (by norm_num)

theorem interpolate_lt (img : Mat) (fx fy : ℚ) : interpolate img fx fy < 256 := by
  unfold interpolate
  split_ifs
  · norm_num
  · norm_num
  · exact Nat.mod_lt _ (by norm_num)

/-- At an integer location inside a single-channel image the sampler returns the
stored pixel. -/
theorem interpolate_intCast (img : Mat) (hc : img.channels = 1) (x y : Int)
    (hx0 : 0 ≤ x) (hx1 : x < img.cols) (hy0 : 0 ≤ y) (hy1 : y < img.rows) :
    interpolate img (x : ℚ) (y : ℚ) = img.at y x := by
  have hxq : ¬ ((x : ℚ) ≥ (img.cols : ℚ)) := by
    have : (x : ℚ) < ((img.cols : Int) : ℚ) := by exact_mod_cast hx1
    simpa using this
  have hyq : ¬ ((y : ℚ) ≥ (img.rows : ℚ)) := by
    have : (y : ℚ) < ((img.rows : Int) : ℚ) := by exact_mod_cast hy1
    simpa using this
  unfold interpolate
  rw [if_neg (by simp [hc]), if_neg (by tauto)]
  simp only [Int.floor_intCast, sub_self, sub_zero, mul_one, zero_mul, mul_zero, add_zero,
    one_mul]
  rw [if_pos ⟨Or.inl hx0, hy0, hy1⟩, roundf_natCast, Int.toNat_ofNat]
  exact Nat.mod_eq_of_lt (img.at_lt y x)

theorem zero_fill_bounds (img : Mat) (r c : Int) :
    0 ≤ zero_fill img r c ∧ zero_fill img r c ≤ 255 := by
  unfold zero_fill
  split_ifs
  · have h := img.at_lt r c
    have h2 : ((img.at r c : Nat) : ℚ) ≤ 255 := by exact_mod_cast Nat.lt_succ_iff.mp h
    exact ⟨Nat.cast_nonneg _, h2⟩
  · norm_num

theorem blend_bounds (a b g h i j : ℚ) (ha0 : 0 ≤ a) (ha1 : a ≤ 1) (hb0 : 0 ≤ b) (hb1 : b ≤ 1)
    (hg : 0 ≤ g ∧ g ≤ 255) (hh : 0 ≤ h ∧ h ≤ 255) (hi : 0 ≤ i ∧ i ≤ 255)
    (hj : 0 ≤ j ∧ j ≤ 255) :
    0 ≤ (1 - a) * (1 - b) * g + b * (1 - a) * h + a * (1 - b) * i + a * b * j ∧
    (1 - a) * (1 - b) * g + b * (1 - a) * h + a * (1 - b) * i + a * b * j ≤ 255 := by
  have w1 : 0 ≤ (1 - a) * (1 - b) := mul_nonneg (by linarith) (by linarith)
  have w2 : 0 ≤ b * (1 - a) := mul_nonneg hb0 (by linarith)
  have w3 : 0 ≤ a * (1 - b) := mul_nonneg ha0 (by linarith)
  have w4 : 0 ≤ a * b := mul_nonneg ha0 hb0
  constructor
  · have := mul_nonneg w1 hg.1
    have := mul_nonneg w2 hh.1
    have := mul_nonneg w3 hi.1
    have := mul_nonneg w4 hj.1
    linarith
  · have e1 := mul_le_mul_of_nonneg_left hg.2 w1
    have e2 := mul_le_mul_of_nonneg_left hh.2 w2
    have e3 := mul_le_mul_of_nonneg_left hi.2 w3
    have e4 := mul_le_mul_of_nonneg_left hj.2 w4
    nlinarith

/-- Inside the image (`0 ≤ fx < cols`, `0 ≤ fy < rows`) the sampler of a
single-channel image returns the rounded bilinear blend of the zero-filled
neighbours. -/
theorem interpolate_inside (img : Mat) (hc : img.channels = 1) (fx fy : ℚ)
    (hx0 : 0 ≤ fx) (hx1 : fx < (img.cols : ℚ)) (hy0 : 0 ≤ fy) (hy1 : fy < (img.rows : ℚ)) :
    (interpolate img fx fy : Int) =
      roundf ((1 - (fx - (⌊fx⌋ : ℚ))) * (1 - (fy - (⌊fy⌋ : ℚ))) * zero_fill img ⌊fy⌋ ⌊fx⌋
        + (fy - (⌊fy⌋ : ℚ)) * (1 - (fx - (⌊fx⌋ : ℚ))) * zero_fill img (⌊fy⌋ + 1) ⌊fx⌋
        + (fx - (⌊fx⌋ : ℚ)) * (1 - (fy - (⌊fy⌋ : ℚ))) * zero_fill img ⌊fy⌋ (⌊fx⌋ + 1)
        + (fx - (⌊fx⌋ : ℚ)) * (fy - (⌊fy⌋ : ℚ)) * zero_fill img (⌊fy⌋ + 1) (⌊fx⌋ + 1)) := by
  have hix0 : 0 ≤ ⌊fx⌋ := Int.floor_nonneg.mpr hx0
  have hiy0 : 0 ≤ ⌊fy⌋ := Int.floor_nonneg.mpr hy0
  have hix1 : ⌊fx⌋ < (img.cols : Int) := by
    rw [Int.floor_lt]; exact_mod_cast hx1
  have hiy1 : ⌊fy⌋ < (img.rows : Int) := by
    rw [Int.floor_lt]; exact_mod_cast hy1
  have ha0 : 0 ≤ fx - (⌊fx⌋ : ℚ) := by linarith [Int.floor_le fx]
  have ha1 : fx - (⌊fx⌋ : ℚ) ≤ 1 := by linarith [Int.lt_floor_add_one fx]
  have hb0 : 0 ≤ fy - (⌊fy⌋ : ℚ) := by linarith [Int.floor_le fy]
  have hb1 : fy - (⌊fy⌋ : ℚ) ≤ 1 := by linarith [Int.lt_floor_add_one fy]
  have eg : (if (⌊fx⌋ ≥ 0 ∨ ⌊fx⌋ < (img.cols : Int)) ∧ ⌊fy⌋ ≥ 0 ∧ ⌊fy⌋ < (img.rows : Int)
      then (img.at ⌊fy⌋ ⌊fx⌋ : ℚ) else 0) = zero_fill img ⌊fy⌋ ⌊fx⌋ := by
    unfold zero_fill
    rw [if_pos ⟨Or.inl hix0, hiy0, hiy1⟩, if_pos ⟨hix0, hix1, hiy0, hiy1⟩]
  have eh : (if (⌊fx⌋ ≥ 0 ∨ ⌊fx⌋ < (img.cols : Int)) ∧ ⌊fy⌋ ≥ 0 ∧ ⌊fy⌋ + 1 < (img.rows : Int)
      then (img.at (⌊fy⌋ + 1) ⌊fx⌋ : ℚ) else 0) = zero_fill img (⌊fy⌋ + 1) ⌊fx⌋ := by
    unfold zero_fill
    by_cases hh : ⌊fy⌋ + 1 < (img.rows : Int)
    · rw [if_pos ⟨Or.inl hix0, hiy0, hh⟩, if_pos ⟨hix0, hix1, by omega, hh⟩]
    · rw [if_neg (fun k => hh k.2.2), if_neg (fun k => hh k.2.2.2)]
  have ei : (if (⌊fx⌋ + 1 ≥ 0 ∧ ⌊fx⌋ + 1 < (img.cols : Int)) ∧ ⌊fy⌋ ≥ 0 ∧ ⌊fy⌋ < (img.rows : Int)
      then (img.at ⌊fy⌋ (⌊fx⌋ + 1) : ℚ) else 0) = zero_fill img ⌊fy⌋ (⌊fx⌋ + 1) := by
    unfold zero_fill
    by_cases hh : ⌊fx⌋ + 1 < (img.cols : Int)
    · rw [if_pos ⟨⟨by omega, hh⟩, hiy0, hiy1⟩, if_pos ⟨by omega, hh, hiy0, hiy1⟩]
    · rw [if_neg (fun k => hh k.1.2), if_neg (fun k => hh k.2.1)]
  have ej : (if (⌊fx⌋ + 1 ≥ 0 ∧ ⌊fx⌋ + 1 < (img.cols : Int)) ∧ ⌊fy⌋ ≥ 0
        ∧ ⌊fy⌋ + 1 < (img.rows : Int)
      then (img.at (⌊fy⌋ + 1) (⌊fx⌋ + 1) : ℚ) else 0) = zero_fill img (⌊fy⌋ + 1) (⌊fx⌋ + 1) := by
    unfold zero_fill
    by_cases hh : ⌊fx⌋ + 1 < (img.cols : Int) ∧ ⌊fy⌋ + 1 < (img.rows : Int)
    · rw [if_pos ⟨⟨by omega, hh.1⟩, hiy0, hh.2⟩, if_pos ⟨by omega, hh.1, by omega, hh.2⟩]
    · rw [if_neg (fun k => hh ⟨k.1.2, k.2.2⟩), if_neg (fun k => hh ⟨k.2.1, k.2.2.2⟩)]
  unfold interpolate
  rw [if_neg (by simp [hc]), if_neg (by rintro (h | h) <;> linarith)]
  simp only []
  rw [eg, eh, ei, ej]
  have hb := blend_bounds (fx - (⌊fx⌋ : ℚ)) (fy - (⌊fy⌋ : ℚ)) _ _ _ _ ha0 ha1 hb0 hb1
    (zero_fill_bounds img ⌊fy⌋ ⌊fx⌋) (zero_fill_bounds img (⌊fy⌋ + 1) ⌊fx⌋)
    (zero_fill_bounds img ⌊fy⌋ (⌊fx⌋ + 1)) (zero_fill_bounds img (⌊fy⌋ + 1) (⌊fx⌋ + 1))
  have hr := roundf_bounds _ hb.1 hb.2
  omega

theorem SAD_inner_nonneg (f : Nat → Int) (hf : ∀ x, 0 ≤ f x) (l : List Nat) (s : Int) :
    s ≤ l.foldl (fun (sad : Int) (x : Nat) => sad + f x) s := by
  induction l generalizing s with
  | nil => simp
  | cons a t ih =>
    simp only [List.foldl_cons]
    exact le_trans (by linarith [hf a]) (ih (s + f a))

theorem foldl_add_eq (f : Nat → Int) (l : List Nat) (s : Int) :
    l.foldl (fun (sad : Int) (x : Nat) => sad + f x) s = s + (l.map f).sum := by
  induction l generalizing s with
  | nil => simp
  | cons a t ih =>
    simp only [List.foldl_cons, List.map_cons, List.sum_cons]
    rw [ih]; ring

/-- The distortion as a double sum over the block. -/
theorem SAD_eq_sum (ref search : Mat) (rx ry : Int) (sx sy : ℚ) (size : Nat) :
    SAD ref search rx ry sx sy size =
      ((List.range size).map (fun (y : Nat) =>
        ((List.range size).map (fun (x : Nat) =>
          |(ref.at (ry + (y : Int)) (rx + (x : Int)) : Int)
            - (interpolate search (sx + (x : ℚ)) (sy + (y : ℚ)) : Int)|)).sum)).sum := by
  unfold SAD
  have inner : ∀ (y : Nat) (s : Int),
      (List.range size).foldl (fun (sad : Int) (x : Nat) =>
          sad + |(ref.at (ry + (y : Int)) (rx + (x : Int)) : Int)
                  - (interpolate search (sx + (x : ℚ)) (sy + (y : ℚ)) : Int)|) s
        = s + ((List.range size).map (fun (x : Nat) =>
          |(ref.at (ry + (y : Int)) (rx + (x : Int)) : Int)
            - (interpolate search (sx + (x : ℚ)) (sy + (y : ℚ)) : Int)|)).sum := by
    intro y s
    exact foldl_add_eq _ _ s
  simp only [inner]
  rw [foldl_add_eq (fun (y : Nat) => ((List.range size).map (fun (x : Nat) =>
          |(ref.at (ry + (y : Int)) (rx + (x : Int)) : Int)
            - (interpolate search (sx + (x : ℚ)) (sy + (y : ℚ)) : Int)|)).sum)]
  simp

theorem list_sum_nonneg (l : List Int) (h : ∀ v ∈ l, 0 ≤ v) : 0 ≤ l.sum := by
  induction l with
  | nil => simp
  | cons a t ih =>
    simp only [List.sum_cons]
    have := h a (List.mem_cons_self a t)
    have := ih (fun v hv => h v (List.mem_cons_of_mem a hv))
    linarith

theorem list_sum_le_mul (l : List Int) (c : Int) (h : ∀ v ∈ l, v ≤ c) :
    l.sum ≤ (l.length : Int) * c := by
  induction l with
  | nil => simp
  | cons a t ih =>
    simp only [List.sum_cons, List.length_cons]
    have := h a (List.mem_cons_self a t)
    have := ih (fun v hv => h v (List.mem_cons_of_mem a hv))
    push_cast
    linarith

theorem SAD_nonneg (ref search : Mat) (rx ry : Int) (sx sy : ℚ) (size : Nat) :
    0 ≤ SAD ref search rx ry sx sy size := by
  rw [SAD_eq_sum]
  apply list_sum_nonneg
  intro v hv
  obtain ⟨y, _, rfl⟩ := List.mem_map.mp hv
  apply list_sum_nonneg
  intro w hw
  obtain ⟨x, _, rfl⟩ := List.mem_map.mp hw
  exact abs_nonneg _

theorem SAD_le (ref search : Mat) (rx ry : Int) (sx sy : ℚ) (size : Nat) :
    SAD ref search rx ry sx sy size ≤ 255 * ((size : Int) * (size : Int)) := by
  rw [SAD_eq_sum]
  have h1 : ∀ v ∈ ((List.range size).map (fun (y : Nat) =>
        ((List.range size).map (fun (x : Nat) =>
          |(ref.at (ry + (y : Int)) (rx + (x : Int)) : Int)
            - (interpolate search (sx + (x : ℚ)) (sy + (y : ℚ)) : Int)|)).sum)),
      v ≤ (size : Int) * 255 := by
    intro v hv
    obtain ⟨y, _, rfl⟩ := List.mem_map.mp hv
    have h2 := list_sum_le_mul ((List.range size).map (fun (x : Nat) =>
          |(ref.at (ry + (y : Int)) (rx + (x : Int)) : Int)
            - (interpolate search (sx + (x : ℚ)) (sy + (y : ℚ)) : Int)|)) 255 (by
      intro w hw
      obtain ⟨x, _, rfl⟩ := List.mem_map.mp hw
      have a1 := ref.at_lt (ry + (y : Int)) (rx + (x : Int))
      have a2 := interpolate_lt search (sx + (x : ℚ)) (sy + (y : ℚ))
      rw [abs_le]
      constructor <;> omega)
    simpa using h2
  have h3 := list_sum_le_mul _ _ h1
  simp only [List.length_map, List.length_range] at h3
  linarith

/-- A block that matches pixel for pixel has distortion zero. -/
theorem SAD_eq_zero_of_match (ref search : Mat) (rx ry sx sy : Int) (size : Nat)
    (hm : ∀ x y : Nat, x < size → y < size →
      interpolate search ((sx : ℚ) + (x : ℚ)) ((sy : ℚ) + (y : ℚ))
        = ref.at (ry + (y : Int)) (rx + (x : Int))) :
    SAD ref search rx ry (sx : ℚ) (sy : ℚ) size = 0 := by
  rw [SAD_eq_sum]
  apply List.sum_eq_zero
  intro v hv
  obtain ⟨y, hy, rfl⟩ := List.mem_map.mp hv
  apply List.sum_eq_zero
  intro w hw
  obtain ⟨x, hx, rfl⟩ := List.mem_map.mp hw
  rw [hm x y (List.mem_range.mp hx) (List.mem_range.mp hy)]
  simp

/-! ## Full search: the scan of the candidates -/

theorem foldl_nested_eq {σ α : Type} (g : σ → α → α → σ) (xs ys : List α) (init : σ) :
    ys.foldl (fun (st : σ) (y : α) => xs.foldl (fun (st : σ) (x : α) => g st x y) st) init
      = (ys.flatMap (fun (y : α) => xs.map (fun (x : α) => (x, y)))).foldl
          (fun (st : σ) (c : α × α) => g st c.1 c.2) init := by
  induction ys generalizing init with
  | nil => rfl
  | cons y t ih =>
    simp only [List.foldl_cons, List.flatMap_cons, List.foldl_append, List.foldl_map]
    exact ih _

theorem fullsearch_search_eq_scan (current previous : Mat) (blk_size bx by_ : Nat) :
    fullsearch_search current previous blk_size bx by_
      = (fullsearch_candidates previous blk_size bx by_).foldl
          (scan_step (block_cost current previous blk_size bx by_)
            ((bx : Int) * (blk_size : Int), (by_ : Int) * (blk_size : Int)))
          (10000000, (0, 0)) := by
  unfold fullsearch_search fullsearch_candidates
  simp only []
  rw [foldl_nested_eq]
  rfl

theorem mem_fullsearch_candidates (previous : Mat) (blk_size bx by_ : Nat) (c : Int × Int) :
    c ∈ fullsearch_candidates previous blk_size bx by_ ↔
      (fullsearch_min ((bx : Int) * (blk_size : Int)) previous.cols ≤ c.1
        ∧ c.1 ≤ fullsearch_max ((bx : Int) * (blk_size : Int)) previous.cols blk_size)
      ∧ (fullsearch_min ((by_ : Int) * (blk_size : Int)) previous.rows ≤ c.2
        ∧ c.2 ≤ fullsearch_max ((by_ : Int) * (blk_size : Int)) previous.rows blk_size) := by
  unfold fullsearch_candidates
  simp only [List.mem_flatMap, List.mem_map, mem_forRange]
  constructor
  · rintro ⟨y, hy, x, hx, rfl⟩
    exact ⟨hx, hy⟩
  · rintro ⟨hx, hy⟩
    exact ⟨c.2, hy, c.1, hx, rfl⟩

theorem scan_step_pos (f : Int × Int → Int) (z : Int × Int) (st : Int × Vec2f) (c : Int × Int)
    (h : f c < st.1 ∨ (f c = st.1 ∧ c.1 = z.1 ∧ c.2 = z.2)) :
    scan_step f z st c = (f c, (((c.1 - z.1 : Int) : ℚ), ((c.2 - z.2 : Int) : ℚ))) := by
  unfold scan_step
  rw [if_pos h]

theorem scan_step_neg (f : Int × Int → Int) (z : Int × Int) (st : Int × Vec2f) (c : Int × Int)
    (h : ¬ (f c < st.1 ∨ (f c = st.1 ∧ c.1 = z.1 ∧ c.2 = z.2))) :
    scan_step f z st c = st := by
  unfold scan_step
  rw [if_neg h]

theorem scan_cases (f : Int × Int → Int) (z : Int × Int) (l : List (Int × Int))
    (st : Int × Vec2f) :
    l.foldl (scan_step f z) st = st ∨
      ∃ c ∈ l, l.foldl (scan_step f z) st
        = (f c, (((c.1 - z.1 : Int) : ℚ), ((c.2 - z.2 : Int) : ℚ))) := by
  induction l generalizing st with
  | nil => left; rfl
  | cons a t ih =>
    simp only [List.foldl_cons]
    rcases ih (scan_step f z st a) with h | ⟨c, hc, h⟩
    · rw [h]
      unfold scan_step
      split_ifs
      · right; exact ⟨a, List.mem_cons_self a t, rfl⟩
      · left; rfl
    · right; exact ⟨c, List.mem_cons_of_mem a hc, h⟩

theorem scan_le (f : Int × Int → Int) (z : Int × Int) (l : List (Int × Int))
    (st : Int × Vec2f) :
    (l.foldl (scan_step f z) st).1 ≤ st.1 ∧
      ∀ c ∈ l, (l.foldl (scan_step f z) st).1 ≤ f c := by
  induction l generalizing st with
  | nil => simp
  | cons a t ih =>
    simp only [List.foldl_cons]
    obtain ⟨h1, h2⟩ := ih (scan_step f z st a)
    have hs : (scan_step f z st a).1 ≤ st.1 ∧ (scan_step f z st a).1 ≤ f a := by
      unfold scan_step
      split_ifs with hh
      · simp only [le_refl, and_true]
        rcases hh with hh | hh
        · exact le_of_lt hh
        · exact le_of_eq hh.1
      · simp only [le_refl, true_and]
        by_contra hcon
        exact hh (Or.inl (not_le.mp hcon))
    refine ⟨le_trans h1 hs.1, ?_⟩
    intro c hc
    rcases List.mem_cons.mp hc with rfl | hc
    · exact le_trans h1 hs.2
    · exact h2 c hc

/-- Once the best cost is a lower bound of the remaining costs and the best vector
is zero, the best vector stays zero. -/
theorem scan_keeps_zero (f : Int × Int → Int) (z : Int × Int) (l : List (Int × Int))
    (st : Int × Vec2f) (h0 : st.2 = (0, 0)) (hl : ∀ c ∈ l, st.1 ≤ f c) :
    (l.foldl (scan_step f z) st).2 = (0, 0) := by
  induction l generalizing st with
  | nil => exact h0
  | cons a t ih =>
    simp only [List.foldl_cons]
    have ha := hl a (List.mem_cons_self a t)
    have ht : ∀ c ∈ t, st.1 ≤ f c := fun c hc => hl c (List.mem_cons_of_mem a hc)
    unfold scan_step
    split_ifs with hh
    · rcases hh with hh | ⟨h1, h2, h3⟩
      · omega
      · apply ih
        · simp [h2, h3]
        · intro c hc
          simpa [h1] using ht c hc
    · exact ih st h0 ht

/-- Tie rule, zero motion: when the zero-motion candidate is scanned and no scanned
candidate has a smaller cost, the scan ends with the zero vector. -/
theorem scan_zero_wins (f : Int × Int → Int) (z : Int × Int) (l : List (Int × Int))
    (M : Int) (hz : z ∈ l) (hmin : ∀ c ∈ l, f z ≤ f c) :
    (l.foldl (scan_step f z) (M, (0, 0))).2 = (0, 0) := by
  obtain ⟨l1, l2, rfl⟩ := List.append_of_mem hz
  rw [List.foldl_append, List.foldl_cons]
  have hl2 : ∀ c ∈ l2, f z ≤ f c :=
    fun c hc => hmin c (List.mem_append_right l1 (List.mem_cons_of_mem z hc))
  have hl1 : ∀ c ∈ l1, f z ≤ f c :=
    fun c hc => hmin c (List.mem_append_left _ hc)
  by_cases hacc : f z < (l1.foldl (scan_step f z) (M, (0, 0))).1
      ∨ (f z = (l1.foldl (scan_step f z) (M, (0, 0))).1 ∧ z.1 = z.1 ∧ z.2 = z.2)
  · have e : scan_step f z (l1.foldl (scan_step f z) (M, (0, 0))) z
        = (f z, (((z.1 - z.1 : Int) : ℚ), ((z.2 - z.2 : Int) : ℚ))) :=
      scan_step_pos f z _ z hacc
    rw [e]
    apply scan_keeps_zero
    · simp
    · exact hl2
  · have e : scan_step f z (l1.foldl (scan_step f z) (M, (0, 0))) z
        = l1.foldl (scan_step f z) (M, (0, 0)) :=
      scan_step_neg f z _ z hacc
    rw [e]
    have hlt : (l1.foldl (scan_step f z) (M, (0, 0))).1 < f z := by
      by_contra hcon
      rcases lt_or_eq_of_le (not_lt.mp hcon) with h | h
      · exact hacc (Or.inl h)
      · exact hacc (Or.inr ⟨h, rfl, rfl⟩)
    rcases scan_cases f z l1 (M, (0, 0)) with h | ⟨c, hc, h⟩
    · apply scan_keeps_zero
      · rw [h]
      · intro c hc
        exact le_trans (le_of_lt hlt) (hl2 c hc)
    · exfalso
      rw [h] at hlt
      have := hl1 c hc
      simp only at hlt
      omega

/-- A state whose cost is a lower bound of the remaining costs, strict at the
zero-motion location, is not changed by the remaining candidates. -/
theorem scan_fixed (f : Int × Int → Int) (z : Int × Int) (l : List (Int × Int))
    (st : Int × Vec2f) (hl : ∀ c ∈ l, st.1 ≤ f c) (hzl : ∀ c ∈ l, c = z → st.1 < f c) :
    l.foldl (scan_step f z) st = st := by
  induction l generalizing st with
  | nil => rfl
  | cons a t ih =>
    simp only [List.foldl_cons]
    have ha := hl a (List.mem_cons_self a t)
    have e : scan_step f z st a = st := by
      unfold scan_step
      rw [if_neg]
      rintro (hh | ⟨h1, h2, h3⟩)
      · omega
      · have := hzl a (List.mem_cons_self a t) (Prod.ext h2 h3)
        omega
    rw [e]
    exact ih st (fun c hc => hl c (List.mem_cons_of_mem a hc))
      (fun c hc => hzl c (List.mem_cons_of_mem a hc))

/-- Tie rule, first minimum: a candidate whose cost is below the initial cost,
strictly below the costs before it, at most the costs after it and strictly below
the cost of the zero-motion location (when that comes later) ends the scan as best. -/
theorem scan_first_min (f : Int × Int → Int) (z : Int × Int) (l1 l2 : List (Int × Int))
    (c : Int × Int) (st : Int × Vec2f) (hst : f c < st.1)
    (h1 : ∀ d ∈ l1, f c < f d) (h2 : ∀ d ∈ l2, f c ≤ f d)
    (hz : ∀ d ∈ l2, d = z → f c < f d) :
    (l1 ++ c :: l2).foldl (scan_step f z) st
      = (f c, (((c.1 - z.1 : Int) : ℚ), ((c.2 - z.2 : Int) : ℚ))) := by
  rw [List.foldl_append, List.foldl_cons]
  have hlt : f c < (l1.foldl (scan_step f z) st).1 := by
    rcases scan_cases f z l1 st with h | ⟨d, hd, h⟩
    · rw [h]; exact hst
    · rw [h]; exact h1 d hd
  have e : scan_step f z (l1.foldl (scan_step f z) st) c
      = (f c, (((c.1 - z.1 : Int) : ℚ), ((c.2 - z.2 : Int) : ℚ))) :=
    scan_step_pos f z _ c (Or.inl hlt)
  rw [e]
  exact scan_fixed f z l2 _ h2 hz

/-- Every non-empty list of candidates has a first candidate of minimum cost. -/
theorem exists_first_min (f : Int × Int → Int) (l : List (Int × Int)) (hne : l ≠ []) :
    ∃ c l1 l2, l = l1 ++ c :: l2 ∧ (∀ d ∈ l1, f c < f d) ∧ (∀ d ∈ l2, f c ≤ f d) := by
  induction l with
  | nil => exact absurd rfl hne
  | cons a t ih =>
    by_cases ht : t = []
    · subst ht
      exact ⟨a, [], [], rfl, by simp, by simp⟩
    · obtain ⟨c, l1, l2, rfl, h1, h2⟩ := ih ht
      by_cases hac : f a ≤ f c
      · refine ⟨a, [], l1 ++ c :: l2, rfl, by simp, ?_⟩
        intro d hd
        rcases List.mem_append.mp hd with hd | hd
        · exact le_trans hac (le_of_lt (h1 d hd))
        · rcases List.mem_cons.mp hd with rfl | hd
          · exact hac
          · exact le_trans hac (h2 d hd)
      · refine ⟨c, a :: l1, l2, rfl, ?_, h2⟩
        intro d hd
        rcases List.mem_cons.mp hd with rfl | hd
        · exact not_le.mp hac
        · exact h1 d hd

/-! ## Full search: the field in raster order and the search window -/

theorem foldl_push_eq {α : Type} (g : Nat → α) (l : List Nat) (init : List α) :
    l.foldl (fun (mv : List α) (bx : Nat) => mv ++ [g bx]) init = init ++ l.map g := by
  induction l generalizing init with
  | nil => simp
  | cons a t ih =>
    simp only [List.foldl_cons, List.map_cons]
    rw [ih]
    simp

theorem foldl_rows_eq {α : Type} (g : Nat → Nat → α) (xs ys : List Nat) (init : List α) :
    ys.foldl (fun (mv : List α) (y : Nat) =>
        xs.foldl (fun (mv : List α) (x : Nat) => mv ++ [g x y]) mv) init
      = init ++ ys.flatMap (fun (y : Nat) => xs.map (fun (x : Nat) => g x y)) := by
  induction ys generalizing init with
  | nil => simp
  | cons a t ih =>
    simp only [List.foldl_cons, List.flatMap_cons]
    rw [foldl_push_eq (fun (x : Nat) => g x a), ih]
    simp

theorem raster_length {α : Type} (g : Nat → Nat → α) (W H : Nat) :
    ((List.range H).flatMap (fun (y : Nat) => (List.range W).map (fun (x : Nat) => g x y))).length
      = H * W := by
  induction H with
  | zero => simp
  | succ n ih =>
    rw [List.range_succ, List.flatMap_append, List.length_append, ih]
    simp
    ring

theorem raster_getElem? {α : Type} (g : Nat → Nat → α) (W H bx by_ : Nat)
    (hbx : bx < W) (hby : by_ < H) :
    ((List.range H).flatMap (fun (y : Nat) => (List.range W).map (fun (x : Nat) => g x y)))[
        by_ * W + bx]? = some (g bx by_) := by
  induction H with
  | zero => omega
  | succ n ih =>
    rw [List.range_succ, List.flatMap_append]
    by_cases h : by_ < n
    · have hlt : by_ * W + bx < n * W := by
        have : (by_ + 1) * W ≤ n * W := Nat.mul_le_mul_right W h
        rw [Nat.add_mul] at this
        omega
      rw [List.getElem?_append_left (by rw [raster_length]; exact hlt)]
      exact ih h
    · have hby' : by_ = n := by omega
      subst hby'
      rw [List.getElem?_append_right (by rw [raster_length]; omega), raster_length]
      simp [List.getElem?_range hbx]

theorem fullsearch_eq_raster (current previous : Mat) (blk_size : Nat) :
    fullsearch current previous blk_size
      = (List.range (current.rows / blk_size)).flatMap (fun (by_ : Nat) =>
          (List.range (current.cols / blk_size)).map (fun (bx : Nat) =>
            fullsearch_block current previous blk_size bx by_)) := by
  unfold fullsearch
  simp only []
  rw [foldl_rows_eq (fun (bx by_ : Nat) => fullsearch_block current previous blk_size bx by_)]
  simp

/-- The vector at raster index `by * blocks_wide + bx` of the field returned by
`fullsearch` is the vector found for block `(bx, by)`. -/
theorem fullsearch_getElem? (current previous : Mat) (blk_size bx by_ : Nat)
    (hbx : bx < current.cols / blk_size) (hby : by_ < current.rows / blk_size) :
    (fullsearch current previous blk_size)[by_ * (current.cols / blk_size) + bx]?
      = some (fullsearch_block current previous blk_size bx by_) := by
  rw [fullsearch_eq_raster]
  exact raster_getElem? (fun (bx by_ : Nat) => fullsearch_block current previous blk_size bx by_)
    _ _ bx by_ hbx hby

theorem fullsearch_block_eq_scan (current previous : Mat) (blk_size bx by_ : Nat) :
    fullsearch_block current previous blk_size bx by_
      = ((fullsearch_candidates previous blk_size bx by_).foldl
          (scan_step (block_cost current previous blk_size bx by_)
            ((bx : Int) * (blk_size : Int), (by_ : Int) * (blk_size : Int)))
          (10000000, (0, 0))).2 := by
  unfold fullsearch_block
  rw [fullsearch_search_eq_scan]

/-- Origin of a block of the grid: the block ends inside the frame. -/
theorem block_origin_le (dim blk_size b : Nat) (hb : b < dim / blk_size) :
    (b : Int) * (blk_size : Int) + (blk_size : Int) ≤ (dim : Int) := by
  have h1 : (b + 1) * blk_size ≤ (dim / blk_size) * blk_size := Nat.mul_le_mul_right _ hb
  have h2 : (dim / blk_size) * blk_size ≤ dim := Nat.div_mul_le_self dim blk_size
  have h3 : (b + 1) * blk_size ≤ dim := le_trans h1 h2
  have h4 : (((b + 1) * blk_size : Nat) : Int) ≤ (dim : Int) := by exact_mod_cast h3
  push_cast at h4
  linarith

/-- Membership in the search window on one axis, for a frame dimension not
smaller than the block end. -/
theorem window_axis (o x : Int) (dim blk_size : Nat) (ho : 0 ≤ o)
    (hend : o + (blk_size : Int) ≤ (dim : Int)) :
    (fullsearch_min o dim ≤ x ∧ x ≤ fullsearch_max o dim blk_size) ↔
      (0 ≤ x ∧ o - 16 ≤ x ∧ x ≤ o + 16 ∧ x + (blk_size : Int) ≤ (dim : Int)) := by
  unfold fullsearch_min fullsearch_max clamp RANGE
  split_ifs <;> constructor <;> intro h <;> omega

/-- The zero-motion location of a block of the grid belongs to its window. -/
theorem zero_mem_candidates (previous : Mat) (blk_size bx by_ : Nat)
    (hbx : bx < previous.cols / blk_size) (hby : by_ < previous.rows / blk_size) :
    ((bx : Int) * (blk_size : Int), (by_ : Int) * (blk_size : Int))
      ∈ fullsearch_candidates previous blk_size bx by_ := by
  rw [mem_fullsearch_candidates]
  have hx := block_origin_le previous.cols blk_size bx hbx
  have hy := block_origin_le previous.rows blk_size by_ hby
  have hx0 : 0 ≤ (bx : Int) * (blk_size : Int) := by positivity
  have hy0 : 0 ≤ (by_ : Int) * (blk_size : Int) := by positivity
  rw [window_axis _ _ _ _ hx0 hx, window_axis _ _ _ _ hy0 hy]
  simp only []
  omega

/-- Inside the window of a block of the grid, the sampler reads stored pixels. -/
theorem candidate_in_frame (previous : Mat) (blk_size bx by_ : Nat)
    (hbx : bx < previous.cols / blk_size) (hby : by_ < previous.rows / blk_size)
    (c : Int × Int) (hc : c ∈ fullsearch_candidates previous blk_size bx by_) :
    0 ≤ c.1 ∧ c.1 + (blk_size : Int) ≤ (previous.cols : Int)
      ∧ 0 ≤ c.2 ∧ c.2 + (blk_size : Int) ≤ (previous.rows : Int) := by
  rw [mem_fullsearch_candidates] at hc
  have hx := block_origin_le previous.cols blk_size bx hbx
  have hy := block_origin_le previous.rows blk_size by_ hby
  have hx0 : 0 ≤ (bx : Int) * (blk_size : Int) := by positivity
  have hy0 : 0 ≤ (by_ : Int) * (blk_size : Int) := by positivity
  rw [window_axis _ _ _ _ hx0 hx, window_axis _ _ _ _ hy0 hy] at hc
  omega

/-- At integer origins keeping the block inside a single-channel frame, the
distortion is the sum of absolute pixel differences. -/
theorem SAD_eq_pixels (ref search : Mat) (hc : search.channels = 1) (rx ry sx sy : Int)
    (size : Nat) (hx0 : 0 ≤ sx) (hx1 : sx + (size : Int) ≤ (search.cols : Int))
    (hy0 : 0 ≤ sy) (hy1 : sy + (size : Int) ≤ (search.rows : Int)) :
    SAD ref search rx ry (sx : ℚ) (sy : ℚ) size =
      ((List.range size).map (fun (y : Nat) =>
        ((List.range size).map (fun (x : Nat) =>
          |(ref.at (ry + (y : Int)) (rx + (x : Int)) : Int)
            - (search.at (sy + (y : Int)) (sx + (x : Int)) : Int)|)).sum)).sum := by
  rw [SAD_eq_sum]
  congr 1
  apply List.map_congr_left
  intro y hy
  congr 1
  apply List.map_congr_left
  intro x hx
  have hxl := List.mem_range.mp hx
  have hyl := List.mem_range.mp hy
  have e := interpolate_intCast search hc (sx + (x : Int)) (sy + (y : Int)) (by omega)
    (by omega) (by omega) (by omega)
  have e1 : ((sx + (x : Int) : Int) : ℚ) = (sx : ℚ) + (x : ℚ) := by push_cast; ring
  have e2 : ((sy + (y : Int) : Int) : ℚ) = (sy : ℚ) + (y : ℚ) := by push_cast; ring
  rw [e1, e2] at e
  rw [e]

/-! ## Full search: minimisation, tie rule, shift recovery -/

theorem block_cost_nonneg (current previous : Mat) (blk_size bx by_ : Nat) (c : Int × Int) :
    0 ≤ block_cost current previous blk_size bx by_ c :=
  SAD_nonneg _ _ _ _ _ _ _

theorem block_cost_le (current previous : Mat) (blk_size bx by_ : Nat) (c : Int × Int) :
    block_cost current previous blk_size bx by_ c ≤ 255 * ((blk_size : Int) * (blk_size : Int)) :=
  SAD_le _ _ _ _ _ _ _

theorem block_cost_lt_sentinel (current previous : Mat) (blk_size bx by_ : Nat) (c : Int × Int)
    (hsz : 255 * (blk_size * blk_size) < 10000000) :
    block_cost current previous blk_size bx by_ c < 10000000 := by
  have h := block_cost_le current previous blk_size bx by_ c
  have h2 : (255 : Int) * ((blk_size : Int) * (blk_size : Int)) < 10000000 := by
    exact_mod_cast hsz
  omega

/-- The distortion at the origin displaced by the vector of a candidate is the cost
of the candidate. -/
theorem SAD_at_candidate_vector (current previous : Mat) (blk_size bx by_ : Nat) (c : Int × Int) :
    SAD current previous ((bx : Int) * (blk_size : Int)) ((by_ : Int) * (blk_size : Int))
        ((((bx : Int) * (blk_size : Int) : Int) : ℚ)
          + ((c.1 - (bx : Int) * (blk_size : Int) : Int) : ℚ))
        ((((by_ : Int) * (blk_size : Int) : Int) : ℚ)
          + ((c.2 - (by_ : Int) * (blk_size : Int) : Int) : ℚ)) blk_size
      = block_cost current previous blk_size bx by_ c := by
  unfold block_cost
  congr 1 <;> push_cast <;> ring

/-- For block sizes below the sentinel bound the vector of a block minimises the
distortion over the window of the block. -/
theorem fullsearch_block_min (current previous : Mat) (blk_size bx by_ : Nat)
    (hsz : 255 * (blk_size * blk_size) < 10000000)
    (c : Int × Int) (hc : c ∈ fullsearch_candidates previous blk_size bx by_) :
    SAD current previous ((bx : Int) * (blk_size : Int)) ((by_ : Int) * (blk_size : Int))
        ((((bx : Int) * (blk_size : Int) : Int) : ℚ)
          + (fullsearch_block current previous blk_size bx by_).1)
        ((((by_ : Int) * (blk_size : Int) : Int) : ℚ)
          + (fullsearch_block current previous blk_size bx by_).2) blk_size
      ≤ block_cost current previous blk_size bx by_ c := by
  rw [fullsearch_block_eq_scan]
  have hle := scan_le (block_cost current previous blk_size bx by_)
    ((bx : Int) * (blk_size : Int), (by_ : Int) * (blk_size : Int))
    (fullsearch_candidates previous blk_size bx by_) (10000000, (0, 0))
  rcases scan_cases (block_cost current previous blk_size bx by_)
    ((bx : Int) * (blk_size : Int), (by_ : Int) * (blk_size : Int))
    (fullsearch_candidates previous blk_size bx by_) (10000000, (0, 0)) with h | ⟨d, _, h⟩
  · exfalso
    have h1 := hle.2 c hc
    rw [h] at h1
    have h2 := block_cost_lt_sentinel current previous blk_size bx by_ c hsz
    simp only at h1
    omega
  · have h1 := hle.2 c hc
    rw [h] at h1 ⊢
    simp only at h1 ⊢
    rw [SAD_at_candidate_vector]
    exact h1

/-- Zero motion wins a tie: if the zero-motion location has minimum cost over the
window, the vector of the block is zero. -/
theorem fullsearch_block_zero (current previous : Mat) (blk_size bx by_ : Nat)
    (hz : ((bx : Int) * (blk_size : Int), (by_ : Int) * (blk_size : Int))
      ∈ fullsearch_candidates previous blk_size bx by_)
    (hmin : ∀ c ∈ fullsearch_candidates previous blk_size bx by_,
      block_cost current previous blk_size bx by_
          ((bx : Int) * (blk_size : Int), (by_ : Int) * (blk_size : Int))
        ≤ block_cost current previous blk_size bx by_ c) :
    fullsearch_block current previous blk_size bx by_ = (0, 0) := by
  rw [fullsearch_block_eq_scan]
  exact scan_zero_wins _ _ _ _ hz hmin

/-- The first candidate of minimum cost wins when its cost is below the sentinel
and strictly below the cost of the zero-motion location, if that comes later. -/
theorem fullsearch_block_first_min (current previous : Mat) (blk_size bx by_ : Nat)
    (c : Int × Int) (l1 l2 : List (Int × Int))
    (hl : fullsearch_candidates previous blk_size bx by_ = l1 ++ c :: l2)
    (hlt : block_cost current previous blk_size bx by_ c < 10000000)
    (h1 : ∀ d ∈ l1, block_cost current previous blk_size bx by_ c
      < block_cost current previous blk_size bx by_ d)
    (h2 : ∀ d ∈ l2, block_cost current previous blk_size bx by_ c
      ≤ block_cost current previous blk_size bx by_ d)
    (hz : ∀ d ∈ l2, d = ((bx : Int) * (blk_size : Int), (by_ : Int) * (blk_size : Int)) →
      block_cost current previous blk_size bx by_ c
        < block_cost current previous blk_size bx by_ d) :
    fullsearch_block current previous blk_size bx by_
      = (((c.1 - (bx : Int) * (blk_size : Int) : Int) : ℚ),
         ((c.2 - (by_ : Int) * (blk_size : Int) : Int) : ℚ)) := by
  rw [fullsearch_block_eq_scan, hl,
    scan_first_min _ _ l1 l2 c (10000000, (0, 0)) hlt h1 h2 hz]

/-- If no candidate of the window costs less than the sentinel `10^7` and the
zero-motion location does not cost exactly the sentinel, no candidate is accepted
and the vector of the block is zero. -/
theorem fullsearch_block_none_accepted (current previous : Mat) (blk_size bx by_ : Nat)
    (h : ∀ c ∈ fullsearch_candidates previous blk_size bx by_,
      10000000 < block_cost current previous blk_size bx by_ c) :
    fullsearch_block current previous blk_size bx by_ = (0, 0) := by
  rw [fullsearch_block_eq_scan,
    scan_fixed _ _ _ (10000000, (0, 0)) (fun c hc => le_of_lt (h c hc)) (fun c hc _ => h c hc)]

/-- The x component of the vector of a block never exceeds the distance from the
block origin to the upper bound of the window. -/
theorem fullsearch_block_x_le (current previous : Mat) (blk_size bx by_ : Nat)
    (hz : ((bx : Int) * (blk_size : Int), (by_ : Int) * (blk_size : Int))
      ∈ fullsearch_candidates previous blk_size bx by_) :
    (fullsearch_block current previous blk_size bx by_).1
      ≤ ((fullsearch_max ((bx : Int) * (blk_size : Int)) previous.cols blk_size
          - (bx : Int) * (blk_size : Int) : Int) : ℚ) := by
  rw [fullsearch_block_eq_scan]
  rw [mem_fullsearch_candidates] at hz
  rcases scan_cases (block_cost current previous blk_size bx by_)
    ((bx : Int) * (blk_size : Int), (by_ : Int) * (blk_size : Int))
    (fullsearch_candidates previous blk_size bx by_) (10000000, (0, 0)) with h | ⟨d, hd, h⟩
  · rw [h]
    have : (0 : Int) ≤ fullsearch_max ((bx : Int) * (blk_size : Int)) previous.cols blk_size
        - (bx : Int) * (blk_size : Int) := by
      have := hz.1.2
      simp only at this
      omega
    show (0 : ℚ) ≤ _
    exact_mod_cast this
  · rw [h]
    rw [mem_fullsearch_candidates] at hd
    have := hd.1.2
    simp only
    have h3 : d.1 - (bx : Int) * (blk_size : Int)
        ≤ fullsearch_max ((bx : Int) * (blk_size : Int)) previous.cols blk_size
          - (bx : Int) * (blk_size : Int) := by omega
    exact_mod_cast h3

/-! ## Full search on a block larger than the sentinel bound -/

theorem list_sum_ge_mul (l : List Int) (c : Int) (h : ∀ v ∈ l, c ≤ v) :
    (l.length : Int) * c ≤ l.sum := by
  induction l with
  | nil => simp
  | cons a t ih =>
    simp only [List.sum_cons, List.length_cons]
    have := h a (List.mem_cons_self a t)
    have := ih (fun v hv => h v (List.mem_cons_of_mem a hv))
    push_cast
    linarith

theorem list_sum_le_mul_pred (l : List Int) (c : Int) (h : ∀ v ∈ l, v ≤ c)
    (h1 : ∃ v ∈ l, v ≤ c - 1) : l.sum ≤ (l.length : Int) * c - 1 := by
  induction l with
  | nil =>
    obtain ⟨v, hv, _⟩ := h1
    simp at hv
  | cons a t ih =>
    simp only [List.sum_cons, List.length_cons]
    push_cast
    obtain ⟨v, hv, hv1⟩ := h1
    have ha := h a (List.mem_cons_self a t)
    have ht : ∀ v ∈ t, v ≤ c := fun v hv => h v (List.mem_cons_of_mem a hv)
    rcases List.mem_cons.mp hv with rfl | hvt
    · have := list_sum_le_mul t c ht
      linarith
    · have := ih ht ⟨v, hvt, hv1⟩
      linarith

theorem big_current_at (r c : Int) : big_current.at r c = 255 := rfl

theorem big_previous_at (r c : Int) :
    big_previous.at r c = if r * 400 + c = 200 then 1 else 0 := by
  unfold Mat.at big_previous
  simp only [Nat.cast_ofNat, Nat.cast_one, mul_one]
  split_ifs <;> rfl

theorem big_window (c : Int × Int) :
    c ∈ fullsearch_candidates big_previous 200 0 0 ↔ (0 ≤ c.1 ∧ c.1 ≤ 16) ∧ c.2 = 0 := by
  rw [mem_fullsearch_candidates]
  have e1 : fullsearch_min (((0 : Nat) : Int) * ((200 : Nat) : Int)) big_previous.cols = 0 := by
    decide
  have e2 : fullsearch_max (((0 : Nat) : Int) * ((200 : Nat) : Int)) big_previous.cols 200
      = 16 := by decide
  have e3 : fullsearch_min (((0 : Nat) : Int) * ((200 : Nat) : Int)) big_previous.rows = 0 := by
    decide
  have e4 : fullsearch_max (((0 : Nat) : Int) * ((200 : Nat) : Int)) big_previous.rows 200
      = 0 := by decide
  rw [e1, e2, e3, e4]
  constructor <;> intro h <;> omega

theorem big_cost_eq (c : Int × Int) (hc : c ∈ fullsearch_candidates big_previous 200 0 0) :
    block_cost big_current big_previous 200 0 0 c =
      ((List.range 200).map (fun (y : Nat) =>
        ((List.range 200).map (fun (x : Nat) =>
          |(255 : Int) - (if (c.2 + (y : Int)) * 400 + (c.1 + (x : Int)) = 200 then 1 else 0)|
          )).sum)).sum := by
  rw [big_window] at hc
  unfold block_cost
  rw [SAD_eq_pixels big_current big_previous rfl _ _ c.1 c.2 200 (by omega)
    (by show c.1 + 200 ≤ 400; omega) (by omega) (by show c.2 + 200 ≤ 200; omega)]
  simp only [big_current_at, big_previous_at]
  congr 1
  apply List.map_congr_left
  intro y _
  congr 1
  apply List.map_congr_left
  intro x _
  split_ifs <;> rfl

theorem big_cost_gt (c : Int × Int) (hc : c ∈ fullsearch_candidates big_previous 200 0 0) :
    10000000 < block_cost big_current big_previous 200 0 0 c := by
  rw [big_cost_eq c hc]
  have h := list_sum_ge_mul ((List.range 200).map (fun (y : Nat) =>
        ((List.range 200).map (fun (x : Nat) =>
          |(255 : Int) - (if (c.2 + (y : Int)) * 400 + (c.1 + (x : Int)) = 200 then 1 else 0)|
          )).sum)) (200 * 254) (by
    intro v hv
    obtain ⟨y, _, rfl⟩ := List.mem_map.mp hv
    have h2 := list_sum_ge_mul ((List.range 200).map (fun (x : Nat) =>
          |(255 : Int) - (if (c.2 + (y : Int)) * 400 + (c.1 + (x : Int)) = 200 then 1 else 0)|
          )) 254 (by
      intro w hw
      obtain ⟨x, _, rfl⟩ := List.mem_map.mp hw
      split_ifs <;> norm_num)
    simpa using h2)
  simp only [List.length_map, List.length_range] at h
  omega

theorem big_cost_zero :
    10200000 ≤ block_cost big_current big_previous 200 0 0 (0, 0) := by
  rw [big_cost_eq (0, 0) ((big_window (0, 0)).mpr (by decide))]
  have h := list_sum_ge_mul ((List.range 200).map (fun (y : Nat) =>
        ((List.range 200).map (fun (x : Nat) =>
          |(255 : Int) - (if ((0 : Int) + (y : Int)) * 400 + ((0 : Int) + (x : Int)) = 200
            then 1 else 0)|)).sum)) (200 * 255) (by
    intro v hv
    obtain ⟨y, _, rfl⟩ := List.mem_map.mp hv
    have h2 := list_sum_ge_mul ((List.range 200).map (fun (x : Nat) =>
          |(255 : Int) - (if ((0 : Int) + (y : Int)) * 400 + ((0 : Int) + (x : Int)) = 200
            then 1 else 0)|)) 255 (by
      intro w hw
      obtain ⟨x, hx, rfl⟩ := List.mem_map.mp hw
      have hx' := List.mem_range.mp hx
      rw [if_neg (by omega)]
      norm_num)
    simpa using h2)
  simp only [List.length_map, List.length_range] at h
  exact le_trans (by norm_num) h

theorem big_cost_one :
    block_cost big_current big_previous 200 0 0 (1, 0) ≤ 10199999 := by
  rw [big_cost_eq (1, 0) ((big_window (1, 0)).mpr (by decide))]
  have hrow : ∀ y : Nat, ((List.range 200).map (fun (x : Nat) =>
          |(255 : Int) - (if ((0 : Int) + (y : Int)) * 400 + ((1 : Int) + (x : Int)) = 200
            then 1 else 0)|)).sum ≤ 200 * 255 := by
    intro y
    have h2 := list_sum_le_mul ((List.range 200).map (fun (x : Nat) =>
          |(255 : Int) - (if ((0 : Int) + (y : Int)) * 400 + ((1 : Int) + (x : Int)) = 200
            then 1 else 0)|)) 255 (by
      intro w hw
      obtain ⟨x, _, rfl⟩ := List.mem_map.mp hw
      split_ifs <;> norm_num)
    simpa using h2
  have hrow0 : ((List.range 200).map (fun (x : Nat) =>
          |(255 : Int) - (if ((0 : Int) + ((0 : Nat) : Int)) * 400 + ((1 : Int) + (x : Int)) = 200
            then 1 else 0)|)).sum ≤ 200 * 255 - 1 := by
    have h2 := list_sum_le_mul_pred ((List.range 200).map (fun (x : Nat) =>
          |(255 : Int) - (if ((0 : Int) + ((0 : Nat) : Int)) * 400 + ((1 : Int) + (x : Int)) = 200
            then 1 else 0)|)) 255 (by
      intro w hw
      obtain ⟨x, _, rfl⟩ := List.mem_map.mp hw
      split_ifs <;> norm_num)
      ⟨254, List.mem_map.mpr ⟨199, List.mem_range.mpr (by norm_num), by norm_num⟩, by norm_num⟩
    simpa using h2
  have h := list_sum_le_mul_pred ((List.range 200).map (fun (y : Nat) =>
        ((List.range 200).map (fun (x : Nat) =>
          |(255 : Int) - (if ((0 : Int) + (y : Int)) * 400 + ((1 : Int) + (x : Int)) = 200
            then 1 else 0)|)).sum)) (200 * 255) (by
    intro v hv
    obtain ⟨y, _, rfl⟩ := List.mem_map.mp hv
    exact hrow y)
    ⟨_, List.mem_map.mpr ⟨0, List.mem_range.mpr (by norm_num), rfl⟩, hrow0⟩
  simp only [List.length_map, List.length_range] at h
  exact le_trans h (by norm_num)

theorem big_block_vector : fullsearch_block big_current big_previous 200 0 0 = (0, 0) :=
  fullsearch_block_none_accepted _ _ _ _ _ big_cost_gt

theorem big_field_head : (fullsearch big_current big_previous 200)[0]? = some (0, 0) := by
  have h := fullsearch_getElem? big_current big_previous 200 0 0 (by decide) (by decide)
  rw [big_block_vector] at h
  simpa using h

/-! ## Diamond searches: termination and frame -/

/-- The candidate loop either leaves the state unchanged or ends on a candidate of
the worklist with a non-negative SAD strictly below the best SAD it started from. -/
theorem diamond_eval_cases (current previous : Mat) (blk_size : Nat) (ox oy : Int)
    (search_mv : List Vec2f) (candidate_pos : List Nat) (st : Nat × Int) :
    diamond_eval current previous blk_size ox oy search_mv candidate_pos st = st ∨
      ((diamond_eval current previous blk_size ox oy search_mv candidate_pos st).2 < st.2
        ∧ 0 ≤ (diamond_eval current previous blk_size ox oy search_mv candidate_pos st).2
        ∧ (diamond_eval current previous blk_size ox oy search_mv candidate_pos st).1
            ∈ candidate_pos) := by
  induction candidate_pos generalizing st with
  | nil => left; rfl
  | cons a t ih =>
    unfold diamond_eval at ih ⊢
    simp only [List.foldl_cons]
    split_ifs with hv hlt
    · rcases ih (a, SAD current previous ox oy
          ((ox : ℚ) + (search_mv.getD a (0, 0)).1) ((oy : ℚ) + (search_mv.getD a (0, 0)).2)
          blk_size) with h | ⟨h1, h2, h3⟩
      · right
        rw [h]
        exact ⟨hlt, SAD_nonneg _ _ _ _ _ _ _, List.mem_cons_self a t⟩
      · right
        exact ⟨lt_trans h1 hlt, h2, List.mem_cons_of_mem a h3⟩
    · rcases ih st with h | ⟨h1, h2, h3⟩
      · left; exact h
      · right; exact ⟨h1, h2, List.mem_cons_of_mem a h3⟩
    · rcases ih st with h | ⟨h1, h2, h3⟩
      · left; exact h
      · right; exact ⟨h1, h2, List.mem_cons_of_mem a h3⟩

/-- A round that moves the centre strictly lowers the best SAD, which stays
non-negative, and changes the field in the slot of the block only. -/
theorem diamond_round_inl (pattern : Vec2f → List Vec2f) (next : Nat → List Nat)
    (current previous : Mat) (blk_size : Nat) (ox oy : Int) (mv_block_index : Nat)
    (s s' : DiamondState)
    (h : diamond_round pattern next current previous blk_size ox oy mv_block_index s
      = Sum.inl s') :
    s'.best_sad < s.best_sad ∧ 0 ≤ s'.best_sad ∧ ∃ v, s'.mv = s.mv.set mv_block_index v := by
  unfold diamond_round at h
  simp only [] at h
  split_ifs at h with h0
  have hs := Sum.inl.inj h
  rcases diamond_eval_cases current previous blk_size ox oy
      (pattern (s.mv.getD mv_block_index (0, 0))) s.candidate_pos (0, s.best_sad)
    with hc | ⟨h1, h2, _⟩
  · rw [hc] at h0
    exact absurd rfl h0
  · rw [← hs]
    exact ⟨h1, h2, _, rfl⟩

/-- A round that stops returns the field unchanged. -/
theorem diamond_round_inr (pattern : Vec2f → List Vec2f) (next : Nat → List Nat)
    (current previous : Mat) (blk_size : Nat) (ox oy : Int) (mv_block_index : Nat)
    (s : DiamondState) (r : List Vec2f)
    (h : diamond_round pattern next current previous blk_size ox oy mv_block_index s
      = Sum.inr r) :
    r = s.mv := by
  unfold diamond_round at h
  simp only [] at h
  split_ifs at h with h0
  exact (Sum.inr.inj h).symm

/-- The loop stops within any fuel above the best SAD it starts from. -/
theorem diamond_loop_isSome (pattern : Vec2f → List Vec2f) (next : Nat → List Nat)
    (current previous : Mat) (blk_size : Nat) (ox oy : Int) (mv_block_index : Nat)
    (fuel : Nat) (s : DiamondState) (hf : s.best_sad.toNat < fuel) :
    ∃ r, diamond_loop pattern next current previous blk_size ox oy mv_block_index fuel s
      = some r := by
  induction fuel generalizing s with
  | zero => omega
  | succ n ih =>
    unfold diamond_loop
    cases hr : diamond_round pattern next current previous blk_size ox oy mv_block_index s with
    | inr r => exact ⟨r, rfl⟩
    | inl s' =>
      obtain ⟨h1, h2, _⟩ := diamond_round_inl _ _ _ _ _ _ _ _ _ _ hr
      exact ih s' (by omega)

/-- The loop changes the field in the slot of the block only. -/
theorem diamond_loop_frame (pattern : Vec2f → List Vec2f) (next : Nat → List Nat)
    (current previous : Mat) (blk_size : Nat) (ox oy : Int) (mv_block_index : Nat)
    (fuel : Nat) (s : DiamondState) (r : List Vec2f)
    (h : diamond_loop pattern next current previous blk_size ox oy mv_block_index fuel s
      = some r) :
    r.length = s.mv.length ∧ ∀ j, j ≠ mv_block_index → r[j]? = s.mv[j]? := by
  induction fuel generalizing s with
  | zero =>
    unfold diamond_loop at h
    exact absurd h (by simp)
  | succ n ih =>
    unfold diamond_loop at h
    cases hr : diamond_round pattern next current previous blk_size ox oy mv_block_index s with
    | inr r' =>
      rw [hr] at h
      have e1 := diamond_round_inr _ _ _ _ _ _ _ _ _ _ hr
      have e2 : r' = r := Option.some.inj h
      rw [← e2, e1]
      exact ⟨rfl, fun _ _ => rfl⟩
    | inl s' =>
      rw [hr] at h
      obtain ⟨_, _, v, hv⟩ := diamond_round_inl _ _ _ _ _ _ _ _ _ _ hr
      obtain ⟨i1, i2⟩ := ih s' h
      rw [hv] at i1 i2
      refine ⟨by rw [i1, List.length_set], ?_⟩
      intro j hj
      rw [i2 j hj, List.getElem?_set]
      rw [if_neg (fun e => hj e.symm)]

theorem large_diamond_search_isSome (current previous : Mat) (blockx blocky blk_size : Nat)
    (mv : List Vec2f) :
    ∃ r, large_diamond_search current previous blockx blocky blk_size mv = some r := by
  unfold large_diamond_search
  exact diamond_loop_isSome _ _ _ _ _ _ _ _ _ _ (by show (10000000 : Int).toNat < 10000001; decide)

theorem small_diamond_search_isSome (current previous : Mat) (blockx blocky blk_size : Nat)
    (mv : List Vec2f) :
    ∃ r, small_diamond_search current previous blockx blocky blk_size mv = some r := by
  unfold small_diamond_search
  exact diamond_loop_isSome _ _ _ _ _ _ _ _ _ _ (by show (10000000 : Int).toNat < 10000001; decide)

theorem large_diamond_search_frame (current previous : Mat) (blockx blocky blk_size : Nat)
    (mv r : List Vec2f)
    (h : large_diamond_search current previous blockx blocky blk_size mv = some r) :
    r.length = mv.length ∧
      ∀ j, j ≠ blocky * (current.cols / blk_size) + blockx → r[j]? = mv[j]? := by
  unfold large_diamond_search at h
  exact diamond_loop_frame _ _ _ _ _ _ _ _ _ _ _ h

theorem small_diamond_search_frame (current previous : Mat) (blockx blocky blk_size : Nat)
    (mv r : List Vec2f)
    (h : small_diamond_search current previous blockx blocky blk_size mv = some r) :
    r.length = mv.length ∧
      ∀ j, j ≠ blocky * (current.cols / blk_size) + blockx → r[j]? = mv[j]? := by
  unfold small_diamond_search at h
  exact diamond_loop_frame _ _ _ _ _ _ _ _ _ _ _ h

/-! ## PMVFAST on identical frames -/

theorem raster_eq_range {α : Type} (g : Nat → Nat → α) (W H : Nat) :
    (List.range H).flatMap (fun (y : Nat) => (List.range W).map (fun (x : Nat) => g x y))
      = (List.range (H * W)).map (fun (i : Nat) => g (i % W) (i / W)) := by
  apply List.ext_getElem?
  intro n
  by_cases hn : n < H * W
  · have hW : 0 < W := by
      rcases Nat.eq_zero_or_pos W with h | h
      · subst h; simp at hn
      · exact h
    have h1 : n % W < W := Nat.mod_lt n hW
    have h2 : n / W < H := by
      rw [Nat.div_lt_iff_lt_mul hW]; exact hn
    have h3 : n / W * W + n % W = n := by
      rw [Nat.mul_comm]; exact Nat.div_add_mod n W
    have e := raster_getElem? g W H (n % W) (n / W) h1 h2
    rw [h3] at e
    rw [e, List.getElem?_map, List.getElem?_range hn]
    rfl
  · rw [List.getElem?_eq_none (by rw [raster_length]; omega),
      List.getElem?_eq_none (by simp; omega)]

/-- The block loops of `pmvfast` as one loop over the raster index. -/
theorem pmvfast_eq_range (current previous : Mat) (blk_size : Nat) :
    pmvfast current previous blk_size
      = (List.range (current.rows / blk_size * (current.cols / blk_size))).foldl
          (fun (acc : Option (List Vec2f)) (i : Nat) => acc.bind (fun motion =>
            pmvfast_block current previous blk_size motion
              (i % (current.cols / blk_size)) (i / (current.cols / blk_size))))
          (some (List.replicate
            (current.cols / blk_size * (current.rows / blk_size)) (0, 0))) := by
  unfold pmvfast
  simp only []
  rw [foldl_nested_eq (fun (acc : Option (List Vec2f)) (bx by_ : Nat) =>
      acc.bind (fun motion => pmvfast_block current previous blk_size motion bx by_)),
    raster_eq_range (fun (x y : Nat) => (x, y)), List.foldl_map]

theorem small_diamond_after_set (current previous : Mat) (blk_size : Nat)
    (motion : List Vec2f) (bx by_ : Nat) (v : Vec2f) :
    ∃ r, small_diamond_search current previous bx by_ blk_size
        (motion.set (by_ * (current.cols / blk_size) + bx) v) = some r ∧
      r.length = motion.length ∧
      ∀ j, j ≠ by_ * (current.cols / blk_size) + bx → r[j]? = motion[j]? := by
  obtain ⟨r, hr⟩ := small_diamond_search_isSome current previous bx by_ blk_size
    (motion.set (by_ * (current.cols / blk_size) + bx) v)
  obtain ⟨f1, f2⟩ := small_diamond_search_frame _ _ _ _ _ _ _ hr
  refine ⟨r, hr, by rw [f1, List.length_set], ?_⟩
  intro j hj
  rw [f2 j hj, List.getElem?_set, if_neg (fun e => hj e.symm)]

theorem large_diamond_after_set (current previous : Mat) (blk_size : Nat)
    (motion : List Vec2f) (bx by_ : Nat) (v : Vec2f) :
    ∃ r, large_diamond_search current previous bx by_ blk_size
        (motion.set (by_ * (current.cols / blk_size) + bx) v) = some r ∧
      r.length = motion.length ∧
      ∀ j, j ≠ by_ * (current.cols / blk_size) + bx → r[j]? = motion[j]? := by
  obtain ⟨r, hr⟩ := large_diamond_search_isSome current previous bx by_ blk_size
    (motion.set (by_ * (current.cols / blk_size) + bx) v)
  obtain ⟨f1, f2⟩ := large_diamond_search_frame _ _ _ _ _ _ _ hr
  refine ⟨r, hr, by rw [f1, List.length_set], ?_⟩
  intro j hj
  rw [f2 j hj, List.getElem?_set, if_neg (fun e => hj e.symm)]

/-- Every block step returns a field, of the same length, changed in the slot of
the block only. -/
theorem pmvfast_block_frame (current previous : Mat) (blk_size : Nat) (motion : List Vec2f)
    (bx by_ : Nat) :
    ∃ r, pmvfast_block current previous blk_size motion bx by_ = some r ∧
      r.length = motion.length ∧
      ∀ j, j ≠ by_ * (current.cols / blk_size) + bx → r[j]? = motion[j]? := by
  unfold pmvfast_block
  simp only []
  split_ifs
  · exact ⟨_, rfl, List.length_set _ _ _, fun j hj => by
      rw [List.getElem?_set, if_neg (fun e => hj e.symm)]⟩
  · exact small_diamond_after_set _ _ _ _ _ _ _
  · exact large_diamond_after_set _ _ _ _ _ _ _
  · exact ⟨_, rfl, List.length_set _ _ _, fun j hj => by
      rw [List.getElem?_set, if_neg (fun e => hj e.symm)]⟩
  · exact small_diamond_after_set _ _ _ _ _ _ _
  · exact large_diamond_after_set _ _ _ _ _ _ _

theorem truncf_zero : truncf 0 = 0 := by
  unfold truncf
  simp

theorem pmvfast_median_zero_three (t : Vec2f) :
    pmvfast_median [(0, 0), (0, 0), t] = (0, 0) := by
  unfold pmvfast_median
  simp only [List.map_cons, List.map_nil, List.insertionSort, List.orderedInsert]
  by_cases h1 : (0 : ℚ) ≤ t.1 <;> by_cases h2 : (0 : ℚ) ≤ t.2 <;>
    simp [h1, h2, truncf_zero, List.getD]

/-- Self-match: the distortion of an in-frame block of a single-channel frame
against itself is zero. -/
theorem SAD_self (A : Mat) (hc : A.channels = 1) (n : Nat) (x y : Int)
    (hx0 : 0 ≤ x) (hy0 : 0 ≤ y) (hx1 : x + (n : Int) ≤ (A.cols : Int))
    (hy1 : y + (n : Int) ≤ (A.rows : Int)) :
    SAD A A x y (x : ℚ) (y : ℚ) n = 0 := by
  rw [SAD_eq_pixels A A hc x y x y n hx0 hx1 hy0 hy1]
  apply List.sum_eq_zero
  intro v hv
  obtain ⟨j, _, rfl⟩ := List.mem_map.mp hv
  apply List.sum_eq_zero
  intro w hw
  obtain ⟨i, _, rfl⟩ := List.mem_map.mp hw
  simp

theorem slot_getD (motion : List Vec2f) (k : Nat) (h : motion[k]? = some (0, 0)) :
    motion.getD k (0, 0) = (0, 0) := by
  rw [List.getD_eq_getElem?_getD, h]
  rfl

theorem pmvfast_median_zero_one : pmvfast_median [(0, 0)] = (0, 0) := by
  simp [pmvfast_median, truncf_zero]

theorem pmvfast_median_zero_two : pmvfast_median [(0, 0), (0, 0)] = (0, 0) := by
  simp [pmvfast_median, truncf_zero]

/-- With a grid of at least three block columns, a block outside the last column
and row whose already processed neighbours outside the last column and row hold
the zero vector has the zero median. -/
theorem interior_median_zero (motion : List Vec2f) (W H bx by_ : Nat) (hW : 3 ≤ W)
    (hbx : bx + 1 < W) (hby : by_ + 1 < H)
    (hinv : ∀ bx' by', bx' + 1 < W → by' + 1 < H → by' * W + bx' < by_ * W + bx →
      motion[by' * W + bx']? = some (0, 0)) :
    pmvfast_median (pmvfast_predictors motion W bx by_) = (0, 0) := by
  unfold pmvfast_predictors
  cases by_ with
  | zero =>
    cases bx with
    | zero => simp [pmvfast_median]
    | succ b =>
      have hl := hinv b 0 (by omega) (by omega) (by simp)
      simp only [Nat.zero_mul, Nat.zero_add] at hl
      simp only [Nat.zero_mul, Nat.zero_add, Nat.add_sub_cancel, List.getD_eq_getElem?_getD, hl,
        Option.getD_some, gt_iff_lt, Nat.zero_lt_succ, if_true, lt_self_iff_false, if_false,
        List.append_nil]
      exact pmvfast_median_zero_one
  | succ k =>
    have ek : (k + 1) * W = k * W + W := Nat.succ_mul k W
    cases bx with
    | zero =>
      have ht := hinv 0 k (by omega) (by omega) (by omega)
      have hr := hinv 1 k (by omega) (by omega) (by omega)
      simp only [Nat.add_zero] at ht
      simp only [Nat.add_sub_cancel, Nat.add_zero, Nat.zero_add, List.getD_eq_getElem?_getD, ht,
        hr, Option.getD_some, gt_iff_lt, Nat.zero_lt_succ, if_true, lt_self_iff_false, if_false,
        List.nil_append, hbx, List.singleton_append]
      exact pmvfast_median_zero_two
    | succ b =>
      have hl := hinv b (k + 1) (by omega) (by omega) (by omega)
      have ht := hinv (b + 1) k (by omega) (by omega) (by omega)
      simp only [Nat.add_sub_cancel, List.getD_eq_getElem?_getD, hl, ht, Option.getD_some,
        gt_iff_lt, Nat.zero_lt_succ, if_true, hbx, List.singleton_append]
      exact pmvfast_median_zero_three _

/-- On identical single-channel frames, a block of zero median that does not touch
the right or bottom border is terminated early with the zero vector. -/
theorem pmvfast_block_early_zero (current : Mat) (hc : current.channels = 1) (blk_size : Nat)
    (motion : List Vec2f) (bx by_ : Nat)
    (hbx : bx + 1 < current.cols / blk_size) (hby : by_ + 1 < current.rows / blk_size)
    (hmed : pmvfast_median (pmvfast_predictors motion (current.cols / blk_size) bx by_)
      = (0, 0)) :
    pmvfast_block current current blk_size motion bx by_
      = some (motion.set (by_ * (current.cols / blk_size) + bx) (0, 0)) := by
  have hx := block_origin_le current.cols blk_size (bx + 1) hbx
  have hy := block_origin_le current.rows blk_size (by_ + 1) hby
  have hpos : 0 < blk_size := by
    rcases Nat.eq_zero_or_pos blk_size with h | h
    · subst h; simp at hbx
    · exact h
  have hposi : (0 : Int) < (blk_size : Int) := by exact_mod_cast hpos
  push_cast at hx hy
  have hx0 : (0 : Int) ≤ (bx : Int) * (blk_size : Int) := by positivity
  have hy0 : (0 : Int) ≤ (by_ : Int) * (blk_size : Int) := by positivity
  have hsad := SAD_self current hc blk_size ((bx : Int) * (blk_size : Int))
    ((by_ : Int) * (blk_size : Int)) hx0 hy0 (by linarith) (by linarith)
  have hvalid : is_valid ((((bx : Int) * (blk_size : Int) + 0 : Int)) : ℚ)
      ((((by_ : Int) * (blk_size : Int) + 0 : Int)) : ℚ) blk_size current = true := by
    unfold is_valid
    rw [decide_eq_true_iff]
    refine ⟨by exact_mod_cast (by omega : (0 : Int) ≤ (bx : Int) * (blk_size : Int) + 0),
      by exact_mod_cast (by omega : (0 : Int) ≤ (by_ : Int) * (blk_size : Int) + 0), ?_, ?_⟩
    · have : (bx : Int) * (blk_size : Int) + 0 + (blk_size : Int) < (current.cols : Int) := by
        linarith
      exact_mod_cast this
    · have : (by_ : Int) * (blk_size : Int) + 0 + (blk_size : Int) < (current.rows : Int) := by
        linarith
      exact_mod_cast this
  unfold pmvfast_block
  simp only []
  rw [hmed]
  simp only [add_zero] at hvalid ⊢
  rw [if_pos]
  · simp
  · refine ⟨hvalid, ?_⟩
    rw [hsad]
    split_ifs <;> norm_num

theorem raster_index_unique (W n bx by_ : Nat) (hbx : bx < W) (h : by_ * W + bx = n) :
    n % W = bx ∧ n / W = by_ := by
  subst h
  have hW : 0 < W := by omega
  constructor
  · rw [Nat.add_comm, Nat.add_mul_mod_self_right]
    exact Nat.mod_eq_of_lt hbx
  · rw [Nat.add_comm, Nat.add_mul_div_right _ _ hW, Nat.div_eq_of_lt hbx]
    simp

/-- Invariant of the block loop of `pmvfast` on identical frames: after `n` blocks
in raster order, every processed block outside the last column and row holds the
zero vector. -/
theorem pmvfast_prefix_zero (current : Mat) (hc : current.channels = 1) (blk_size : Nat)
    (hW : 3 ≤ current.cols / blk_size) (n : Nat)
    (hn : n ≤ current.rows / blk_size * (current.cols / blk_size)) :
    ∃ motion,
      (List.range n).foldl
          (fun (acc : Option (List Vec2f)) (i : Nat) => acc.bind (fun motion =>
            pmvfast_block current current blk_size motion
              (i % (current.cols / blk_size)) (i / (current.cols / blk_size))))
          (some (List.replicate
            (current.cols / blk_size * (current.rows / blk_size)) (0, 0))) = some motion ∧
      motion.length = current.cols / blk_size * (current.rows / blk_size) ∧
      ∀ bx by_, bx + 1 < current.cols / blk_size → by_ + 1 < current.rows / blk_size →
        by_ * (current.cols / blk_size) + bx < n →
        motion[by_ * (current.cols / blk_size) + bx]? = some (0, 0) := by
  induction n with
  | zero =>
    refine ⟨_, rfl, List.length_replicate _ _, ?_⟩
    intro bx by_ _ _ h
    omega
  | succ n ih =>
    obtain ⟨motion, hm, hlen, hinv⟩ := ih (by omega)
    rw [List.range_succ, List.foldl_append, hm]
    simp only [List.foldl_cons, List.foldl_nil, Option.some_bind]
    have hWpos : 0 < current.cols / blk_size := by omega
    have e0 : n / (current.cols / blk_size) * (current.cols / blk_size)
        + n % (current.cols / blk_size) = n := by
      rw [Nat.mul_comm]; exact Nat.div_add_mod n _
    have hnlt : n < motion.length := by
      rw [hlen, Nat.mul_comm]; omega
    by_cases hint : n % (current.cols / blk_size) + 1 < current.cols / blk_size
        ∧ n / (current.cols / blk_size) + 1 < current.rows / blk_size
    · have hmed := interior_median_zero motion (current.cols / blk_size)
        (current.rows / blk_size) (n % (current.cols / blk_size))
        (n / (current.cols / blk_size)) hW hint.1 hint.2 (by
          intro bx' by' h1 h2 h3
          rw [e0] at h3
          exact hinv bx' by' h1 h2 h3)
      rw [pmvfast_block_early_zero current hc blk_size motion _ _ hint.1 hint.2 hmed, e0]
      refine ⟨_, rfl, by rw [List.length_set, hlen], ?_⟩
      intro bx by_ h1 h2 h3
      rw [List.getElem?_set]
      by_cases he : n = by_ * (current.cols / blk_size) + bx
      · rw [if_pos he, if_pos hnlt]
      · rw [if_neg he]
        exact hinv bx by_ h1 h2 (by omega)
    · obtain ⟨r, hr, hrl, hrf⟩ := pmvfast_block_frame current current blk_size motion
        (n % (current.cols / blk_size)) (n / (current.cols / blk_size))
      rw [e0] at hrf
      refine ⟨r, hr, by rw [hrl, hlen], ?_⟩
      intro bx by_ h1 h2 h3
      have hne : by_ * (current.cols / blk_size) + bx ≠ n := by
        intro he
        obtain ⟨u1, u2⟩ := raster_index_unique _ _ _ _ (by omega) he
        apply hint
        rw [u1, u2]
        exact ⟨h1, h2⟩
      rw [hrf _ hne]
      exact hinv bx by_ h1 h2 (by omega)

/-- On identical single-channel frames with at least three block columns `pmvfast`
returns a field that holds the zero vector for every block outside the last block
column and the last block row. -/
theorem pmvfast_identical_zero (current : Mat) (hc : current.channels = 1) (blk_size : Nat)
    (hW : 3 ≤ current.cols / blk_size) :
    ∃ motion, pmvfast current current blk_size = some motion ∧
      ∀ bx by_, bx + 1 < current.cols / blk_size → by_ + 1 < current.rows / blk_size →
        motion[by_ * (current.cols / blk_size) + bx]? = some (0, 0) := by
  obtain ⟨motion, hm, _, hinv⟩ := pmvfast_prefix_zero current hc blk_size hW
    (current.rows / blk_size * (current.cols / blk_size)) (le_refl _)
  refine ⟨motion, by rw [pmvfast_eq_range]; exact hm, ?_⟩
  intro bx by_ h1 h2
  apply hinv bx by_ h1 h2
  have : (by_ + 1) * (current.cols / blk_size)
      ≤ current.rows / blk_size * (current.cols / blk_size) :=
    Nat.mul_le_mul_right _ (by omega)
  rw [Nat.succ_mul] at this
  omega

/-- On identical single-channel frames `fullsearch` returns the zero vector for
every block of the grid. -/
theorem fullsearch_identical_zero (current : Mat) (hc : current.channels = 1) (blk_size : Nat)
    (bx by_ : Nat) (hbx : bx < current.cols / blk_size) (hby : by_ < current.rows / blk_size) :
    (fullsearch current current blk_size)[by_ * (current.cols / blk_size) + bx]?
      = some (0, 0) := by
  rw [fullsearch_getElem? current current blk_size bx by_ hbx hby]
  congr 1
  apply fullsearch_block_zero current current blk_size bx by_
    (zero_mem_candidates current blk_size bx by_ hbx hby)
  intro c _
  have hx := block_origin_le current.cols blk_size bx hbx
  have hy := block_origin_le current.rows blk_size by_ hby
  have hx0 : (0 : Int) ≤ (bx : Int) * (blk_size : Int) := by positivity
  have hy0 : (0 : Int) ≤ (by_ : Int) * (blk_size : Int) := by positivity
  have h0 : block_cost current current blk_size bx by_
      ((bx : Int) * (blk_size : Int), (by_ : Int) * (blk_size : Int)) = 0 := by
    unfold block_cost
    exact SAD_self current hc blk_size _ _ hx0 hy0 hx hy
  rw [h0]
  exact block_cost_nonneg _ _ _ _ _ _

/-! ## Shifted frames -/

theorem shifted_at (img : Mat) (hc : img.channels = 1) (dx dy : Int) (fill : Nat)
    (hf : fill < 256) (r c : Nat) (hcl : c < img.cols) :
    (shifted img dx dy fill).at (r : Int) (c : Int) =
      if 0 ≤ (r : Int) - dy ∧ (r : Int) - dy < (img.rows : Int)
          ∧ 0 ≤ (c : Int) - dx ∧ (c : Int) - dx < (img.cols : Int)
      then img.at ((r : Int) - dy) ((c : Int) - dx) else fill := by
  have hcp : (0 : Int) < (img.cols : Int) := by omega
  have hc0 : (0 : Int) ≤ (c : Int) := by omega
  have hc1 : (c : Int) < (img.cols : Int) := by omega
  have ediv : ((r : Int) * (img.cols : Int) + (c : Int)) / (img.cols : Int) = (r : Int) := by
    rw [Int.add_comm, Int.add_mul_ediv_right _ _ (ne_of_gt hcp), Int.ediv_eq_zero_of_lt hc0 hc1]
    simp
  have emod : ((r : Int) * (img.cols : Int) + (c : Int)) % (img.cols : Int) = (c : Int) := by
    rw [Int.add_comm, Int.add_mul_emod_self, Int.emod_eq_of_lt hc0 hc1]
  unfold Mat.at shifted
  simp only [hc, Nat.cast_one, mul_one, ediv, emod]
  split_ifs
  · rfl
  · exact Nat.mod_eq_of_lt hf

/-- The frame built by `shifted` is a shift of the frame it is built from. -/
theorem shifted_is_shifted (img : Mat) (hc : img.channels = 1) (dx dy : Int) (fill : Nat)
    (hf : fill < 256) : is_shifted img (shifted img dx dy fill) dx dy fill := by
  intro r _ c hcl
  exact shifted_at img hc dx dy fill hf r c hcl

/-- In a shifted frame pair, the block displaced by the shift matches exactly,
provided it lies inside the previous frame. -/
theorem shifted_block_cost_zero (current previous : Mat) (blk_size bx by_ : Nat)
    (dx dy : Int) (fill : Nat) (hc : previous.channels = 1)
    (hcols : previous.cols = current.cols) (hrows : previous.rows = current.rows)
    (hbx : bx < current.cols / blk_size) (hby : by_ < current.rows / blk_size)
    (hshift : is_shifted current previous dx dy fill)
    (hx0 : 0 ≤ (bx : Int) * (blk_size : Int) + dx)
    (hx1 : (bx : Int) * (blk_size : Int) + dx + (blk_size : Int) ≤ (previous.cols : Int))
    (hy0 : 0 ≤ (by_ : Int) * (blk_size : Int) + dy)
    (hy1 : (by_ : Int) * (blk_size : Int) + dy + (blk_size : Int) ≤ (previous.rows : Int)) :
    block_cost current previous blk_size bx by_
      ((bx : Int) * (blk_size : Int) + dx, (by_ : Int) * (blk_size : Int) + dy) = 0 := by
  have hxe := block_origin_le current.cols blk_size bx hbx
  have hye := block_origin_le current.rows blk_size by_ hby
  have hox : (0 : Int) ≤ (bx : Int) * (blk_size : Int) := by positivity
  have hoy : (0 : Int) ≤ (by_ : Int) * (blk_size : Int) := by positivity
  unfold block_cost
  rw [SAD_eq_pixels current previous hc _ _ _ _ blk_size hx0 hx1 hy0 hy1]
  apply List.sum_eq_zero
  intro v hv
  obtain ⟨j, hj, rfl⟩ := List.mem_map.mp hv
  apply List.sum_eq_zero
  intro w hw
  obtain ⟨i, hi, rfl⟩ := List.mem_map.mp hw
  have hjl := List.mem_range.mp hj
  have hil := List.mem_range.mp hi
  have hr : (((by_ : Int) * (blk_size : Int) + dy + (j : Int)).toNat : Int)
      = (by_ : Int) * (blk_size : Int) + dy + (j : Int) := Int.toNat_of_nonneg (by omega)
  have hcc : (((bx : Int) * (blk_size : Int) + dx + (i : Int)).toNat : Int)
      = (bx : Int) * (blk_size : Int) + dx + (i : Int) := Int.toNat_of_nonneg (by omega)
  have h := hshift ((by_ : Int) * (blk_size : Int) + dy + (j : Int)).toNat (by omega)
    ((bx : Int) * (blk_size : Int) + dx + (i : Int)).toNat (by omega)
  rw [hr, hcc] at h
  rw [if_pos (by omega)] at h
  rw [h]
  have e1 : (by_ : Int) * (blk_size : Int) + dy + (j : Int) - dy
      = (by_ : Int) * (blk_size : Int) + (j : Int) := by ring
  have e2 : (bx : Int) * (blk_size : Int) + dx + (i : Int) - dx
      = (bx : Int) * (blk_size : Int) + (i : Int) := by ring
  rw [e1, e2]
  simp

/-- In a shifted frame pair, a block whose displaced origin lies in its window and
whose match is unique gets the shift as vector. -/
theorem fullsearch_block_shift (current previous : Mat) (blk_size bx by_ : Nat)
    (dx dy : Int) (fill : Nat) (hc : previous.channels = 1)
    (hcols : previous.cols = current.cols) (hrows : previous.rows = current.rows)
    (hbx : bx < current.cols / blk_size) (hby : by_ < current.rows / blk_size)
    (hshift : is_shifted current previous dx dy fill)
    (hdx : -16 ≤ dx ∧ dx ≤ 16) (hdy : -16 ≤ dy ∧ dy ≤ 16)
    (hx : 0 ≤ (bx : Int) * (blk_size : Int) + dx
      ∧ (bx : Int) * (blk_size : Int) + dx + (blk_size : Int) ≤ (previous.cols : Int))
    (hy : 0 ≤ (by_ : Int) * (blk_size : Int) + dy
      ∧ (by_ : Int) * (blk_size : Int) + dy + (blk_size : Int) ≤ (previous.rows : Int))
    (huniq : ∀ c ∈ fullsearch_candidates previous blk_size bx by_,
      c ≠ ((bx : Int) * (blk_size : Int) + dx, (by_ : Int) * (blk_size : Int) + dy) →
        block_cost current previous blk_size bx by_ c ≠ 0) :
    fullsearch_block current previous blk_size bx by_ = ((dx : ℚ), (dy : ℚ)) := by
  have hbx' : bx < previous.cols / blk_size := by rw [hcols]; exact hbx
  have hby' : by_ < previous.rows / blk_size := by rw [hrows]; exact hby
  have hxe := block_origin_le previous.cols blk_size bx hbx'
  have hye := block_origin_le previous.rows blk_size by_ hby'
  have hox : (0 : Int) ≤ (bx : Int) * (blk_size : Int) := by positivity
  have hoy : (0 : Int) ≤ (by_ : Int) * (blk_size : Int) := by positivity
  have hzero := shifted_block_cost_zero current previous blk_size bx by_ dx dy fill hc hcols
    hrows hbx hby hshift hx.1 hx.2 hy.1 hy.2
  have hmem : ((bx : Int) * (blk_size : Int) + dx, (by_ : Int) * (blk_size : Int) + dy)
      ∈ fullsearch_candidates previous blk_size bx by_ := by
    rw [mem_fullsearch_candidates, window_axis _ _ _ _ hox hxe, window_axis _ _ _ _ hoy hye]
    simp only []
    omega
  by_cases hz : dx = 0 ∧ dy = 0
  · obtain ⟨rfl, rfl⟩ := hz
    simp only [add_zero] at hzero
    rw [fullsearch_block_zero current previous blk_size bx by_
      (zero_mem_candidates previous blk_size bx by_ hbx' hby')]
    · simp
    · intro c _
      rw [hzero]
      exact block_cost_nonneg _ _ _ _ _ _
  · obtain ⟨l1, l2, hl, hnot⟩ := List.eq_append_cons_of_mem hmem
    have hpos : ∀ d ∈ fullsearch_candidates previous blk_size bx by_,
        d ≠ ((bx : Int) * (blk_size : Int) + dx, (by_ : Int) * (blk_size : Int) + dy) →
        0 < block_cost current previous blk_size bx by_ d := by
      intro d hd hne
      have h1 := huniq d hd hne
      have h2 := block_cost_nonneg current previous blk_size bx by_ d
      omega
    rw [fullsearch_block_first_min current previous blk_size bx by_ _ l1 l2 hl]
    · simp
    · rw [hzero]; norm_num
    · intro d hd
      rw [hzero]
      apply hpos d (by rw [hl]; exact List.mem_append_left _ hd)
      intro he
      exact hnot (he ▸ hd)
    · intro d _
      rw [hzero]
      exact block_cost_nonneg _ _ _ _ _ _
    · intro d hd he
      rw [hzero]
      apply hpos d (by rw [hl]; exact List.mem_append_right _ (List.mem_cons_of_mem _ hd))
      rw [he]
      intro hcon
      have h1 := congrArg Prod.fst hcon
      have h2 := congrArg Prod.snd hcon
      simp only at h1 h2
      apply hz
      constructor <;> omega

/-! ## Claims -/

/-- C1 (amended): for block sizes with `255 * blk * blk < 10^7`, so that every
distortion is below the initial `bestbdm = 1e7`, the vector `v` returned by
`fullsearch` for block `(bx, by)` minimises the distortion over the search window of
the block: `SAD(current, previous, origin, origin + v) <= SAD(current, previous,
origin, (x, y))` for every candidate origin `(x, y)` evaluated for that block. -/
theorem fullsearch_minimises_distortion (current previous : Mat) (blk_size bx by_ : Nat)
    (hsz : 255 * (blk_size * blk_size) < 10000000)
    (hbx : bx < current.cols / blk_size) (hby : by_ < current.rows / blk_size) :
    ∃ v, (fullsearch current previous blk_size)[by_ * (current.cols / blk_size) + bx]? = some v ∧
      ∀ x y : Int,
        fullsearch_min ((bx : Int) * (blk_size : Int)) previous.cols ≤ x →
        x ≤ fullsearch_max ((bx : Int) * (blk_size : Int)) previous.cols blk_size →
        fullsearch_min ((by_ : Int) * (blk_size : Int)) previous.rows ≤ y →
        y ≤ fullsearch_max ((by_ : Int) * (blk_size : Int)) previous.rows blk_size →
        SAD current previous ((bx : Int) * (blk_size : Int)) ((by_ : Int) * (blk_size : Int))
            ((((bx : Int) * (blk_size : Int) : Int) : ℚ) + v.1)
            ((((by_ : Int) * (blk_size : Int) : Int) : ℚ) + v.2) blk_size
          ≤ SAD current previous ((bx : Int) * (blk_size : Int))
              ((by_ : Int) * (blk_size : Int)) (x : ℚ) (y : ℚ) blk_size := by
  refine ⟨_, fullsearch_getElem? current previous blk_size bx by_ hbx hby, ?_⟩
  intro x y h1 h2 h3 h4
  exact fullsearch_block_min current previous blk_size bx by_ hsz (x, y)
    ((mem_fullsearch_candidates previous blk_size bx by_ (x, y)).mpr ⟨⟨h1, h2⟩, ⟨h3, h4⟩⟩)

/-- Witness of C1 (amended): block `(0, 0)` of a textured 4x4 frame pair, block
size 2. -/
theorem fullsearch_minimises_distortion_witness :
    ∃ v, (fullsearch (textured 4) (shifted (textured 4) 1 0 0) 2)[0 * (4 / 2) + 0]? = some v ∧
      ∀ x y : Int,
        fullsearch_min (((0 : Nat) : Int) * ((2 : Nat) : Int)) 4 ≤ x →
        x ≤ fullsearch_max (((0 : Nat) : Int) * ((2 : Nat) : Int)) 4 2 →
        fullsearch_min (((0 : Nat) : Int) * ((2 : Nat) : Int)) 4 ≤ y →
        y ≤ fullsearch_max (((0 : Nat) : Int) * ((2 : Nat) : Int)) 4 2 →
        SAD (textured 4) (shifted (textured 4) 1 0 0) (((0 : Nat) : Int) * ((2 : Nat) : Int))
            (((0 : Nat) : Int) * ((2 : Nat) : Int))
            (((((0 : Nat) : Int) * ((2 : Nat) : Int) : Int) : ℚ) + v.1)
            (((((0 : Nat) : Int) * ((2 : Nat) : Int) : Int) : ℚ) + v.2) 2
          ≤ SAD (textured 4) (shifted (textured 4) 1 0 0) (((0 : Nat) : Int) * ((2 : Nat) : Int))
              (((0 : Nat) : Int) * ((2 : Nat) : Int)) (x : ℚ) (y : ℚ) 2 :=
  fullsearch_minimises_distortion (textured 4) (shifted (textured 4) 1 0 0) 2 0 0
    (by decide) (by decide) (by decide)

/-- Counterexample to C1 as stated: the search starts from `bestbdm = 1e7`, not from
`+infinity`.  For the 400x200 frames `big_current` (all 255) and `big_previous`
(all 0 but one pixel) and block size 200, every candidate of block `(0, 0)` has SAD
above `10^7`, none is accepted and the returned vector is `(0, 0)`, although the
evaluated candidate `(1, 0)` has a strictly smaller SAD than the origin. -/
theorem fullsearch_large_block_not_minimal :
    (fullsearch big_current big_previous 200)[0]? = some (0, 0) ∧
    ((1 : Int), (0 : Int)) ∈ fullsearch_candidates big_previous 200 0 0 ∧
    block_cost big_current big_previous 200 0 0 (1, 0)
      < block_cost big_current big_previous 200 0 0 (0, 0) := by
  refine ⟨big_field_head, (big_window (1, 0)).mpr (by decide), ?_⟩
  have h1 := big_cost_one
  have h2 := big_cost_zero
  omega

/-- C2 (amended): tie rule of `fullsearch` for block sizes with `255 * blk * blk <
10^7`.  If the zero-motion candidate attains the minimum SAD of the window the
returned vector is `(0, 0)`; otherwise it is the first candidate in raster order
(`y` outer, `x` inner, ascending) that attains the minimum, minus the origin. -/
theorem fullsearch_tie_rule (current previous : Mat) (blk_size bx by_ : Nat)
    (hsz : 255 * (blk_size * blk_size) < 10000000)
    (hcols : previous.cols = current.cols) (hrows : previous.rows = current.rows)
    (hbx : bx < current.cols / blk_size) (hby : by_ < current.rows / blk_size) :
    ∃ v, (fullsearch current previous blk_size)[by_ * (current.cols / blk_size) + bx]? = some v ∧
      ((∀ c ∈ fullsearch_candidates previous blk_size bx by_,
          block_cost current previous blk_size bx by_
              ((bx : Int) * (blk_size : Int), (by_ : Int) * (blk_size : Int))
            ≤ block_cost current previous blk_size bx by_ c) → v = (0, 0)) ∧
      (¬ (∀ c ∈ fullsearch_candidates previous blk_size bx by_,
          block_cost current previous blk_size bx by_
              ((bx : Int) * (blk_size : Int), (by_ : Int) * (blk_size : Int))
            ≤ block_cost current previous blk_size bx by_ c) →
        ∃ c l1 l2, fullsearch_candidates previous blk_size bx by_ = l1 ++ c :: l2 ∧
          (∀ d ∈ l1, block_cost current previous blk_size bx by_ c
            < block_cost current previous blk_size bx by_ d) ∧
          (∀ d ∈ l2, block_cost current previous blk_size bx by_ c
            ≤ block_cost current previous blk_size bx by_ d) ∧
          v = (((c.1 - (bx : Int) * (blk_size : Int) : Int) : ℚ),
               ((c.2 - (by_ : Int) * (blk_size : Int) : Int) : ℚ))) := by
  have hbx' : bx < previous.cols / blk_size := by rw [hcols]; exact hbx
  have hby' : by_ < previous.rows / blk_size := by rw [hrows]; exact hby
  have hz := zero_mem_candidates previous blk_size bx by_ hbx' hby'
  refine ⟨_, fullsearch_getElem? current previous blk_size bx by_ hbx hby, ?_, ?_⟩
  · intro hmin
    exact fullsearch_block_zero current previous blk_size bx by_ hz hmin
  · intro hnot
    obtain ⟨c, l1, l2, hl, h1, h2⟩ := exists_first_min
      (block_cost current previous blk_size bx by_)
      (fullsearch_candidates previous blk_size bx by_) (List.ne_nil_of_mem hz)
    refine ⟨c, l1, l2, hl, h1, h2, ?_⟩
    apply fullsearch_block_first_min current previous blk_size bx by_ c l1 l2 hl
      (block_cost_lt_sentinel current previous blk_size bx by_ c hsz) h1 h2
    intro d hd he
    rw [he]
    by_contra hcon
    apply hnot
    intro e hemem
    have hce : block_cost current previous blk_size bx by_ c
        ≤ block_cost current previous blk_size bx by_ e := by
      rw [hl] at hemem
      rcases List.mem_append.mp hemem with h | h
      · exact le_of_lt (h1 e h)
      · rcases List.mem_cons.mp h with rfl | h
        · exact le_refl _
        · exact h2 e h
    have hdz : block_cost current previous blk_size bx by_ c
        ≤ block_cost current previous blk_size bx by_
          ((bx : Int) * (blk_size : Int), (by_ : Int) * (blk_size : Int)) := by
      rw [← he]; exact h2 d hd
    omega

/-- Witness of C2 (amended): block `(0, 0)` of a textured 4x4 frame pair, block
size 2. -/
theorem fullsearch_tie_rule_witness :
    ∃ v, (fullsearch (textured 4) (shifted (textured 4) 1 0 0) 2)[0 * (4 / 2) + 0]? = some v ∧
      ((∀ c ∈ fullsearch_candidates (shifted (textured 4) 1 0 0) 2 0 0,
          block_cost (textured 4) (shifted (textured 4) 1 0 0) 2 0 0
              (((0 : Nat) : Int) * ((2 : Nat) : Int), ((0 : Nat) : Int) * ((2 : Nat) : Int))
            ≤ block_cost (textured 4) (shifted (textured 4) 1 0 0) 2 0 0 c) → v = (0, 0)) ∧
      (¬ (∀ c ∈ fullsearch_candidates (shifted (textured 4) 1 0 0) 2 0 0,
          block_cost (textured 4) (shifted (textured 4) 1 0 0) 2 0 0
              (((0 : Nat) : Int) * ((2 : Nat) : Int), ((0 : Nat) : Int) * ((2 : Nat) : Int))
            ≤ block_cost (textured 4) (shifted (textured 4) 1 0 0) 2 0 0 c) →
        ∃ c l1 l2, fullsearch_candidates (shifted (textured 4) 1 0 0) 2 0 0 = l1 ++ c :: l2 ∧
          (∀ d ∈ l1, block_cost (textured 4) (shifted (textured 4) 1 0 0) 2 0 0 c
            < block_cost (textured 4) (shifted (textured 4) 1 0 0) 2 0 0 d) ∧
          (∀ d ∈ l2, block_cost (textured 4) (shifted (textured 4) 1 0 0) 2 0 0 c
            ≤ block_cost (textured 4) (shifted (textured 4) 1 0 0) 2 0 0 d) ∧
          v = (((c.1 - ((0 : Nat) : Int) * ((2 : Nat) : Int) : Int) : ℚ),
               ((c.2 - ((0 : Nat) : Int) * ((2 : Nat) : Int) : Int) : ℚ))) :=
  fullsearch_tie_rule (textured 4) (shifted (textured 4) 1 0 0) 2 0 0
    (by decide) rfl rfl (by decide) (by decide)

/-- Counterexample to C2 as stated: for the 400x200 frames `big_current`,
`big_previous` and block size 200, the zero-motion candidate of block `(0, 0)` does
not attain the minimum SAD (candidate `(1, 0)` is strictly better), yet the returned
vector is `(0, 0)`, which is not the first candidate of minimum SAD minus the
origin. -/
theorem fullsearch_large_block_not_first_minimum :
    (fullsearch big_current big_previous 200)[0]? = some (0, 0) ∧
    ¬ (∀ c ∈ fullsearch_candidates big_previous 200 0 0,
        block_cost big_current big_previous 200 0 0
            (((0 : Nat) : Int) * ((200 : Nat) : Int), ((0 : Nat) : Int) * ((200 : Nat) : Int))
          ≤ block_cost big_current big_previous 200 0 0 c) ∧
    ∀ c l1 l2, fullsearch_candidates big_previous 200 0 0 = l1 ++ c :: l2 →
      (∀ d ∈ l1, block_cost big_current big_previous 200 0 0 c
        < block_cost big_current big_previous 200 0 0 d) →
      (∀ d ∈ l2, block_cost big_current big_previous 200 0 0 c
        ≤ block_cost big_current big_previous 200 0 0 d) →
      ((0 : ℚ), (0 : ℚ)) ≠ (((c.1 - ((0 : Nat) : Int) * ((200 : Nat) : Int) : Int) : ℚ),
        ((c.2 - ((0 : Nat) : Int) * ((200 : Nat) : Int) : Int) : ℚ)) := by
  have hone : ((1 : Int), (0 : Int)) ∈ fullsearch_candidates big_previous 200 0 0 :=
    (big_window (1, 0)).mpr (by decide)
  have h1 := big_cost_one
  have h2 := big_cost_zero
  refine ⟨big_field_head, ?_, ?_⟩
  · intro hall
    have := hall (1, 0) hone
    have e : ((((0 : Nat) : Int) * ((200 : Nat) : Int), ((0 : Nat) : Int) * ((200 : Nat) : Int))
        : Int × Int) = (0, 0) := by decide
    rw [e] at this
    omega
  · intro c l1 l2 hl hl1 hl2 hcon
    have hc1 : c.1 = 0 := by
      have := congrArg Prod.fst hcon
      simp only [Nat.cast_zero, zero_mul, sub_zero] at this
      exact_mod_cast this.symm
    have hc2 : c.2 = 0 := by
      have := congrArg Prod.snd hcon
      simp only [Nat.cast_zero, zero_mul, sub_zero] at this
      exact_mod_cast this.symm
    have hc : c = (0, 0) := Prod.ext hc1 hc2
    subst hc
    rw [hl] at hone
    rcases List.mem_append.mp hone with h | h
    · have := hl1 _ h
      omega
    · rcases List.mem_cons.mp h with h | h
      · exact absurd h (by decide)
      · have := hl2 _ h
        omega

/-- C3 (amended): shift recovery by `fullsearch`.  When the previous frame is the
current frame shifted by an integer `(dx, dy)` with `|dx|, |dy| <= 16` (constant
border fill), `fullsearch` returns `(dx, dy)` for every block whose displaced origin
stays inside the previous frame (`0 <= ox+dx`, `ox+dx+blk <= width`, likewise for
`y`), provided the match is unique in the window of the block (every other candidate
has a non-zero SAD). -/
theorem fullsearch_recovers_shift (current previous : Mat) (blk_size bx by_ : Nat)
    (dx dy : Int) (fill : Nat) (hc : previous.channels = 1)
    (hcols : previous.cols = current.cols) (hrows : previous.rows = current.rows)
    (hbx : bx < current.cols / blk_size) (hby : by_ < current.rows / blk_size)
    (hshift : is_shifted current previous dx dy fill)
    (hdx : -16 ≤ dx ∧ dx ≤ 16) (hdy : -16 ≤ dy ∧ dy ≤ 16)
    (hx : 0 ≤ (bx : Int) * (blk_size : Int) + dx
      ∧ (bx : Int) * (blk_size : Int) + dx + (blk_size : Int) ≤ (previous.cols : Int))
    (hy : 0 ≤ (by_ : Int) * (blk_size : Int) + dy
      ∧ (by_ : Int) * (blk_size : Int) + dy + (blk_size : Int) ≤ (previous.rows : Int))
    (huniq : ∀ c ∈ fullsearch_candidates previous blk_size bx by_,
      c ≠ ((bx : Int) * (blk_size : Int) + dx, (by_ : Int) * (blk_size : Int) + dy) →
        block_cost current previous blk_size bx by_ c ≠ 0) :
    (fullsearch current previous blk_size)[by_ * (current.cols / blk_size) + bx]?
      = some ((dx : ℚ), (dy : ℚ)) := by
  rw [fullsearch_getElem? current previous blk_size bx by_ hbx hby,
    fullsearch_block_shift current previous blk_size bx by_ dx dy fill hc hcols hrows hbx hby
      hshift hdx hdy hx hy huniq]

set_option maxRecDepth 100000 in
/-- Witness of C3 (amended): block `(0, 0)` of a textured 4x4 frame and the same
frame shifted by `(1, 0)`, block size 2. -/
theorem fullsearch_recovers_shift_witness :
    is_shifted (textured 4) (shifted (textured 4) 1 0 0) 1 0 0 ∧
    (∀ c ∈ fullsearch_candidates (shifted (textured 4) 1 0 0) 2 0 0,
      c ≠ (((0 : Nat) : Int) * ((2 : Nat) : Int) + 1, ((0 : Nat) : Int) * ((2 : Nat) : Int) + 0) →
        block_cost (textured 4) (shifted (textured 4) 1 0 0) 2 0 0 c ≠ 0) ∧
    (fullsearch (textured 4) (shifted (textured 4) 1 0 0) 2)[0 * (4 / 2) + 0]?
      = some (((1 : Int) : ℚ), ((0 : Int) : ℚ)) :=
  ⟨by decide!, by decide!,
    fullsearch_recovers_shift (textured 4) (shifted (textured 4) 1 0 0) 2 0 0 1 0 0 rfl rfl rfl
      (by decide) (by decide) (by decide!) (by decide) (by decide) (by decide) (by decide)
      (by decide!)⟩

set_option maxRecDepth 100000 in
/-- Counterexample to C3 as stated: a block on the right border cannot be given a
vector pointing out of the frame, since its window ends at `width - blk`.  For the
textured 4x4 frame shifted by `(1, 0)` and block size 2 the match is unique wherever
a candidate has SAD 0, yet the returned field is not `(1, 0)` everywhere; and in the
64x64 scenario with block size 16 and shift `(2, 1)` the vector of block 3 (last
column of the first row) is not `(2, 1)`. -/
theorem fullsearch_shift_lost_at_border :
    (is_shifted (textured 4) (shifted (textured 4) 1 0 0) 1 0 0 ∧
      (∀ bx ∈ List.range 2, ∀ by_ ∈ List.range 2,
        ∀ c ∈ fullsearch_candidates (shifted (textured 4) 1 0 0) 2 bx by_,
          block_cost (textured 4) (shifted (textured 4) 1 0 0) 2 bx by_ c = 0 →
            c = ((bx : Int) * 2 + 1, (by_ : Int) * 2 + 0)) ∧
      fullsearch (textured 4) (shifted (textured 4) 1 0 0) 2 = [(1, 0), (0, 2), (1, 0), (0, 0)]) ∧
    (is_shifted (textured 64) (shifted (textured 64) 2 1 0) 2 1 0 ∧
      (fullsearch (textured 64) (shifted (textured 64) 2 1 0) 16)[3]? ≠ some (2, 1)) := by
  refine ⟨⟨by decide!, by decide!, by decide!⟩,
    ⟨shifted_is_shifted (textured 64) rfl 2 1 0 (by decide), ?_⟩⟩
  have h := fullsearch_getElem? (textured 64) (shifted (textured 64) 2 1 0) 16 3 0
    (by decide) (by decide)
  have e : 0 * ((textured 64).cols / 16) + 3 = 3 := by decide
  rw [e] at h
  rw [h]
  intro hcon
  have hv := Option.some.inj hcon
  have hle := fullsearch_block_x_le (textured 64) (shifted (textured 64) 2 1 0) 16 3 0
    (zero_mem_candidates (shifted (textured 64) 2 1 0) 16 3 0 (by decide) (by decide))
  rw [hv] at hle
  have e2 : fullsearch_max (((3 : Nat) : Int) * ((16 : Nat) : Int))
      (shifted (textured 64) 2 1 0).cols 16 - ((3 : Nat) : Int) * ((16 : Nat) : Int) = 0 := by
    decide
  rw [e2] at hle
  norm_num at hle

/-- C4 (amended): on identical frames (the zero translation) whose grid has at least
three block columns, `pmvfast` terminates and returns, for every block outside the
last block column and the last block row, the vector that `fullsearch` returns for
that block, namely `(0, 0)`.  Blocks on the right and bottom border and non-zero
translations are left out. -/
theorem pmvfast_agrees_on_identical_frames (current : Mat) (hc : current.channels = 1)
    (blk_size : Nat) (hW : 3 ≤ current.cols / blk_size) :
    ∃ motion, pmvfast current current blk_size = some motion ∧
      ∀ bx by_, bx + 1 < current.cols / blk_size → by_ + 1 < current.rows / blk_size →
        motion[by_ * (current.cols / blk_size) + bx]?
          = (fullsearch current current blk_size)[by_ * (current.cols / blk_size) + bx]?
        ∧ motion[by_ * (current.cols / blk_size) + bx]? = some (0, 0) := by
  obtain ⟨motion, hm, hz⟩ := pmvfast_identical_zero current hc blk_size hW
  refine ⟨motion, hm, ?_⟩
  intro bx by_ h1 h2
  rw [hz bx by_ h1 h2,
    fullsearch_identical_zero current hc blk_size bx by_ (by omega) (by omega)]
  exact ⟨rfl, rfl⟩

/-- Witness of C4 (amended): the textured 6x6 frame with block size 2 (3x3 grid). -/
theorem pmvfast_agrees_on_identical_frames_witness :
    ∃ motion, pmvfast (textured 6) (textured 6) 2 = some motion ∧
      ∀ bx by_, bx + 1 < 6 / 2 → by_ + 1 < 6 / 2 →
        motion[by_ * (6 / 2) + bx]? = (fullsearch (textured 6) (textured 6) 2)[by_ * (6 / 2) + bx]?
        ∧ motion[by_ * (6 / 2) + bx]? = some (0, 0) :=
  pmvfast_agrees_on_identical_frames (textured 6) rfl 2 (by decide)

set_option maxRecDepth 100000 in
/-- Counterexample to C4 as stated.  On identical textured 4x4 frames with block size
2, `pmvfast` returns non-zero vectors for the blocks on the right and bottom border
where `fullsearch` returns `(0, 0)`.  On the textured 6x6 frame shifted by `(1, 0)`
with block size 2, `pmvfast` terminates block 0 early with `(0, 0)` where
`fullsearch` finds the translation `(1, 0)`.  On the identical frames `textured_4x6`
with block size 2 (two block columns), block 2, which touches neither the right nor
the bottom border, is terminated early at the truncated mean `(0, 1)` of its top
neighbour `(0, 0)` and its top-right border neighbour `(-1, 3)`. -/
theorem pmvfast_differs_from_fullsearch :
    (pmvfast (textured 4) (textured 4) 2 = some [(0, 0), (-1, 1), (1, -1), (-1, -1)] ∧
      fullsearch (textured 4) (textured 4) 2 = [(0, 0), (0, 0), (0, 0), (0, 0)]) ∧
    (is_shifted (textured 6) (shifted (textured 6) 1 0 0) 1 0 0 ∧
      pmvfast (textured 6) (shifted (textured 6) 1 0 0) 2
        = some [(0, 0), (1, 0), (-1, 1), (1, 0), (1, 0), (-1, 1), (0, -2), (-1, -2), (-3, -2)] ∧
      fullsearch (textured 6) (shifted (textured 6) 1 0 0) 2
        = [(1, 0), (1, 0), (-1, 0), (1, 0), (1, 0), (-1, 1), (1, 0), (1, 0), (-1, 0)]) ∧
    (pmvfast textured_4x6 textured_4x6 2
        = some [(0, 0), (-1, 3), (0, 1), (-2, 0), (0, -2), (-2, -2)] ∧
      fullsearch textured_4x6 textured_4x6 2
        = [(0, 0), (0, 0), (0, 0), (0, 0), (0, 0), (0, 0)]) := by
  refine ⟨⟨by decide!, by decide!⟩, ⟨by decide!, by decide!, by decide!⟩,
    ⟨by decide!, by decide!⟩⟩

/-- C5: both diamond searches terminate on every input.  For every pair of frames,
every block, every block size and every content of the field, `large_diamond_search`
and `small_diamond_search` return a field within the fuel granted to their loop, and
every round that moves the centre strictly lowers the best SAD accepted so far,
which never becomes negative.  The result is a function of the inputs and of the
field alone. -/
theorem diamond_searches_terminate (current previous : Mat) (blockx blocky blk_size : Nat)
    (mv : List Vec2f) :
    (∃ r, large_diamond_search current previous blockx blocky blk_size mv = some r) ∧
    (∃ r, small_diamond_search current previous blockx blocky blk_size mv = some r) ∧
    (∀ (ox oy : Int) (mv_block_index : Nat) (s s' : DiamondState),
      diamond_round large_search_mv large_next current previous blk_size ox oy
          mv_block_index s = Sum.inl s' →
        s'.best_sad < s.best_sad ∧ 0 ≤ s'.best_sad) ∧
    (∀ (ox oy : Int) (mv_block_index : Nat) (s s' : DiamondState),
      diamond_round small_search_mv small_next current previous blk_size ox oy
          mv_block_index s = Sum.inl s' →
        s'.best_sad < s.best_sad ∧ 0 ≤ s'.best_sad) := by
  refine ⟨large_diamond_search_isSome _ _ _ _ _ _, small_diamond_search_isSome _ _ _ _ _ _,
    ?_, ?_⟩
  · intro ox oy idx s s' h
    obtain ⟨h1, h2, _⟩ := diamond_round_inl _ _ _ _ _ _ _ _ _ _ h
    exact ⟨h1, h2⟩
  · intro ox oy idx s s' h
    obtain ⟨h1, h2, _⟩ := diamond_round_inl _ _ _ _ _ _ _ _ _ _ h
    exact ⟨h1, h2⟩

/-- C6: for every single-channel image and every integer location `(x, y)` with
`0 <= x < width` and `0 <= y < height`, `interpolate(img, x, y)` equals the raw pixel
`img[y][x]` exactly. -/
theorem interpolate_integer_location (img : Mat) (hc : img.channels = 1) (x y : Int)
    (hx0 : 0 ≤ x) (hx1 : x < (img.cols : Int)) (hy0 : 0 ≤ y) (hy1 : y < (img.rows : Int)) :
    interpolate img (x : ℚ) (y : ℚ) = img.at y x :=
  interpolate_intCast img hc x y hx0 hx1 hy0 hy1

/-- Witness of C6: pixel `(x, y) = (3, 1)` of the textured 4x4 frame. -/
theorem interpolate_integer_location_witness :
    interpolate (textured 4) ((3 : Int) : ℚ) ((1 : Int) : ℚ) = (textured 4).at 1 3 :=
  interpolate_integer_location (textured 4) rfl 3 1 (by decide) (by decide) (by decide)
    (by decide)

/-- C7: for every image and every location `(fx, fy)`, `interpolate` returns 0
whenever `fx >= width` or `fy >= height`, whatever the pixel contents. -/
theorem interpolate_off_image (img : Mat) (fx fy : ℚ)
    (h : fx ≥ (img.cols : ℚ) ∨ fy ≥ (img.rows : ℚ)) :
    interpolate img fx fy = 0 := by
  unfold interpolate
  split_ifs <;> rfl

/-- Witness of C7: the location `(4, 1/2)` right of the textured 4x4 frame. -/
theorem interpolate_off_image_witness :
    interpolate (textured 4) 4 (1 / 2) = 0 :=
  interpolate_off_image (textured 4) 4 (1 / 2) (Or.inl (by decide!))

/-- C8 (code bug): the guard of the left column pair is `(ix >= 0) || (ix < wide)`
(bmsupport.cc:40), which always holds, where the right column pair is guarded by
`(ix1 >= 0) && (ix1 < wide)`.  On the 2x2 frame `white2` of constant value 255, at
`(fx, fy) = (-2, 1)`, all four neighbours lie left of the image, yet the sampler
reads `img.at(1, -2)`, which is the byte of pixel `(0, 0)`, and returns 255, not 0. -/
theorem interpolate_reads_left_of_image :
    interpolate white2 (-2) 1 = 255 ∧
    interpolate_reads white2 (-2) 1 = [(1, -2)] ∧
    white2.at 1 (-2) = white2.at 0 0 := by
  refine ⟨by decide!, by decide!, by decide!⟩

/-- C9: for every quarter-pixel location `(fx, fy) = (m/4, n/4)` with `0 <= fx <
width` and `0 <= fy < height` of a single-channel image, `interpolate` returns the
exact rational blend `(1-a)(1-b)g + b(1-a)h + a(1-b)i + ab*j` of the zero-filled
neighbours, rounded to the nearest integer, halves away from zero: the result `r` is
`roundf` of the blend `v`, and `v - 1/2 < r <= v + 1/2`. -/
theorem interpolate_quarter_pixel (img : Mat) (hc : img.channels = 1) (m n : Int)
    (hx0 : 0 ≤ m) (hx1 : m < 4 * (img.cols : Int))
    (hy0 : 0 ≤ n) (hy1 : n < 4 * (img.rows : Int)) :
    (interpolate img ((m : ℚ) / 4) ((n : ℚ) / 4) : Int)
        = roundf (bilinear img ((m : ℚ) / 4) ((n : ℚ) / 4)) ∧
      ((interpolate img ((m : ℚ) / 4) ((n : ℚ) / 4) : Int) : ℚ)
        ≤ bilinear img ((m : ℚ) / 4) ((n : ℚ) / 4) + 1 / 2 ∧
      bilinear img ((m : ℚ) / 4) ((n : ℚ) / 4) - 1 / 2
        < ((interpolate img ((m : ℚ) / 4) ((n : ℚ) / 4) : Int) : ℚ) := by
  have hfx0 : (0 : ℚ) ≤ (m : ℚ) / 4 := by
    have : (0 : ℚ) ≤ (m : ℚ) := by exact_mod_cast hx0
    linarith
  have hfy0 : (0 : ℚ) ≤ (n : ℚ) / 4 := by
    have : (0 : ℚ) ≤ (n : ℚ) := by exact_mod_cast hy0
    linarith
  have hfx1 : (m : ℚ) / 4 < (img.cols : ℚ) := by
    have : (m : ℚ) < 4 * (img.cols : ℚ) := by exact_mod_cast hx1
    linarith
  have hfy1 : (n : ℚ) / 4 < (img.rows : ℚ) := by
    have : (n : ℚ) < 4 * (img.rows : ℚ) := by exact_mod_cast hy1
    linarith
  have h := interpolate_inside img hc _ _ hfx0 hfx1 hfy0 hfy1
  have hv0 : 0 ≤ bilinear img ((m : ℚ) / 4) ((n : ℚ) / 4) :=
    (blend_bounds _ _ _ _ _ _
      (by linarith [Int.floor_le ((m : ℚ) / 4)])
      (by linarith [Int.lt_floor_add_one ((m : ℚ) / 4)])
      (by linarith [Int.floor_le ((n : ℚ) / 4)])
      (by linarith [Int.lt_floor_add_one ((n : ℚ) / 4)])
      (zero_fill_bounds img _ _) (zero_fill_bounds img _ _)
      (zero_fill_bounds img _ _) (zero_fill_bounds img _ _)).1
  have hr : (interpolate img ((m : ℚ) / 4) ((n : ℚ) / 4) : Int)
      = roundf (bilinear img ((m : ℚ) / 4) ((n : ℚ) / 4)) := h
  refine ⟨hr, ?_, ?_⟩
  · rw [hr]
    unfold roundf
    rw [if_pos hv0]
    exact Int.floor_le _
  · rw [hr]
    unfold roundf
    rw [if_pos hv0]
    have := Int.lt_floor_add_one (bilinear img ((m : ℚ) / 4) ((n : ℚ) / 4) + 1 / 2)
    linarith

/-- Witness of C9: the location `(1/4, 3/4)` of the textured 4x4 frame, where the
blend is `79.5` and the result `80`. -/
theorem interpolate_quarter_pixel_witness :
    (interpolate (textured 4) (((1 : Int) : ℚ) / 4) (((3 : Int) : ℚ) / 4) : Int)
        = roundf (bilinear (textured 4) (((1 : Int) : ℚ) / 4) (((3 : Int) : ℚ) / 4)) ∧
      ((interpolate (textured 4) (((1 : Int) : ℚ) / 4) (((3 : Int) : ℚ) / 4) : Int) : ℚ)
        ≤ bilinear (textured 4) (((1 : Int) : ℚ) / 4) (((3 : Int) : ℚ) / 4) + 1 / 2 ∧
      bilinear (textured 4) (((1 : Int) : ℚ) / 4) (((3 : Int) : ℚ) / 4) - 1 / 2
        < ((interpolate (textured 4) (((1 : Int) : ℚ) / 4) (((3 : Int) : ℚ) / 4) : Int) : ℚ) :=
  interpolate_quarter_pixel (textured 4) rfl 1 3 (by decide) (by decide) (by decide) (by decide)

/-- C10: self-match is zero distortion.  For every single-channel image `A`, every
block size `n` and every integer origin `(x, y)` with `0 <= x`, `0 <= y`, `x+n <=
width` and `y+n <= height`, `SAD(A, A, x, y, x, y, n) = 0`. -/
theorem SAD_self_match (A : Mat) (hc : A.channels = 1) (n : Nat) (x y : Int)
    (hx0 : 0 ≤ x) (hy0 : 0 ≤ y) (hx1 : x + (n : Int) ≤ (A.cols : Int))
    (hy1 : y + (n : Int) ≤ (A.rows : Int)) :
    SAD A A x y (x : ℚ) (y : ℚ) n = 0 :=
  SAD_self A hc n x y hx0 hy0 hx1 hy1

/-- Witness of C10: the 2x2 block at origin `(1, 2)` of the textured 4x4 frame. -/
theorem SAD_self_match_witness :
    SAD (textured 4) (textured 4) 1 2 ((1 : Int) : ℚ) ((2 : Int) : ℚ) 2 = 0 :=
  SAD_self_match (textured 4) rfl 2 1 2 (by decide) (by decide) (by decide) (by decide)

/-! ## Search window and raster order of the fields -/

theorem fullsearch_length (current previous : Mat) (blk_size : Nat) :
    (fullsearch current previous blk_size).length
      = current.cols / blk_size * (current.rows / blk_size) := by
  rw [fullsearch_eq_raster,
    raster_length (fun (bx by_ : Nat) => fullsearch_block current previous blk_size bx by_),
    Nat.mul_comm]

theorem pmvfast_eq_upto (current previous : Mat) (blk_size : Nat) :
    pmvfast current previous blk_size
      = pmvfast_upto current previous blk_size
          (current.rows / blk_size * (current.cols / blk_size)) := by
  rw [pmvfast_eq_range]
  rfl

theorem pmvfast_upto_succ (current previous : Mat) (blk_size n : Nat) :
    pmvfast_upto current previous blk_size (n + 1)
      = (pmvfast_upto current previous blk_size n).bind (fun motion =>
          pmvfast_block current previous blk_size motion
            (n % (current.cols / blk_size)) (n / (current.cols / blk_size))) := by
  unfold pmvfast_upto
  rw [List.range_succ, List.foldl_append]
  rfl

/-- Every prefix of the block loop of `pmvfast` yields a field of the size of the
grid. -/
theorem pmvfast_upto_some (current previous : Mat) (blk_size n : Nat) :
    ∃ motion, pmvfast_upto current previous blk_size n = some motion ∧
      motion.length = current.cols / blk_size * (current.rows / blk_size) := by
  induction n with
  | zero => exact ⟨_, rfl, List.length_replicate _ _⟩
  | succ n ih =>
    obtain ⟨m, hm, hl⟩ := ih
    obtain ⟨r, hr, hrl, _⟩ := pmvfast_block_frame current previous blk_size m
      (n % (current.cols / blk_size)) (n / (current.cols / blk_size))
    refine ⟨r, ?_, by rw [hrl, hl]⟩
    rw [pmvfast_upto_succ, hm]
    exact hr

/-- Blocks processed after block `k` leave slot `k` of the field unchanged. -/
theorem pmvfast_upto_slot (current previous : Mat) (blk_size k d : Nat)
    (m1 m2 : List Vec2f)
    (h1 : pmvfast_upto current previous blk_size (k + 1) = some m1)
    (h2 : pmvfast_upto current previous blk_size (k + 1 + d) = some m2) :
    m2[k]? = m1[k]? := by
  induction d generalizing m2 with
  | zero =>
    rw [Nat.add_zero, h1] at h2
    rw [Option.some.inj h2]
  | succ d ih =>
    obtain ⟨m, hm, _⟩ := pmvfast_upto_some current previous blk_size (k + 1 + d)
    have hs := pmvfast_upto_succ current previous blk_size (k + 1 + d)
    rw [← Nat.add_assoc] at h2
    rw [h2, hm] at hs
    obtain ⟨r, hr, _, hrf⟩ := pmvfast_block_frame current previous blk_size m
      ((k + 1 + d) % (current.cols / blk_size)) ((k + 1 + d) / (current.cols / blk_size))
    simp only [Option.some_bind] at hs
    rw [hr] at hs
    have e0 : (k + 1 + d) / (current.cols / blk_size) * (current.cols / blk_size)
        + (k + 1 + d) % (current.cols / blk_size) = k + 1 + d := by
      rw [Nat.mul_comm]; exact Nat.div_add_mod _ _
    rw [Option.some.inj hs, hrf k (by rw [e0]; omega)]
    exact ih m hm

/-- C11: for equally sized frames and a block `(bx, by)` of the grid with origin
`(ox, oy)`, the candidate origins `(x, y)` that `fullsearch` evaluates are exactly
those with `max(0, ox-16) <= x <= min(ox+16, width-blk)` and `max(0, oy-16) <= y <=
min(oy+16, height-blk)`; the search of the block is the scan of these candidates;
`(ox, oy)` is one of them; and every candidate keeps the whole block inside the
previous frame. -/
theorem fullsearch_window (current previous : Mat) (blk_size bx by_ : Nat)
    (hcols : previous.cols = current.cols) (hrows : previous.rows = current.rows)
    (hbx : bx < current.cols / blk_size) (hby : by_ < current.rows / blk_size) :
    (∀ x y : Int, (x, y) ∈ fullsearch_candidates previous blk_size bx by_ ↔
      (max 0 ((bx : Int) * (blk_size : Int) - 16) ≤ x
        ∧ x ≤ min ((bx : Int) * (blk_size : Int) + 16)
            ((previous.cols : Int) - (blk_size : Int)))
      ∧ (max 0 ((by_ : Int) * (blk_size : Int) - 16) ≤ y
        ∧ y ≤ min ((by_ : Int) * (blk_size : Int) + 16)
            ((previous.rows : Int) - (blk_size : Int)))) ∧
    fullsearch_search current previous blk_size bx by_
      = (fullsearch_candidates previous blk_size bx by_).foldl
          (fun (st : Int × Vec2f) (c : Int × Int) =>
            fullsearch_step current previous blk_size ((bx : Int) * (blk_size : Int))
              ((by_ : Int) * (blk_size : Int)) st c.1 c.2)
          (10000000, (0, 0)) ∧
    ((bx : Int) * (blk_size : Int), (by_ : Int) * (blk_size : Int))
      ∈ fullsearch_candidates previous blk_size bx by_ ∧
    (∀ x y : Int, (x, y) ∈ fullsearch_candidates previous blk_size bx by_ →
      0 ≤ x ∧ x + (blk_size : Int) ≤ (previous.cols : Int)
        ∧ 0 ≤ y ∧ y + (blk_size : Int) ≤ (previous.rows : Int)) := by
  have hbx' : bx < previous.cols / blk_size := by rw [hcols]; exact hbx
  have hby' : by_ < previous.rows / blk_size := by rw [hrows]; exact hby
  have hx := block_origin_le previous.cols blk_size bx hbx'
  have hy := block_origin_le previous.rows blk_size by_ hby'
  have hx0 : (0 : Int) ≤ (bx : Int) * (blk_size : Int) := by positivity
  have hy0 : (0 : Int) ≤ (by_ : Int) * (blk_size : Int) := by positivity
  refine ⟨?_, ?_, zero_mem_candidates previous blk_size bx by_ hbx' hby', ?_⟩
  · intro x y
    rw [mem_fullsearch_candidates, window_axis _ _ _ _ hx0 hx, window_axis _ _ _ _ hy0 hy]
    simp only [max_le_iff, le_min_iff]
    constructor <;> intro h <;> omega
  · exact fullsearch_search_eq_scan current previous blk_size bx by_
  · intro x y h
    exact candidate_in_frame previous blk_size bx by_ hbx' hby' (x, y) h

/-- Witness of C11: block `(1, 0)` of the textured 4x4 frame pair, block size 2. -/
theorem fullsearch_window_witness :
    (∀ x y : Int, (x, y) ∈ fullsearch_candidates (shifted (textured 4) 1 0 0) 2 1 0 ↔
      (max 0 (((1 : Nat) : Int) * ((2 : Nat) : Int) - 16) ≤ x
        ∧ x ≤ min (((1 : Nat) : Int) * ((2 : Nat) : Int) + 16)
            (((4 : Nat) : Int) - ((2 : Nat) : Int)))
      ∧ (max 0 (((0 : Nat) : Int) * ((2 : Nat) : Int) - 16) ≤ y
        ∧ y ≤ min (((0 : Nat) : Int) * ((2 : Nat) : Int) + 16)
            (((4 : Nat) : Int) - ((2 : Nat) : Int)))) ∧
    fullsearch_search (textured 4) (shifted (textured 4) 1 0 0) 2 1 0
      = (fullsearch_candidates (shifted (textured 4) 1 0 0) 2 1 0).foldl
          (fun (st : Int × Vec2f) (c : Int × Int) =>
            fullsearch_step (textured 4) (shifted (textured 4) 1 0 0) 2
              (((1 : Nat) : Int) * ((2 : Nat) : Int))
              (((0 : Nat) : Int) * ((2 : Nat) : Int)) st c.1 c.2)
          (10000000, (0, 0)) ∧
    (((1 : Nat) : Int) * ((2 : Nat) : Int), ((0 : Nat) : Int) * ((2 : Nat) : Int))
      ∈ fullsearch_candidates (shifted (textured 4) 1 0 0) 2 1 0 ∧
    (∀ x y : Int, (x, y) ∈ fullsearch_candidates (shifted (textured 4) 1 0 0) 2 1 0 →
      0 ≤ x ∧ x + ((2 : Nat) : Int) ≤ ((4 : Nat) : Int)
        ∧ 0 ≤ y ∧ y + ((2 : Nat) : Int) ≤ ((4 : Nat) : Int)) :=
  fullsearch_window (textured 4) (shifted (textured 4) 1 0 0) 2 1 0 rfl rfl
    (by decide) (by decide)

/-- C12: for frames of width `W` and height `H` and block size `blk`, `fullsearch`
and `pmvfast` each return a field of exactly `(W/blk)*(H/blk)` vectors in raster
order.  The entry of `fullsearch` at index `by*(W/blk)+bx` is the vector found by the
search of block `(bx, by)`; the entry of `pmvfast` at that index is the vector that
the block step of `(bx, by)` wrote into the field it received from the blocks before
it. -/
theorem fields_in_raster_order (current previous : Mat) (blk_size : Nat) :
    ((fullsearch current previous blk_size).length
        = current.cols / blk_size * (current.rows / blk_size) ∧
      ∀ bx by_, bx < current.cols / blk_size → by_ < current.rows / blk_size →
        (fullsearch current previous blk_size)[by_ * (current.cols / blk_size) + bx]?
          = some (fullsearch_block current previous blk_size bx by_)) ∧
    ∃ motion, pmvfast current previous blk_size = some motion ∧
      motion.length = current.cols / blk_size * (current.rows / blk_size) ∧
      ∀ bx by_, bx < current.cols / blk_size → by_ < current.rows / blk_size →
        ∃ before after,
          pmvfast_upto current previous blk_size (by_ * (current.cols / blk_size) + bx)
            = some before ∧
          pmvfast_block current previous blk_size before bx by_ = some after ∧
          motion[by_ * (current.cols / blk_size) + bx]?
            = after[by_ * (current.cols / blk_size) + bx]? := by
  refine ⟨⟨fullsearch_length current previous blk_size,
    fun bx by_ hbx hby => fullsearch_getElem? current previous blk_size bx by_ hbx hby⟩, ?_⟩
  obtain ⟨motion, hm, hl⟩ := pmvfast_upto_some current previous blk_size
    (current.rows / blk_size * (current.cols / blk_size))
  refine ⟨motion, by rw [pmvfast_eq_upto]; exact hm, hl, ?_⟩
  intro bx by_ hbx hby
  obtain ⟨before, hb, _⟩ := pmvfast_upto_some current previous blk_size
    (by_ * (current.cols / blk_size) + bx)
  obtain ⟨after, ha, _⟩ := pmvfast_upto_some current previous blk_size
    (by_ * (current.cols / blk_size) + bx + 1)
  obtain ⟨u1, u2⟩ := raster_index_unique (current.cols / blk_size)
    (by_ * (current.cols / blk_size) + bx) bx by_ hbx rfl
  have hs := pmvfast_upto_succ current previous blk_size (by_ * (current.cols / blk_size) + bx)
  rw [ha, hb, u1, u2] at hs
  simp only [Option.some_bind] at hs
  refine ⟨before, after, hb, hs.symm, ?_⟩
  have hlt : by_ * (current.cols / blk_size) + bx + 1
      ≤ current.rows / blk_size * (current.cols / blk_size) := by
    have : (by_ + 1) * (current.cols / blk_size)
        ≤ current.rows / blk_size * (current.cols / blk_size) :=
      Nat.mul_le_mul_right _ hby
    rw [Nat.succ_mul] at this
    omega
  obtain ⟨d, hd⟩ := Nat.exists_eq_add_of_le hlt
  rw [hd] at hm
  exact pmvfast_upto_slot current previous blk_size _ d after motion ha hm

/-! ## Vector field codec -/

theorem bytes_float_float_bytes (w : Nat) (hw : w < 4294967296) :
    bytes_float (w % 256) (w / 256 % 256) (w / 65536 % 256) (w / 16777216 % 256) = w := by
  unfold bytes_float
  omega

theorem vec_bytes_length (v : Vec2fBits) : (vec_bytes v).length = 8 := rfl

theorem records_bytes_length (mv : List Vec2fBits) :
    (mv.flatMap vec_bytes).length = 8 * mv.length := by
  induction mv with
  | nil => rfl
  | cons v t ih =>
    rw [List.flatMap_cons, List.length_append, ih, vec_bytes_length, List.length_cons]
    ring

/-- One `write` keeps the invariant of a stream opened on a device with room for `R`
bytes, to which the bytes `sub` have been submitted: the file and the room left add
up to `R`; while the stream is good, the file followed by the buffer is `sub`; once
it is bad, the device is full and the file is the first `R` bytes of `sub`.  A write
that the device has room for leaves the stream good. -/
theorem write_step (s : OFStream) (sub c : List Nat) (R : Nat)
    (h1 : s.written.length + s.room = R)
    (h2 : s.good = true → s.written ++ s.pending = sub)
    (h3 : s.good = false → s.room = 0 ∧ s.written = sub.take R ∧ R ≤ sub.length) :
    (s.write c).written.length + (s.write c).room = R ∧
    ((s.write c).good = true → (s.write c).written ++ (s.write c).pending = sub ++ c) ∧
    ((s.write c).good = false →
      (s.write c).room = 0 ∧ (s.write c).written = (sub ++ c).take R
        ∧ R ≤ (sub ++ c).length) ∧
    (s.good = true → (sub ++ c).length ≤ R → (s.write c).good = true) := by
  unfold OFStream.write
  by_cases hg : s.good = false
  · rw [if_pos hg]
    obtain ⟨r0, hw, hR⟩ := h3 hg
    refine ⟨h1, fun h => ?_, fun _ => ⟨r0, ?_, ?_⟩, fun h => ?_⟩
    · rw [hg] at h; exact absurd h (by decide)
    · rw [hw, List.take_append_of_le_length hR]
    · rw [List.length_append]; omega
    · rw [hg] at h; exact absurd h (by decide)
  · rw [if_neg hg]
    have hgt : s.good = true := by
      cases hs : s.good with
      | true => rfl
      | false => exact absurd hs hg
    have hsub := h2 hgt
    have hlen : sub.length = s.written.length + s.pending.length := by
      rw [← hsub, List.length_append]
    by_cases hb : c.length < min filebuf_chunk (filebuf_size - s.pending.length)
    · rw [if_pos hb]
      refine ⟨h1, fun _ => ?_, fun h => Bool.noConfusion h, fun _ _ => rfl⟩
      show s.written ++ (s.pending ++ c) = sub ++ c
      rw [← hsub, List.append_assoc]
    · rw [if_neg hb]
      by_cases hr : s.pending.length + c.length ≤ s.room
      · rw [if_pos hr]
        refine ⟨?_, fun _ => ?_, fun h => Bool.noConfusion h, fun _ _ => rfl⟩
        · show (s.written ++ (s.pending ++ c)).length
            + (s.room - (s.pending.length + c.length)) = R
          rw [List.length_append, List.length_append]
          omega
        · show s.written ++ (s.pending ++ c) ++ [] = sub ++ c
          rw [List.append_nil, ← hsub, List.append_assoc]
      · rw [if_neg hr]
        have htake : ((s.pending ++ c).take s.room).length = s.room := by
          rw [List.length_take, List.length_append]
          omega
        refine ⟨?_, fun h => Bool.noConfusion h, fun _ => ⟨rfl, ?_, ?_⟩, fun _ hle => ?_⟩
        · show (s.written ++ (s.pending ++ c).take s.room).length + 0 = R
          rw [List.length_append, htake]
          omega
        · show s.written ++ (s.pending ++ c).take s.room = (sub ++ c).take R
          rw [← hsub, List.append_assoc, ← h1, List.take_append]
        · rw [List.length_append]; omega
        · exfalso
          rw [List.length_append] at hle
          omega

/-- The writes of all vectors keep the invariant of the stream. -/
theorem write_fold_inv (mv : List Vec2fBits) (s : OFStream) (sub : List Nat) (R : Nat)
    (h1 : s.written.length + s.room = R)
    (h2 : s.good = true → s.written ++ s.pending = sub)
    (h3 : s.good = false → s.room = 0 ∧ s.written = sub.take R ∧ R ≤ sub.length) :
    (mv.foldl (fun (s : OFStream) (v : Vec2fBits) => s.write (vec_bytes v)) s).close
      = (sub ++ mv.flatMap vec_bytes).take R ∧
    (s.good = true → (sub ++ mv.flatMap vec_bytes).length ≤ R →
      (mv.foldl (fun (s : OFStream) (v : Vec2fBits) => s.write (vec_bytes v)) s).good
        = true) := by
  induction mv generalizing s sub with
  | nil =>
    simp only [List.foldl_nil, List.flatMap_nil, List.append_nil]
    refine ⟨?_, fun h _ => h⟩
    unfold OFStream.close
    cases hg : s.good with
    | true =>
      rw [← h2 hg, ← h1, List.take_append]
    | false =>
      obtain ⟨r0, hw, _⟩ := h3 hg
      rw [r0, List.take_zero, List.append_nil, hw]
  | cons v t ih =>
    simp only [List.foldl_cons, List.flatMap_cons]
    obtain ⟨k1, k2, k3, k4⟩ := write_step s sub (vec_bytes v) R h1 h2 h3
    obtain ⟨i1, i2⟩ := ih (s.write (vec_bytes v)) (sub ++ vec_bytes v) k1 k2 k3
    rw [List.append_assoc] at i1 i2
    refine ⟨i1, fun hg hle => i2 (k4 hg ?_) hle⟩
    rw [List.length_append, List.length_append] at hle
    rw [List.length_append]
    omega

/-- The file left by `save_vectors` holds the first bytes of the records of the
field, as many as the device accepts. -/
theorem save_vectors_file (mv : List Vec2fBits) (room : Nat) :
    (save_vectors mv (some room)).2 = (mv.flatMap vec_bytes).take room := by
  unfold save_vectors
  simp only []
  have h := (write_fold_inv mv (⟨true, [], [], room⟩ : OFStream) [] room (by simp)
    (fun _ => rfl) (fun h => Bool.noConfusion h)).1
  rw [List.nil_append] at h
  exact h

theorem save_vectors_cxx20_file (mv : List Vec2fBits) (room : Nat) :
    (save_vectors_cxx20 mv (some room)).2 = (mv.flatMap vec_bytes).take room := by
  unfold save_vectors_cxx20
  simp only []
  obtain ⟨k1, k2, k3, _⟩ := write_step (⟨true, [], [], room⟩ : OFStream) []
    (mv.flatMap vec_bytes) room (by simp) (fun _ => rfl) (fun h => Bool.noConfusion h)
  have h := (write_fold_inv [] ((⟨true, [], [], room⟩ : OFStream).write (mv.flatMap vec_bytes))
    ([] ++ mv.flatMap vec_bytes) room k1 k2 k3).1
  simp only [List.foldl_nil, List.flatMap_nil, List.append_nil, List.nil_append] at h
  exact h

/-- On a device with room for every record, `save_vectors` returns true and the
file holds the records of the field and nothing else. -/
theorem save_vectors_room (mv : List Vec2fBits) (room : Nat) (hr : 8 * mv.length ≤ room) :
    save_vectors mv (some room) = (true, mv.flatMap vec_bytes) := by
  have hl := records_bytes_length mv
  have hf := save_vectors_file mv room
  rw [List.take_of_length_le (by rw [hl]; exact hr)] at hf
  have hg : (save_vectors mv (some room)).1 = true := by
    unfold save_vectors
    simp only []
    exact (write_fold_inv mv (⟨true, [], [], room⟩ : OFStream) [] room (by simp)
      (fun _ => rfl) (fun h => Bool.noConfusion h)).2 rfl (by
        rw [List.nil_append, hl]; exact hr)
  exact Prod.ext hg hf

theorem save_vectors_cxx20_room (mv : List Vec2fBits) (room : Nat)
    (hr : 8 * mv.length ≤ room) :
    save_vectors_cxx20 mv (some room) = (true, mv.flatMap vec_bytes) := by
  have hl := records_bytes_length mv
  have hf := save_vectors_cxx20_file mv room
  rw [List.take_of_length_le (by rw [hl]; exact hr)] at hf
  have hg : (save_vectors_cxx20 mv (some room)).1 = true := by
    unfold save_vectors_cxx20
    simp only []
    exact (write_step (⟨true, [], [], room⟩ : OFStream) [] (mv.flatMap vec_bytes) room
      (by simp) (fun _ => rfl) (fun h => Bool.noConfusion h)).2.2.2 rfl (by
        rw [List.nil_append, hl]; exact hr)
  exact Prod.ext hg hf

/-- Writes of vectors that fit in the buffer only fill the buffer: the stream stays
good whatever the room of the device. -/
theorem write_fold_buffered (mv : List Vec2fBits) (s : OFStream) (hg : s.good = true)
    (hfit : s.pending.length + 8 * mv.length ≤ 8190) :
    (mv.foldl (fun (s : OFStream) (v : Vec2fBits) => s.write (vec_bytes v)) s).good
      = true := by
  induction mv generalizing s with
  | nil => exact hg
  | cons v t ih =>
    simp only [List.foldl_cons]
    simp only [List.length_cons] at hfit
    have hb : (vec_bytes v).length
        < min filebuf_chunk (filebuf_size - s.pending.length) := by
      rw [vec_bytes_length]
      unfold filebuf_chunk filebuf_size
      omega
    have e : s.write (vec_bytes v) = ⟨true, s.written, s.pending ++ vec_bytes v, s.room⟩ := by
      unfold OFStream.write
      rw [if_neg (by rw [hg]; decide), if_pos hb]
    rw [e]
    apply ih
    · rfl
    · show (s.pending ++ vec_bytes v).length + 8 * t.length ≤ 8190
      rw [List.length_append, vec_bytes_length]
      omega

/-- For a field of at most 1023 vectors `save_vectors` returns true whatever the
room of the device: every write only fills the buffer. -/
theorem save_vectors_small (mv : List Vec2fBits) (room : Nat) (hn : mv.length ≤ 1023) :
    (save_vectors mv (some room)).1 = true := by
  unfold save_vectors
  simp only []
  exact write_fold_buffered mv _ rfl (by show 0 + 8 * mv.length ≤ 8190; omega)

/-- For a field of at most 127 vectors the C++20 branch of `save_vectors` returns
true whatever the room of the device: its single write only fills the buffer. -/
theorem save_vectors_cxx20_small (mv : List Vec2fBits) (room : Nat) (hn : mv.length ≤ 127) :
    (save_vectors_cxx20 mv (some room)).1 = true := by
  have hl := records_bytes_length mv
  unfold save_vectors_cxx20 OFStream.write
  simp only []
  rw [if_neg (by decide), if_pos (by
    rw [hl]
    show 8 * mv.length < min filebuf_chunk (filebuf_size - 0)
    unfold filebuf_chunk filebuf_size
    omega)]

theorem load_records_cons (b0 b1 b2 b3 b4 b5 b6 b7 : Nat) (rest : List Nat)
    (mv : List Vec2fBits) :
    load_records (b0 :: b1 :: b2 :: b3 :: b4 :: b5 :: b6 :: b7 :: rest) mv
      = load_records rest (mv ++ [(bytes_float b0 b1 b2 b3, bytes_float b4 b5 b6 b7)]) := by
  rw [load_records]

theorem load_records_short (bytes : List Nat) (mv : List Vec2fBits) (h : bytes.length < 8) :
    load_records bytes mv = mv := by
  match bytes, h with
  | [], _ => rfl
  | [_], _ => rfl
  | [_, _], _ => rfl
  | [_, _, _], _ => rfl
  | [_, _, _, _], _ => rfl
  | [_, _, _, _, _], _ => rfl
  | [_, _, _, _, _, _], _ => rfl
  | [_, _, _, _, _, _, _], _ => rfl
  | _ :: _ :: _ :: _ :: _ :: _ :: _ :: _ :: _, h => simp at h; omega

theorem exists_eight_bytes (bytes : List Nat) (h : 8 ≤ bytes.length) :
    ∃ b0 b1 b2 b3 b4 b5 b6 b7 rest,
      bytes = b0 :: b1 :: b2 :: b3 :: b4 :: b5 :: b6 :: b7 :: rest := by
  match bytes, h with
  | b0 :: b1 :: b2 :: b3 :: b4 :: b5 :: b6 :: b7 :: rest, _ =>
    exact ⟨b0, b1, b2, b3, b4, b5, b6, b7, rest, rfl⟩
  | [], h => simp at h
  | [_], h => simp at h
  | [_, _], h => simp at h
  | [_, _, _], h => simp at h
  | [_, _, _, _], h => simp at h
  | [_, _, _, _, _], h => simp at h
  | [_, _, _, _, _, _], h => simp at h
  | [_, _, _, _, _, _, _], h => simp at h

/-- Record `k` of a file: the vector decoded from bytes `8k .. 8k+7`. -/
theorem load_records_eq (bytes : List Nat) (mv : List Vec2fBits) :
    load_records bytes mv = mv ++ (List.range (bytes.length / 8)).map (fun (k : Nat) =>
      (bytes_float (bytes.getD (8 * k) 0) (bytes.getD (8 * k + 1) 0)
          (bytes.getD (8 * k + 2) 0) (bytes.getD (8 * k + 3) 0),
       bytes_float (bytes.getD (8 * k + 4) 0) (bytes.getD (8 * k + 5) 0)
          (bytes.getD (8 * k + 6) 0) (bytes.getD (8 * k + 7) 0))) := by
  generalize hn : bytes.length / 8 = n
  induction n generalizing bytes mv with
  | zero =>
    have hlt : bytes.length < 8 := by omega
    rw [load_records_short bytes mv hlt]
    simp
  | succ n ih =>
    obtain ⟨b0, b1, b2, b3, b4, b5, b6, b7, rest, rfl⟩ :=
      exists_eight_bytes bytes (by omega)
    have hr : rest.length / 8 = n := by
      simp only [List.length_cons] at hn
      omega
    rw [load_records_cons, ih rest _ hr, List.range_succ_eq_map, List.map_cons, List.map_map,
      List.append_assoc]
    congr 1

/-- Loading the records of a field appends the field. -/
theorem load_records_records (f mv : List Vec2fBits)
    (hf : ∀ v ∈ f, v.1 < 4294967296 ∧ v.2 < 4294967296) :
    load_records (f.flatMap vec_bytes) mv = mv ++ f := by
  induction f generalizing mv with
  | nil => simp [load_records_short]
  | cons v t ih =>
    have hv := hf v (List.mem_cons_self v t)
    rw [List.flatMap_cons]
    show load_records ((v.1 % 256) :: (v.1 / 256 % 256) :: (v.1 / 65536 % 256)
      :: (v.1 / 16777216 % 256) :: (v.2 % 256) :: (v.2 / 256 % 256) :: (v.2 / 65536 % 256)
      :: (v.2 / 16777216 % 256) :: t.flatMap vec_bytes) mv = mv ++ v :: t
    rw [load_records_cons, bytes_float_float_bytes v.1 hv.1, bytes_float_float_bytes v.2 hv.2,
      ih _ (fun u hu => hf u (List.mem_cons_of_mem v hu))]
    simp

/-- The eight bytes at offset `8k` of the records of a field are the bytes of
vector `k`. -/
theorem records_slice (mv : List Vec2fBits) (k : Nat) (v : Vec2fBits) (h : mv[k]? = some v) :
    ((mv.flatMap vec_bytes).drop (8 * k)).take 8 = float_bytes v.1 ++ float_bytes v.2 := by
  induction mv generalizing k with
  | nil => simp at h
  | cons a t ih =>
    rw [List.flatMap_cons]
    cases k with
    | zero =>
      simp only [List.getElem?_cons_zero, Option.some.injEq] at h
      subst h
      rw [Nat.mul_zero, List.drop_zero, List.take_left' (vec_bytes_length a)]
      rfl
    | succ k =>
      simp only [List.getElem?_cons_succ] at h
      have e : 8 * (k + 1) = (vec_bytes a).length + 8 * k := by
        rw [vec_bytes_length]; ring
      rw [e, List.drop_append]
      exact ih k h

/-- A complete file followed by fewer than 8 bytes loads like the complete file. -/
theorem load_records_tail (bytes tail : List Nat) (mv : List Vec2fBits)
    (h8 : bytes.length % 8 = 0) (ht : tail.length < 8) :
    load_records (bytes ++ tail) mv = load_records bytes mv := by
  rw [load_records_eq, load_records_eq]
  have hl : (bytes ++ tail).length / 8 = bytes.length / 8 := by
    rw [List.length_append]; omega
  rw [hl]
  congr 1
  apply List.map_congr_left
  intro k hk
  have hk' := List.mem_range.mp hk
  have g : ∀ j, j < 8 → (bytes ++ tail).getD (8 * k + j) 0 = bytes.getD (8 * k + j) 0 := by
    intro j hj
    rw [List.getD_eq_getElem?_getD, List.getD_eq_getElem?_getD,
      List.getElem?_append_left (by omega)]
  have g0 := g 0 (by omega)
  simp only [Nat.add_zero] at g0
  rw [g0, g 1 (by omega), g 2 (by omega), g 3 (by omega), g 4 (by omega), g 5 (by omega),
    g 6 (by omega), g 7 (by omega)]

/-- Loading the first `room` bytes of the records of a field appends its first
`floor(room/8)` vectors. -/
theorem load_records_take (f mv : List Vec2fBits) (room : Nat)
    (hf : ∀ v ∈ f, v.1 < 4294967296 ∧ v.2 < 4294967296) :
    load_records ((f.flatMap vec_bytes).take room) mv = mv ++ f.take (room / 8) := by
  induction f generalizing mv room with
  | nil => simp [load_records_short]
  | cons v t ih =>
    have hv := hf v (List.mem_cons_self v t)
    rw [List.flatMap_cons]
    by_cases hr : room < 8
    · rw [load_records_short _ mv (by
        rw [List.length_take]
        omega)]
      have e : room / 8 = 0 := by omega
      rw [e, List.take_zero, List.append_nil]
    · have e1 : (vec_bytes v ++ t.flatMap vec_bytes).take room
          = vec_bytes v ++ (t.flatMap vec_bytes).take (room - 8) := by
        rw [List.take_append_eq_append_take, vec_bytes_length,
          List.take_of_length_le (by rw [vec_bytes_length]; omega)]
      have e2 : room / 8 = (room - 8) / 8 + 1 := by omega
      rw [e1, e2, List.take_succ_cons]
      show load_records ((v.1 % 256) :: (v.1 / 256 % 256) :: (v.1 / 65536 % 256)
        :: (v.1 / 16777216 % 256) :: (v.2 % 256) :: (v.2 / 256 % 256) :: (v.2 / 65536 % 256)
        :: (v.2 / 16777216 % 256) :: (t.flatMap vec_bytes).take (room - 8)) mv
          = mv ++ v :: t.take ((room - 8) / 8)
      rw [load_records_cons, bytes_float_float_bytes v.1 hv.1,
        bytes_float_float_bytes v.2 hv.2,
        ih _ (room - 8) (fun u hu => hf u (List.mem_cons_of_mem v hu))]
      simp

/-- C13: codec round trip.  `save_vectors` returns the state of the stream as it is
before the destructor passes the buffer on to the device (bmsupport.cc:109), so a
true return does not tell that the file holds the field.  A field of two vectors,
`(1.0f, -1.0f)` and `(0.0f, 1.4e-45f)`, saved on a device with room for 8 bytes:
`save_vectors` returns true in either compiled variant, the file holds the first
record only and `load_vectors` on it, with `mv` initially empty, returns true with
one vector.  For every field `f` and every device: the file holds the first `room`
bytes of the records of `f`, `load_vectors` on it returns the first `floor(room/8)`
vectors of `f`, and `save_vectors` returns true whenever `f` has at most 1023
vectors (127 for the C++20 branch), whatever the room.  The round trip holds on a
device with room for the `8*n` bytes of the field: `save_vectors` returns true and
`load_vectors` returns true and leaves `mv` equal to `f`. -/
theorem save_vectors_true_on_truncated_file :
    (save_vectors [(1065353216, 3212836864), (0, 1)] (some 8)
        = (true, [0, 0, 128, 63, 0, 0, 128, 191]) ∧
      save_vectors_cxx20 [(1065353216, 3212836864), (0, 1)] (some 8)
        = (true, [0, 0, 128, 63, 0, 0, 128, 191]) ∧
      load_vectors (some [0, 0, 128, 63, 0, 0, 128, 191]) []
        = (true, [(1065353216, 3212836864)])) ∧
    (∀ (f : List Vec2fBits) (room : Nat),
      (∀ v ∈ f, v.1 < 4294967296 ∧ v.2 < 4294967296) →
      (f.length ≤ 1023 → (save_vectors f (some room)).1 = true) ∧
      (f.length ≤ 127 → (save_vectors_cxx20 f (some room)).1 = true) ∧
      (save_vectors f (some room)).2 = (f.flatMap vec_bytes).take room ∧
      (save_vectors_cxx20 f (some room)).2 = (f.flatMap vec_bytes).take room ∧
      load_vectors (some ((f.flatMap vec_bytes).take room)) [] = (true, f.take (room / 8))) ∧
    (∀ (f : List Vec2fBits) (room : Nat),
      (∀ v ∈ f, v.1 < 4294967296 ∧ v.2 < 4294967296) → 8 * f.length ≤ room →
      save_vectors f (some room) = (true, f.flatMap vec_bytes) ∧
      save_vectors_cxx20 f (some room) = (true, f.flatMap vec_bytes) ∧
      load_vectors (some (f.flatMap vec_bytes)) [] = (true, f)) := by
  refine ⟨by decide, ?_, ?_⟩
  · intro f room hf
    refine ⟨save_vectors_small f room, save_vectors_cxx20_small f room,
      save_vectors_file f room, save_vectors_cxx20_file f room, ?_⟩
    unfold load_vectors
    simp only []
    rw [load_records_take f [] room hf, List.nil_append]
  · intro f room hf hr
    refine ⟨save_vectors_room f room hr, save_vectors_cxx20_room f room hr, ?_⟩
    unfold load_vectors
    simp only []
    rw [load_records_records f [] hf, List.nil_append]

/-- C14, as the code has it: for every field of `n` vectors, the records of the
field are `8*n` bytes, bytes `8k .. 8k+7` being the 4 bytes of float x of vector `k`
followed by the 4 bytes of float y of vector `k`; on a device with room for them
`save_vectors` (either compiled variant) returns true and the file holds exactly
these bytes, with no header or trailer; on any device the file holds the first
`room` bytes of them and nothing else; when the output cannot be opened
`save_vectors` returns false and writes nothing. -/
theorem save_vectors_layout (mv : List Vec2fBits) :
    ((mv.flatMap vec_bytes).length = 8 * mv.length ∧
      ∀ k v, mv[k]? = some v →
        ((mv.flatMap vec_bytes).drop (8 * k)).take 8 = float_bytes v.1 ++ float_bytes v.2) ∧
    (∀ room, 8 * mv.length ≤ room →
      save_vectors mv (some room) = (true, mv.flatMap vec_bytes) ∧
      save_vectors_cxx20 mv (some room) = (true, mv.flatMap vec_bytes)) ∧
    (∀ room, (save_vectors mv (some room)).2 = (mv.flatMap vec_bytes).take room ∧
      (save_vectors_cxx20 mv (some room)).2 = (mv.flatMap vec_bytes).take room) ∧
    save_vectors mv none = (false, []) ∧ save_vectors_cxx20 mv none = (false, []) :=
  ⟨⟨records_bytes_length mv, fun k v h => records_slice mv k v h⟩,
    fun room hr => ⟨save_vectors_room mv room hr, save_vectors_cxx20_room mv room hr⟩,
    fun room => ⟨save_vectors_file mv room, save_vectors_cxx20_file mv room⟩, rfl, rfl⟩

/-- C14 fails as stated: a field of two vectors saved on a device with room for 8
bytes leaves a file of 8 bytes, not 16, in either compiled variant, and
`save_vectors` returns true. -/
theorem save_vectors_writes_fewer_bytes :
    (save_vectors [(1065353216, 3212836864), (0, 1)] (some 8)).2.length = 8 ∧
    (save_vectors_cxx20 [(1065353216, 3212836864), (0, 1)] (some 8)).2.length = 8 ∧
    8 * [((1065353216, 3212836864) : Vec2fBits), (0, 1)].length = 16 ∧
    (save_vectors [(1065353216, 3212836864), (0, 1)] (some 8)).1 = true ∧
    (save_vectors_cxx20 [(1065353216, 3212836864), (0, 1)] (some 8)).1 = true := by
  decide

/-- C15: for every readable file of `n` bytes, `load_vectors` returns true and
appends exactly `floor(n/8)` vectors, record `k` being decoded from bytes
`8k .. 8k+7`; a trailing partial record of fewer than 8 bytes is dropped (the file
loads like the file without it); the function takes no grid size, so the record
count is not checked against any. -/
theorem load_vectors_records (bytes : List Nat) (mv : List Vec2fBits) :
    (∃ recs, load_vectors (some bytes) mv = (true, mv ++ recs) ∧
      recs.length = bytes.length / 8 ∧
      ∀ k, k < bytes.length / 8 →
        recs[k]? = some
          (bytes_float (bytes.getD (8 * k) 0) (bytes.getD (8 * k + 1) 0)
              (bytes.getD (8 * k + 2) 0) (bytes.getD (8 * k + 3) 0),
           bytes_float (bytes.getD (8 * k + 4) 0) (bytes.getD (8 * k + 5) 0)
              (bytes.getD (8 * k + 6) 0) (bytes.getD (8 * k + 7) 0))) ∧
    (∀ tail : List Nat, bytes.length % 8 = 0 → tail.length < 8 →
      load_vectors (some (bytes ++ tail)) mv = load_vectors (some bytes) mv) := by
  constructor
  · refine ⟨_, by unfold load_vectors; simp only []; rw [load_records_eq], by simp, ?_⟩
    intro k hk
    rw [List.getElem?_map, List.getElem?_range hk]
    rfl
  · intro tail h8 ht
    unfold load_vectors
    simp only []
    rw [load_records_tail bytes tail mv h8 ht]

/-! ## Block compensation -/

theorem foldl_product {σ α β : Type} (g : σ → α → β → σ) (xs : List α) (ys : List β)
    (init : σ) :
    ys.foldl (fun (st : σ) (y : β) => xs.foldl (fun (st : σ) (x : α) => g st x y) st) init
      = (ys.flatMap (fun (y : β) => xs.map (fun (x : α) => (x, y)))).foldl
          (fun (st : σ) (c : α × β) => g st c.1 c.2) init := by
  induction ys generalizing init with
  | nil => rfl
  | cons y t ih =>
    simp only [List.foldl_cons, List.flatMap_cons, List.foldl_append, List.foldl_map]
    exact ih _

theorem mem_product {α β : Type} (xs : List α) (ys : List β) (c : α × β) :
    c ∈ ys.flatMap (fun (y : β) => xs.map (fun (x : α) => (x, y))) ↔ c.1 ∈ xs ∧ c.2 ∈ ys := by
  simp only [List.mem_flatMap, List.mem_map]
  constructor
  · rintro ⟨y, hy, x, hx, rfl⟩
    exact ⟨hx, hy⟩
  · rintro ⟨hx, hy⟩
    exact ⟨c.2, hy, c.1, hx, rfl⟩

/-- A sequence of pixel writes keeps the dimensions of the image. -/
theorem write_fold_dims {ι : Type} (R C : ι → Int) (V : ι → Nat) (L : List ι) (out : Mat) :
    (L.foldl (fun (o : Mat) (p : ι) => o.write (R p) (C p) (V p)) out).cols = out.cols ∧
    (L.foldl (fun (o : Mat) (p : ι) => o.write (R p) (C p) (V p)) out).rows = out.rows ∧
    (L.foldl (fun (o : Mat) (p : ι) => o.write (R p) (C p) (V p)) out).channels
      = out.channels := by
  induction L generalizing out with
  | nil => exact ⟨rfl, rfl, rfl⟩
  | cons p t ih =>
    simp only [List.foldl_cons]
    exact ih (out.write (R p) (C p) (V p))

/-- A sequence of pixel writes leaves the bytes it does not address unchanged. -/
theorem write_fold_untouched {ι : Type} (R C : ι → Int) (V : ι → Nat) (L : List ι) (out : Mat)
    (a : Int)
    (h : ∀ p ∈ L, R p * ((out.cols : Int) * (out.channels : Int)) + C p ≠ a) :
    (L.foldl (fun (o : Mat) (p : ι) => o.write (R p) (C p) (V p)) out).data a = out.data a := by
  induction L generalizing out with
  | nil => rfl
  | cons p t ih =>
    simp only [List.foldl_cons]
    rw [ih (out.write (R p) (C p) (V p)) (fun q hq => h q (List.mem_cons_of_mem p hq))]
    show (if a = R p * ((out.cols : Int) * (out.channels : Int)) + C p then V p else out.data a)
      = out.data a
    rw [if_neg (fun e => h p (List.mem_cons_self p t) e.symm)]

/-- After a sequence of pixel writes in which the value written depends on the
address only, every addressed byte holds the value written to it. -/
theorem write_fold_data {ι : Type} (R C : ι → Int) (V : ι → Nat) (L : List ι) (out : Mat)
    (hcompat : ∀ p ∈ L, ∀ q ∈ L,
      R p * ((out.cols : Int) * (out.channels : Int)) + C p
        = R q * ((out.cols : Int) * (out.channels : Int)) + C q → V p = V q) :
    ∀ p ∈ L, (L.foldl (fun (o : Mat) (p : ι) => o.write (R p) (C p) (V p)) out).data
      (R p * ((out.cols : Int) * (out.channels : Int)) + C p) = V p := by
  induction L generalizing out with
  | nil => intro p hp; simp at hp
  | cons q t ih =>
    intro p hp
    simp only [List.foldl_cons]
    by_cases hex : ∃ r ∈ t, R r * ((out.cols : Int) * (out.channels : Int)) + C r
        = R p * ((out.cols : Int) * (out.channels : Int)) + C p
    · obtain ⟨r, hr, hra⟩ := hex
      have hv : V r = V p :=
        hcompat r (List.mem_cons_of_mem q hr) p hp hra
      have := ih (out.write (R q) (C q) (V q))
        (fun u hu w hw => hcompat u (List.mem_cons_of_mem q hu) w (List.mem_cons_of_mem q hw))
        r hr
      rw [← hra, ← hv]
      exact this
    · rw [write_fold_untouched R C V t (out.write (R q) (C q) (V q)) _
        (fun r hr e => hex ⟨r, hr, e⟩)]
      have hpq : p = q := by
        rcases List.mem_cons.mp hp with h | h
        · exact h
        · exact absurd ⟨p, h, rfl⟩ hex
      subst hpq
      show (if _ = _ then V p else out.data _) = V p
      rw [if_pos rfl]

/-- With a field of the size of the grid, `block_compensate` is one sequence of
pixel writes into the freshly allocated image, over the blocks in raster order and
the pixels of each block in raster order. -/
theorem block_compensate_eq_writes (previous_image : Mat) (mv : List Vec2f) (blk_size : Nat)
    (output_image : Mat) (fresh : Int → Nat)
    (hlen : mv.length = previous_image.cols / blk_size * (previous_image.rows / blk_size)) :
    block_compensate previous_image mv blk_size output_image fresh
      = (((List.range (previous_image.rows / blk_size)).flatMap (fun (by_ : Nat) =>
            (List.range (previous_image.cols / blk_size)).map (fun (bx : Nat) => (bx, by_)))).flatMap
          (fun (b : Nat × Nat) =>
            ((List.range blk_size).flatMap (fun (j : Nat) =>
              (List.range blk_size).map (fun (i : Nat) => (i, j)))).map
                (fun (p : Nat × Nat) => (p, b)))).foldl
          (fun (o : Mat) (p : (Nat × Nat) × (Nat × Nat)) =>
            o.write ((p.2.2 : Int) * (blk_size : Int) + (p.1.2 : Int))
              ((p.2.1 : Int) * (blk_size : Int) + (p.1.1 : Int))
              (interpolate previous_image
                ((((p.2.1 : Int) * (blk_size : Int) + (p.1.1 : Int) : Int) : ℚ)
                  + (mv.getD (p.2.2 * (previous_image.cols / blk_size) + p.2.1) (0, 0)).1)
                ((((p.2.2 : Int) * (blk_size : Int) + (p.1.2 : Int) : Int) : ℚ)
                  + (mv.getD (p.2.2 * (previous_image.cols / blk_size) + p.2.1) (0, 0)).2)))
          ⟨previous_image.cols, previous_image.rows, previous_image.channels, fresh⟩ := by
  unfold block_compensate
  simp only []
  rw [if_neg (by rw [hlen]; exact fun h => h rfl)]
  have inner : ∀ (bx by_ : Nat) (out : Mat),
      (List.range blk_size).foldl
        (fun (out : Mat) (j : Nat) =>
          (List.range blk_size).foldl
            (fun (out : Mat) (i : Nat) =>
              compensate_pixel previous_image mv blk_size out bx by_ i j) out) out
      = ((List.range blk_size).flatMap (fun (j : Nat) =>
          (List.range blk_size).map (fun (i : Nat) => (i, j)))).foldl
            (fun (out : Mat) (p : Nat × Nat) =>
              compensate_pixel previous_image mv blk_size out bx by_ p.1 p.2) out := by
    intro bx by_ out
    exact foldl_product (fun (out : Mat) (i j : Nat) =>
      compensate_pixel previous_image mv blk_size out bx by_ i j) _ _ out
  simp only [inner]
  rw [foldl_product (fun (out : Mat) (bx by_ : Nat) =>
      ((List.range blk_size).flatMap (fun (j : Nat) =>
          (List.range blk_size).map (fun (i : Nat) => (i, j)))).foldl
            (fun (out : Mat) (p : Nat × Nat) =>
              compensate_pixel previous_image mv blk_size out bx by_ p.1 p.2) out),
    foldl_product (fun (out : Mat) (p b : Nat × Nat) =>
      compensate_pixel previous_image mv blk_size out b.1 b.2 p.1 p.2)]
  rfl

theorem div_block_lt (dim blk_size x : Nat) (hd : blk_size ∣ dim) (hx : x < dim) :
    0 < blk_size ∧ x / blk_size < dim / blk_size ∧ x % blk_size < blk_size := by
  have hpos : 0 < blk_size := by
    rcases Nat.eq_zero_or_pos blk_size with h | h
    · subst h
      have := Nat.eq_zero_of_zero_dvd hd
      omega
    · exact h
  refine ⟨hpos, ?_, Nat.mod_lt x hpos⟩
  rw [Nat.div_lt_iff_lt_mul hpos, Nat.div_mul_cancel hd]
  exact hx

/-- Every pixel of the output of `block_compensate` is the sample of the previous
frame displaced by the vector of the block that contains the pixel. -/
theorem block_compensate_at (previous_image : Mat) (mv : List Vec2f) (blk_size : Nat)
    (output_image : Mat) (fresh : Int → Nat) (hc : previous_image.channels = 1)
    (hdc : blk_size ∣ previous_image.cols) (hdr : blk_size ∣ previous_image.rows)
    (hlen : mv.length = previous_image.cols / blk_size * (previous_image.rows / blk_size))
    (x y : Nat) (hx : x < previous_image.cols) (hy : y < previous_image.rows) :
    (block_compensate previous_image mv blk_size output_image fresh).at (y : Int) (x : Int)
      = interpolate previous_image
          ((x : ℚ) + (mv.getD (y / blk_size * (previous_image.cols / blk_size) + x / blk_size)
            (0, 0)).1)
          ((y : ℚ) + (mv.getD (y / blk_size * (previous_image.cols / blk_size) + x / blk_size)
            (0, 0)).2) := by
  obtain ⟨hpos, hxd, hxm⟩ := div_block_lt _ _ x hdc hx
  obtain ⟨_, hyd, hym⟩ := div_block_lt _ _ y hdr hy
  have hWb : previous_image.cols / blk_size * blk_size = previous_image.cols :=
    Nat.div_mul_cancel hdc
  rw [block_compensate_eq_writes previous_image mv blk_size output_image fresh hlen]
  have ex : ((x / blk_size : Nat) : Int) * (blk_size : Int) + ((x % blk_size : Nat) : Int)
      = (x : Int) := by
    have := Nat.div_add_mod x blk_size
    rw [Nat.mul_comm] at this
    exact_mod_cast this
  have ey : ((y / blk_size : Nat) : Int) * (blk_size : Int) + ((y % blk_size : Nat) : Int)
      = (y : Int) := by
    have := Nat.div_add_mod y blk_size
    rw [Nat.mul_comm] at this
    exact_mod_cast this
  have hmem : ((x % blk_size, y % blk_size), (x / blk_size, y / blk_size))
      ∈ ((List.range (previous_image.rows / blk_size)).flatMap (fun (by_ : Nat) =>
            (List.range (previous_image.cols / blk_size)).map (fun (bx : Nat) => (bx, by_)))).flatMap
          (fun (b : Nat × Nat) =>
            ((List.range blk_size).flatMap (fun (j : Nat) =>
              (List.range blk_size).map (fun (i : Nat) => (i, j)))).map
                (fun (p : Nat × Nat) => (p, b))) := by
    rw [mem_product, mem_product, mem_product]
    simp only [List.mem_range]
    exact ⟨⟨hxm, hym⟩, ⟨hxd, hyd⟩⟩
  have hdata := write_fold_data
    (fun (p : (Nat × Nat) × (Nat × Nat)) => (p.2.2 : Int) * (blk_size : Int) + (p.1.2 : Int))
    (fun (p : (Nat × Nat) × (Nat × Nat)) => (p.2.1 : Int) * (blk_size : Int) + (p.1.1 : Int))
    (fun (p : (Nat × Nat) × (Nat × Nat)) =>
      interpolate previous_image
        ((((p.2.1 : Int) * (blk_size : Int) + (p.1.1 : Int) : Int) : ℚ)
          + (mv.getD (p.2.2 * (previous_image.cols / blk_size) + p.2.1) (0, 0)).1)
        ((((p.2.2 : Int) * (blk_size : Int) + (p.1.2 : Int) : Int) : ℚ)
          + (mv.getD (p.2.2 * (previous_image.cols / blk_size) + p.2.1) (0, 0)).2))
    _ ⟨previous_image.cols, previous_image.rows, previous_image.channels, fresh⟩ (by
      intro p hp q hq hA
      rw [mem_product, mem_product, mem_product] at hp hq
      simp only [List.mem_range] at hp hq
      simp only [hc, Nat.cast_one, mul_one] at hA
      have hpc : p.2.1 * blk_size + p.1.1 < previous_image.cols := by
        have : (p.2.1 + 1) * blk_size ≤ previous_image.cols / blk_size * blk_size :=
          Nat.mul_le_mul_right _ hp.2.1
        rw [Nat.succ_mul, hWb] at this
        omega
      have hqc : q.2.1 * blk_size + q.1.1 < previous_image.cols := by
        have : (q.2.1 + 1) * blk_size ≤ previous_image.cols / blk_size * blk_size :=
          Nat.mul_le_mul_right _ hq.2.1
        rw [Nat.succ_mul, hWb] at this
        omega
      have hN : (p.2.2 * blk_size + p.1.2) * previous_image.cols + (p.2.1 * blk_size + p.1.1)
          = (q.2.2 * blk_size + q.1.2) * previous_image.cols + (q.2.1 * blk_size + q.1.1) := by
        exact_mod_cast hA
      obtain ⟨a1, a2⟩ := raster_index_unique previous_image.cols _ _ _ hpc rfl
      obtain ⟨b1, b2⟩ := raster_index_unique previous_image.cols _ _ _ hqc rfl
      rw [hN] at a1 a2
      have hcol : p.2.1 * blk_size + p.1.1 = q.2.1 * blk_size + q.1.1 := by rw [← a1, b1]
      have hrow : p.2.2 * blk_size + p.1.2 = q.2.2 * blk_size + q.1.2 := by rw [← a2, b2]
      obtain ⟨c1, c2⟩ := raster_index_unique blk_size _ _ _ hp.1.1 rfl
      obtain ⟨d1, d2⟩ := raster_index_unique blk_size _ _ _ hq.1.1 rfl
      rw [hcol] at c1 c2
      obtain ⟨e1, e2⟩ := raster_index_unique blk_size _ _ _ hp.1.2 rfl
      obtain ⟨f1, f2⟩ := raster_index_unique blk_size _ _ _ hq.1.2 rfl
      rw [hrow] at e1 e2
      have h1 : p.1.1 = q.1.1 := by rw [← c1, d1]
      have h2 : p.2.1 = q.2.1 := by rw [← c2, d2]
      have h3 : p.1.2 = q.1.2 := by rw [← e1, f1]
      have h4 : p.2.2 = q.2.2 := by rw [← e2, f2]
      simp only [h1, h2, h3, h4])
    ((x % blk_size, y % blk_size), (x / blk_size, y / blk_size)) hmem
  simp only [ex, ey, hc, Nat.cast_one, mul_one] at hdata
  obtain ⟨dc, _, dch⟩ := write_fold_dims
    (fun (p : (Nat × Nat) × (Nat × Nat)) => (p.2.2 : Int) * (blk_size : Int) + (p.1.2 : Int))
    (fun (p : (Nat × Nat) × (Nat × Nat)) => (p.2.1 : Int) * (blk_size : Int) + (p.1.1 : Int))
    (fun (p : (Nat × Nat) × (Nat × Nat)) =>
      interpolate previous_image
        ((((p.2.1 : Int) * (blk_size : Int) + (p.1.1 : Int) : Int) : ℚ)
          + (mv.getD (p.2.2 * (previous_image.cols / blk_size) + p.2.1) (0, 0)).1)
        ((((p.2.2 : Int) * (blk_size : Int) + (p.1.2 : Int) : Int) : ℚ)
          + (mv.getD (p.2.2 * (previous_image.cols / blk_size) + p.2.1) (0, 0)).2))
    (((List.range (previous_image.rows / blk_size)).flatMap (fun (by_ : Nat) =>
            (List.range (previous_image.cols / blk_size)).map (fun (bx : Nat) => (bx, by_)))).flatMap
          (fun (b : Nat × Nat) =>
            ((List.range blk_size).flatMap (fun (j : Nat) =>
              (List.range blk_size).map (fun (i : Nat) => (i, j)))).map
                (fun (p : Nat × Nat) => (p, b))))
    ⟨previous_image.cols, previous_image.rows, previous_image.channels, fresh⟩
  unfold Mat.at
  rw [dc, dch]
  simp only [hc, Nat.cast_one, mul_one]
  rw [hdata]
  simp only [Int.cast_natCast]
  exact Nat.mod_eq_of_lt (interpolate_lt _ _ _)

/-- The output of `block_compensate` has the dimensions and type of the previous
frame, whatever the field. -/
theorem block_compensate_dims (previous_image : Mat) (mv : List Vec2f) (blk_size : Nat)
    (output_image : Mat) (fresh : Int → Nat) :
    (block_compensate previous_image mv blk_size output_image fresh).cols = previous_image.cols ∧
    (block_compensate previous_image mv blk_size output_image fresh).rows = previous_image.rows ∧
    (block_compensate previous_image mv blk_size output_image fresh).channels
      = previous_image.channels := by
  by_cases hlen : mv.length
      = previous_image.cols / blk_size * (previous_image.rows / blk_size)
  · rw [block_compensate_eq_writes previous_image mv blk_size output_image fresh hlen]
    exact write_fold_dims _ _ _ _ _
  · unfold block_compensate
    simp only []
    rw [if_pos hlen]
    exact ⟨rfl, rfl, rfl⟩

/-- C16: for every single-channel previous frame whose dimensions are multiples of
`blk` and every field `mv` of length `(W/blk)*(H/blk)`, `block_compensate` produces
an output with the dimensions of the previous frame in which every pixel satisfies
`output[y][x] = interpolate(previous, x + v.x, y + v.y)`, where
`v = mv[(y/blk)*(W/blk) + x/blk]` is the vector of the block containing `(x, y)`. -/
theorem block_compensate_pixels (previous_image : Mat) (mv : List Vec2f) (blk_size : Nat)
    (output_image : Mat) (fresh : Int → Nat) (hc : previous_image.channels = 1)
    (hdc : blk_size ∣ previous_image.cols) (hdr : blk_size ∣ previous_image.rows)
    (hlen : mv.length = previous_image.cols / blk_size * (previous_image.rows / blk_size)) :
    (block_compensate previous_image mv blk_size output_image fresh).cols = previous_image.cols ∧
    (block_compensate previous_image mv blk_size output_image fresh).rows = previous_image.rows ∧
    ∀ x y : Nat, x < previous_image.cols → y < previous_image.rows →
      ∃ v, mv[y / blk_size * (previous_image.cols / blk_size) + x / blk_size]? = some v ∧
        (block_compensate previous_image mv blk_size output_image fresh).at (y : Int) (x : Int)
          = interpolate previous_image ((x : ℚ) + v.1) ((y : ℚ) + v.2) := by
  obtain ⟨d1, d2, _⟩ := block_compensate_dims previous_image mv blk_size output_image fresh
  refine ⟨d1, d2, ?_⟩
  intro x y hx hy
  obtain ⟨_, hxd, _⟩ := div_block_lt _ _ x hdc hx
  obtain ⟨_, hyd, _⟩ := div_block_lt _ _ y hdr hy
  have hidx : y / blk_size * (previous_image.cols / blk_size) + x / blk_size < mv.length := by
    rw [hlen]
    have : (y / blk_size + 1) * (previous_image.cols / blk_size)
        ≤ previous_image.rows / blk_size * (previous_image.cols / blk_size) :=
      Nat.mul_le_mul_right _ hyd
    rw [Nat.succ_mul] at this
    rw [Nat.mul_comm (previous_image.cols / blk_size)]
    omega
  refine ⟨mv[y / blk_size * (previous_image.cols / blk_size) + x / blk_size],
    List.getElem?_eq_getElem hidx, ?_⟩
  rw [block_compensate_at previous_image mv blk_size output_image fresh hc hdc hdr hlen x y hx
    hy, List.getD_eq_getElem?_getD, List.getElem?_eq_getElem hidx]
  rfl

/-- Witness of C16: the textured 4x4 frame, block size 2, with the field that
`fullsearch` finds against its shift by `(1, 0)`. -/
theorem block_compensate_pixels_witness :
    (block_compensate (textured 4) [(1, 0), (0, 2), (1, 0), (0, 0)] 2 pixel7
        (fun _ => 0)).cols = 4 ∧
    (block_compensate (textured 4) [(1, 0), (0, 2), (1, 0), (0, 0)] 2 pixel7
        (fun _ => 0)).rows = 4 ∧
    ∀ x y : Nat, x < 4 → y < 4 →
      ∃ v, [((1 : ℚ), (0 : ℚ)), (0, 2), (1, 0), (0, 0)][y / 2 * (4 / 2) + x / 2]? = some v ∧
        (block_compensate (textured 4) [(1, 0), (0, 2), (1, 0), (0, 0)] 2 pixel7
            (fun _ => 0)).at (y : Int) (x : Int)
          = interpolate (textured 4) ((x : ℚ) + v.1) ((y : ℚ) + v.2) :=
  block_compensate_pixels (textured 4) [(1, 0), (0, 2), (1, 0), (0, 0)] 2 pixel7 (fun _ => 0)
    rfl (by decide) (by decide) (by decide)

/-- C17: compensation with the zero field is the identity.  For every single-channel
previous frame whose dimensions are multiples of `blk`, `block_compensate` with a
field of `(W/blk)*(H/blk)` zero vectors yields an output of the same dimensions equal
to the previous frame pixel for pixel. -/
theorem block_compensate_zero_field (previous_image : Mat) (blk_size : Nat)
    (output_image : Mat) (fresh : Int → Nat) (hc : previous_image.channels = 1)
    (hdc : blk_size ∣ previous_image.cols) (hdr : blk_size ∣ previous_image.rows) :
    (block_compensate previous_image
        (List.replicate (previous_image.cols / blk_size * (previous_image.rows / blk_size))
          (0, 0)) blk_size output_image fresh).cols = previous_image.cols ∧
    (block_compensate previous_image
        (List.replicate (previous_image.cols / blk_size * (previous_image.rows / blk_size))
          (0, 0)) blk_size output_image fresh).rows = previous_image.rows ∧
    ∀ x y : Nat, x < previous_image.cols → y < previous_image.rows →
      (block_compensate previous_image
          (List.replicate (previous_image.cols / blk_size * (previous_image.rows / blk_size))
            (0, 0)) blk_size output_image fresh).at (y : Int) (x : Int)
        = previous_image.at (y : Int) (x : Int) := by
  obtain ⟨d1, d2, _⟩ := block_compensate_dims previous_image
    (List.replicate (previous_image.cols / blk_size * (previous_image.rows / blk_size)) (0, 0))
    blk_size output_image fresh
  refine ⟨d1, d2, ?_⟩
  intro x y hx hy
  rw [block_compensate_at previous_image _ blk_size output_image fresh hc hdc hdr
    (List.length_replicate _ _) x y hx hy]
  have hz : (List.replicate (previous_image.cols / blk_size * (previous_image.rows / blk_size))
      ((0 : ℚ), (0 : ℚ))).getD
        (y / blk_size * (previous_image.cols / blk_size) + x / blk_size) (0, 0) = (0, 0) := by
    rw [List.getD_eq_getElem?_getD, List.getElem?_replicate]
    split_ifs <;> rfl
  rw [hz]
  have e := interpolate_intCast previous_image hc (x : Int) (y : Int) (by omega)
    (by exact_mod_cast hx) (by omega) (by exact_mod_cast hy)
  simp only [Int.cast_natCast] at e
  simp only [add_zero]
  exact e

/-- Witness of C17: the textured 4x4 frame with block size 2. -/
theorem block_compensate_zero_field_witness :
    (block_compensate (textured 4) (List.replicate (4 / 2 * (4 / 2)) (0, 0)) 2 pixel7
        (fun _ => 0)).cols = 4 ∧
    (block_compensate (textured 4) (List.replicate (4 / 2 * (4 / 2)) (0, 0)) 2 pixel7
        (fun _ => 0)).rows = 4 ∧
    ∀ x y : Nat, x < 4 → y < 4 →
      (block_compensate (textured 4) (List.replicate (4 / 2 * (4 / 2)) (0, 0)) 2 pixel7
          (fun _ => 0)).at (y : Int) (x : Int)
        = (textured 4).at (y : Int) (x : Int) :=
  block_compensate_zero_field (textured 4) 2 pixel7 (fun _ => 0) rfl (by decide) (by decide)

/-- C18 (amended): if the length of the supplied field differs from
`(W/blk)*(H/blk)`, `block_compensate` writes no pixel: it returns after having
replaced the output image by the newly allocated image of the dimensions and type of
the previous frame (blockcompensate.cc:21), whose contents are those of the
uninitialised allocation; the image passed in is not kept. -/
theorem block_compensate_wrong_length (previous_image : Mat) (mv : List Vec2f)
    (blk_size : Nat) (output_image : Mat) (fresh : Int → Nat)
    (hlen : mv.length ≠ previous_image.cols / blk_size * (previous_image.rows / blk_size)) :
    block_compensate previous_image mv blk_size output_image fresh
      = ⟨previous_image.cols, previous_image.rows, previous_image.channels, fresh⟩ := by
  unfold block_compensate
  simp only []
  rw [if_pos hlen]

/-- Witness of C18 (amended): the 2x2 frame `white2` with an empty field and block
size 2, the output being the 1x1 image `pixel7` before the call. -/
theorem block_compensate_wrong_length_witness :
    block_compensate white2 [] 2 pixel7 (fun _ => 0)
      = ⟨white2.cols, white2.rows, white2.channels, fun _ => 0⟩ :=
  block_compensate_wrong_length white2 [] 2 pixel7 (fun _ => 0) (by decide)

/-- Counterexample to C18 as stated: the output image is reassigned before the
length of the field is checked.  With the 2x2 frame `white2`, block size 2 and an
empty field (one vector is expected), the 1x1 output image `pixel7` holding 7 comes
back as a 2x2 image holding the content of the new allocation. -/
theorem block_compensate_failure_replaces_output :
    ([] : List Vec2f).length ≠ white2.cols / 2 * (white2.rows / 2) ∧
    (block_compensate white2 [] 2 pixel7 (fun _ => 0)).cols = 2 ∧
    pixel7.cols = 1 ∧
    (block_compensate white2 [] 2 pixel7 (fun _ => 0)).at 0 0 = 0 ∧
    pixel7.at 0 0 = 7 := by
  refine ⟨by decide, by decide, by decide, by decide, by decide⟩

/-! ## Subpixel search -/

/-- The scan of the quarter-pixel offsets ends on its initial state or on the vector
of one of the scanned offsets. -/
theorem subpixel_scan_cases (current previous : Mat) (blk_size : Nat) (ox oy : Int)
    (integer_vec : Vec2f) (l : List (Int × Int)) (st : Int × Vec2f) :
    l.foldl (fun (st : Int × Vec2f) (c : Int × Int) =>
        subpixel_step current previous blk_size ox oy integer_vec st c.1 c.2) st = st ∨
      ∃ c ∈ l, (l.foldl (fun (st : Int × Vec2f) (c : Int × Int) =>
        subpixel_step current previous blk_size ox oy integer_vec st c.1 c.2) st).2
          = (integer_vec.1 + (c.1 : ℚ) * (1 / 4), integer_vec.2 + (c.2 : ℚ) * (1 / 4)) := by
  induction l generalizing st with
  | nil => left; rfl
  | cons a t ih =>
    simp only [List.foldl_cons]
    rcases ih (subpixel_step current previous blk_size ox oy integer_vec st a.1 a.2) with
      h | ⟨c, hc, h⟩
    · rw [h]
      unfold subpixel_step
      simp only []
      split_ifs
      · right; exact ⟨a, List.mem_cons_self a t, rfl⟩
      · left; rfl
    · right; exact ⟨c, List.mem_cons_of_mem a hc, h⟩

theorem subpixel_limits_range (o : Int) (v : ℚ) (blk_size dim : Nat) (x : Int)
    (hx : x ∈ forRange (subpixel_limits o v blk_size dim).1 (subpixel_limits o v blk_size dim).2) :
    -3 ≤ x ∧ x ≤ 3 := by
  rw [mem_forRange] at hx
  unfold subpixel_limits at hx
  simp only [] at hx
  split_ifs at hx <;> omega

/-- The refined vector of a block is its input vector plus a quarter-pixel offset
`(i/4, j/4)` with `-3 <= i, j <= 3`. -/
theorem subpixel_refine_offset (current previous : Mat) (blk_size bx by_ : Nat)
    (integer_vec : Vec2f) :
    ∃ i j : Int, (-3 ≤ i ∧ i ≤ 3) ∧ (-3 ≤ j ∧ j ≤ 3) ∧
      (subpixel_refine current previous blk_size bx by_ integer_vec).2
        = (integer_vec.1 + (i : ℚ) / 4, integer_vec.2 + (j : ℚ) / 4) := by
  unfold subpixel_refine
  simp only []
  rw [foldl_nested_eq (fun (st : Int × Vec2f) (x y : Int) =>
    subpixel_step current previous blk_size ((bx : Int) * (blk_size : Int))
      ((by_ : Int) * (blk_size : Int)) integer_vec st x y)]
  rcases subpixel_scan_cases current previous blk_size ((bx : Int) * (blk_size : Int))
      ((by_ : Int) * (blk_size : Int)) integer_vec
      ((forRange
          (subpixel_limits ((by_ : Int) * (blk_size : Int)) integer_vec.2 blk_size
            previous.rows).1
          (subpixel_limits ((by_ : Int) * (blk_size : Int)) integer_vec.2 blk_size
            previous.rows).2).flatMap
        (fun (y : Int) =>
          (forRange
            (subpixel_limits ((bx : Int) * (blk_size : Int)) integer_vec.1 blk_size
              previous.cols).1
            (subpixel_limits ((bx : Int) * (blk_size : Int)) integer_vec.1 blk_size
              previous.cols).2).map (fun (x : Int) => (x, y))))
      (10000000, integer_vec) with h | ⟨c, hc, h⟩
  · rw [h]
    exact ⟨0, 0, by omega, by omega, by simp⟩
  · rw [h]
    rw [mem_product] at hc
    refine ⟨c.1, c.2, subpixel_limits_range _ _ _ _ _ hc.1,
      subpixel_limits_range _ _ _ _ _ hc.2, ?_⟩
    congr 1 <;> ring

/-- A loop over the first `n` raster indices in which step `i` rewrites slot `i`
from its own content keeps the length of the field and maps every slot below `n`. -/
theorem slot_fold (G : Nat → Vec2f → Vec2f) (n : Nat) (motion : List Vec2f) :
    ((List.range n).foldl (fun (m : List Vec2f) (i : Nat) => m.set i (G i (m.getD i (0, 0))))
        motion).length = motion.length ∧
    ∀ k, ((List.range n).foldl
        (fun (m : List Vec2f) (i : Nat) => m.set i (G i (m.getD i (0, 0)))) motion)[k]?
      = if k < n then (motion[k]?).map (G k) else motion[k]? := by
  induction n with
  | zero => simp
  | succ n ih =>
    obtain ⟨il, ik⟩ := ih
    rw [List.range_succ, List.foldl_append]
    simp only [List.foldl_cons, List.foldl_nil]
    refine ⟨by rw [List.length_set, il], ?_⟩
    intro k
    rw [List.getElem?_set]
    by_cases hkn : n = k
    · subst hkn
      rw [if_pos rfl, if_pos (Nat.lt_succ_self n), il]
      have hn := ik n
      rw [if_neg (Nat.lt_irrefl n)] at hn
      by_cases hl : n < motion.length
      · rw [if_pos hl, List.getD_eq_getElem?_getD, hn, List.getElem?_eq_getElem hl]
        rfl
      · rw [if_neg hl, List.getElem?_eq_none (by omega)]
        rfl
    · rw [if_neg hkn, ik k]
      by_cases hk : k < n
      · rw [if_pos hk, if_pos (by omega)]
      · rw [if_neg hk, if_neg (by omega)]

/-- The block loops of `subpixel_search` as one loop over the raster index. -/
theorem subpixel_search_eq_range (current previous : Mat) (blk_size : Nat)
    (motion : List Vec2f) :
    subpixel_search current previous blk_size motion
      = (List.range (current.rows / blk_size * (current.cols / blk_size))).foldl
          (fun (m : List Vec2f) (i : Nat) =>
            m.set i ((subpixel_refine current previous blk_size
              (i % (current.cols / blk_size)) (i / (current.cols / blk_size))
              (m.getD i (0, 0))).2))
          motion := by
  unfold subpixel_search
  simp only []
  rw [foldl_nested_eq (fun (m : List Vec2f) (bx by_ : Nat) =>
      subpixel_block current previous blk_size m bx by_),
    raster_eq_range (fun (x y : Nat) => (x, y)), List.foldl_map]
  apply List.foldl_ext
  intro m i _
  unfold subpixel_block
  simp only []
  have e0 : i / (current.cols / blk_size) * (current.cols / blk_size)
      + i % (current.cols / blk_size) = i := by
    rw [Nat.mul_comm]; exact Nat.div_add_mod i _
  rw [e0]

/-- The vector of block `(bx, by)` after `subpixel_search` is the refinement of the
vector the block had before. -/
theorem subpixel_search_getElem? (current previous : Mat) (blk_size : Nat)
    (motion : List Vec2f) (bx by_ : Nat)
    (hbx : bx < current.cols / blk_size) (hby : by_ < current.rows / blk_size) :
    (subpixel_search current previous blk_size motion)[by_ * (current.cols / blk_size) + bx]?
      = (motion[by_ * (current.cols / blk_size) + bx]?).map (fun (v : Vec2f) =>
          (subpixel_refine current previous blk_size bx by_ v).2) := by
  rw [subpixel_search_eq_range]
  have h := (slot_fold (fun (i : Nat) (v : Vec2f) =>
      (subpixel_refine current previous blk_size
        (i % (current.cols / blk_size)) (i / (current.cols / blk_size)) v).2)
    (current.rows / blk_size * (current.cols / blk_size)) motion).2
    (by_ * (current.cols / blk_size) + bx)
  have hlt : by_ * (current.cols / blk_size) + bx
      < current.rows / blk_size * (current.cols / blk_size) := by
    have : (by_ + 1) * (current.cols / blk_size)
        ≤ current.rows / blk_size * (current.cols / blk_size) :=
      Nat.mul_le_mul_right _ hby
    rw [Nat.succ_mul] at this
    omega
  rw [if_pos hlt] at h
  obtain ⟨u1, u2⟩ := raster_index_unique (current.cols / blk_size)
    (by_ * (current.cols / blk_size) + bx) bx by_ hbx rfl
  rw [u1, u2] at h
  exact h

theorem subpixel_search_length (current previous : Mat) (blk_size : Nat)
    (motion : List Vec2f) :
    (subpixel_search current previous blk_size motion).length = motion.length := by
  rw [subpixel_search_eq_range]
  exact (slot_fold (fun (i : Nat) (v : Vec2f) =>
      (subpixel_refine current previous blk_size
        (i % (current.cols / blk_size)) (i / (current.cols / blk_size)) v).2)
    (current.rows / blk_size * (current.cols / blk_size)) motion).1

/-- C19: for every block, the vector written by `subpixel_search` equals the input
vector of the block plus `(i/4, j/4)` for some integers `i, j` with `-3 <= i, j <= 3`,
so each component changes by a multiple of 0.25 of magnitude at most 0.75; the
length of the field is unchanged. -/
theorem subpixel_search_offsets (current previous : Mat) (blk_size : Nat)
    (motion : List Vec2f) :
    (subpixel_search current previous blk_size motion).length = motion.length ∧
    ∀ bx by_ v, bx < current.cols / blk_size → by_ < current.rows / blk_size →
      motion[by_ * (current.cols / blk_size) + bx]? = some v →
      ∃ i j : Int, (-3 ≤ i ∧ i ≤ 3) ∧ (-3 ≤ j ∧ j ≤ 3) ∧
        (subpixel_search current previous blk_size motion)[
            by_ * (current.cols / blk_size) + bx]?
          = some (v.1 + (i : ℚ) / 4, v.2 + (j : ℚ) / 4) ∧
        |(i : ℚ) / 4| ≤ 3 / 4 ∧ |(j : ℚ) / 4| ≤ 3 / 4 := by
  refine ⟨subpixel_search_length current previous blk_size motion, ?_⟩
  intro bx by_ v hbx hby hv
  obtain ⟨i, j, hi, hj, h⟩ := subpixel_refine_offset current previous blk_size bx by_ v
  refine ⟨i, j, hi, hj, ?_, ?_, ?_⟩
  · rw [subpixel_search_getElem? current previous blk_size motion bx by_ hbx hby, hv]
    simp only [Option.map_some']
    rw [h]
  · rw [abs_le]
    have h1 : (-3 : ℚ) ≤ (i : ℚ) := by exact_mod_cast hi.1
    have h2 : (i : ℚ) ≤ 3 := by exact_mod_cast hi.2
    constructor <;> linarith
  · rw [abs_le]
    have h1 : (-3 : ℚ) ≤ (j : ℚ) := by exact_mod_cast hj.1
    have h2 : (j : ℚ) ≤ 3 := by exact_mod_cast hj.2
    constructor <;> linarith

/-- C20 (code bug): `is_valid` tests `sx + blk_size < img.cols` and
`sy + blk_size < img.rows` (pmvfast.cc:357-358), so it accepts a location exactly
when `sx >= 0`, `sy >= 0`, `sx+blk < width` and `sy+blk < height`.  In the 4x4 frame
with block size 2 the block at `(2, 0)` occupies columns 2..3 and the block at
`(0, 2)` rows 2..3, inside the frame (`sx+blk <= width`, `sy+blk <= height`), and both
are rejected; `fullsearch` evaluates both locations. -/
theorem is_valid_rejects_edge_block :
    (∀ (sx sy : ℚ) (blk_size : Nat) (img : Mat),
      is_valid sx sy blk_size img = true ↔
        (sx ≥ 0 ∧ sy ≥ 0 ∧ sx + (blk_size : ℚ) < (img.cols : ℚ)
          ∧ sy + (blk_size : ℚ) < (img.rows : ℚ))) ∧
    is_valid 2 0 2 (textured 4) = false ∧
    is_valid 0 2 2 (textured 4) = false ∧
    ((2 : ℚ) + ((2 : Nat) : ℚ) ≤ (((textured 4).cols : Nat) : ℚ)) ∧
    ((2 : Int), (0 : Int)) ∈ fullsearch_candidates (textured 4) 2 1 0 ∧
    ((0 : Int), (2 : Int)) ∈ fullsearch_candidates (textured 4) 2 0 1 := by
  refine ⟨?_, by decide!, by decide!, by decide!, by decide, by decide⟩
  intro sx sy blk_size img
  unfold is_valid
  rw [decide_eq_true_iff]


/-! ## Folds that keep a strict minimum -/

/-- First alternative of a strict-minimum fold: the state is left unchanged, or it
ends on an accepted element. -/
theorem min_fold_cases {σ α β : Type} (step : σ → α → σ) (cost : σ → Int) (pay : σ → β)
    (valid : α → Prop) (f : α → Int) (g : α → β)
    (hacc : ∀ st c, valid c → f c < cost st → cost (step st c) = f c ∧ pay (step st c) = g c)
    (hrej : ∀ st c, ¬ (valid c ∧ f c < cost st) → step st c = st)
    (l : List α) (st : σ) :
    l.foldl step st = st ∨
      ∃ c ∈ l, valid c ∧ f c < cost st ∧ cost (l.foldl step st) = f c
        ∧ pay (l.foldl step st) = g c := by
  induction l generalizing st with
  | nil => left; rfl
  | cons a t ih =>
    simp only [List.foldl_cons]
    by_cases ha : valid a ∧ f a < cost st
    · obtain ⟨e1, e2⟩ := hacc st a ha.1 ha.2
      rcases ih (step st a) with h | ⟨c, hc, hv, hlt, h1, h2⟩
      · right
        refine ⟨a, List.mem_cons_self a t, ha.1, ha.2, ?_, ?_⟩
        · rw [h]; exact e1
        · rw [h]; exact e2
      · right
        refine ⟨c, List.mem_cons_of_mem a hc, hv, ?_, h1, h2⟩
        rw [e1] at hlt
        exact lt_trans hlt ha.2
    · rw [hrej st a ha]
      rcases ih st with h | ⟨c, hc, hv, hlt, h1, h2⟩
      · left; exact h
      · right; exact ⟨c, List.mem_cons_of_mem a hc, hv, hlt, h1, h2⟩

/-- The cost kept by a strict-minimum fold is a lower bound of the initial cost and
of the cost of every valid element. -/
theorem min_fold_le {σ α β : Type} (step : σ → α → σ) (cost : σ → Int) (pay : σ → β)
    (valid : α → Prop) (f : α → Int) (g : α → β)
    (hacc : ∀ st c, valid c → f c < cost st → cost (step st c) = f c ∧ pay (step st c) = g c)
    (hrej : ∀ st c, ¬ (valid c ∧ f c < cost st) → step st c = st)
    (l : List α) (st : σ) :
    cost (l.foldl step st) ≤ cost st ∧ ∀ c ∈ l, valid c → cost (l.foldl step st) ≤ f c := by
  induction l generalizing st with
  | nil => simp
  | cons a t ih =>
    simp only [List.foldl_cons]
    obtain ⟨h1, h2⟩ := ih (step st a)
    have hs : cost (step st a) ≤ cost st ∧ (valid a → cost (step st a) ≤ f a) := by
      by_cases ha : valid a ∧ f a < cost st
      · obtain ⟨e1, _⟩ := hacc st a ha.1 ha.2
        rw [e1]
        exact ⟨le_of_lt ha.2, fun _ => le_refl _⟩
      · rw [hrej st a ha]
        refine ⟨le_refl _, fun hv => ?_⟩
        by_contra hcon
        exact ha ⟨hv, not_le.mp hcon⟩
    refine ⟨le_trans h1 hs.1, ?_⟩
    intro c hc hv
    rcases List.mem_cons.mp hc with rfl | hc
    · exact le_trans h1 (hs.2 hv)
    · exact h2 c hc hv

/-- A state whose cost is a lower bound of the costs of the valid elements is left
unchanged. -/
theorem min_fold_fixed {σ α : Type} (step : σ → α → σ) (cost : σ → Int)
    (valid : α → Prop) (f : α → Int)
    (hrej : ∀ st c, ¬ (valid c ∧ f c < cost st) → step st c = st)
    (l : List α) (st : σ) (h : ∀ c ∈ l, valid c → cost st ≤ f c) :
    l.foldl step st = st := by
  induction l generalizing st with
  | nil => rfl
  | cons a t ih =>
    simp only [List.foldl_cons]
    have e : step st a = st := by
      apply hrej
      rintro ⟨hv, hlt⟩
      have := h a (List.mem_cons_self a t) hv
      omega
    rw [e]
    exact ih st (fun c hc hv => h c (List.mem_cons_of_mem a hc) hv)

/-- The first valid element of minimum cost, when its cost is below the initial
cost, is the element a strict-minimum fold ends on. -/
theorem min_fold_first {σ α β : Type} (step : σ → α → σ) (cost : σ → Int) (pay : σ → β)
    (valid : α → Prop) (f : α → Int) (g : α → β)
    (hacc : ∀ st c, valid c → f c < cost st → cost (step st c) = f c ∧ pay (step st c) = g c)
    (hrej : ∀ st c, ¬ (valid c ∧ f c < cost st) → step st c = st)
    (l1 l2 : List α) (c : α) (st : σ) (hv : valid c) (hst : f c < cost st)
    (h1 : ∀ d ∈ l1, valid d → f c < f d) (h2 : ∀ d ∈ l2, valid d → f c ≤ f d) :
    cost ((l1 ++ c :: l2).foldl step st) = f c ∧ pay ((l1 ++ c :: l2).foldl step st) = g c := by
  rw [List.foldl_append, List.foldl_cons]
  have hlt : f c < cost (l1.foldl step st) := by
    rcases min_fold_cases step cost pay valid f g hacc hrej l1 st with h | ⟨d, hd, hdv, _, e, _⟩
    · rw [h]; exact hst
    · rw [e]; exact h1 d hd hdv
  obtain ⟨e1, e2⟩ := hacc (l1.foldl step st) c hv hlt
  rw [min_fold_fixed step cost valid f hrej l2 _ (by rw [e1]; exact h2)]
  exact ⟨e1, e2⟩

/-- A list with a valid element has a first valid element of minimum cost. -/
theorem exists_first_min_valid {α : Type} (valid : α → Prop) (f : α → Int) (l : List α)
    (hne : ∃ c ∈ l, valid c) :
    ∃ c l1 l2, l = l1 ++ c :: l2 ∧ valid c ∧ (∀ d ∈ l1, valid d → f c < f d)
      ∧ (∀ d ∈ l2, valid d → f c ≤ f d) := by
  induction l with
  | nil =>
    obtain ⟨c, hc, _⟩ := hne
    simp at hc
  | cons a t ih =>
    by_cases ht : ∃ c ∈ t, valid c
    · obtain ⟨c, l1, l2, rfl, hv, h1, h2⟩ := ih ht
      by_cases hac : valid a ∧ f a ≤ f c
      · refine ⟨a, [], l1 ++ c :: l2, rfl, hac.1, by simp, ?_⟩
        intro d hd hdv
        rcases List.mem_append.mp hd with hd | hd
        · exact le_trans hac.2 (le_of_lt (h1 d hd hdv))
        · rcases List.mem_cons.mp hd with rfl | hd
          · exact hac.2
          · exact le_trans hac.2 (h2 d hd hdv)
      · refine ⟨c, a :: l1, l2, rfl, hv, ?_, h2⟩
        intro d hd hdv
        rcases List.mem_cons.mp hd with rfl | hd
        · by_contra hcon
          exact hac ⟨hdv, not_lt.mp hcon⟩
        · exact h1 d hd hdv
    · obtain ⟨c, hc, hv⟩ := hne
      rcases List.mem_cons.mp hc with rfl | hc
      · refine ⟨c, [], t, rfl, hv, by simp, ?_⟩
        intro d hd hdv
        exact absurd ⟨d, hd, hdv⟩ ht
      · exact absurd ⟨c, hc, hv⟩ ht

/-! ## Predictor evaluation of pmvfast -/

/-- The predictor loop of `pmvfast` (pmvfast.cc:110-124) keeps a strict minimum over
the in-bounds predictors, starting from `((0,0), 10000)`: an accepted predictor. -/
theorem best_predictor_acc (current previous : Mat) (blk_size : Nat) (ox oy : Int)
    (st : Vec2f × Int) (p : Vec2f)
    (hv : is_valid ((ox : ℚ) + p.1) ((oy : ℚ) + p.2) blk_size previous = true)
    (hlt : SAD current previous ox oy ((ox : ℚ) + p.1) ((oy : ℚ) + p.2) blk_size < st.2) :
    (if is_valid ((ox : ℚ) + p.1) ((oy : ℚ) + p.2) blk_size previous then
        if SAD current previous ox oy ((ox : ℚ) + p.1) ((oy : ℚ) + p.2) blk_size < st.2 then
          (p, SAD current previous ox oy ((ox : ℚ) + p.1) ((oy : ℚ) + p.2) blk_size)
        else st
      else st)
      = (p, SAD current previous ox oy ((ox : ℚ) + p.1) ((oy : ℚ) + p.2) blk_size) := by
  rw [if_pos hv, if_pos hlt]

/-- The predictor loop of `pmvfast`: a rejected predictor leaves the state as it is. -/
theorem best_predictor_rej (current previous : Mat) (blk_size : Nat) (ox oy : Int)
    (st : Vec2f × Int) (p : Vec2f)
    (h : ¬ (is_valid ((ox : ℚ) + p.1) ((oy : ℚ) + p.2) blk_size previous = true
      ∧ SAD current previous ox oy ((ox : ℚ) + p.1) ((oy : ℚ) + p.2) blk_size < st.2)) :
    (if is_valid ((ox : ℚ) + p.1) ((oy : ℚ) + p.2) blk_size previous then
        if SAD current previous ox oy ((ox : ℚ) + p.1) ((oy : ℚ) + p.2) blk_size < st.2 then
          (p, SAD current previous ox oy ((ox : ℚ) + p.1) ((oy : ℚ) + p.2) blk_size)
        else st
      else st) = st := by
  split_ifs with h1 h2
  · exact absurd ⟨h1, h2⟩ h
  · rfl
  · rfl

/-- When no in-bounds predictor has a SAD below 10000, the predictor loop returns
its initial state `((0,0), 10000)`. -/
theorem best_predictor_none (current previous : Mat) (blk_size : Nat) (ox oy : Int)
    (predictors : List Vec2f)
    (h : ∀ p ∈ predictors, is_valid ((ox : ℚ) + p.1) ((oy : ℚ) + p.2) blk_size previous = true →
      10000 ≤ SAD current previous ox oy ((ox : ℚ) + p.1) ((oy : ℚ) + p.2) blk_size) :
    pmvfast_best_predictor current previous blk_size ox oy predictors = ((0, 0), 10000) := by
  unfold pmvfast_best_predictor
  exact min_fold_fixed _ Prod.snd
    (fun (p : Vec2f) => is_valid ((ox : ℚ) + p.1) ((oy : ℚ) + p.2) blk_size previous = true)
    (fun (p : Vec2f) => SAD current previous ox oy ((ox : ℚ) + p.1) ((oy : ℚ) + p.2) blk_size)
    (fun st p hp => best_predictor_rej current previous blk_size ox oy st p hp)
    predictors ((0, 0), 10000) h

/-- The first in-bounds predictor of minimum SAD, when that SAD is below 10000, is
what the predictor loop returns. -/
theorem best_predictor_first (current previous : Mat) (blk_size : Nat) (ox oy : Int)
    (l1 l2 : List Vec2f) (p : Vec2f)
    (hv : is_valid ((ox : ℚ) + p.1) ((oy : ℚ) + p.2) blk_size previous = true)
    (hlt : SAD current previous ox oy ((ox : ℚ) + p.1) ((oy : ℚ) + p.2) blk_size < 10000)
    (h1 : ∀ q ∈ l1, is_valid ((ox : ℚ) + q.1) ((oy : ℚ) + q.2) blk_size previous = true →
      SAD current previous ox oy ((ox : ℚ) + p.1) ((oy : ℚ) + p.2) blk_size
        < SAD current previous ox oy ((ox : ℚ) + q.1) ((oy : ℚ) + q.2) blk_size)
    (h2 : ∀ q ∈ l2, is_valid ((ox : ℚ) + q.1) ((oy : ℚ) + q.2) blk_size previous = true →
      SAD current previous ox oy ((ox : ℚ) + p.1) ((oy : ℚ) + p.2) blk_size
        ≤ SAD current previous ox oy ((ox : ℚ) + q.1) ((oy : ℚ) + q.2) blk_size) :
    pmvfast_best_predictor current previous blk_size ox oy (l1 ++ p :: l2)
      = (p, SAD current previous ox oy ((ox : ℚ) + p.1) ((oy : ℚ) + p.2) blk_size) := by
  unfold pmvfast_best_predictor
  have h := min_fold_first _ Prod.snd Prod.fst
    (fun (p : Vec2f) => is_valid ((ox : ℚ) + p.1) ((oy : ℚ) + p.2) blk_size previous = true)
    (fun (p : Vec2f) => SAD current previous ox oy ((ox : ℚ) + p.1) ((oy : ℚ) + p.2) blk_size)
    (fun (p : Vec2f) => p)
    (fun st q hq hlt => by
      rw [best_predictor_acc current previous blk_size ox oy st q hq hlt]
      exact ⟨rfl, rfl⟩)
    (fun st q hq => best_predictor_rej current previous blk_size ox oy st q hq)
    l1 l2 p ((0, 0), 10000) hv hlt h1 h2
  exact Prod.ext h.2 h.1

/-- The state returned by the predictor loop is its initial state or an in-bounds
predictor with its SAD, which is below 10000. -/
theorem best_predictor_cases (current previous : Mat) (blk_size : Nat) (ox oy : Int)
    (predictors : List Vec2f) :
    pmvfast_best_predictor current previous blk_size ox oy predictors = ((0, 0), 10000) ∨
      ∃ p ∈ predictors, is_valid ((ox : ℚ) + p.1) ((oy : ℚ) + p.2) blk_size previous = true
        ∧ SAD current previous ox oy ((ox : ℚ) + p.1) ((oy : ℚ) + p.2) blk_size < 10000
        ∧ pmvfast_best_predictor current previous blk_size ox oy predictors
          = (p, SAD current previous ox oy ((ox : ℚ) + p.1) ((oy : ℚ) + p.2) blk_size) := by
  unfold pmvfast_best_predictor
  rcases min_fold_cases _ Prod.snd Prod.fst
    (fun (p : Vec2f) => is_valid ((ox : ℚ) + p.1) ((oy : ℚ) + p.2) blk_size previous = true)
    (fun (p : Vec2f) => SAD current previous ox oy ((ox : ℚ) + p.1) ((oy : ℚ) + p.2) blk_size)
    (fun (p : Vec2f) => p)
    (fun st q hq hlt => by
      rw [best_predictor_acc current previous blk_size ox oy st q hq hlt]
      exact ⟨rfl, rfl⟩)
    (fun st q hq => best_predictor_rej current previous blk_size ox oy st q hq)
    predictors ((0, 0), 10000) with h | ⟨p, hp, hv, hlt, e1, e2⟩
  · left; exact h
  · right; exact ⟨p, hp, hv, hlt, Prod.ext e2 e1⟩

/-- C21, as the code has it: the predictor loop of `pmvfast` (pmvfast.cc:110-124)
starts from `best_predictor = (0,0)`, `min_sad = 10000` and accepts an in-bounds
predictor only on a SAD strictly below `min_sad`. When no in-bounds predictor has a
SAD below 10000 (in particular when none is in bounds) the result is `(0,0)` with
`min_sad = 10000`; when some in-bounds predictor has a SAD below 10000 the result is
the first in-bounds predictor of minimum SAD among the in-bounds ones, with that
SAD. -/
theorem pmvfast_best_predictor_below_sentinel (current previous : Mat) (blk_size : Nat)
    (ox oy : Int) (predictors : List Vec2f) :
    ((∀ p ∈ predictors, is_valid ((ox : ℚ) + p.1) ((oy : ℚ) + p.2) blk_size previous = true →
        10000 ≤ SAD current previous ox oy ((ox : ℚ) + p.1) ((oy : ℚ) + p.2) blk_size) →
      pmvfast_best_predictor current previous blk_size ox oy predictors = ((0, 0), 10000)) ∧
    ((∃ p ∈ predictors, is_valid ((ox : ℚ) + p.1) ((oy : ℚ) + p.2) blk_size previous = true
        ∧ SAD current previous ox oy ((ox : ℚ) + p.1) ((oy : ℚ) + p.2) blk_size < 10000) →
      ∃ p l1 l2, predictors = l1 ++ p :: l2
        ∧ is_valid ((ox : ℚ) + p.1) ((oy : ℚ) + p.2) blk_size previous = true
        ∧ (∀ q ∈ l1, is_valid ((ox : ℚ) + q.1) ((oy : ℚ) + q.2) blk_size previous = true →
            SAD current previous ox oy ((ox : ℚ) + p.1) ((oy : ℚ) + p.2) blk_size
              < SAD current previous ox oy ((ox : ℚ) + q.1) ((oy : ℚ) + q.2) blk_size)
        ∧ (∀ q ∈ l2, is_valid ((ox : ℚ) + q.1) ((oy : ℚ) + q.2) blk_size previous = true →
            SAD current previous ox oy ((ox : ℚ) + p.1) ((oy : ℚ) + p.2) blk_size
              ≤ SAD current previous ox oy ((ox : ℚ) + q.1) ((oy : ℚ) + q.2) blk_size)
        ∧ pmvfast_best_predictor current previous blk_size ox oy predictors
            = (p, SAD current previous ox oy ((ox : ℚ) + p.1) ((oy : ℚ) + p.2) blk_size)) := by
  refine ⟨best_predictor_none current previous blk_size ox oy predictors, ?_⟩
  rintro ⟨p0, hp0, hv0, hlt0⟩
  obtain ⟨p, l1, l2, rfl, hv, h1, h2⟩ := exists_first_min_valid
    (fun (p : Vec2f) => is_valid ((ox : ℚ) + p.1) ((oy : ℚ) + p.2) blk_size previous = true)
    (fun (p : Vec2f) => SAD current previous ox oy ((ox : ℚ) + p.1) ((oy : ℚ) + p.2) blk_size)
    _ ⟨p0, hp0, hv0⟩
  have hle : SAD current previous ox oy ((ox : ℚ) + p.1) ((oy : ℚ) + p.2) blk_size
      ≤ SAD current previous ox oy ((ox : ℚ) + p0.1) ((oy : ℚ) + p0.2) blk_size := by
    rcases List.mem_append.mp hp0 with h | h
    · exact le_of_lt (h1 p0 h hv0)
    · rcases List.mem_cons.mp h with rfl | h
      · exact le_refl _
      · exact h2 p0 h hv0
  exact ⟨p, l1, l2, rfl, hv, h1, h2,
    best_predictor_first current previous blk_size ox oy l1 l2 p hv (lt_of_le_of_lt hle hlt0) h1 h2⟩

set_option maxRecDepth 100000 in
/-- C21 fails as stated: on `bright24` (all 255) against `dark24` (0 but for one
pixel), block size 8, the first block gets the vector `(2,0)`; for the second block
this is the only predictor, it is in bounds and its SAD is 16320, yet the predictor
loop returns `best_predictor = (0,0)` with `min_sad = 10000`. -/
theorem best_predictor_misses_in_bounds_predictor :
    pmvfast_upto bright24 dark24 8 1
        = some ((2, 0) :: List.replicate 8 ((0, 0) : Vec2f)) ∧
    pmvfast_predictors ((2, 0) :: List.replicate 8 ((0, 0) : Vec2f)) (bright24.cols / 8) 1 0
        = [(2, 0)] ∧
    is_valid (8 + 2) (0 + 0) 8 dark24 = true ∧
    SAD bright24 dark24 8 0 (8 + 2) (0 + 0) 8 = 16320 ∧
    pmvfast_best_predictor bright24 dark24 8 8 0 [(2, 0)] = ((0, 0), 10000) := by
  decide!

/-! ## Rounds of the diamond searches -/

/-- The candidate loop of a round keeps a strict minimum over the in-bounds
candidates of the worklist: its result is the state it started from or an accepted
candidate, and its SAD is a lower bound of the SAD of every in-bounds candidate of
the worklist. -/
theorem diamond_eval_spec (current previous : Mat) (blk_size : Nat) (ox oy : Int)
    (search_mv : List Vec2f) (candidate_pos : List Nat) (st : Nat × Int) :
    (diamond_eval current previous blk_size ox oy search_mv candidate_pos st = st ∨
      ∃ d ∈ candidate_pos,
        is_valid ((ox : ℚ) + (search_mv.getD d (0, 0)).1) ((oy : ℚ) + (search_mv.getD d (0, 0)).2)
          blk_size previous = true
        ∧ SAD current previous ox oy ((ox : ℚ) + (search_mv.getD d (0, 0)).1)
            ((oy : ℚ) + (search_mv.getD d (0, 0)).2) blk_size < st.2
        ∧ (diamond_eval current previous blk_size ox oy search_mv candidate_pos st).2
            = SAD current previous ox oy ((ox : ℚ) + (search_mv.getD d (0, 0)).1)
                ((oy : ℚ) + (search_mv.getD d (0, 0)).2) blk_size
        ∧ (diamond_eval current previous blk_size ox oy search_mv candidate_pos st).1 = d) ∧
    (diamond_eval current previous blk_size ox oy search_mv candidate_pos st).2 ≤ st.2 ∧
    ∀ k ∈ candidate_pos,
      is_valid ((ox : ℚ) + (search_mv.getD k (0, 0)).1) ((oy : ℚ) + (search_mv.getD k (0, 0)).2)
        blk_size previous = true →
      (diamond_eval current previous blk_size ox oy search_mv candidate_pos st).2
        ≤ SAD current previous ox oy ((ox : ℚ) + (search_mv.getD k (0, 0)).1)
            ((oy : ℚ) + (search_mv.getD k (0, 0)).2) blk_size := by
  have hacc : ∀ (st : Nat × Int) (c : Nat),
      is_valid ((ox : ℚ) + (search_mv.getD c (0, 0)).1) ((oy : ℚ) + (search_mv.getD c (0, 0)).2)
        blk_size previous = true →
      SAD current previous ox oy ((ox : ℚ) + (search_mv.getD c (0, 0)).1)
        ((oy : ℚ) + (search_mv.getD c (0, 0)).2) blk_size < st.2 →
      ((fun (st : Nat × Int) (cand_no : Nat) =>
          let v := search_mv.getD cand_no (0, 0)
          if is_valid ((ox : ℚ) + v.1) ((oy : ℚ) + v.2) blk_size previous then
            let bdm := SAD current previous ox oy ((ox : ℚ) + v.1) ((oy : ℚ) + v.2) blk_size
            if bdm < st.2 then (cand_no, bdm) else st
          else st) st c).2
        = SAD current previous ox oy ((ox : ℚ) + (search_mv.getD c (0, 0)).1)
            ((oy : ℚ) + (search_mv.getD c (0, 0)).2) blk_size
      ∧ ((fun (st : Nat × Int) (cand_no : Nat) =>
          let v := search_mv.getD cand_no (0, 0)
          if is_valid ((ox : ℚ) + v.1) ((oy : ℚ) + v.2) blk_size previous then
            let bdm := SAD current previous ox oy ((ox : ℚ) + v.1) ((oy : ℚ) + v.2) blk_size
            if bdm < st.2 then (cand_no, bdm) else st
          else st) st c).1 = c := by
    intro st c hv hlt
    simp only [hv, hlt, if_true, and_self]
  have hrej : ∀ (st : Nat × Int) (c : Nat),
      ¬ (is_valid ((ox : ℚ) + (search_mv.getD c (0, 0)).1)
          ((oy : ℚ) + (search_mv.getD c (0, 0)).2) blk_size previous = true
        ∧ SAD current previous ox oy ((ox : ℚ) + (search_mv.getD c (0, 0)).1)
          ((oy : ℚ) + (search_mv.getD c (0, 0)).2) blk_size < st.2) →
      (fun (st : Nat × Int) (cand_no : Nat) =>
          let v := search_mv.getD cand_no (0, 0)
          if is_valid ((ox : ℚ) + v.1) ((oy : ℚ) + v.2) blk_size previous then
            let bdm := SAD current previous ox oy ((ox : ℚ) + v.1) ((oy : ℚ) + v.2) blk_size
            if bdm < st.2 then (cand_no, bdm) else st
          else st) st c = st := by
    intro st c h
    simp only []
    split_ifs with h1 h2
    · exact absurd ⟨h1, h2⟩ h
    · rfl
    · rfl
  unfold diamond_eval
  refine ⟨?_, ?_⟩
  · rcases min_fold_cases _ Prod.snd Prod.fst
      (fun (c : Nat) => is_valid ((ox : ℚ) + (search_mv.getD c (0, 0)).1)
        ((oy : ℚ) + (search_mv.getD c (0, 0)).2) blk_size previous = true)
      (fun (c : Nat) => SAD current previous ox oy ((ox : ℚ) + (search_mv.getD c (0, 0)).1)
        ((oy : ℚ) + (search_mv.getD c (0, 0)).2) blk_size)
      (fun (c : Nat) => c) hacc hrej candidate_pos st with h | ⟨d, hd, hv, hlt, e1, e2⟩
    · left; exact h
    · right; exact ⟨d, hd, hv, hlt, e1, e2⟩
  · exact min_fold_le _ Prod.snd Prod.fst
      (fun (c : Nat) => is_valid ((ox : ℚ) + (search_mv.getD c (0, 0)).1)
        ((oy : ℚ) + (search_mv.getD c (0, 0)).2) blk_size previous = true)
      (fun (c : Nat) => SAD current previous ox oy ((ox : ℚ) + (search_mv.getD c (0, 0)).1)
        ((oy : ℚ) + (search_mv.getD c (0, 0)).2) blk_size)
      (fun (c : Nat) => c) hacc hrej candidate_pos st

/-- A round that goes on has moved the centre to an in-bounds candidate `d != 0` of
the worklist whose SAD is strictly below the best SAD so far and not above the SAD
of any in-bounds candidate of the worklist; the next worklist is `next d`. -/
theorem diamond_round_moves (pattern : Vec2f → List Vec2f) (next : Nat → List Nat)
    (current previous : Mat) (blk_size : Nat) (ox oy : Int) (mv_block_index : Nat)
    (s s' : DiamondState)
    (h : diamond_round pattern next current previous blk_size ox oy mv_block_index s
      = Sum.inl s') :
    ∃ d ∈ s.candidate_pos, d ≠ 0
      ∧ is_valid ((ox : ℚ) + ((pattern (s.mv.getD mv_block_index (0, 0))).getD d (0, 0)).1)
          ((oy : ℚ) + ((pattern (s.mv.getD mv_block_index (0, 0))).getD d (0, 0)).2)
          blk_size previous = true
      ∧ SAD current previous ox oy
          ((ox : ℚ) + ((pattern (s.mv.getD mv_block_index (0, 0))).getD d (0, 0)).1)
          ((oy : ℚ) + ((pattern (s.mv.getD mv_block_index (0, 0))).getD d (0, 0)).2) blk_size
          < s.best_sad
      ∧ s'.best_sad = SAD current previous ox oy
          ((ox : ℚ) + ((pattern (s.mv.getD mv_block_index (0, 0))).getD d (0, 0)).1)
          ((oy : ℚ) + ((pattern (s.mv.getD mv_block_index (0, 0))).getD d (0, 0)).2) blk_size
      ∧ s'.mv = s.mv.set mv_block_index
          ((pattern (s.mv.getD mv_block_index (0, 0))).getD d (0, 0))
      ∧ s'.candidate_pos = next d
      ∧ ∀ k ∈ s.candidate_pos,
          is_valid ((ox : ℚ) + ((pattern (s.mv.getD mv_block_index (0, 0))).getD k (0, 0)).1)
            ((oy : ℚ) + ((pattern (s.mv.getD mv_block_index (0, 0))).getD k (0, 0)).2)
            blk_size previous = true →
          s'.best_sad ≤ SAD current previous ox oy
            ((ox : ℚ) + ((pattern (s.mv.getD mv_block_index (0, 0))).getD k (0, 0)).1)
            ((oy : ℚ) + ((pattern (s.mv.getD mv_block_index (0, 0))).getD k (0, 0)).2)
            blk_size := by
  unfold diamond_round at h
  simp only [] at h
  split_ifs at h with h0
  have hs := Sum.inl.inj h
  obtain ⟨hc, _, hle⟩ := diamond_eval_spec current previous blk_size ox oy
    (pattern (s.mv.getD mv_block_index (0, 0))) s.candidate_pos (0, s.best_sad)
  rcases hc with hc | ⟨d, hd, hv, hlt, e1, e2⟩
  · rw [hc] at h0
    exact absurd rfl h0
  · refine ⟨d, hd, ?_, hv, hlt, ?_, ?_, ?_, ?_⟩
    · rw [← e2]; exact h0
    · rw [← hs]; exact e1
    · rw [← hs, e2]
    · rw [← hs, e2]
    · intro k hk hkv
      rw [← hs]
      exact hle k hk hkv

/-- A round that stops returns the field as it is; the best SAD `e` it ends with is
not above the best SAD it started from nor above the SAD of any in-bounds candidate
of the worklist, and it is the best SAD it started from or the SAD of candidate 0,
which then is in the worklist and in bounds. -/
theorem diamond_round_stops (pattern : Vec2f → List Vec2f) (next : Nat → List Nat)
    (current previous : Mat) (blk_size : Nat) (ox oy : Int) (mv_block_index : Nat)
    (s : DiamondState) (r : List Vec2f)
    (h : diamond_round pattern next current previous blk_size ox oy mv_block_index s
      = Sum.inr r) :
    r = s.mv ∧ ∃ e : Int, e ≤ s.best_sad
      ∧ (∀ k ∈ s.candidate_pos,
          is_valid ((ox : ℚ) + ((pattern (s.mv.getD mv_block_index (0, 0))).getD k (0, 0)).1)
            ((oy : ℚ) + ((pattern (s.mv.getD mv_block_index (0, 0))).getD k (0, 0)).2)
            blk_size previous = true →
          e ≤ SAD current previous ox oy
            ((ox : ℚ) + ((pattern (s.mv.getD mv_block_index (0, 0))).getD k (0, 0)).1)
            ((oy : ℚ) + ((pattern (s.mv.getD mv_block_index (0, 0))).getD k (0, 0)).2)
            blk_size)
      ∧ (e = s.best_sad ∨
          (0 ∈ s.candidate_pos ∧ e = SAD current previous ox oy
            ((ox : ℚ) + ((pattern (s.mv.getD mv_block_index (0, 0))).getD 0 (0, 0)).1)
            ((oy : ℚ) + ((pattern (s.mv.getD mv_block_index (0, 0))).getD 0 (0, 0)).2)
            blk_size)) := by
  refine ⟨diamond_round_inr _ _ _ _ _ _ _ _ _ _ h, ?_⟩
  unfold diamond_round at h
  simp only [] at h
  split_ifs at h with h0
  obtain ⟨hc, hle0, hle⟩ := diamond_eval_spec current previous blk_size ox oy
    (pattern (s.mv.getD mv_block_index (0, 0))) s.candidate_pos (0, s.best_sad)
  refine ⟨_, hle0, hle, ?_⟩
  rcases hc with hc | ⟨d, hd, _, _, e1, e2⟩
  · left; rw [hc]
  · right
    have hd0 : d = 0 := by rw [← e2]; exact h0
    subst hd0
    exact ⟨hd, e1⟩

/-- Invariants of the loop of a diamond search: a property of the state kept by
every round that goes on holds of the state in which the loop stops. -/
theorem diamond_loop_invariant (pattern : Vec2f → List Vec2f) (next : Nat → List Nat)
    (current previous : Mat) (blk_size : Nat) (ox oy : Int) (mv_block_index : Nat)
    (P : DiamondState → Prop)
    (hstep : ∀ s s', P s →
      diamond_round pattern next current previous blk_size ox oy mv_block_index s = Sum.inl s' →
      P s')
    (fuel : Nat) (s : DiamondState) (r : List Vec2f) (hP : P s)
    (h : diamond_loop pattern next current previous blk_size ox oy mv_block_index fuel s
      = some r) :
    ∃ t, P t ∧
      diamond_round pattern next current previous blk_size ox oy mv_block_index t
        = Sum.inr r := by
  induction fuel generalizing s with
  | zero =>
    unfold diamond_loop at h
    exact absurd h (by simp)
  | succ n ih =>
    unfold diamond_loop at h
    cases hr : diamond_round pattern next current previous blk_size ox oy mv_block_index s with
    | inr r' =>
      rw [hr] at h
      simp only [] at h
      have e : r' = r := Option.some.inj h
      subst e
      exact ⟨s, hP, hr⟩
    | inl s' =>
      rw [hr] at h
      simp only [] at h
      exact ih s' (hstep s s' hP hr) h

/-- Local optimality of a diamond loop started on the full worklist with
`best_sad = 10^7`, for a pattern whose point 0 is the centre and whose transition
table lists, after a move, the pattern points outside the previous pattern: when
the final vector of the block is in bounds, no in-bounds pattern point around it has
a smaller SAD. -/
theorem diamond_loop_local_min (pattern : Vec2f → List Vec2f) (next : Nat → List Nat) (n : Nat)
    (current previous : Mat) (blk_size : Nat) (ox oy : Int) (mv_block_index : Nat)
    (hsz : 255 * ((blk_size : Int) * (blk_size : Int)) < 10000000)
    (H0 : ∀ c, (pattern c).getD 0 (0, 0) = c)
    (H1 : ∀ d, ∀ k ∈ next d, k ≠ 0 ∧ k < n)
    (H2 : ∀ c d k, d ≠ 0 → d < n → k < n → k ∉ next d →
      ∃ m, m < n ∧ (pattern ((pattern c).getD d (0, 0))).getD k (0, 0) = (pattern c).getD m (0, 0))
    (hn : 0 < n) (fuel : Nat) (mv r : List Vec2f) (hidx : mv_block_index < mv.length)
    (h : diamond_loop pattern next current previous blk_size ox oy mv_block_index fuel
      { mv := mv, candidate_pos := List.range n, best_sad := 10000000 } = some r)
    (hv : is_valid ((ox : ℚ) + (r.getD mv_block_index (0, 0)).1)
      ((oy : ℚ) + (r.getD mv_block_index (0, 0)).2) blk_size previous = true) :
    ∀ k, k < n →
      is_valid ((ox : ℚ) + ((pattern (r.getD mv_block_index (0, 0))).getD k (0, 0)).1)
        ((oy : ℚ) + ((pattern (r.getD mv_block_index (0, 0))).getD k (0, 0)).2)
        blk_size previous = true →
      SAD current previous ox oy ((ox : ℚ) + (r.getD mv_block_index (0, 0)).1)
          ((oy : ℚ) + (r.getD mv_block_index (0, 0)).2) blk_size
        ≤ SAD current previous ox oy
          ((ox : ℚ) + ((pattern (r.getD mv_block_index (0, 0))).getD k (0, 0)).1)
          ((oy : ℚ) + ((pattern (r.getD mv_block_index (0, 0))).getD k (0, 0)).2) blk_size := by
  obtain ⟨t, ⟨hl, hwl, hmode⟩, hstop⟩ := diamond_loop_invariant pattern next current previous
    blk_size ox oy mv_block_index
    (fun (s : DiamondState) => mv_block_index < s.mv.length ∧ (∀ k ∈ s.candidate_pos, k < n) ∧
      ((s.candidate_pos = List.range n ∧ s.best_sad = 10000000) ∨
       (0 ∉ s.candidate_pos
        ∧ s.best_sad = SAD current previous ox oy
            ((ox : ℚ) + (s.mv.getD mv_block_index (0, 0)).1)
            ((oy : ℚ) + (s.mv.getD mv_block_index (0, 0)).2) blk_size
        ∧ ∀ k, k < n → k ∉ s.candidate_pos →
            is_valid ((ox : ℚ) + ((pattern (s.mv.getD mv_block_index (0, 0))).getD k (0, 0)).1)
              ((oy : ℚ) + ((pattern (s.mv.getD mv_block_index (0, 0))).getD k (0, 0)).2)
              blk_size previous = true →
            s.best_sad ≤ SAD current previous ox oy
              ((ox : ℚ) + ((pattern (s.mv.getD mv_block_index (0, 0))).getD k (0, 0)).1)
              ((oy : ℚ) + ((pattern (s.mv.getD mv_block_index (0, 0))).getD k (0, 0)).2)
              blk_size)))
    (by
      rintro s s' ⟨hl, hwl, hmode⟩ hr
      obtain ⟨d, hd, hd0, hdv, hdlt, hbest, hmv, hcand, hmin⟩ :=
        diamond_round_moves _ _ _ _ _ _ _ _ _ _ hr
      have hc' : s'.mv.getD mv_block_index (0, 0)
          = (pattern (s.mv.getD mv_block_index (0, 0))).getD d (0, 0) := by
        rw [hmv, List.getD_eq_getElem?_getD, List.getElem?_set_self hl]
        rfl
      refine ⟨by rw [hmv, List.length_set]; exact hl, ?_, Or.inr ⟨?_, ?_, ?_⟩⟩
      · intro k hk
        rw [hcand] at hk
        exact (H1 d k hk).2
      · intro h0
        rw [hcand] at h0
        exact (H1 d 0 h0).1 rfl
      · rw [hc']; exact hbest
      · intro k hk hknot hkv
        rw [hcand] at hknot
        rw [hc'] at hkv ⊢
        obtain ⟨m, hm, hpm⟩ := H2 (s.mv.getD mv_block_index (0, 0)) d k hd0 (hwl d hd) hk hknot
        rw [hpm] at hkv ⊢
        by_cases hmw : m ∈ s.candidate_pos
        · exact hmin m hmw hkv
        · rcases hmode with ⟨hfull, _⟩ | ⟨_, _, hold⟩
          · exact absurd (by rw [hfull]; exact List.mem_range.mpr hm) hmw
          · have := hold m hm hmw hkv
            rw [hbest]
            exact le_trans (le_of_lt hdlt) this)
    fuel _ r ⟨hidx, fun k hk => List.mem_range.mp hk, Or.inl ⟨rfl, rfl⟩⟩ h
  obtain ⟨hr, e, he, hmin, hcase⟩ := diamond_round_stops _ _ _ _ _ _ _ _ _ _ hstop
  subst hr
  have hv0 : is_valid
      ((ox : ℚ) + ((pattern (t.mv.getD mv_block_index (0, 0))).getD 0 (0, 0)).1)
      ((oy : ℚ) + ((pattern (t.mv.getD mv_block_index (0, 0))).getD 0 (0, 0)).2)
      blk_size previous = true := by
    rw [H0]; exact hv
  have hec : e = SAD current previous ox oy ((ox : ℚ) + (t.mv.getD mv_block_index (0, 0)).1)
      ((oy : ℚ) + (t.mv.getD mv_block_index (0, 0)).2) blk_size := by
    rcases hmode with ⟨hfull, hbest⟩ | ⟨h0, hbest, _⟩
    · rcases hcase with he1 | ⟨_, he1⟩
      · exfalso
        have h1 := hmin 0 (by rw [hfull]; exact List.mem_range.mpr hn) hv0
        have h2 := SAD_le current previous ox oy
          ((ox : ℚ) + ((pattern (t.mv.getD mv_block_index (0, 0))).getD 0 (0, 0)).1)
          ((oy : ℚ) + ((pattern (t.mv.getD mv_block_index (0, 0))).getD 0 (0, 0)).2) blk_size
        rw [he1, hbest] at h1
        omega
      · rw [he1, H0]
    · rcases hcase with he1 | ⟨h0', _⟩
      · rw [he1, hbest]
      · exact absurd h0' h0
  intro k hk hkv
  rw [← hec]
  by_cases hkw : k ∈ t.candidate_pos
  · exact hmin k hkw hkv
  · rcases hmode with ⟨hfull, _⟩ | ⟨_, _, hold⟩
    · exact absurd (by rw [hfull]; exact List.mem_range.mpr hk) hkw
    · exact le_trans he (hold k hk hkw hkv)

/-! ## Transition tables of the diamond searches -/

set_option maxHeartbeats 1600000 in
/-- After a move of the large diamond in direction `d`, the worklist `large_next d`
holds exactly the pattern indices whose point around the new centre is not a point
of the pattern around the old centre. -/
theorem large_next_exact (c : Vec2f) (d k : Nat) (hd0 : d ≠ 0) (hd : d < 9) (hk : k < 9) :
    k ∈ large_next d ↔
      (large_search_mv ((large_search_mv c).getD d (0, 0))).getD k (0, 0) ∉ large_search_mv c := by
  obtain ⟨a, b⟩ := c
  interval_cases d
  · exact absurd rfl hd0
  all_goals
    interval_cases k <;>
      simp only [large_search_mv, large_next, List.getD_cons_succ, List.getD_cons_zero,
        List.mem_cons, Prod.mk.injEq, List.mem_nil_iff, List.mem_singleton] <;>
      norm_num [sub_eq_add_neg, add_assoc]

set_option maxHeartbeats 1600000 in
/-- After a move of the small diamond in direction `d`, the worklist `small_next d`
holds exactly the pattern indices whose point around the new centre is not a point
of the pattern around the old centre. -/
theorem small_next_exact (c : Vec2f) (d k : Nat) (hd0 : d ≠ 0) (hd : d < 5) (hk : k < 5) :
    k ∈ small_next d ↔
      (small_search_mv ((small_search_mv c).getD d (0, 0))).getD k (0, 0) ∉ small_search_mv c := by
  obtain ⟨a, b⟩ := c
  interval_cases d
  · exact absurd rfl hd0
  all_goals
    interval_cases k <;>
      simp only [small_search_mv, small_next, List.getD_cons_succ, List.getD_cons_zero,
        List.mem_cons, Prod.mk.injEq, List.mem_nil_iff, List.mem_singleton] <;>
      norm_num [sub_eq_add_neg, add_assoc]

/-- The worklists of the large diamond hold indices `1..8`, each at most once. -/
theorem large_next_range (d : Nat) :
    (large_next d).Nodup ∧ ∀ k ∈ large_next d, k ≠ 0 ∧ k < 9 := by
  unfold large_next
  split <;> decide

/-- The worklists of the small diamond hold indices `1..4`, each at most once. -/
theorem small_next_range (d : Nat) :
    (small_next d).Nodup ∧ ∀ k ∈ small_next d, k ≠ 0 ∧ k < 5 := by
  unfold small_next
  split <;> decide

/-- A member of a list is found at an index below its length. -/
theorem getD_of_mem (l : List Vec2f) (v : Vec2f) (h : v ∈ l) :
    ∃ m, m < l.length ∧ l.getD m (0, 0) = v := by
  obtain ⟨m, hm, e⟩ := List.getElem_of_mem h
  refine ⟨m, hm, ?_⟩
  rw [List.getD_eq_getElem?_getD, List.getElem?_eq_getElem hm, e]
  rfl

/-- C25: the transition tables of both diamond searches are exact.  For the large
(9-point) and the small (5-point) pattern around any centre `c` and every winning
direction `d != 0`, the worklist installed after the centre has moved to point `d`
of the pattern holds exactly the pattern indices `k` whose point around the new
centre is not a point of the pattern around `c` (the old centre included); every
worklist holds indices of the pattern other than 0, without repetition. -/
theorem diamond_tables_exact (c : Vec2f) :
    (∀ d k, d ≠ 0 → d < 9 → k < 9 →
      (k ∈ large_next d ↔
        (large_search_mv ((large_search_mv c).getD d (0, 0))).getD k (0, 0)
          ∉ large_search_mv c)) ∧
    (∀ d, (large_next d).Nodup ∧ ∀ k ∈ large_next d, k ≠ 0 ∧ k < 9) ∧
    (∀ d k, d ≠ 0 → d < 5 → k < 5 →
      (k ∈ small_next d ↔
        (small_search_mv ((small_search_mv c).getD d (0, 0))).getD k (0, 0)
          ∉ small_search_mv c)) ∧
    (∀ d, (small_next d).Nodup ∧ ∀ k ∈ small_next d, k ≠ 0 ∧ k < 5) :=
  ⟨fun d k hd0 hd hk => large_next_exact c d k hd0 hd hk, large_next_range,
    fun d k hd0 hd hk => small_next_exact c d k hd0 hd hk, small_next_range⟩

/-! ## Local optimality of the diamond searches -/

/-- Local optimality of `large_diamond_search`. -/
theorem large_diamond_local_min (current previous : Mat) (blockx blocky blk_size : Nat)
    (mv r : List Vec2f) (hsz : 255 * (blk_size * blk_size) < 10000000)
    (hidx : blocky * (current.cols / blk_size) + blockx < mv.length)
    (h : large_diamond_search current previous blockx blocky blk_size mv = some r)
    (hv : is_valid
      ((((blockx : Int) * (blk_size : Int) : Int) : ℚ)
        + (r.getD (blocky * (current.cols / blk_size) + blockx) (0, 0)).1)
      ((((blocky : Int) * (blk_size : Int) : Int) : ℚ)
        + (r.getD (blocky * (current.cols / blk_size) + blockx) (0, 0)).2)
      blk_size previous = true) :
    ∀ k, k < 9 →
      is_valid
        ((((blockx : Int) * (blk_size : Int) : Int) : ℚ) + ((large_search_mv
          (r.getD (blocky * (current.cols / blk_size) + blockx) (0, 0))).getD k (0, 0)).1)
        ((((blocky : Int) * (blk_size : Int) : Int) : ℚ) + ((large_search_mv
          (r.getD (blocky * (current.cols / blk_size) + blockx) (0, 0))).getD k (0, 0)).2)
        blk_size previous = true →
      SAD current previous ((blockx : Int) * (blk_size : Int)) ((blocky : Int) * (blk_size : Int))
          ((((blockx : Int) * (blk_size : Int) : Int) : ℚ)
            + (r.getD (blocky * (current.cols / blk_size) + blockx) (0, 0)).1)
          ((((blocky : Int) * (blk_size : Int) : Int) : ℚ)
            + (r.getD (blocky * (current.cols / blk_size) + blockx) (0, 0)).2) blk_size
        ≤ SAD current previous ((blockx : Int) * (blk_size : Int))
          ((blocky : Int) * (blk_size : Int))
          ((((blockx : Int) * (blk_size : Int) : Int) : ℚ) + ((large_search_mv
            (r.getD (blocky * (current.cols / blk_size) + blockx) (0, 0))).getD k (0, 0)).1)
          ((((blocky : Int) * (blk_size : Int) : Int) : ℚ) + ((large_search_mv
            (r.getD (blocky * (current.cols / blk_size) + blockx) (0, 0))).getD k (0, 0)).2)
          blk_size := by
  unfold large_diamond_search at h
  exact diamond_loop_local_min large_search_mv large_next 9 current previous blk_size _ _ _
    (by exact_mod_cast hsz) (fun c => rfl) (fun d => (large_next_range d).2)
    (fun c d k hd0 hd hk hnot => by
      have hmem : (large_search_mv ((large_search_mv c).getD d (0, 0))).getD k (0, 0)
          ∈ large_search_mv c := by
        by_contra hcon
        exact hnot ((large_next_exact c d k hd0 hd hk).mpr hcon)
      obtain ⟨m, hm, e⟩ := getD_of_mem _ _ hmem
      exact ⟨m, hm, e.symm⟩)
    (by decide) diamond_fuel mv r hidx h hv

/-- Local optimality of `small_diamond_search`. -/
theorem small_diamond_local_min (current previous : Mat) (blockx blocky blk_size : Nat)
    (mv r : List Vec2f) (hsz : 255 * (blk_size * blk_size) < 10000000)
    (hidx : blocky * (current.cols / blk_size) + blockx < mv.length)
    (h : small_diamond_search current previous blockx blocky blk_size mv = some r)
    (hv : is_valid
      ((((blockx : Int) * (blk_size : Int) : Int) : ℚ)
        + (r.getD (blocky * (current.cols / blk_size) + blockx) (0, 0)).1)
      ((((blocky : Int) * (blk_size : Int) : Int) : ℚ)
        + (r.getD (blocky * (current.cols / blk_size) + blockx) (0, 0)).2)
      blk_size previous = true) :
    ∀ k, k < 5 →
      is_valid
        ((((blockx : Int) * (blk_size : Int) : Int) : ℚ) + ((small_search_mv
          (r.getD (blocky * (current.cols / blk_size) + blockx) (0, 0))).getD k (0, 0)).1)
        ((((blocky : Int) * (blk_size : Int) : Int) : ℚ) + ((small_search_mv
          (r.getD (blocky * (current.cols / blk_size) + blockx) (0, 0))).getD k (0, 0)).2)
        blk_size previous = true →
      SAD current previous ((blockx : Int) * (blk_size : Int)) ((blocky : Int) * (blk_size : Int))
          ((((blockx : Int) * (blk_size : Int) : Int) : ℚ)
            + (r.getD (blocky * (current.cols / blk_size) + blockx) (0, 0)).1)
          ((((blocky : Int) * (blk_size : Int) : Int) : ℚ)
            + (r.getD (blocky * (current.cols / blk_size) + blockx) (0, 0)).2) blk_size
        ≤ SAD current previous ((blockx : Int) * (blk_size : Int))
          ((blocky : Int) * (blk_size : Int))
          ((((blockx : Int) * (blk_size : Int) : Int) : ℚ) + ((small_search_mv
            (r.getD (blocky * (current.cols / blk_size) + blockx) (0, 0))).getD k (0, 0)).1)
          ((((blocky : Int) * (blk_size : Int) : Int) : ℚ) + ((small_search_mv
            (r.getD (blocky * (current.cols / blk_size) + blockx) (0, 0))).getD k (0, 0)).2)
          blk_size := by
  unfold small_diamond_search at h
  exact diamond_loop_local_min small_search_mv small_next 5 current previous blk_size _ _ _
    (by exact_mod_cast hsz) (fun c => rfl) (fun d => (small_next_range d).2)
    (fun c d k hd0 hd hk hnot => by
      have hmem : (small_search_mv ((small_search_mv c).getD d (0, 0))).getD k (0, 0)
          ∈ small_search_mv c := by
        by_contra hcon
        exact hnot ((small_next_exact c d k hd0 hd hk).mpr hcon)
      obtain ⟨m, hm, e⟩ := getD_of_mem _ _ hmem
      exact ⟨m, hm, e.symm⟩)
    (by decide) diamond_fuel mv r hidx h hv

/-- C28: local optimality of the diamond searches.  For a block size with
`255*blk*blk < 10^7` and a block whose slot exists in the field, both
`large_diamond_search` and `small_diamond_search` return, and when the final vector
`v` of the block passes the in-bounds test, no pattern point `p` around `v` (the 8
neighbours of the large pattern, the 4 of the small one) that passes the in-bounds
test has a SAD strictly smaller than the SAD of `v`. -/
theorem diamond_search_local_optimum (current previous : Mat) (blockx blocky blk_size : Nat)
    (mv : List Vec2f) (hsz : 255 * (blk_size * blk_size) < 10000000)
    (hidx : blocky * (current.cols / blk_size) + blockx < mv.length) :
    (∃ r, large_diamond_search current previous blockx blocky blk_size mv = some r ∧
      ∀ v, r.getD (blocky * (current.cols / blk_size) + blockx) (0, 0) = v →
        is_valid ((((blockx : Int) * (blk_size : Int) : Int) : ℚ) + v.1)
          ((((blocky : Int) * (blk_size : Int) : Int) : ℚ) + v.2) blk_size previous = true →
        ∀ k, 1 ≤ k → k ≤ 8 → ∀ p, (large_search_mv v).getD k (0, 0) = p →
          is_valid ((((blockx : Int) * (blk_size : Int) : Int) : ℚ) + p.1)
            ((((blocky : Int) * (blk_size : Int) : Int) : ℚ) + p.2) blk_size previous = true →
          SAD current previous ((blockx : Int) * (blk_size : Int))
              ((blocky : Int) * (blk_size : Int))
              ((((blockx : Int) * (blk_size : Int) : Int) : ℚ) + v.1)
              ((((blocky : Int) * (blk_size : Int) : Int) : ℚ) + v.2) blk_size
            ≤ SAD current previous ((blockx : Int) * (blk_size : Int))
              ((blocky : Int) * (blk_size : Int))
              ((((blockx : Int) * (blk_size : Int) : Int) : ℚ) + p.1)
              ((((blocky : Int) * (blk_size : Int) : Int) : ℚ) + p.2) blk_size) ∧
    (∃ r, small_diamond_search current previous blockx blocky blk_size mv = some r ∧
      ∀ v, r.getD (blocky * (current.cols / blk_size) + blockx) (0, 0) = v →
        is_valid ((((blockx : Int) * (blk_size : Int) : Int) : ℚ) + v.1)
          ((((blocky : Int) * (blk_size : Int) : Int) : ℚ) + v.2) blk_size previous = true →
        ∀ k, 1 ≤ k → k ≤ 4 → ∀ p, (small_search_mv v).getD k (0, 0) = p →
          is_valid ((((blockx : Int) * (blk_size : Int) : Int) : ℚ) + p.1)
            ((((blocky : Int) * (blk_size : Int) : Int) : ℚ) + p.2) blk_size previous = true →
          SAD current previous ((blockx : Int) * (blk_size : Int))
              ((blocky : Int) * (blk_size : Int))
              ((((blockx : Int) * (blk_size : Int) : Int) : ℚ) + v.1)
              ((((blocky : Int) * (blk_size : Int) : Int) : ℚ) + v.2) blk_size
            ≤ SAD current previous ((blockx : Int) * (blk_size : Int))
              ((blocky : Int) * (blk_size : Int))
              ((((blockx : Int) * (blk_size : Int) : Int) : ℚ) + p.1)
              ((((blocky : Int) * (blk_size : Int) : Int) : ℚ) + p.2) blk_size) := by
  obtain ⟨rl, hl⟩ := large_diamond_search_isSome current previous blockx blocky blk_size mv
  obtain ⟨rs, hs⟩ := small_diamond_search_isSome current previous blockx blocky blk_size mv
  refine ⟨⟨rl, hl, ?_⟩, ⟨rs, hs, ?_⟩⟩
  · rintro v rfl hv k _ hk p rfl hp
    exact large_diamond_local_min current previous blockx blocky blk_size mv rl hsz hidx hl hv
      k (by omega) hp
  · rintro v rfl hv k _ hk p rfl hp
    exact small_diamond_local_min current previous blockx blocky blk_size mv rs hsz hidx hs hv
      k (by omega) hp

/-- Witness of C28: block `(1, 1)` of the textured 6x6 frame against its shift by
`(1, 0)`, block size 2, started from the zero field. -/
theorem diamond_search_local_optimum_witness :
    (∃ r, large_diamond_search (textured 6) (shifted (textured 6) 1 0 0) 1 1 2
        (List.replicate 9 (0, 0)) = some r ∧
      ∀ v, r.getD (1 * ((textured 6).cols / 2) + 1) (0, 0) = v →
        is_valid (((((1 : Nat) : Int) * ((2 : Nat) : Int) : Int) : ℚ) + v.1)
          (((((1 : Nat) : Int) * ((2 : Nat) : Int) : Int) : ℚ) + v.2) 2
          (shifted (textured 6) 1 0 0) = true →
        ∀ k, 1 ≤ k → k ≤ 8 → ∀ p, (large_search_mv v).getD k (0, 0) = p →
          is_valid (((((1 : Nat) : Int) * ((2 : Nat) : Int) : Int) : ℚ) + p.1)
            (((((1 : Nat) : Int) * ((2 : Nat) : Int) : Int) : ℚ) + p.2) 2
            (shifted (textured 6) 1 0 0) = true →
          SAD (textured 6) (shifted (textured 6) 1 0 0) (((1 : Nat) : Int) * ((2 : Nat) : Int))
              (((1 : Nat) : Int) * ((2 : Nat) : Int))
              (((((1 : Nat) : Int) * ((2 : Nat) : Int) : Int) : ℚ) + v.1)
              (((((1 : Nat) : Int) * ((2 : Nat) : Int) : Int) : ℚ) + v.2) 2
            ≤ SAD (textured 6) (shifted (textured 6) 1 0 0)
              (((1 : Nat) : Int) * ((2 : Nat) : Int)) (((1 : Nat) : Int) * ((2 : Nat) : Int))
              (((((1 : Nat) : Int) * ((2 : Nat) : Int) : Int) : ℚ) + p.1)
              (((((1 : Nat) : Int) * ((2 : Nat) : Int) : Int) : ℚ) + p.2) 2) ∧
    (∃ r, small_diamond_search (textured 6) (shifted (textured 6) 1 0 0) 1 1 2
        (List.replicate 9 (0, 0)) = some r ∧
      ∀ v, r.getD (1 * ((textured 6).cols / 2) + 1) (0, 0) = v →
        is_valid (((((1 : Nat) : Int) * ((2 : Nat) : Int) : Int) : ℚ) + v.1)
          (((((1 : Nat) : Int) * ((2 : Nat) : Int) : Int) : ℚ) + v.2) 2
          (shifted (textured 6) 1 0 0) = true →
        ∀ k, 1 ≤ k → k ≤ 4 → ∀ p, (small_search_mv v).getD k (0, 0) = p →
          is_valid (((((1 : Nat) : Int) * ((2 : Nat) : Int) : Int) : ℚ) + p.1)
            (((((1 : Nat) : Int) * ((2 : Nat) : Int) : Int) : ℚ) + p.2) 2
            (shifted (textured 6) 1 0 0) = true →
          SAD (textured 6) (shifted (textured 6) 1 0 0) (((1 : Nat) : Int) * ((2 : Nat) : Int))
              (((1 : Nat) : Int) * ((2 : Nat) : Int))
              (((((1 : Nat) : Int) * ((2 : Nat) : Int) : Int) : ℚ) + v.1)
              (((((1 : Nat) : Int) * ((2 : Nat) : Int) : Int) : ℚ) + v.2) 2
            ≤ SAD (textured 6) (shifted (textured 6) 1 0 0)
              (((1 : Nat) : Int) * ((2 : Nat) : Int)) (((1 : Nat) : Int) * ((2 : Nat) : Int))
              (((((1 : Nat) : Int) * ((2 : Nat) : Int) : Int) : ℚ) + p.1)
              (((((1 : Nat) : Int) * ((2 : Nat) : Int) : Int) : ℚ) + p.2) 2) :=
  diamond_search_local_optimum (textured 6) (shifted (textured 6) 1 0 0) 1 1 2
    (List.replicate 9 (0, 0)) (by decide) (by decide)

/-! ## Median predictor and integer-valued fields -/

theorem truncf_intCast (a : Int) : truncf (a : ℚ) = a := by
  unfold truncf
  split_ifs <;> simp

/-- Truncation of half an integer is the division by 2 that rounds toward zero. -/
theorem truncf_half (n : Int) : truncf ((n : ℚ) / 2) = Int.tdiv n 2 := by
  unfold truncf
  have h2 : ((n : ℚ) / 2) = (n : ℚ) / ((2 : Nat) : ℚ) := by norm_num
  by_cases hn : 0 ≤ n
  · have hq : (0 : ℚ) ≤ (n : ℚ) / 2 := by
      have : (0 : ℚ) ≤ (n : ℚ) := by exact_mod_cast hn
      positivity
    rw [if_pos hq, h2, Rat.floor_intCast_div_natCast, Int.tdiv_eq_ediv hn]
    all_goals first | rfl | norm_num
  · have hneg : n < 0 := not_le.mp hn
    by_cases hq : (0 : ℚ) ≤ (n : ℚ) / 2
    · exfalso
      have : (n : ℚ) < 0 := by exact_mod_cast hneg
      linarith
    · rw [if_neg hq]
      have hceil : ⌈(n : ℚ) / 2⌉ = -⌊((-n : Int) : ℚ) / ((2 : Nat) : ℚ)⌋ := by
        rw [← Int.ceil_neg]
        congr 1
        push_cast
        ring
      rw [hceil, Rat.floor_intCast_div_natCast]
      have h3 : n.tdiv 2 = -((-n).tdiv 2) := by
        rw [Int.neg_tdiv, neg_neg]
      rw [h3, Int.tdiv_eq_ediv (by omega : 0 ≤ -n)]
      all_goals first | rfl | norm_num

/-- The middle of three sorted values, read at index 1 of the sorted list. -/
theorem sorted_middle (a c e : ℚ) :
    ([a, c, e].insertionSort (fun (u v : ℚ) => u ≤ v)).getD 1 0
      = max (min a c) (min (max a c) e) := by
  simp only [List.insertionSort, List.orderedInsert]
  by_cases h1 : c ≤ e <;> by_cases h2 : a ≤ c <;> by_cases h3 : a ≤ e <;>
    simp [h1, h2, h3, List.orderedInsert, List.getD] <;>
    first
      | linarith
      | (left; linarith)
      | (right; linarith)
      | (push_neg at h1 h2 h3
         rw [min_eq_right h2.le, max_eq_left h2.le, min_eq_right h3.le, max_eq_left h1.le])

theorem pmvfast_median_one (a b : Int) :
    pmvfast_median [((a : ℚ), (b : ℚ))] = (a, b) := by
  simp [pmvfast_median, truncf_intCast]

theorem pmvfast_median_two (a b c d : Int) :
    pmvfast_median [((a : ℚ), (b : ℚ)), ((c : ℚ), (d : ℚ))]
      = (Int.tdiv (a + c) 2, Int.tdiv (b + d) 2) := by
  simp only [pmvfast_median]
  rw [← truncf_half, ← truncf_half]
  push_cast
  rfl

theorem pmvfast_median_three (a b c d e f : Int) :
    pmvfast_median [((a : ℚ), (b : ℚ)), ((c : ℚ), (d : ℚ)), ((e : ℚ), (f : ℚ))]
      = (max (min a c) (min (max a c) e), max (min b d) (min (max b d) f)) := by
  simp only [pmvfast_median, List.map_cons, List.map_nil, List.length_insertionSort,
    List.length_cons, List.length_nil]
  rw [show (0 + 1 + 1 + 1) / 2 = 1 from rfl, sorted_middle, sorted_middle]
  have hx : max (min (a : ℚ) c) (min (max (a : ℚ) c) e)
      = ((max (min a c) (min (max a c) e) : Int) : ℚ) := by push_cast; rfl
  have hy : max (min (b : ℚ) d) (min (max (b : ℚ) d) f)
      = ((max (min b d) (min (max b d) f) : Int) : ℚ) := by push_cast; rfl
  rw [hx, hy, truncf_intCast, truncf_intCast]

/-! ## Integer-valued, in-frame fields of pmvfast -/

/-- Reading a field of integer-valued vectors gives an integer-valued vector. -/
theorem getD_int (l : List Vec2f) (k : Nat)
    (h : ∀ v ∈ l, ∃ a b : Int, v = ((a : ℚ), (b : ℚ))) :
    ∃ a b : Int, l.getD k (0, 0) = ((a : ℚ), (b : ℚ)) := by
  rw [List.getD_eq_getElem?_getD]
  cases hk : l[k]? with
  | none => exact ⟨0, 0, by simp⟩
  | some v => exact h v (List.getElem?_mem hk)

/-- Writing an integer-valued vector keeps a field integer-valued. -/
theorem set_int (l : List Vec2f) (k : Nat) (w : Vec2f)
    (h : ∀ v ∈ l, ∃ a b : Int, v = ((a : ℚ), (b : ℚ)))
    (hw : ∃ a b : Int, w = ((a : ℚ), (b : ℚ))) :
    ∀ v ∈ l.set k w, ∃ a b : Int, v = ((a : ℚ), (b : ℚ)) := by
  intro v hv
  rcases List.mem_or_eq_of_mem_set hv with h1 | h1
  · exact h v h1
  · rw [h1]; exact hw

/-- The points of the large diamond around an integer-valued centre are
integer-valued. -/
theorem large_search_mv_int (c : Vec2f) (k : Nat)
    (hc : ∃ a b : Int, c = ((a : ℚ), (b : ℚ))) :
    ∃ a b : Int, (large_search_mv c).getD k (0, 0) = ((a : ℚ), (b : ℚ)) := by
  obtain ⟨a, b, rfl⟩ := hc
  apply getD_int
  intro v hv
  simp only [large_search_mv, List.mem_cons, List.mem_singleton, List.mem_nil_iff,
    or_false] at hv
  rcases hv with h | h | h | h | h | h | h | h | h <;> rw [h]
  · exact ⟨a, b, rfl⟩
  · exact ⟨a, b - 2, by push_cast; rfl⟩
  · exact ⟨a + 2, b, by push_cast; rfl⟩
  · exact ⟨a, b + 2, by push_cast; rfl⟩
  · exact ⟨a - 2, b, by push_cast; rfl⟩
  · exact ⟨a + 1, b - 1, by push_cast; rfl⟩
  · exact ⟨a + 1, b + 1, by push_cast; rfl⟩
  · exact ⟨a - 1, b + 1, by push_cast; rfl⟩
  · exact ⟨a - 1, b - 1, by push_cast; rfl⟩

/-- The points of the small diamond around an integer-valued centre are
integer-valued. -/
theorem small_search_mv_int (c : Vec2f) (k : Nat)
    (hc : ∃ a b : Int, c = ((a : ℚ), (b : ℚ))) :
    ∃ a b : Int, (small_search_mv c).getD k (0, 0) = ((a : ℚ), (b : ℚ)) := by
  obtain ⟨a, b, rfl⟩ := hc
  apply getD_int
  intro v hv
  simp only [small_search_mv, List.mem_cons, List.mem_singleton, List.mem_nil_iff,
    or_false] at hv
  rcases hv with h | h | h | h | h <;> rw [h]
  · exact ⟨a, b, rfl⟩
  · exact ⟨a, b - 1, by push_cast; rfl⟩
  · exact ⟨a + 1, b, by push_cast; rfl⟩
  · exact ⟨a, b + 1, by push_cast; rfl⟩
  · exact ⟨a - 1, b, by push_cast; rfl⟩

/-- A diamond loop whose pattern keeps vectors integer-valued keeps the field
integer-valued, and the slot of the block holds the zero vector or a vector that
passes the in-bounds test. -/
theorem diamond_loop_field (pattern : Vec2f → List Vec2f) (next : Nat → List Nat)
    (current previous : Mat) (blk_size : Nat) (ox oy : Int) (mv_block_index : Nat)
    (hpat : ∀ c k, (∃ a b : Int, c = ((a : ℚ), (b : ℚ))) →
      ∃ a b : Int, (pattern c).getD k (0, 0) = ((a : ℚ), (b : ℚ)))
    (fuel : Nat) (s : DiamondState) (r : List Vec2f)
    (hint : ∀ v ∈ s.mv, ∃ a b : Int, v = ((a : ℚ), (b : ℚ)))
    (hslot : s.mv.getD mv_block_index (0, 0) = (0, 0) ∨
      is_valid ((ox : ℚ) + (s.mv.getD mv_block_index (0, 0)).1)
        ((oy : ℚ) + (s.mv.getD mv_block_index (0, 0)).2) blk_size previous = true)
    (h : diamond_loop pattern next current previous blk_size ox oy mv_block_index fuel s
      = some r) :
    (∀ v ∈ r, ∃ a b : Int, v = ((a : ℚ), (b : ℚ))) ∧
    (r.getD mv_block_index (0, 0) = (0, 0) ∨
      is_valid ((ox : ℚ) + (r.getD mv_block_index (0, 0)).1)
        ((oy : ℚ) + (r.getD mv_block_index (0, 0)).2) blk_size previous = true) := by
  obtain ⟨t, ⟨h1, h2⟩, hstop⟩ := diamond_loop_invariant pattern next current previous
    blk_size ox oy mv_block_index
    (fun (s : DiamondState) => (∀ v ∈ s.mv, ∃ a b : Int, v = ((a : ℚ), (b : ℚ))) ∧
      (s.mv.getD mv_block_index (0, 0) = (0, 0) ∨
        is_valid ((ox : ℚ) + (s.mv.getD mv_block_index (0, 0)).1)
          ((oy : ℚ) + (s.mv.getD mv_block_index (0, 0)).2) blk_size previous = true))
    (by
      rintro s s' ⟨h1, _⟩ hr
      obtain ⟨d, _, _, hdv, _, _, hmv, _, _⟩ := diamond_round_moves _ _ _ _ _ _ _ _ _ _ hr
      refine ⟨?_, ?_⟩
      · rw [hmv]
        exact set_int _ _ _ h1 (hpat _ d (getD_int _ _ h1))
      · by_cases hl : mv_block_index < s.mv.length
        · right
          have hc' : s'.mv.getD mv_block_index (0, 0)
              = (pattern (s.mv.getD mv_block_index (0, 0))).getD d (0, 0) := by
            rw [hmv, List.getD_eq_getElem?_getD, List.getElem?_set_self hl]
            rfl
          rw [hc']
          exact hdv
        · left
          rw [hmv, List.getD_eq_getElem?_getD, List.getElem?_eq_none (by
            rw [List.length_set]; omega)]
          rfl)
    fuel s r ⟨hint, hslot⟩ h
  have hr := diamond_round_inr _ _ _ _ _ _ _ _ _ _ hstop
  subst hr
  exact ⟨h1, h2⟩

/-- Every location at which a diamond loop calls `SAD` passes the in-bounds test and
is integer-valued, when the field is integer-valued and the pattern keeps vectors
integer-valued. -/
theorem diamond_loop_sites_good (pattern : Vec2f → List Vec2f) (next : Nat → List Nat)
    (current previous : Mat) (blk_size : Nat) (ox oy : Int) (mv_block_index : Nat)
    (hpat : ∀ c k, (∃ a b : Int, c = ((a : ℚ), (b : ℚ))) →
      ∃ a b : Int, (pattern c).getD k (0, 0) = ((a : ℚ), (b : ℚ)))
    (fuel : Nat) (s : DiamondState)
    (hint : ∀ v ∈ s.mv, ∃ a b : Int, v = ((a : ℚ), (b : ℚ))) :
    ∀ p ∈ diamond_loop_sites pattern next current previous blk_size ox oy mv_block_index fuel s,
      is_valid p.1 p.2 blk_size previous = true ∧ ∃ a b : Int, p = ((a : ℚ), (b : ℚ)) := by
  induction fuel generalizing s with
  | zero =>
    intro p hp
    simp [diamond_loop_sites] at hp
  | succ n ih =>
    intro p hp
    unfold diamond_loop_sites at hp
    rcases List.mem_append.mp hp with hp | hp
    · unfold diamond_round_sites at hp
      simp only [List.mem_filter, List.mem_map] at hp
      obtain ⟨⟨k, _, rfl⟩, hv⟩ := hp
      refine ⟨hv, ?_⟩
      obtain ⟨a, b, e⟩ := hpat _ k (getD_int s.mv mv_block_index hint)
      rw [e]
      exact ⟨ox + a, oy + b, by push_cast; rfl⟩
    · cases hr : diamond_round pattern next current previous blk_size ox oy mv_block_index s with
      | inr r' =>
        rw [hr] at hp
        simp at hp
      | inl s' =>
        rw [hr] at hp
        simp only [] at hp
        obtain ⟨d, _, _, _, _, _, hmv, _, _⟩ := diamond_round_moves _ _ _ _ _ _ _ _ _ _ hr
        exact ih s' (by
          rw [hmv]
          exact set_int _ _ _ hint (hpat _ d (getD_int _ _ hint))) p hp

/-! ## The three ways of the block loop of pmvfast -/

/-- The body of the block loop of `pmvfast` ends in one of three ways: early
termination at the median vector, the small diamond search, or the large diamond
search, both started from the field with the best predictor in the slot of the
block. -/
theorem pmvfast_block_cases (current previous : Mat) (blk_size : Nat) (motion : List Vec2f)
    (bx by_ : Nat) :
    ((is_valid
          ((((bx : Int) * (blk_size : Int) + (pmvfast_median (pmvfast_predictors motion
            (current.cols / blk_size) bx by_)).1 : Int)) : ℚ)
          ((((by_ : Int) * (blk_size : Int) + (pmvfast_median (pmvfast_predictors motion
            (current.cols / blk_size) bx by_)).2 : Int)) : ℚ) blk_size previous = true
        ∧ SAD current previous ((bx : Int) * (blk_size : Int)) ((by_ : Int) * (blk_size : Int))
            ((((bx : Int) * (blk_size : Int) + (pmvfast_median (pmvfast_predictors motion
              (current.cols / blk_size) bx by_)).1 : Int)) : ℚ)
            ((((by_ : Int) * (blk_size : Int) + (pmvfast_median (pmvfast_predictors motion
              (current.cols / blk_size) bx by_)).2 : Int)) : ℚ) blk_size
          < (if blk_size = 8 then 64 else 256))
      ∧ pmvfast_block current previous blk_size motion bx by_
        = some (motion.set (by_ * (current.cols / blk_size) + bx)
            (((pmvfast_median (pmvfast_predictors motion
                (current.cols / blk_size) bx by_)).1 : ℚ),
              ((pmvfast_median (pmvfast_predictors motion
                (current.cols / blk_size) bx by_)).2 : ℚ)))) ∨
    (¬ (is_valid
          ((((bx : Int) * (blk_size : Int) + (pmvfast_median (pmvfast_predictors motion
            (current.cols / blk_size) bx by_)).1 : Int)) : ℚ)
          ((((by_ : Int) * (blk_size : Int) + (pmvfast_median (pmvfast_predictors motion
            (current.cols / blk_size) bx by_)).2 : Int)) : ℚ) blk_size previous = true
        ∧ SAD current previous ((bx : Int) * (blk_size : Int)) ((by_ : Int) * (blk_size : Int))
            ((((bx : Int) * (blk_size : Int) + (pmvfast_median (pmvfast_predictors motion
              (current.cols / blk_size) bx by_)).1 : Int)) : ℚ)
            ((((by_ : Int) * (blk_size : Int) + (pmvfast_median (pmvfast_predictors motion
              (current.cols / blk_size) bx by_)).2 : Int)) : ℚ) blk_size
          < (if blk_size = 8 then 64 else 256))
      ∧ ((100 * ((pmvfast_median (pmvfast_predictors motion
              (current.cols / blk_size) bx by_)).1
            * (pmvfast_median (pmvfast_predictors motion (current.cols / blk_size) bx by_)).1
            + (pmvfast_median (pmvfast_predictors motion (current.cols / blk_size) bx by_)).2
            * (pmvfast_median (pmvfast_predictors motion
              (current.cols / blk_size) bx by_)).2) < 1
          ∧ (pmvfast_best_predictor current previous blk_size ((bx : Int) * (blk_size : Int))
              ((by_ : Int) * (blk_size : Int))
              (pmvfast_predictors motion (current.cols / blk_size) bx by_)).2
            + (if blk_size = 8 then 64 else 256) < (if blk_size = 8 then 384 else 1536))
        ∧ pmvfast_block current previous blk_size motion bx by_
          = small_diamond_search current previous bx by_ blk_size
              (motion.set (by_ * (current.cols / blk_size) + bx)
                (pmvfast_best_predictor current previous blk_size
                  ((bx : Int) * (blk_size : Int)) ((by_ : Int) * (blk_size : Int))
                  (pmvfast_predictors motion (current.cols / blk_size) bx by_)).1)
        ∨
        ¬ (100 * ((pmvfast_median (pmvfast_predictors motion
              (current.cols / blk_size) bx by_)).1
            * (pmvfast_median (pmvfast_predictors motion (current.cols / blk_size) bx by_)).1
            + (pmvfast_median (pmvfast_predictors motion (current.cols / blk_size) bx by_)).2
            * (pmvfast_median (pmvfast_predictors motion
              (current.cols / blk_size) bx by_)).2) < 1
          ∧ (pmvfast_best_predictor current previous blk_size ((bx : Int) * (blk_size : Int))
              ((by_ : Int) * (blk_size : Int))
              (pmvfast_predictors motion (current.cols / blk_size) bx by_)).2
            + (if blk_size = 8 then 64 else 256) < (if blk_size = 8 then 384 else 1536))
        ∧ pmvfast_block current previous blk_size motion bx by_
          = large_diamond_search current previous bx by_ blk_size
              (motion.set (by_ * (current.cols / blk_size) + bx)
                (pmvfast_best_predictor current previous blk_size
                  ((bx : Int) * (blk_size : Int)) ((by_ : Int) * (blk_size : Int))
                  (pmvfast_predictors motion (current.cols / blk_size) bx by_)).1))) := by
  unfold pmvfast_block
  simp only []
  by_cases he : (is_valid
          ((((bx : Int) * (blk_size : Int) + (pmvfast_median (pmvfast_predictors motion
            (current.cols / blk_size) bx by_)).1 : Int)) : ℚ)
          ((((by_ : Int) * (blk_size : Int) + (pmvfast_median (pmvfast_predictors motion
            (current.cols / blk_size) bx by_)).2 : Int)) : ℚ) blk_size previous = true
        ∧ SAD current previous ((bx : Int) * (blk_size : Int)) ((by_ : Int) * (blk_size : Int))
            ((((bx : Int) * (blk_size : Int) + (pmvfast_median (pmvfast_predictors motion
              (current.cols / blk_size) bx by_)).1 : Int)) : ℚ)
            ((((by_ : Int) * (blk_size : Int) + (pmvfast_median (pmvfast_predictors motion
              (current.cols / blk_size) bx by_)).2 : Int)) : ℚ) blk_size
          < (if blk_size = 8 then 64 else 256))
  · left
    rw [if_pos he]
    exact ⟨he, rfl⟩
  · right
    rw [if_neg he]
    refine ⟨he, ?_⟩
    by_cases hs : (100 * ((pmvfast_median (pmvfast_predictors motion
              (current.cols / blk_size) bx by_)).1
            * (pmvfast_median (pmvfast_predictors motion (current.cols / blk_size) bx by_)).1
            + (pmvfast_median (pmvfast_predictors motion (current.cols / blk_size) bx by_)).2
            * (pmvfast_median (pmvfast_predictors motion
              (current.cols / blk_size) bx by_)).2) < 1
          ∧ (pmvfast_best_predictor current previous blk_size ((bx : Int) * (blk_size : Int))
              ((by_ : Int) * (blk_size : Int))
              (pmvfast_predictors motion (current.cols / blk_size) bx by_)).2
            + (if blk_size = 8 then 64 else 256) < (if blk_size = 8 then 384 else 1536))
    · left
      rw [if_pos (decide_eq_true hs)]
      exact ⟨hs, rfl⟩
    · right
      rw [if_neg (fun hd => hs (of_decide_eq_true hd))]
      exact ⟨hs, rfl⟩

/-- The predictors read from an integer-valued field are integer-valued. -/
theorem pmvfast_predictors_int (motion : List Vec2f) (blocks_wide bx by_ : Nat)
    (hint : ∀ v ∈ motion, ∃ a b : Int, v = ((a : ℚ), (b : ℚ))) :
    ∀ p ∈ pmvfast_predictors motion blocks_wide bx by_,
      ∃ a b : Int, p = ((a : ℚ), (b : ℚ)) := by
  intro p hp
  unfold pmvfast_predictors at hp
  simp only [List.mem_append] at hp
  rcases hp with hp | hp
  · split_ifs at hp
    · rw [List.mem_singleton.mp hp]; exact getD_int _ _ hint
    · simp at hp
  · split_ifs at hp
    · rcases List.mem_append.mp hp with hp | hp
      · rw [List.mem_singleton.mp hp]; exact getD_int _ _ hint
      · rw [List.mem_singleton.mp hp]; exact getD_int _ _ hint
    · rcases List.mem_append.mp hp with hp | hp
      · rw [List.mem_singleton.mp hp]; exact getD_int _ _ hint
      · simp at hp
    · simp at hp

/-- The best predictor over integer-valued predictors is integer-valued, and it is
the zero vector or passes the in-bounds test. -/
theorem best_predictor_field (current previous : Mat) (blk_size : Nat) (ox oy : Int)
    (predictors : List Vec2f)
    (hint : ∀ p ∈ predictors, ∃ a b : Int, p = ((a : ℚ), (b : ℚ))) :
    (∃ a b : Int,
      (pmvfast_best_predictor current previous blk_size ox oy predictors).1
        = ((a : ℚ), (b : ℚ))) ∧
    ((pmvfast_best_predictor current previous blk_size ox oy predictors).1 = (0, 0) ∨
      is_valid
        ((ox : ℚ) + (pmvfast_best_predictor current previous blk_size ox oy predictors).1.1)
        ((oy : ℚ) + (pmvfast_best_predictor current previous blk_size ox oy predictors).1.2)
        blk_size previous = true) := by
  rcases best_predictor_cases current previous blk_size ox oy predictors with
    h | ⟨p, hp, hv, _, h⟩
  · rw [h]
    exact ⟨⟨0, 0, by simp⟩, Or.inl rfl⟩
  · rw [h]
    exact ⟨hint p hp, Or.inr hv⟩

/-- Reading the slot just written gives the written vector or, outside the field,
the zero vector. -/
theorem getD_set_self (l : List Vec2f) (k : Nat) (w : Vec2f) :
    (l.set k w).getD k (0, 0) = w ∨ (l.set k w).getD k (0, 0) = (0, 0) := by
  by_cases hl : k < l.length
  · left
    rw [List.getD_eq_getElem?_getD, List.getElem?_set_self hl]
    rfl
  · right
    rw [List.getD_eq_getElem?_getD, List.getElem?_eq_none (by rw [List.length_set]; omega)]
    rfl

/-- The body of the block loop of `pmvfast` keeps the field integer-valued and
leaves in the slot of the block the zero vector or a vector that passes the
in-bounds test. -/
theorem pmvfast_block_field (current previous : Mat) (blk_size : Nat) (motion r : List Vec2f)
    (bx by_ : Nat) (hint : ∀ v ∈ motion, ∃ a b : Int, v = ((a : ℚ), (b : ℚ)))
    (h : pmvfast_block current previous blk_size motion bx by_ = some r) :
    (∀ v ∈ r, ∃ a b : Int, v = ((a : ℚ), (b : ℚ))) ∧
    (r.getD (by_ * (current.cols / blk_size) + bx) (0, 0) = (0, 0) ∨
      is_valid
        ((((bx : Int) * (blk_size : Int) : Int) : ℚ)
          + (r.getD (by_ * (current.cols / blk_size) + bx) (0, 0)).1)
        ((((by_ : Int) * (blk_size : Int) : Int) : ℚ)
          + (r.getD (by_ * (current.cols / blk_size) + bx) (0, 0)).2)
        blk_size previous = true) := by
  have hpred := pmvfast_predictors_int motion (current.cols / blk_size) bx by_ hint
  obtain ⟨hbi, hbv⟩ := best_predictor_field current previous blk_size
    ((bx : Int) * (blk_size : Int)) ((by_ : Int) * (blk_size : Int))
    (pmvfast_predictors motion (current.cols / blk_size) bx by_) hpred
  have hm1 := set_int motion (by_ * (current.cols / blk_size) + bx) _ hint hbi
  have hslot : (motion.set (by_ * (current.cols / blk_size) + bx)
        (pmvfast_best_predictor current previous blk_size ((bx : Int) * (blk_size : Int))
          ((by_ : Int) * (blk_size : Int))
          (pmvfast_predictors motion (current.cols / blk_size) bx by_)).1).getD
        (by_ * (current.cols / blk_size) + bx) (0, 0) = (0, 0) ∨
      is_valid
        ((((bx : Int) * (blk_size : Int) : Int) : ℚ)
          + ((motion.set (by_ * (current.cols / blk_size) + bx)
            (pmvfast_best_predictor current previous blk_size ((bx : Int) * (blk_size : Int))
              ((by_ : Int) * (blk_size : Int))
              (pmvfast_predictors motion (current.cols / blk_size) bx by_)).1).getD
            (by_ * (current.cols / blk_size) + bx) (0, 0)).1)
        ((((by_ : Int) * (blk_size : Int) : Int) : ℚ)
          + ((motion.set (by_ * (current.cols / blk_size) + bx)
            (pmvfast_best_predictor current previous blk_size ((bx : Int) * (blk_size : Int))
              ((by_ : Int) * (blk_size : Int))
              (pmvfast_predictors motion (current.cols / blk_size) bx by_)).1).getD
            (by_ * (current.cols / blk_size) + bx) (0, 0)).2)
        blk_size previous = true := by
    rcases getD_set_self motion (by_ * (current.cols / blk_size) + bx)
      (pmvfast_best_predictor current previous blk_size ((bx : Int) * (blk_size : Int))
          ((by_ : Int) * (blk_size : Int))
          (pmvfast_predictors motion (current.cols / blk_size) bx by_)).1 with e | e
    · rw [e]; exact hbv
    · left; exact e
  rcases pmvfast_block_cases current previous blk_size motion bx by_ with
    ⟨⟨hv, _⟩, e⟩ | ⟨_, ⟨_, e⟩ | ⟨_, e⟩⟩
  · rw [e] at h
    have hr := Option.some.inj h
    subst hr
    refine ⟨set_int _ _ _ hint ⟨_, _, rfl⟩, ?_⟩
    rcases getD_set_self motion (by_ * (current.cols / blk_size) + bx)
      (((pmvfast_median (pmvfast_predictors motion (current.cols / blk_size) bx by_)).1 : ℚ),
        ((pmvfast_median (pmvfast_predictors motion
          (current.cols / blk_size) bx by_)).2 : ℚ)) with e1 | e1
    · right
      rw [e1]
      push_cast at hv ⊢
      exact hv
    · left; exact e1
  · rw [e] at h
    unfold small_diamond_search at h
    exact diamond_loop_field small_search_mv small_next current previous blk_size _ _ _
      small_search_mv_int diamond_fuel _ r hm1 hslot h
  · rw [e] at h
    unfold large_diamond_search at h
    exact diamond_loop_field large_search_mv large_next current previous blk_size _ _ _
      large_search_mv_int diamond_fuel _ r hm1 hslot h

/-- Every field held by the block loop of `pmvfast` is integer-valued. -/
theorem pmvfast_upto_int (current previous : Mat) (blk_size n : Nat) (motion : List Vec2f)
    (h : pmvfast_upto current previous blk_size n = some motion) :
    ∀ v ∈ motion, ∃ a b : Int, v = ((a : ℚ), (b : ℚ)) := by
  induction n generalizing motion with
  | zero =>
    have e : motion = List.replicate
        (current.cols / blk_size * (current.rows / blk_size)) (0, 0) :=
      (Option.some.inj h).symm
    intro v hv
    rw [e] at hv
    rw [(List.mem_replicate.mp hv).2]
    exact ⟨0, 0, by simp⟩
  | succ n ih =>
    obtain ⟨m, hm, _⟩ := pmvfast_upto_some current previous blk_size n
    rw [pmvfast_upto_succ, hm] at h
    exact (pmvfast_block_field current previous blk_size m motion _ _ (ih m hm) h).1

/-- Every location at which the body of the block loop of `pmvfast` calls `SAD`
passes the in-bounds test and is integer-valued, when the field is. -/
theorem pmvfast_block_sites_good (current previous : Mat) (blk_size : Nat)
    (motion : List Vec2f) (bx by_ : Nat)
    (hint : ∀ v ∈ motion, ∃ a b : Int, v = ((a : ℚ), (b : ℚ))) :
    ∀ p ∈ pmvfast_block_sites current previous blk_size motion bx by_,
      is_valid p.1 p.2 blk_size previous = true ∧ ∃ a b : Int, p = ((a : ℚ), (b : ℚ)) := by
  have hpred := pmvfast_predictors_int motion (current.cols / blk_size) bx by_ hint
  obtain ⟨hbi, _⟩ := best_predictor_field current previous blk_size
    ((bx : Int) * (blk_size : Int)) ((by_ : Int) * (blk_size : Int))
    (pmvfast_predictors motion (current.cols / blk_size) bx by_) hpred
  have hm1 := set_int motion (by_ * (current.cols / blk_size) + bx) _ hint hbi
  have hmed : ∀ p ∈ (if is_valid
        ((((bx : Int) * (blk_size : Int) + (pmvfast_median (pmvfast_predictors motion
          (current.cols / blk_size) bx by_)).1 : Int)) : ℚ)
        ((((by_ : Int) * (blk_size : Int) + (pmvfast_median (pmvfast_predictors motion
          (current.cols / blk_size) bx by_)).2 : Int)) : ℚ) blk_size previous = true then
        [(((((bx : Int) * (blk_size : Int) + (pmvfast_median (pmvfast_predictors motion
            (current.cols / blk_size) bx by_)).1 : Int)) : ℚ),
          ((((by_ : Int) * (blk_size : Int) + (pmvfast_median (pmvfast_predictors motion
            (current.cols / blk_size) bx by_)).2 : Int)) : ℚ))]
      else ([] : List (ℚ × ℚ))),
      is_valid p.1 p.2 blk_size previous = true ∧ ∃ a b : Int, p = ((a : ℚ), (b : ℚ)) := by
    intro p hp
    split_ifs at hp with hv
    · rw [List.mem_singleton.mp hp]
      exact ⟨hv, _, _, rfl⟩
    · simp at hp
  have hps : ∀ p ∈ ((pmvfast_predictors motion (current.cols / blk_size) bx by_).map
        (fun (p : Vec2f) => ((((bx : Int) * (blk_size : Int) : Int) : ℚ) + p.1,
          (((by_ : Int) * (blk_size : Int) : Int) : ℚ) + p.2))).filter
        (fun (q : ℚ × ℚ) => is_valid q.1 q.2 blk_size previous),
      is_valid p.1 p.2 blk_size previous = true ∧ ∃ a b : Int, p = ((a : ℚ), (b : ℚ)) := by
    intro p hp
    simp only [List.mem_filter, List.mem_map] at hp
    obtain ⟨⟨q, hq, rfl⟩, hv⟩ := hp
    obtain ⟨a, b, e⟩ := hpred q hq
    rw [e]
    exact ⟨by rw [e] at hv; exact hv,
      (bx : Int) * (blk_size : Int) + a, (by_ : Int) * (blk_size : Int) + b,
      by push_cast; rfl⟩
  intro p hp
  unfold pmvfast_block_sites at hp
  simp only [] at hp
  by_cases he : (is_valid
          ((((bx : Int) * (blk_size : Int) + (pmvfast_median (pmvfast_predictors motion
            (current.cols / blk_size) bx by_)).1 : Int)) : ℚ)
          ((((by_ : Int) * (blk_size : Int) + (pmvfast_median (pmvfast_predictors motion
            (current.cols / blk_size) bx by_)).2 : Int)) : ℚ) blk_size previous = true
        ∧ SAD current previous ((bx : Int) * (blk_size : Int)) ((by_ : Int) * (blk_size : Int))
            ((((bx : Int) * (blk_size : Int) + (pmvfast_median (pmvfast_predictors motion
              (current.cols / blk_size) bx by_)).1 : Int)) : ℚ)
            ((((by_ : Int) * (blk_size : Int) + (pmvfast_median (pmvfast_predictors motion
              (current.cols / blk_size) bx by_)).2 : Int)) : ℚ) blk_size
          < (if blk_size = 8 then 64 else 256))
  · rw [if_pos he] at hp
    exact hmed p hp
  · rw [if_neg he] at hp
    rcases List.mem_append.mp hp with hp | hp
    · rcases List.mem_append.mp hp with hp | hp
      · exact hmed p hp
      · exact hps p hp
    · by_cases hs : (100 * ((pmvfast_median (pmvfast_predictors motion
              (current.cols / blk_size) bx by_)).1
            * (pmvfast_median (pmvfast_predictors motion (current.cols / blk_size) bx by_)).1
            + (pmvfast_median (pmvfast_predictors motion (current.cols / blk_size) bx by_)).2
            * (pmvfast_median (pmvfast_predictors motion
              (current.cols / blk_size) bx by_)).2) < 1
          ∧ (pmvfast_best_predictor current previous blk_size ((bx : Int) * (blk_size : Int))
              ((by_ : Int) * (blk_size : Int))
              (pmvfast_predictors motion (current.cols / blk_size) bx by_)).2
            + (if blk_size = 8 then 64 else 256) < (if blk_size = 8 then 384 else 1536))
      · rw [if_pos (decide_eq_true hs)] at hp
        exact diamond_loop_sites_good small_search_mv small_next current previous blk_size
          _ _ _ small_search_mv_int diamond_fuel _ hm1 p hp
      · rw [if_neg (fun hd => hs (of_decide_eq_true hd))] at hp
        exact diamond_loop_sites_good large_search_mv large_next current previous blk_size
          _ _ _ large_search_mv_int diamond_fuel _ hm1 p hp

/-- The vector that `pmvfast` returns for block `(bx, by)` is the one left in the
slot of the block by the body of the block loop run on the field `before` the
block. -/
theorem pmvfast_final_slot (current previous : Mat) (blk_size bx by_ : Nat)
    (hbx : bx < current.cols / blk_size) (hby : by_ < current.rows / blk_size) :
    ∃ before after motion,
      pmvfast_upto current previous blk_size (by_ * (current.cols / blk_size) + bx)
        = some before ∧
      pmvfast_block current previous blk_size before bx by_ = some after ∧
      pmvfast current previous blk_size = some motion ∧
      motion[by_ * (current.cols / blk_size) + bx]?
        = some (after.getD (by_ * (current.cols / blk_size) + bx) (0, 0)) := by
  have hW : 0 < current.cols / blk_size := by omega
  have hk : by_ * (current.cols / blk_size) + bx
      < current.rows / blk_size * (current.cols / blk_size) := by
    have : (by_ + 1) * (current.cols / blk_size)
        ≤ current.rows / blk_size * (current.cols / blk_size) :=
      Nat.mul_le_mul_right _ hby
    have h2 : (by_ + 1) * (current.cols / blk_size)
        = by_ * (current.cols / blk_size) + current.cols / blk_size := by ring
    omega
  have hmod : (by_ * (current.cols / blk_size) + bx) % (current.cols / blk_size) = bx := by
    rw [Nat.add_comm, Nat.add_mul_mod_self_right, Nat.mod_eq_of_lt hbx]
  have hdiv : (by_ * (current.cols / blk_size) + bx) / (current.cols / blk_size) = by_ := by
    rw [Nat.add_comm, Nat.add_mul_div_right _ _ hW, Nat.div_eq_of_lt hbx, Nat.zero_add]
  obtain ⟨before, hb, hbl⟩ := pmvfast_upto_some current previous blk_size
    (by_ * (current.cols / blk_size) + bx)
  obtain ⟨after, ha, hal⟩ := pmvfast_upto_some current previous blk_size
    (by_ * (current.cols / blk_size) + bx + 1)
  obtain ⟨motion, hm, _⟩ := pmvfast_upto_some current previous blk_size
    (current.rows / blk_size * (current.cols / blk_size))
  have hstep := pmvfast_upto_succ current previous blk_size
    (by_ * (current.cols / blk_size) + bx)
  rw [ha, hb, hmod, hdiv] at hstep
  refine ⟨before, after, motion, hb, hstep.symm, by rw [pmvfast_eq_upto]; exact hm, ?_⟩
  have hd : current.rows / blk_size * (current.cols / blk_size)
      = by_ * (current.cols / blk_size) + bx + 1
        + (current.rows / blk_size * (current.cols / blk_size)
          - (by_ * (current.cols / blk_size) + bx + 1)) := by omega
  rw [hd] at hm
  rw [pmvfast_upto_slot current previous blk_size _ _ after motion ha hm,
    List.getD_eq_getElem?_getD]
  have hlt : by_ * (current.cols / blk_size) + bx < after.length := by
    rw [hal, Nat.mul_comm (current.cols / blk_size)]; exact hk
  rw [List.getElem?_eq_getElem hlt]
  rfl

/-- A location that passes the in-bounds test keeps every sample of the block in the
image. -/
theorem is_valid_samples (a b : Int) (blk_size : Nat) (img : Mat)
    (h : is_valid (a : ℚ) (b : ℚ) blk_size img = true) :
    (0 ≤ a ∧ a + (blk_size : Int) < (img.cols : Int)
      ∧ 0 ≤ b ∧ b + (blk_size : Int) < (img.rows : Int)) ∧
    ∀ x y : Nat, x < blk_size → y < blk_size →
      0 ≤ a + (x : Int) ∧ a + (x : Int) < (img.cols : Int)
        ∧ 0 ≤ b + (y : Int) ∧ b + (y : Int) < (img.rows : Int) := by
  unfold is_valid at h
  obtain ⟨h1, h2, h3, h4⟩ := of_decide_eq_true h
  have h1' : 0 ≤ a := by exact_mod_cast h1
  have h2' : 0 ≤ b := by exact_mod_cast h2
  have h3' : a + (blk_size : Int) < (img.cols : Int) := by exact_mod_cast h3
  have h4' : b + (blk_size : Int) < (img.rows : Int) := by exact_mod_cast h4
  refine ⟨⟨h1', h3', h2', h4'⟩, ?_⟩
  intro x y hx hy
  omega

/-- Every location at which `pmvfast` calls `SAD` passes the in-bounds test and is
integer-valued. -/
theorem pmvfast_sites_good (current previous : Mat) (blk_size : Nat) :
    ∀ p ∈ pmvfast_sites current previous blk_size,
      is_valid p.1 p.2 blk_size previous = true ∧ ∃ a b : Int, p = ((a : ℚ), (b : ℚ)) := by
  intro p hp
  unfold pmvfast_sites at hp
  obtain ⟨i, _, hi⟩ := List.mem_flatMap.mp hp
  obtain ⟨m, hm, _⟩ := pmvfast_upto_some current previous blk_size i
  rw [hm] at hi
  exact pmvfast_block_sites_good current previous blk_size m _ _
    (pmvfast_upto_int current previous blk_size i m hm) p hi

/-- C29: for equally sized frames, `pmvfast` returns a field in which the vector
`(a, b)` of every block of the grid has integer components and keeps the block
inside the previous frame, `0 <= ox+a <= width-blk` and `0 <= oy+b <= height-blk`
for the block origin `(ox, oy)`; and every location `(a, b)` at which `pmvfast` or
one of its diamond searches evaluates `SAD` is integer-valued, with all its samples
`(a+x, b+y)`, `x, y < blk`, inside the previous frame. -/
theorem pmvfast_vectors_in_frame (current previous : Mat) (blk_size : Nat)
    (hc : previous.cols = current.cols) (hr : previous.rows = current.rows) :
    ∃ motion, pmvfast current previous blk_size = some motion ∧
      (∀ bx by_, bx < current.cols / blk_size → by_ < current.rows / blk_size →
        ∃ a b : Int, motion[by_ * (current.cols / blk_size) + bx]? = some ((a : ℚ), (b : ℚ))
          ∧ 0 ≤ (bx : Int) * (blk_size : Int) + a
          ∧ (bx : Int) * (blk_size : Int) + a ≤ (previous.cols : Int) - (blk_size : Int)
          ∧ 0 ≤ (by_ : Int) * (blk_size : Int) + b
          ∧ (by_ : Int) * (blk_size : Int) + b ≤ (previous.rows : Int) - (blk_size : Int)) ∧
      (∀ p ∈ pmvfast_sites current previous blk_size,
        ∃ a b : Int, p = ((a : ℚ), (b : ℚ)) ∧
          ∀ x y : Nat, x < blk_size → y < blk_size →
            0 ≤ a + (x : Int) ∧ a + (x : Int) < (previous.cols : Int)
              ∧ 0 ≤ b + (y : Int) ∧ b + (y : Int) < (previous.rows : Int)) := by
  obtain ⟨motion, hm, _⟩ := pmvfast_upto_some current previous blk_size
    (current.rows / blk_size * (current.cols / blk_size))
  rw [← pmvfast_eq_upto] at hm
  refine ⟨motion, hm, ?_, ?_⟩
  · intro bx by_ hbx hby
    obtain ⟨before, after, motion', hb, ha, hm', hslot⟩ :=
      pmvfast_final_slot current previous blk_size bx by_ hbx hby
    rw [hm] at hm'
    have e := Option.some.inj hm'
    subst e
    obtain ⟨hint, hq⟩ := pmvfast_block_field current previous blk_size before after bx by_
      (pmvfast_upto_int current previous blk_size _ before hb) ha
    obtain ⟨a, b, hab⟩ := getD_int after (by_ * (current.cols / blk_size) + bx) hint
    rw [hab] at hslot hq
    refine ⟨a, b, hslot, ?_⟩
    have h1 := block_origin_le current.cols blk_size bx hbx
    have h2 := block_origin_le current.rows blk_size by_ hby
    rcases hq with hz | hv
    · obtain ⟨hz1, hz2⟩ := Prod.mk.inj hz
      have ha0 : a = 0 := by exact_mod_cast hz1
      have hb0 : b = 0 := by exact_mod_cast hz2
      subst ha0
      subst hb0
      rw [hc, hr]
      have : (0 : Int) ≤ (bx : Int) * (blk_size : Int) := by positivity
      have : (0 : Int) ≤ (by_ : Int) * (blk_size : Int) := by positivity
      omega
    · have hv' : is_valid ((((bx : Int) * (blk_size : Int) + a : Int)) : ℚ)
          ((((by_ : Int) * (blk_size : Int) + b : Int)) : ℚ) blk_size previous = true := by
        push_cast at hv ⊢
        exact hv
      obtain ⟨⟨b1, b2, b3, b4⟩, _⟩ := is_valid_samples _ _ _ _ hv'
      omega
  · intro p hp
    obtain ⟨hv, a, b, e⟩ := pmvfast_sites_good current previous blk_size p hp
    rw [e] at hv
    exact ⟨a, b, e, (is_valid_samples a b blk_size previous hv).2⟩

/-- Witness of C29: the textured 6x6 frame against its shift by `(1, 0)`, block
size 2. -/
theorem pmvfast_vectors_in_frame_witness :
    ∃ motion, pmvfast (textured 6) (shifted (textured 6) 1 0 0) 2 = some motion ∧
      (∀ bx by_, bx < (textured 6).cols / 2 → by_ < (textured 6).rows / 2 →
        ∃ a b : Int, motion[by_ * ((textured 6).cols / 2) + bx]? = some ((a : ℚ), (b : ℚ))
          ∧ 0 ≤ (bx : Int) * ((2 : Nat) : Int) + a
          ∧ (bx : Int) * ((2 : Nat) : Int) + a
              ≤ ((shifted (textured 6) 1 0 0).cols : Int) - ((2 : Nat) : Int)
          ∧ 0 ≤ (by_ : Int) * ((2 : Nat) : Int) + b
          ∧ (by_ : Int) * ((2 : Nat) : Int) + b
              ≤ ((shifted (textured 6) 1 0 0).rows : Int) - ((2 : Nat) : Int)) ∧
      (∀ p ∈ pmvfast_sites (textured 6) (shifted (textured 6) 1 0 0) 2,
        ∃ a b : Int, p = ((a : ℚ), (b : ℚ)) ∧
          ∀ x y : Nat, x < 2 → y < 2 →
            0 ≤ a + (x : Int) ∧ a + (x : Int) < ((shifted (textured 6) 1 0 0).cols : Int)
              ∧ 0 ≤ b + (y : Int)
              ∧ b + (y : Int) < ((shifted (textured 6) 1 0 0).rows : Int)) :=
  pmvfast_vectors_in_frame (textured 6) (shifted (textured 6) 1 0 0) 2 rfl rfl

/-- C22: the median predictor of `pmvfast`.  The predictor list of block `(bx, by)`
holds the left neighbour if `bx > 0`, the top neighbour if `by > 0` and the
top-right neighbour if `by > 0` and `bx < blocks_wide - 1`, in this order, and every
field held by `pmvfast` is integer-valued, so the predictors are.  On integer-valued
vectors the median is `(0,0)` for the empty list, the vector itself for one vector,
the component-wise mean truncated toward zero for two vectors, and per component
the middle one of the three values for three vectors. -/
theorem pmvfast_median_spec (current previous : Mat) (blk_size n : Nat)
    (motion : List Vec2f) (blocks_wide bx by_ : Nat) :
    pmvfast_predictors motion blocks_wide bx by_
      = (if 0 < bx then [motion.getD (by_ * blocks_wide + (bx - 1)) (0, 0)] else [])
        ++ (if 0 < by_ then [motion.getD ((by_ - 1) * blocks_wide + bx) (0, 0)] else [])
        ++ (if 0 < by_ ∧ bx + 1 < blocks_wide then
            [motion.getD ((by_ - 1) * blocks_wide + (bx + 1)) (0, 0)] else []) ∧
    (pmvfast_upto current previous blk_size n = some motion →
      ∀ p ∈ pmvfast_predictors motion blocks_wide bx by_,
        ∃ a b : Int, p = ((a : ℚ), (b : ℚ))) ∧
    pmvfast_median [] = (0, 0) ∧
    (∀ a b : Int, pmvfast_median [((a : ℚ), (b : ℚ))] = (a, b)) ∧
    (∀ a b c d : Int, pmvfast_median [((a : ℚ), (b : ℚ)), ((c : ℚ), (d : ℚ))]
      = (Int.tdiv (a + c) 2, Int.tdiv (b + d) 2)) ∧
    (∀ a b c d e f : Int,
      pmvfast_median [((a : ℚ), (b : ℚ)), ((c : ℚ), (d : ℚ)), ((e : ℚ), (f : ℚ))]
        = (max (min a c) (min (max a c) e), max (min b d) (min (max b d) f))) := by
  refine ⟨?_, ?_, rfl, pmvfast_median_one, pmvfast_median_two, pmvfast_median_three⟩
  · unfold pmvfast_predictors
    by_cases h1 : 0 < bx <;> by_cases h2 : 0 < by_ <;> by_cases h3 : bx + 1 < blocks_wide <;>
      simp [h1, h2, h3]
  · intro h
    exact pmvfast_predictors_int motion blocks_wide bx by_
      (pmvfast_upto_int current previous blk_size n motion h)

/-- The median site is the only location at which an early terminated block calls
`SAD`. -/
theorem pmvfast_block_sites_early (current previous : Mat) (blk_size : Nat)
    (motion : List Vec2f) (bx by_ : Nat)
    (he : is_valid
          ((((bx : Int) * (blk_size : Int) + (pmvfast_median (pmvfast_predictors motion
            (current.cols / blk_size) bx by_)).1 : Int)) : ℚ)
          ((((by_ : Int) * (blk_size : Int) + (pmvfast_median (pmvfast_predictors motion
            (current.cols / blk_size) bx by_)).2 : Int)) : ℚ) blk_size previous = true
        ∧ SAD current previous ((bx : Int) * (blk_size : Int)) ((by_ : Int) * (blk_size : Int))
            ((((bx : Int) * (blk_size : Int) + (pmvfast_median (pmvfast_predictors motion
              (current.cols / blk_size) bx by_)).1 : Int)) : ℚ)
            ((((by_ : Int) * (blk_size : Int) + (pmvfast_median (pmvfast_predictors motion
              (current.cols / blk_size) bx by_)).2 : Int)) : ℚ) blk_size
          < (if blk_size = 8 then 64 else 256)) :
    pmvfast_block_sites current previous blk_size motion bx by_
      = [(((((bx : Int) * (blk_size : Int) + (pmvfast_median (pmvfast_predictors motion
            (current.cols / blk_size) bx by_)).1 : Int)) : ℚ),
          ((((by_ : Int) * (blk_size : Int) + (pmvfast_median (pmvfast_predictors motion
            (current.cols / blk_size) bx by_)).2 : Int)) : ℚ))] := by
  unfold pmvfast_block_sites
  simp only []
  rw [if_pos he, if_pos he.1]

/-- C23: early termination of `pmvfast`.  For every block `(bx, by)` of the grid,
with `before` the field before the block and `med` the median of its predictors:
when the median-predicted location passes the in-bounds test and its SAD is strictly
below `med_vec_stop` (64 for block size 8, 256 otherwise, so for block size 16), the
body of the block loop only writes `med` into the slot of the block, the location of
the median is the only one at which it calls `SAD`, and the vector that `pmvfast`
returns for the block is `med`. -/
theorem pmvfast_early_termination (current previous : Mat) (blk_size bx by_ : Nat)
    (before : List Vec2f) (med : Int × Int)
    (hbx : bx < current.cols / blk_size) (hby : by_ < current.rows / blk_size)
    (hb : pmvfast_upto current previous blk_size (by_ * (current.cols / blk_size) + bx)
      = some before)
    (hmed : pmvfast_median (pmvfast_predictors before (current.cols / blk_size) bx by_) = med)
    (hv : is_valid ((((bx : Int) * (blk_size : Int) + med.1 : Int)) : ℚ)
      ((((by_ : Int) * (blk_size : Int) + med.2 : Int)) : ℚ) blk_size previous = true)
    (hs : SAD current previous ((bx : Int) * (blk_size : Int)) ((by_ : Int) * (blk_size : Int))
        ((((bx : Int) * (blk_size : Int) + med.1 : Int)) : ℚ)
        ((((by_ : Int) * (blk_size : Int) + med.2 : Int)) : ℚ) blk_size
      < (if blk_size = 8 then 64 else 256)) :
    pmvfast_block current previous blk_size before bx by_
      = some (before.set (by_ * (current.cols / blk_size) + bx) ((med.1 : ℚ), (med.2 : ℚ))) ∧
    pmvfast_block_sites current previous blk_size before bx by_
      = [(((((bx : Int) * (blk_size : Int) + med.1 : Int)) : ℚ),
          ((((by_ : Int) * (blk_size : Int) + med.2 : Int)) : ℚ))] ∧
    ∃ motion, pmvfast current previous blk_size = some motion ∧
      motion[by_ * (current.cols / blk_size) + bx]? = some ((med.1 : ℚ), (med.2 : ℚ)) := by
  subst hmed
  have hblock : pmvfast_block current previous blk_size before bx by_
      = some (before.set (by_ * (current.cols / blk_size) + bx)
          (((pmvfast_median (pmvfast_predictors before
              (current.cols / blk_size) bx by_)).1 : ℚ),
            ((pmvfast_median (pmvfast_predictors before
              (current.cols / blk_size) bx by_)).2 : ℚ))) := by
    rcases pmvfast_block_cases current previous blk_size before bx by_ with
      ⟨_, e⟩ | ⟨hne, _⟩
    · exact e
    · exact absurd ⟨hv, hs⟩ hne
  refine ⟨hblock, pmvfast_block_sites_early current previous blk_size before bx by_ ⟨hv, hs⟩, ?_⟩
  obtain ⟨before', after, motion, hb', ha, hm, hslot⟩ :=
    pmvfast_final_slot current previous blk_size bx by_ hbx hby
  rw [hb] at hb'
  have e := Option.some.inj hb'
  subst e
  rw [hblock] at ha
  have e := Option.some.inj ha
  subst e
  refine ⟨motion, hm, ?_⟩
  rw [hslot]
  have hlen : by_ * (current.cols / blk_size) + bx < before.length := by
    obtain ⟨m, hm1, hm2⟩ := pmvfast_upto_some current previous blk_size
      (by_ * (current.cols / blk_size) + bx)
    rw [hb] at hm1
    have e := Option.some.inj hm1
    subst e
    rw [hm2]
    have : (by_ + 1) * (current.cols / blk_size)
        ≤ current.rows / blk_size * (current.cols / blk_size) :=
      Nat.mul_le_mul_right _ hby
    have h2 : (by_ + 1) * (current.cols / blk_size)
        = by_ * (current.cols / blk_size) + current.cols / blk_size := by ring
    have h3 : current.cols / blk_size * (current.rows / blk_size)
        = current.rows / blk_size * (current.cols / blk_size) := Nat.mul_comm _ _
    omega
  rw [List.getD_eq_getElem?_getD, List.getElem?_set_self hlen]
  rfl

set_option maxRecDepth 100000 in
/-- Witness of C23: block `(0, 0)` of the identical textured 6x6 frames, block
size 2. -/
theorem pmvfast_early_termination_witness :
    pmvfast_block (textured 6) (textured 6) 2 (List.replicate 9 (0, 0)) 0 0
      = some ((List.replicate 9 ((0, 0) : Vec2f)).set (0 * ((textured 6).cols / 2) + 0)
          ((((0, 0) : Int × Int).1 : ℚ), (((0, 0) : Int × Int).2 : ℚ))) ∧
    pmvfast_block_sites (textured 6) (textured 6) 2 (List.replicate 9 (0, 0)) 0 0
      = [((((((0 : Nat) : Int) * ((2 : Nat) : Int) + ((0, 0) : Int × Int).1 : Int)) : ℚ),
          (((((0 : Nat) : Int) * ((2 : Nat) : Int) + ((0, 0) : Int × Int).2 : Int)) : ℚ))] ∧
    ∃ motion, pmvfast (textured 6) (textured 6) 2 = some motion ∧
      motion[0 * ((textured 6).cols / 2) + 0]?
        = some ((((0, 0) : Int × Int).1 : ℚ), (((0, 0) : Int × Int).2 : ℚ)) :=
  pmvfast_early_termination (textured 6) (textured 6) 2 0 0 (List.replicate 9 (0, 0)) (0, 0)
    (by decide) (by decide) rfl (by decide!) (by decide!) (by decide!)

/-- The test `magmed < 0.1` on an integer median holds exactly for the zero
median. -/
theorem magmed_zero (med : Int × Int) :
    100 * (med.1 * med.1 + med.2 * med.2) < 1 ↔ med = (0, 0) := by
  constructor
  · intro h
    have h1 : 0 ≤ med.1 * med.1 := mul_self_nonneg _
    have h2 : 0 ≤ med.2 * med.2 := mul_self_nonneg _
    have e1 : med.1 * med.1 = 0 := by omega
    have e2 : med.2 * med.2 = 0 := by omega
    exact Prod.ext (mul_self_eq_zero.mp e1) (mul_self_eq_zero.mp e2)
  · intro h
    rw [h]
    norm_num

/-- C24: search-pattern selection in `pmvfast`.  For a block that is not terminated
early, with `med` the median of its predictors and `bp = (best_predictor, min_sad)`
the result of the predictor loop: the small diamond search is run, from the field
with `best_predictor` in the slot of the block, when `med = (0,0)` and
`T2 = min_sad + T2_offset < K`, and the large diamond search otherwise, where
`(T2_offset, K)` is `(64, 384)` for block size 8 and `(256, 1536)` for every other
block size, so for block size 16.  When no predictor is in bounds, `min_sad` is
10000, `best_predictor` is `(0,0)` and the large diamond is run. -/
theorem pmvfast_pattern_selection (current previous : Mat) (blk_size : Nat)
    (motion : List Vec2f) (bx by_ : Nat) (med : Int × Int) (bp : Vec2f × Int)
    (hmed : pmvfast_median (pmvfast_predictors motion (current.cols / blk_size) bx by_) = med)
    (hbp : pmvfast_best_predictor current previous blk_size ((bx : Int) * (blk_size : Int))
      ((by_ : Int) * (blk_size : Int))
      (pmvfast_predictors motion (current.cols / blk_size) bx by_) = bp)
    (hne : ¬ (is_valid ((((bx : Int) * (blk_size : Int) + med.1 : Int)) : ℚ)
        ((((by_ : Int) * (blk_size : Int) + med.2 : Int)) : ℚ) blk_size previous = true
      ∧ SAD current previous ((bx : Int) * (blk_size : Int)) ((by_ : Int) * (blk_size : Int))
          ((((bx : Int) * (blk_size : Int) + med.1 : Int)) : ℚ)
          ((((by_ : Int) * (blk_size : Int) + med.2 : Int)) : ℚ) blk_size
        < (if blk_size = 8 then 64 else 256))) :
    ((med = (0, 0) ∧ bp.2 + (if blk_size = 8 then 64 else 256)
        < (if blk_size = 8 then 384 else 1536)) →
      pmvfast_block current previous blk_size motion bx by_
        = small_diamond_search current previous bx by_ blk_size
            (motion.set (by_ * (current.cols / blk_size) + bx) bp.1)) ∧
    (¬ (med = (0, 0) ∧ bp.2 + (if blk_size = 8 then 64 else 256)
        < (if blk_size = 8 then 384 else 1536)) →
      pmvfast_block current previous blk_size motion bx by_
        = large_diamond_search current previous bx by_ blk_size
            (motion.set (by_ * (current.cols / blk_size) + bx) bp.1)) ∧
    ((∀ p ∈ pmvfast_predictors motion (current.cols / blk_size) bx by_,
        is_valid ((((bx : Int) * (blk_size : Int) : Int) : ℚ) + p.1)
          ((((by_ : Int) * (blk_size : Int) : Int) : ℚ) + p.2) blk_size previous = false) →
      bp = ((0, 0), 10000) ∧
      pmvfast_block current previous blk_size motion bx by_
        = large_diamond_search current previous bx by_ blk_size
            (motion.set (by_ * (current.cols / blk_size) + bx) (0, 0))) := by
  subst hmed
  subst hbp
  have key := pmvfast_block_cases current previous blk_size motion bx by_
  have hlarge : ¬ ((pmvfast_median (pmvfast_predictors motion
        (current.cols / blk_size) bx by_) = (0, 0)
      ∧ (pmvfast_best_predictor current previous blk_size ((bx : Int) * (blk_size : Int))
          ((by_ : Int) * (blk_size : Int))
          (pmvfast_predictors motion (current.cols / blk_size) bx by_)).2
        + (if blk_size = 8 then 64 else 256) < (if blk_size = 8 then 384 else 1536))) →
      pmvfast_block current previous blk_size motion bx by_
        = large_diamond_search current previous bx by_ blk_size
            (motion.set (by_ * (current.cols / blk_size) + bx)
              (pmvfast_best_predictor current previous blk_size
                ((bx : Int) * (blk_size : Int)) ((by_ : Int) * (blk_size : Int))
                (pmvfast_predictors motion (current.cols / blk_size) bx by_)).1) := by
    intro hc
    rcases key with ⟨he, _⟩ | ⟨_, ⟨hs, _⟩ | ⟨_, e⟩⟩
    · exact absurd he hne
    · exact absurd ⟨(magmed_zero _).mp hs.1, hs.2⟩ hc
    · exact e
  refine ⟨?_, hlarge, ?_⟩
  · intro hc
    rcases key with ⟨he, _⟩ | ⟨_, ⟨_, e⟩ | ⟨hs, _⟩⟩
    · exact absurd he hne
    · exact e
    · exact absurd ⟨(magmed_zero _).mpr hc.1, hc.2⟩ hs
  · intro hnone
    have hb : pmvfast_best_predictor current previous blk_size ((bx : Int) * (blk_size : Int))
        ((by_ : Int) * (blk_size : Int))
        (pmvfast_predictors motion (current.cols / blk_size) bx by_) = ((0, 0), 10000) := by
      apply best_predictor_none
      intro p hp hv
      rw [hnone p hp] at hv
      exact absurd hv (by simp)
    refine ⟨hb, ?_⟩
    have hl := hlarge (by
      rintro ⟨_, h2⟩
      rw [hb] at h2
      split_ifs at h2 <;> omega)
    rw [hb] at hl
    exact hl

set_option maxRecDepth 100000 in
/-- Witness of C24: block `(1, 0)` of `bright24` against `dark24`, block size 8, with
the field left by block `(0, 0)`; the median is `(2, 0)`, no predictor is accepted
and the large diamond is run. -/
theorem pmvfast_pattern_selection_witness :
    (((2, 0) : Int × Int) = (0, 0) ∧ (((0, 0), 10000) : Vec2f × Int).2
          + (if 8 = 8 then 64 else 256) < (if 8 = 8 then 384 else 1536) →
      pmvfast_block bright24 dark24 8 ((2, 0) :: List.replicate 8 ((0, 0) : Vec2f)) 1 0
        = small_diamond_search bright24 dark24 1 0 8
            (((2, 0) :: List.replicate 8 ((0, 0) : Vec2f)).set (0 * (bright24.cols / 8) + 1)
              (((0, 0), 10000) : Vec2f × Int).1)) ∧
    (¬ (((2, 0) : Int × Int) = (0, 0) ∧ (((0, 0), 10000) : Vec2f × Int).2
          + (if 8 = 8 then 64 else 256) < (if 8 = 8 then 384 else 1536)) →
      pmvfast_block bright24 dark24 8 ((2, 0) :: List.replicate 8 ((0, 0) : Vec2f)) 1 0
        = large_diamond_search bright24 dark24 1 0 8
            (((2, 0) :: List.replicate 8 ((0, 0) : Vec2f)).set (0 * (bright24.cols / 8) + 1)
              (((0, 0), 10000) : Vec2f × Int).1)) ∧
    ((∀ p ∈ pmvfast_predictors ((2, 0) :: List.replicate 8 ((0, 0) : Vec2f))
          (bright24.cols / 8) 1 0,
        is_valid (((((1 : Nat) : Int) * ((8 : Nat) : Int) : Int) : ℚ) + p.1)
          (((((0 : Nat) : Int) * ((8 : Nat) : Int) : Int) : ℚ) + p.2) 8 dark24 = false) →
      (((0, 0), 10000) : Vec2f × Int) = ((0, 0), 10000) ∧
      pmvfast_block bright24 dark24 8 ((2, 0) :: List.replicate 8 ((0, 0) : Vec2f)) 1 0
        = large_diamond_search bright24 dark24 1 0 8
            (((2, 0) :: List.replicate 8 ((0, 0) : Vec2f)).set (0 * (bright24.cols / 8) + 1)
              (0, 0))) :=
  pmvfast_pattern_selection bright24 dark24 8 ((2, 0) :: List.replicate 8 ((0, 0) : Vec2f)) 1 0
    (2, 0) ((0, 0), 10000) (by decide!) (by decide!) (by decide!)

/-! ## Scan order and border handling of subpixel_search -/

/-- The scanned offsets of a block are those within the limits of both axes. -/
theorem mem_subpixel_offsets (previous : Mat) (blk_size bx by_ : Nat) (v : Vec2f)
    (c : Int × Int) :
    c ∈ subpixel_offsets previous blk_size bx by_ v ↔
      ((subpixel_limits ((bx : Int) * (blk_size : Int)) v.1 blk_size previous.cols).1 ≤ c.1
        ∧ c.1 ≤ (subpixel_limits ((bx : Int) * (blk_size : Int)) v.1 blk_size previous.cols).2)
      ∧ ((subpixel_limits ((by_ : Int) * (blk_size : Int)) v.2 blk_size previous.rows).1 ≤ c.2
        ∧ c.2 ≤ (subpixel_limits ((by_ : Int) * (blk_size : Int)) v.2 blk_size
            previous.rows).2) := by
  unfold subpixel_offsets
  simp only []
  rw [mem_product, mem_forRange, mem_forRange]

/-- The limits of an axis enclose the offset 0. -/
theorem subpixel_limits_zero (o : Int) (v : ℚ) (blk_size dim : Nat) :
    (subpixel_limits o v blk_size dim).1 ≤ 0 ∧ 0 ≤ (subpixel_limits o v blk_size dim).2 := by
  unfold subpixel_limits
  simp only []
  constructor <;> split_ifs <;> norm_num

/-- The scan of a block starts at the offset `(minx, miny)`. -/
theorem subpixel_offsets_head (previous : Mat) (blk_size bx by_ : Nat) (v : Vec2f) :
    ∃ t, subpixel_offsets previous blk_size bx by_ v
      = ((subpixel_limits ((bx : Int) * (blk_size : Int)) v.1 blk_size previous.cols).1,
          (subpixel_limits ((by_ : Int) * (blk_size : Int)) v.2 blk_size previous.rows).1)
        :: t := by
  have hx := subpixel_limits_zero ((bx : Int) * (blk_size : Int)) v.1 blk_size previous.cols
  have hy := subpixel_limits_zero ((by_ : Int) * (blk_size : Int)) v.2 blk_size previous.rows
  have hr : ∀ lo hi : Int, lo ≤ hi → ∃ t, forRange lo hi = lo :: t := by
    intro lo hi h
    unfold forRange
    obtain ⟨n, hn⟩ : ∃ n, (hi + 1 - lo).toNat = n + 1 := ⟨(hi - lo).toNat, by omega⟩
    rw [hn, List.range_succ_eq_map, List.map_cons]
    exact ⟨List.map (fun (k : Nat) => lo + (k : Int)) (List.map Nat.succ (List.range n)),
      by simp⟩
  obtain ⟨tx, ex⟩ := hr _ _ (le_trans hx.1 hx.2)
  obtain ⟨ty, ey⟩ := hr _ _ (le_trans hy.1 hy.2)
  unfold subpixel_offsets
  simp only []
  rw [ey, List.flatMap_cons, ex, List.map_cons, List.cons_append]
  exact ⟨_, rfl⟩

/-- The refinement of a block is a strict-minimum scan of its offsets in scan
order. -/
theorem subpixel_refine_eq_scan (current previous : Mat) (blk_size bx by_ : Nat) (v : Vec2f) :
    subpixel_refine current previous blk_size bx by_ v
      = (subpixel_offsets previous blk_size bx by_ v).foldl
          (fun (st : Int × Vec2f) (c : Int × Int) =>
            subpixel_step current previous blk_size ((bx : Int) * (blk_size : Int))
              ((by_ : Int) * (blk_size : Int)) v st c.1 c.2)
          (10000000, v) := by
  unfold subpixel_refine subpixel_offsets
  simp only []
  rw [foldl_nested_eq (fun (st : Int × Vec2f) (x y : Int) =>
    subpixel_step current previous blk_size ((bx : Int) * (blk_size : Int))
      ((by_ : Int) * (blk_size : Int)) v st x y)]

/-- An offset whose distortion is below the best one so far is accepted. -/
theorem subpixel_step_acc (current previous : Mat) (blk_size bx by_ : Nat) (v : Vec2f)
    (st : Int × Vec2f) (c : Int × Int)
    (h : subpixel_cost current previous blk_size bx by_ v c < st.1) :
    subpixel_step current previous blk_size ((bx : Int) * (blk_size : Int))
        ((by_ : Int) * (blk_size : Int)) v st c.1 c.2
      = (subpixel_cost current previous blk_size bx by_ v c,
          (v.1 + (c.1 : ℚ) * (1 / 4), v.2 + (c.2 : ℚ) * (1 / 4))) := by
  unfold subpixel_step
  unfold subpixel_cost at h
  simp only []
  rw [if_pos h]
  rfl

/-- An offset whose distortion is not below the best one so far is passed over. -/
theorem subpixel_step_rej (current previous : Mat) (blk_size bx by_ : Nat) (v : Vec2f)
    (st : Int × Vec2f) (c : Int × Int)
    (h : ¬ subpixel_cost current previous blk_size bx by_ v c < st.1) :
    subpixel_step current previous blk_size ((bx : Int) * (blk_size : Int))
        ((by_ : Int) * (blk_size : Int)) v st c.1 c.2 = st := by
  unfold subpixel_step
  unfold subpixel_cost at h
  simp only []
  rw [if_neg h]

/-- The refined vector of a block is its input vector plus a quarter of one of the
scanned offsets. -/
theorem subpixel_refine_within (current previous : Mat) (blk_size bx by_ : Nat) (v : Vec2f) :
    ∃ c ∈ subpixel_offsets previous blk_size bx by_ v,
      (subpixel_refine current previous blk_size bx by_ v).2
        = (v.1 + (c.1 : ℚ) * (1 / 4), v.2 + (c.2 : ℚ) * (1 / 4)) := by
  rw [subpixel_refine_eq_scan]
  rcases min_fold_cases
    (fun (st : Int × Vec2f) (c : Int × Int) =>
      subpixel_step current previous blk_size ((bx : Int) * (blk_size : Int))
        ((by_ : Int) * (blk_size : Int)) v st c.1 c.2)
    Prod.fst Prod.snd (fun (_ : Int × Int) => True)
    (subpixel_cost current previous blk_size bx by_ v)
    (fun (c : Int × Int) => (v.1 + (c.1 : ℚ) * (1 / 4), v.2 + (c.2 : ℚ) * (1 / 4)))
    (fun st c _ hlt => by
      beta_reduce
      rw [subpixel_step_acc current previous blk_size bx by_ v st c hlt]
      exact ⟨rfl, rfl⟩)
    (fun st c hn =>
      subpixel_step_rej current previous blk_size bx by_ v st c (fun hlt => hn ⟨trivial, hlt⟩))
    (subpixel_offsets previous blk_size bx by_ v) (10000000, v) with h | ⟨c, hc, _, _, _, e⟩
  · rw [h]
    refine ⟨(0, 0), ?_, by simp⟩
    rw [mem_subpixel_offsets]
    exact ⟨subpixel_limits_zero _ _ _ _, subpixel_limits_zero _ _ _ _⟩
  · exact ⟨c, hc, e⟩

/-- With `255*blk*blk < 10^7`, the refinement of a block ends on the first offset in
scan order whose distortion is the minimum over the scanned offsets. -/
theorem subpixel_refine_first_min (current previous : Mat) (blk_size bx by_ : Nat) (v : Vec2f)
    (hsz : 255 * (blk_size * blk_size) < 10000000) :
    ∃ c l1 l2, subpixel_offsets previous blk_size bx by_ v = l1 ++ c :: l2
      ∧ (∀ d ∈ l1, subpixel_cost current previous blk_size bx by_ v c
          < subpixel_cost current previous blk_size bx by_ v d)
      ∧ (∀ d ∈ l2, subpixel_cost current previous blk_size bx by_ v c
          ≤ subpixel_cost current previous blk_size bx by_ v d)
      ∧ subpixel_refine current previous blk_size bx by_ v
        = (subpixel_cost current previous blk_size bx by_ v c,
            (v.1 + (c.1 : ℚ) * (1 / 4), v.2 + (c.2 : ℚ) * (1 / 4))) := by
  obtain ⟨t, ht⟩ := subpixel_offsets_head previous blk_size bx by_ v
  obtain ⟨c, l1, l2, hl, _, h1, h2⟩ := exists_first_min_valid (fun (_ : Int × Int) => True)
    (subpixel_cost current previous blk_size bx by_ v)
    (subpixel_offsets previous blk_size bx by_ v)
    ⟨_, by rw [ht]; exact List.mem_cons_self _ _, trivial⟩
  refine ⟨c, l1, l2, hl, fun d hd => h1 d hd trivial, fun d hd => h2 d hd trivial, ?_⟩
  rw [subpixel_refine_eq_scan, hl]
  have hlt : subpixel_cost current previous blk_size bx by_ v c
      < ((10000000, v) : Int × Vec2f).1 := by
    have h := SAD_le current previous ((bx : Int) * (blk_size : Int))
      ((by_ : Int) * (blk_size : Int))
      ((((bx : Int) * (blk_size : Int) : Int) : ℚ) + (v.1 + (c.1 : ℚ) * (1 / 4)))
      ((((by_ : Int) * (blk_size : Int) : Int) : ℚ) + (v.2 + (c.2 : ℚ) * (1 / 4))) blk_size
    have h2 : (255 : Int) * ((blk_size : Int) * (blk_size : Int)) < 10000000 := by
      exact_mod_cast hsz
    show subpixel_cost current previous blk_size bx by_ v c < 10000000
    unfold subpixel_cost
    omega
  obtain ⟨e1, e2⟩ := min_fold_first
    (fun (st : Int × Vec2f) (c : Int × Int) =>
      subpixel_step current previous blk_size ((bx : Int) * (blk_size : Int))
        ((by_ : Int) * (blk_size : Int)) v st c.1 c.2)
    Prod.fst Prod.snd (fun (_ : Int × Int) => True)
    (subpixel_cost current previous blk_size bx by_ v)
    (fun (c : Int × Int) => (v.1 + (c.1 : ℚ) * (1 / 4), v.2 + (c.2 : ℚ) * (1 / 4)))
    (fun st c _ hlt => by
      beta_reduce
      rw [subpixel_step_acc current previous blk_size bx by_ v st c hlt]
      exact ⟨rfl, rfl⟩)
    (fun st c hn =>
      subpixel_step_rej current previous blk_size bx by_ v st c (fun hlt => hn ⟨trivial, hlt⟩))
    l1 l2 c (10000000, v) trivial hlt (fun d hd _ => h1 d hd trivial)
    (fun d hd _ => h2 d hd trivial)
  exact Prod.ext e1 e2

/-- When every scanned offset has a distortion of at least `10^7`, the refinement
keeps the input vector. -/
theorem subpixel_refine_none (current previous : Mat) (blk_size bx by_ : Nat) (v : Vec2f)
    (h : ∀ c ∈ subpixel_offsets previous blk_size bx by_ v,
      10000000 ≤ subpixel_cost current previous blk_size bx by_ v c) :
    subpixel_refine current previous blk_size bx by_ v = (10000000, v) := by
  rw [subpixel_refine_eq_scan]
  exact min_fold_fixed
    (fun (st : Int × Vec2f) (c : Int × Int) =>
      subpixel_step current previous blk_size ((bx : Int) * (blk_size : Int))
        ((by_ : Int) * (blk_size : Int)) v st c.1 c.2)
    Prod.fst (fun (_ : Int × Int) => True)
    (subpixel_cost current previous blk_size bx by_ v)
    (fun st c hn =>
      subpixel_step_rej current previous blk_size bx by_ v st c (fun hlt => hn ⟨trivial, hlt⟩))
    _ (10000000, v) (fun c hc _ => h c hc)

/-- C26, as the code has it: border handling of `subpixel_search`.  For every block
`(bx, by)` of the grid with input vector `v`, the refined vector is
`v + (i/4, j/4)` for a scanned offset `(i, j)`, and on each axis the scanned offsets
are those from `minx` to `maxx`, where `minx` is 0 if `ox+vx <= 0` and -3 otherwise,
and `maxx` is 0 if `ox+vx+blk >= width` and 3 otherwise (likewise for `y`): each
border closes its own side of the range only, and the range is `[0,0]` only when
both conditions hold. -/
theorem subpixel_border_handling (current previous : Mat) (blk_size : Nat)
    (motion : List Vec2f) (bx by_ : Nat) (v : Vec2f)
    (hbx : bx < current.cols / blk_size) (hby : by_ < current.rows / blk_size)
    (hv : motion[by_ * (current.cols / blk_size) + bx]? = some v) :
    (∀ c : Int × Int, c ∈ subpixel_offsets previous blk_size bx by_ v ↔
      ((if (((bx : Int) * (blk_size : Int) : Int) : ℚ) + v.1 ≤ 0 then 0 else -3) ≤ c.1
        ∧ c.1 ≤ (if (((bx : Int) * (blk_size : Int) : Int) : ℚ) + v.1 + (blk_size : ℚ)
            ≥ (previous.cols : ℚ) then 0 else 3))
      ∧ ((if (((by_ : Int) * (blk_size : Int) : Int) : ℚ) + v.2 ≤ 0 then 0 else -3) ≤ c.2
        ∧ c.2 ≤ (if (((by_ : Int) * (blk_size : Int) : Int) : ℚ) + v.2 + (blk_size : ℚ)
            ≥ (previous.rows : ℚ) then 0 else 3))) ∧
    ∃ c ∈ subpixel_offsets previous blk_size bx by_ v,
      (subpixel_search current previous blk_size motion)[by_ * (current.cols / blk_size) + bx]?
        = some (v.1 + (c.1 : ℚ) * (1 / 4), v.2 + (c.2 : ℚ) * (1 / 4)) := by
  refine ⟨fun c => mem_subpixel_offsets previous blk_size bx by_ v c, ?_⟩
  obtain ⟨c, hc, e⟩ := subpixel_refine_within current previous blk_size bx by_ v
  refine ⟨c, hc, ?_⟩
  rw [subpixel_search_getElem? current previous blk_size motion bx by_ hbx hby, hv]
  simp only [Option.map_some']
  rw [e]

set_option maxRecDepth 100000 in
/-- Witness of C26 (amended): block `(1, 0)` of the textured 4x4 frame against its
shift by `(1, 0)`, block size 2, with the field found by `fullsearch`. -/
theorem subpixel_border_handling_witness :
    (∀ c : Int × Int, c ∈ subpixel_offsets (shifted (textured 4) 1 0 0) 2 1 0 (0, 2) ↔
      ((if ((((1 : Nat) : Int) * ((2 : Nat) : Int) : Int) : ℚ) + ((0, 2) : Vec2f).1 ≤ 0
          then 0 else -3) ≤ c.1
        ∧ c.1 ≤ (if ((((1 : Nat) : Int) * ((2 : Nat) : Int) : Int) : ℚ) + ((0, 2) : Vec2f).1
              + ((2 : Nat) : ℚ) ≥ ((shifted (textured 4) 1 0 0).cols : ℚ) then 0 else 3))
      ∧ ((if ((((0 : Nat) : Int) * ((2 : Nat) : Int) : Int) : ℚ) + ((0, 2) : Vec2f).2 ≤ 0
          then 0 else -3) ≤ c.2
        ∧ c.2 ≤ (if ((((0 : Nat) : Int) * ((2 : Nat) : Int) : Int) : ℚ) + ((0, 2) : Vec2f).2
              + ((2 : Nat) : ℚ) ≥ ((shifted (textured 4) 1 0 0).rows : ℚ) then 0 else 3))) ∧
    ∃ c ∈ subpixel_offsets (shifted (textured 4) 1 0 0) 2 1 0 (0, 2),
      (subpixel_search (textured 4) (shifted (textured 4) 1 0 0) 2
          [(1, 0), (0, 2), (1, 0), (0, 0)])[0 * ((textured 4).cols / 2) + 1]?
        = some (((0, 2) : Vec2f).1 + (c.1 : ℚ) * (1 / 4),
            ((0, 2) : Vec2f).2 + (c.2 : ℚ) * (1 / 4)) :=
  subpixel_border_handling (textured 4) (shifted (textured 4) 1 0 0) 2
    [(1, 0), (0, 2), (1, 0), (0, 0)] 1 0 (0, 2) (by decide) (by decide) (by decide!)

set_option maxRecDepth 100000 in
/-- C26 fails as stated: on the textured 4x4 frame against its shift by `(1, 0)`,
block size 2, block `(1, 0)` with integer vector `(0, 2)` reaches the right border of
the frame (`ox+vx+blk = 4 >= width`), yet the offsets searched on the x axis run
from -3 to 0 and the refined x component is `-1/2`, not the integer component 0. -/
theorem subpixel_border_range_not_collapsed :
    (((((1 : Nat) : Int) * ((2 : Nat) : Int) : Int) : ℚ) + ((0, 2) : Vec2f).1 + ((2 : Nat) : ℚ)
      ≥ ((shifted (textured 4) 1 0 0).cols : ℚ)) ∧
    subpixel_limits (((1 : Nat) : Int) * ((2 : Nat) : Int)) ((0, 2) : Vec2f).1 2
      (shifted (textured 4) 1 0 0).cols = (-3, 0) ∧
    [((1 : ℚ), (0 : ℚ)), (0, 2), (1, 0), (0, 0)][0 * ((textured 4).cols / 2) + 1]?
      = some (0, 2) ∧
    (subpixel_search (textured 4) (shifted (textured 4) 1 0 0) 2
        [(1, 0), (0, 2), (1, 0), (0, 0)])[0 * ((textured 4).cols / 2) + 1]?
      = some (-1 / 2, 2) := by
  decide!

/-! ## Tie policy of subpixel_search -/

/-- C27, as the code has it: tie policy of `subpixel_search`.  For a block size with
`255*blk*blk < 10^7` and every block `(bx, by)` of the grid with input vector `v`,
the refined vector is `v + (c/4)` for the first offset `c` in scan order (`y`
ascending in the outer loop, `x` ascending in the inner loop, starting from
`(minx, miny)`) whose SAD is the minimum over the scanned offsets; in particular,
when all scanned offsets have the same SAD, the result is `v + (minx/4, miny/4)`. -/
theorem subpixel_tie_policy (current previous : Mat) (blk_size : Nat)
    (motion : List Vec2f) (bx by_ : Nat) (v : Vec2f)
    (hsz : 255 * (blk_size * blk_size) < 10000000)
    (hbx : bx < current.cols / blk_size) (hby : by_ < current.rows / blk_size)
    (hv : motion[by_ * (current.cols / blk_size) + bx]? = some v) :
    (∃ c l1 l2, subpixel_offsets previous blk_size bx by_ v = l1 ++ c :: l2
      ∧ (∀ d ∈ l1, subpixel_cost current previous blk_size bx by_ v c
          < subpixel_cost current previous blk_size bx by_ v d)
      ∧ (∀ d ∈ l2, subpixel_cost current previous blk_size bx by_ v c
          ≤ subpixel_cost current previous blk_size bx by_ v d)
      ∧ (subpixel_search current previous blk_size motion)[
            by_ * (current.cols / blk_size) + bx]?
          = some (v.1 + (c.1 : ℚ) * (1 / 4), v.2 + (c.2 : ℚ) * (1 / 4))) ∧
    (∃ t, subpixel_offsets previous blk_size bx by_ v
      = ((subpixel_limits ((bx : Int) * (blk_size : Int)) v.1 blk_size previous.cols).1,
          (subpixel_limits ((by_ : Int) * (blk_size : Int)) v.2 blk_size previous.rows).1)
        :: t) ∧
    ((∀ d ∈ subpixel_offsets previous blk_size bx by_ v,
        subpixel_cost current previous blk_size bx by_ v d
          = subpixel_cost current previous blk_size bx by_ v
              ((subpixel_limits ((bx : Int) * (blk_size : Int)) v.1 blk_size
                  previous.cols).1,
                (subpixel_limits ((by_ : Int) * (blk_size : Int)) v.2 blk_size
                  previous.rows).1)) →
      (subpixel_search current previous blk_size motion)[
          by_ * (current.cols / blk_size) + bx]?
        = some
          (v.1 + (((subpixel_limits ((bx : Int) * (blk_size : Int)) v.1 blk_size
              previous.cols).1 : Int) : ℚ) * (1 / 4),
            v.2 + (((subpixel_limits ((by_ : Int) * (blk_size : Int)) v.2 blk_size
              previous.rows).1 : Int) : ℚ) * (1 / 4))) := by
  have hslot : (subpixel_search current previous blk_size motion)[
        by_ * (current.cols / blk_size) + bx]?
      = some (subpixel_refine current previous blk_size bx by_ v).2 := by
    rw [subpixel_search_getElem? current previous blk_size motion bx by_ hbx hby, hv]
    rfl
  obtain ⟨c, l1, l2, hl, h1, h2, e⟩ :=
    subpixel_refine_first_min current previous blk_size bx by_ v hsz
  obtain ⟨t, ht⟩ := subpixel_offsets_head previous blk_size bx by_ v
  refine ⟨⟨c, l1, l2, hl, h1, h2, by rw [hslot, e]⟩, ⟨t, ht⟩, ?_⟩
  intro hall
  rw [hslot, e]
  cases l1 with
  | nil =>
    rw [ht, List.nil_append] at hl
    rw [← (List.cons.inj hl).1]
  | cons a l1' =>
    exfalso
    rw [ht, List.cons_append] at hl
    have ha := (List.cons.inj hl).1
    have hlt := h1 a (List.mem_cons_self a l1')
    have hc : c ∈ subpixel_offsets previous blk_size bx by_ v := by
      rw [ht, hl]
      exact List.mem_cons_of_mem _ (List.mem_append_right _ (List.mem_cons_self c l2))
    rw [← ha, hall c hc] at hlt
    exact lt_irrefl _ hlt

set_option maxRecDepth 100000 in
/-- Witness of C27 (amended): block `(1, 0)` of the textured 4x4 frame against its
shift by `(1, 0)`, block size 2, with the field found by `fullsearch`. -/
theorem subpixel_tie_policy_witness :
    ∃ c l1 l2, subpixel_offsets (shifted (textured 4) 1 0 0) 2 1 0 (0, 2) = l1 ++ c :: l2
      ∧ (∀ d ∈ l1, subpixel_cost (textured 4) (shifted (textured 4) 1 0 0) 2 1 0 (0, 2) c
          < subpixel_cost (textured 4) (shifted (textured 4) 1 0 0) 2 1 0 (0, 2) d)
      ∧ (∀ d ∈ l2, subpixel_cost (textured 4) (shifted (textured 4) 1 0 0) 2 1 0 (0, 2) c
          ≤ subpixel_cost (textured 4) (shifted (textured 4) 1 0 0) 2 1 0 (0, 2) d)
      ∧ (subpixel_search (textured 4) (shifted (textured 4) 1 0 0) 2
            [(1, 0), (0, 2), (1, 0), (0, 0)])[0 * ((textured 4).cols / 2) + 1]?
          = some (((0, 2) : Vec2f).1 + (c.1 : ℚ) * (1 / 4),
              ((0, 2) : Vec2f).2 + (c.2 : ℚ) * (1 / 4)) :=
  (subpixel_tie_policy (textured 4) (shifted (textured 4) 1 0 0) 2
    [(1, 0), (0, 2), (1, 0), (0, 0)] 1 0 (0, 2) (by decide) (by decide) (by decide)
    (by decide!)).1

/-- The sum of a constant over a range. -/
theorem sum_map_const (n : Nat) (c : Int) :
    ((List.range n).map (fun (_ : Nat) => c)).sum = (n : Int) * c := by
  induction n with
  | zero => simp
  | succ n ih =>
    rw [List.range_succ, List.map_append, List.sum_append, ih]
    simp only [List.map_cons, List.map_nil, List.sum_cons, List.sum_nil]
    push_cast
    ring

theorem big_zero_at (r c : Int) : big_zero.at r c = 0 := rfl

/-- The sampler returns 0 everywhere on the all-zero frame. -/
theorem interpolate_big_zero (fx fy : ℚ) : interpolate big_zero fx fy = 0 := by
  have h0 : roundf 0 = 0 := by
    have h := roundf_natCast 0
    simpa using h
  unfold interpolate
  simp only [big_zero_at, Nat.cast_zero, ite_self, mul_zero, add_zero, h0]
  split_ifs <;> rfl

/-- Every block of 200x200 pixels of `big_current` has the distortion `255 * 200 * 200`
against `big_zero`, wherever it is searched. -/
theorem big_zero_cost (rx ry : Int) (sx sy : ℚ) :
    SAD big_current big_zero rx ry sx sy 200 = 10200000 := by
  rw [SAD_eq_sum]
  simp only [big_current_at, interpolate_big_zero]
  rw [sum_map_const, sum_map_const]
  norm_num

/-- C27 fails as stated for large blocks: on `big_current` (all 255) against
`big_zero` (all 0) with block size 200, the offsets scanned for block `(1, 0)` with
input vector `(0, 0)` start at `(-3, 0)` and all have the SAD 10200000, which is not
below the initial `best = 10^7`; the refined vector is the input vector `(0, 0)`,
not `(0, 0) + (-3/4, 0)`. -/
theorem subpixel_keeps_input_on_large_blocks :
    subpixel_offsets big_zero 200 1 0 (0, 0) = [(-3, 0), (-2, 0), (-1, 0), (0, 0)] ∧
    (∀ c ∈ subpixel_offsets big_zero 200 1 0 (0, 0),
      subpixel_cost big_current big_zero 200 1 0 (0, 0) c = 10200000) ∧
    [((0 : ℚ), (0 : ℚ)), (0, 0)][0 * (big_current.cols / 200) + 1]? = some (0, 0) ∧
    (subpixel_search big_current big_zero 200 [(0, 0), (0, 0)])[
        0 * (big_current.cols / 200) + 1]? = some (0, 0) := by
  have hcost : ∀ c ∈ subpixel_offsets big_zero 200 1 0 (0, 0),
      subpixel_cost big_current big_zero 200 1 0 (0, 0) c = 10200000 := by
    intro c _
    unfold subpixel_cost
    exact big_zero_cost _ _ _ _
  refine ⟨by decide!, hcost, rfl, ?_⟩
  rw [subpixel_search_getElem? big_current big_zero 200 [(0, 0), (0, 0)] 1 0
    (by decide) (by decide)]
  have e : [((0 : ℚ), (0 : ℚ)), (0, 0)][0 * (big_current.cols / 200) + 1]? = some (0, 0) := rfl
  rw [e, Option.map_some',
    subpixel_refine_none big_current big_zero 200 1 0 (0, 0) (fun c hc => by
      rw [hcost c hc]; norm_num)]

/-! ## Sample locations of subpixel_search -/

/-- Each block of `subpixel_search` reads its input vector from the slot as the
caller passed it: the blocks before it have written other slots only. -/
theorem subpixel_upto_slot (current previous : Mat) (blk_size : Nat) (motion : List Vec2f)
    (i : Nat) :
    (subpixel_upto current previous blk_size motion i).getD i (0, 0) = motion.getD i (0, 0) := by
  have e : subpixel_upto current previous blk_size motion i
      = (List.range i).foldl (fun (m : List Vec2f) (j : Nat) =>
          m.set j ((fun (j : Nat) (v : Vec2f) => (subpixel_refine current previous blk_size
            (j % (current.cols / blk_size)) (j / (current.cols / blk_size)) v).2)
            j (m.getD j (0, 0)))) motion := by
    unfold subpixel_upto
    congr 1
    funext m j
    unfold subpixel_block
    simp only []
    rw [Nat.div_add_mod' j (current.cols / blk_size)]
  rw [e, List.getD_eq_getElem?_getD, List.getD_eq_getElem?_getD,
    (slot_fold (fun (j : Nat) (v : Vec2f) => (subpixel_refine current previous blk_size
      (j % (current.cols / blk_size)) (j / (current.cols / blk_size)) v).2) i motion).2 i,
    if_neg (lt_irrefl i)]

/-- The locations that `SAD` passes to the sampler are `(sx + x, sy + y)` with
`x, y < size`. -/
theorem mem_SAD_locations (sx sy : ℚ) (size : Nat) (p : ℚ × ℚ) :
    p ∈ SAD_locations sx sy size ↔
      ∃ x y : Nat, x < size ∧ y < size ∧ p = (sx + (x : ℚ), sy + (y : ℚ)) := by
  unfold SAD_locations
  simp only [List.mem_flatMap, List.mem_map, List.mem_range]
  constructor
  · rintro ⟨y, hy, x, hx, rfl⟩
    exact ⟨x, y, hx, hy, rfl⟩
  · rintro ⟨x, y, hx, hy, rfl⟩
    exact ⟨y, hy, x, hx, rfl⟩

/-- On one axis, an integer component that keeps the block inside the frame keeps
every sample of every scanned quarter-pixel offset inside `[0, dim - 1]`. -/
theorem subpixel_axis_in_image (o a : Int) (blk_size dim : Nat) (c : Int) (x : Nat)
    (h0 : 0 ≤ o + a) (h1 : o + a ≤ (dim : Int) - (blk_size : Int)) (hx : x < blk_size)
    (hc1 : (subpixel_limits o (a : ℚ) blk_size dim).1 ≤ c)
    (hc2 : c ≤ (subpixel_limits o (a : ℚ) blk_size dim).2) :
    0 ≤ (o : ℚ) + ((a : ℚ) + (c : ℚ) * (1 / 4)) + (x : ℚ)
      ∧ (o : ℚ) + ((a : ℚ) + (c : ℚ) * (1 / 4)) + (x : ℚ) ≤ (dim : ℚ) - 1 := by
  unfold subpixel_limits at hc1 hc2
  simp only [] at hc1 hc2
  have hxq : (0 : ℚ) ≤ (x : ℚ) := Nat.cast_nonneg x
  have hxb : (x : ℚ) + 1 ≤ (blk_size : ℚ) := by exact_mod_cast hx
  have h0q : (0 : ℚ) ≤ (o : ℚ) + (a : ℚ) := by exact_mod_cast h0
  have h1q : (o : ℚ) + (a : ℚ) ≤ (dim : ℚ) - (blk_size : ℚ) := by exact_mod_cast h1
  constructor
  · by_cases hlo : (o : ℚ) + (a : ℚ) ≤ 0
    · rw [if_pos hlo] at hc1
      have : (0 : ℚ) ≤ (c : ℚ) := by exact_mod_cast hc1
      linarith
    · rw [if_neg hlo] at hc1
      have h2 : (1 : ℚ) ≤ (o : ℚ) + (a : ℚ) := by
        have : 0 < o + a := by
          by_contra hcon
          apply hlo
          have : o + a ≤ 0 := by omega
          exact_mod_cast this
        exact_mod_cast this
      have : (-3 : ℚ) ≤ (c : ℚ) := by exact_mod_cast hc1
      linarith
  · by_cases hhi : (o : ℚ) + (a : ℚ) + (blk_size : ℚ) ≥ (dim : ℚ)
    · rw [if_pos hhi] at hc2
      have : (c : ℚ) ≤ 0 := by exact_mod_cast hc2
      linarith
    · rw [if_neg hhi] at hc2
      have h2 : (o : ℚ) + (a : ℚ) + (blk_size : ℚ) ≤ (dim : ℚ) - 1 := by
        have : o + a + (blk_size : Int) < (dim : Int) := by
          by_contra hcon
          apply hhi
          have : (dim : Int) ≤ o + a + (blk_size : Int) := by omega
          exact_mod_cast this
        have h3 : o + a + (blk_size : Int) ≤ (dim : Int) - 1 := by omega
        exact_mod_cast h3
      have : (c : ℚ) ≤ 3 := by exact_mod_cast hc2
      linarith

/-- The samples of the refinement of one block with an integer input vector that
keeps the block inside the previous frame lie in the previous frame. -/
theorem subpixel_locations_in_image (previous : Mat) (blk_size bx by_ : Nat) (a b : Int)
    (hx0 : 0 ≤ (bx : Int) * (blk_size : Int) + a)
    (hx1 : (bx : Int) * (blk_size : Int) + a ≤ (previous.cols : Int) - (blk_size : Int))
    (hy0 : 0 ≤ (by_ : Int) * (blk_size : Int) + b)
    (hy1 : (by_ : Int) * (blk_size : Int) + b ≤ (previous.rows : Int) - (blk_size : Int)) :
    ∀ p ∈ subpixel_locations previous blk_size bx by_ ((a : ℚ), (b : ℚ)),
      (0 ≤ p.1 ∧ p.1 ≤ (previous.cols : ℚ) - 1) ∧ (0 ≤ p.2 ∧ p.2 ≤ (previous.rows : ℚ) - 1) := by
  intro p hp
  unfold subpixel_locations at hp
  obtain ⟨c, hc, hpc⟩ := List.mem_flatMap.mp hp
  obtain ⟨x, y, hx, hy, rfl⟩ := (mem_SAD_locations _ _ _ _).mp hpc
  obtain ⟨⟨c1, c2⟩, ⟨c3, c4⟩⟩ := (mem_subpixel_offsets previous blk_size bx by_ _ c).mp hc
  exact ⟨subpixel_axis_in_image _ a blk_size previous.cols c.1 x hx0 hx1 hx c1 c2,
    subpixel_axis_in_image _ b blk_size previous.rows c.2 y hy0 hy1 hy c3 c4⟩

/-- C30: if every input vector is integer-valued and keeps its block inside the
previous frame (`0 <= ox+a <= width-blk`, `0 <= oy+b <= height-blk`), then every
location that `subpixel_search` passes to the sampler lies in
`[0, width-1] x [0, height-1]`: no coordinate is negative and the off-image test of
the sampler (`fx >= width` or `fy >= height`) never holds. -/
theorem subpixel_samples_in_image (current previous : Mat) (blk_size : Nat)
    (motion : List Vec2f)
    (hin : ∀ bx by_, bx < current.cols / blk_size → by_ < current.rows / blk_size →
      ∃ a b : Int, motion[by_ * (current.cols / blk_size) + bx]? = some ((a : ℚ), (b : ℚ))
        ∧ 0 ≤ (bx : Int) * (blk_size : Int) + a
        ∧ (bx : Int) * (blk_size : Int) + a ≤ (previous.cols : Int) - (blk_size : Int)
        ∧ 0 ≤ (by_ : Int) * (blk_size : Int) + b
        ∧ (by_ : Int) * (blk_size : Int) + b ≤ (previous.rows : Int) - (blk_size : Int)) :
    ∀ p ∈ subpixel_search_locations current previous blk_size motion,
      (0 ≤ p.1 ∧ p.1 ≤ (previous.cols : ℚ) - 1) ∧ (0 ≤ p.2 ∧ p.2 ≤ (previous.rows : ℚ) - 1)
        ∧ ¬ (p.1 ≥ (previous.cols : ℚ) ∨ p.2 ≥ (previous.rows : ℚ)) := by
  intro p hp
  unfold subpixel_search_locations at hp
  obtain ⟨i, hi, hpi⟩ := List.mem_flatMap.mp hp
  rw [List.mem_range] at hi
  have hW : 0 < current.cols / blk_size := by
    rcases Nat.eq_zero_or_pos (current.cols / blk_size) with h | h
    · rw [h, Nat.mul_zero] at hi
      omega
    · exact h
  have hbx : i % (current.cols / blk_size) < current.cols / blk_size := Nat.mod_lt _ hW
  have hby : i / (current.cols / blk_size) < current.rows / blk_size := by
    rw [Nat.div_lt_iff_lt_mul hW]
    exact hi
  obtain ⟨a, b, hv, h1, h2, h3, h4⟩ := hin _ _ hbx hby
  rw [Nat.div_add_mod' i (current.cols / blk_size)] at hv
  have hslot : (subpixel_upto current previous blk_size motion i).getD i (0, 0)
      = ((a : ℚ), (b : ℚ)) := by
    rw [subpixel_upto_slot, List.getD_eq_getElem?_getD, hv]
    rfl
  rw [hslot] at hpi
  obtain ⟨⟨q1, q2⟩, q3, q4⟩ := subpixel_locations_in_image previous blk_size _ _ a b h1 h2 h3 h4
    p hpi
  refine ⟨⟨q1, q2⟩, ⟨q3, q4⟩, ?_⟩
  rintro (h | h) <;> linarith

set_option maxRecDepth 100000 in
/-- Witness of C30: the textured 4x4 frame against its shift by `(1, 0)`, block
size 2, with the field found by `fullsearch`; 352 locations are passed to the
sampler. -/
theorem subpixel_samples_in_image_witness :
    (subpixel_search_locations (textured 4) (shifted (textured 4) 1 0 0) 2
        [(1, 0), (0, 2), (1, 0), (0, 0)]).length = 352 ∧
    ∀ p ∈ subpixel_search_locations (textured 4) (shifted (textured 4) 1 0 0) 2
        [(1, 0), (0, 2), (1, 0), (0, 0)],
      (0 ≤ p.1 ∧ p.1 ≤ ((shifted (textured 4) 1 0 0).cols : ℚ) - 1)
        ∧ (0 ≤ p.2 ∧ p.2 ≤ ((shifted (textured 4) 1 0 0).rows : ℚ) - 1)
        ∧ ¬ (p.1 ≥ ((shifted (textured 4) 1 0 0).cols : ℚ)
          ∨ p.2 ≥ ((shifted (textured 4) 1 0 0).rows : ℚ)) :=
  ⟨by decide!,
    subpixel_samples_in_image (textured 4) (shifted (textured 4) 1 0 0) 2
      [(1, 0), (0, 2), (1, 0), (0, 0)] (by
        intro bx by_ hbx hby
        have hbx' : bx < 2 := hbx
        have hby' : by_ < 2 := hby
        interval_cases bx <;> interval_cases by_
        · exact ⟨1, 0, by decide!, by decide, by decide, by decide, by decide⟩
        · exact ⟨1, 0, by decide!, by decide, by decide, by decide, by decide⟩
        · exact ⟨0, 2, by decide!, by decide, by decide, by decide, by decide⟩
        · exact ⟨0, 0, by decide!, by decide, by decide, by decide, by decide⟩)⟩


/-! ## Refinement never worsens a match; loading appends -/

/-- The SAD at the refined vector of a block is not above the SAD of the zero
offset, whatever the block size. -/
theorem subpixel_refine_le_zero (current previous : Mat) (blk_size bx by_ : Nat) (v : Vec2f) :
    SAD current previous ((bx : Int) * (blk_size : Int)) ((by_ : Int) * (blk_size : Int))
        ((((bx : Int) * (blk_size : Int) : Int) : ℚ)
          + (subpixel_refine current previous blk_size bx by_ v).2.1)
        ((((by_ : Int) * (blk_size : Int) : Int) : ℚ)
          + (subpixel_refine current previous blk_size bx by_ v).2.2) blk_size
      ≤ SAD current previous ((bx : Int) * (blk_size : Int)) ((by_ : Int) * (blk_size : Int))
        ((((bx : Int) * (blk_size : Int) : Int) : ℚ) + v.1)
        ((((by_ : Int) * (blk_size : Int) : Int) : ℚ) + v.2) blk_size := by
  have hzero : (0, 0) ∈ subpixel_offsets previous blk_size bx by_ v := by
    rw [mem_subpixel_offsets]
    exact ⟨subpixel_limits_zero _ _ _ _, subpixel_limits_zero _ _ _ _⟩
  have hc0 : subpixel_cost current previous blk_size bx by_ v (0, 0)
      = SAD current previous ((bx : Int) * (blk_size : Int)) ((by_ : Int) * (blk_size : Int))
        ((((bx : Int) * (blk_size : Int) : Int) : ℚ) + v.1)
        ((((by_ : Int) * (blk_size : Int) : Int) : ℚ) + v.2) blk_size := by
    unfold subpixel_cost
    simp
  have hacc : ∀ (st : Int × Vec2f) (c : Int × Int), True →
      subpixel_cost current previous blk_size bx by_ v c < st.1 →
      (subpixel_step current previous blk_size ((bx : Int) * (blk_size : Int))
          ((by_ : Int) * (blk_size : Int)) v st c.1 c.2).1
        = subpixel_cost current previous blk_size bx by_ v c
      ∧ (subpixel_step current previous blk_size ((bx : Int) * (blk_size : Int))
          ((by_ : Int) * (blk_size : Int)) v st c.1 c.2).2
        = (v.1 + (c.1 : ℚ) * (1 / 4), v.2 + (c.2 : ℚ) * (1 / 4)) := by
    intro st c _ hlt
    rw [subpixel_step_acc current previous blk_size bx by_ v st c hlt]
    exact ⟨rfl, rfl⟩
  have hrej : ∀ (st : Int × Vec2f) (c : Int × Int),
      ¬ (True ∧ subpixel_cost current previous blk_size bx by_ v c < st.1) →
      subpixel_step current previous blk_size ((bx : Int) * (blk_size : Int))
          ((by_ : Int) * (blk_size : Int)) v st c.1 c.2 = st :=
    fun st c hn =>
      subpixel_step_rej current previous blk_size bx by_ v st c (fun hlt => hn ⟨trivial, hlt⟩)
  rw [subpixel_refine_eq_scan]
  rcases min_fold_cases
    (fun (st : Int × Vec2f) (c : Int × Int) =>
      subpixel_step current previous blk_size ((bx : Int) * (blk_size : Int))
        ((by_ : Int) * (blk_size : Int)) v st c.1 c.2)
    Prod.fst Prod.snd (fun (_ : Int × Int) => True)
    (subpixel_cost current previous blk_size bx by_ v)
    (fun (c : Int × Int) => (v.1 + (c.1 : ℚ) * (1 / 4), v.2 + (c.2 : ℚ) * (1 / 4)))
    hacc hrej (subpixel_offsets previous blk_size bx by_ v) (10000000, v) with
    h | ⟨c, _, _, _, e1, e2⟩
  · rw [h]
  · have hle := (min_fold_le
      (fun (st : Int × Vec2f) (c : Int × Int) =>
        subpixel_step current previous blk_size ((bx : Int) * (blk_size : Int))
          ((by_ : Int) * (blk_size : Int)) v st c.1 c.2)
      Prod.fst Prod.snd (fun (_ : Int × Int) => True)
      (subpixel_cost current previous blk_size bx by_ v)
      (fun (c : Int × Int) => (v.1 + (c.1 : ℚ) * (1 / 4), v.2 + (c.2 : ℚ) * (1 / 4)))
      hacc hrej (subpixel_offsets previous blk_size bx by_ v) (10000000, v)).2 (0, 0) hzero
      trivial
    rw [e1, hc0] at hle
    rw [e2]
    exact hle

/-- C31: subpixel refinement never worsens a match.  For every block `(bx, by)` of
the grid with input vector `v` (for every block size, so for those with
`255*blk*blk < 10^7`), the zero offset is among the scanned offsets and the SAD at
the vector `w` written by `subpixel_search` is less than or equal to the SAD at
`v`. -/
theorem subpixel_never_worsens (current previous : Mat) (blk_size : Nat)
    (motion : List Vec2f) (bx by_ : Nat) (v : Vec2f)
    (hbx : bx < current.cols / blk_size) (hby : by_ < current.rows / blk_size)
    (hv : motion[by_ * (current.cols / blk_size) + bx]? = some v) :
    (0, 0) ∈ subpixel_offsets previous blk_size bx by_ v ∧
    ∃ w, (subpixel_search current previous blk_size motion)[
          by_ * (current.cols / blk_size) + bx]? = some w ∧
      SAD current previous ((bx : Int) * (blk_size : Int)) ((by_ : Int) * (blk_size : Int))
          ((((bx : Int) * (blk_size : Int) : Int) : ℚ) + w.1)
          ((((by_ : Int) * (blk_size : Int) : Int) : ℚ) + w.2) blk_size
        ≤ SAD current previous ((bx : Int) * (blk_size : Int)) ((by_ : Int) * (blk_size : Int))
          ((((bx : Int) * (blk_size : Int) : Int) : ℚ) + v.1)
          ((((by_ : Int) * (blk_size : Int) : Int) : ℚ) + v.2) blk_size := by
  refine ⟨?_, (subpixel_refine current previous blk_size bx by_ v).2, ?_,
    subpixel_refine_le_zero current previous blk_size bx by_ v⟩
  · rw [mem_subpixel_offsets]
    exact ⟨subpixel_limits_zero _ _ _ _, subpixel_limits_zero _ _ _ _⟩
  · rw [subpixel_search_getElem? current previous blk_size motion bx by_ hbx hby, hv]
    rfl

set_option maxRecDepth 100000 in
/-- Witness of C31: block `(1, 0)` of the textured 4x4 frame against its shift by
`(1, 0)`, block size 2, with the field found by `fullsearch`. -/
theorem subpixel_never_worsens_witness :
    (0, 0) ∈ subpixel_offsets (shifted (textured 4) 1 0 0) 2 1 0 (0, 2) ∧
    ∃ w, (subpixel_search (textured 4) (shifted (textured 4) 1 0 0) 2
          [(1, 0), (0, 2), (1, 0), (0, 0)])[0 * ((textured 4).cols / 2) + 1]? = some w ∧
      SAD (textured 4) (shifted (textured 4) 1 0 0) (((1 : Nat) : Int) * ((2 : Nat) : Int))
          (((0 : Nat) : Int) * ((2 : Nat) : Int))
          (((((1 : Nat) : Int) * ((2 : Nat) : Int) : Int) : ℚ) + w.1)
          (((((0 : Nat) : Int) * ((2 : Nat) : Int) : Int) : ℚ) + w.2) 2
        ≤ SAD (textured 4) (shifted (textured 4) 1 0 0) (((1 : Nat) : Int) * ((2 : Nat) : Int))
          (((0 : Nat) : Int) * ((2 : Nat) : Int))
          (((((1 : Nat) : Int) * ((2 : Nat) : Int) : Int) : ℚ) + ((0, 2) : Vec2f).1)
          (((((0 : Nat) : Int) * ((2 : Nat) : Int) : Int) : ℚ) + ((0, 2) : Vec2f).2) 2 :=
  subpixel_never_worsens (textured 4) (shifted (textured 4) 1 0 0) 2
    [(1, 0), (0, 2), (1, 0), (0, 0)] 1 0 (0, 2) (by decide) (by decide) (by decide!)

/-- C32: `load_vectors` appends rather than replaces.  For every initial content
`v` of the output vector and every readable file holding the records of `r`
(floats given by their 32-bit patterns), possibly followed by fewer than 8 stray
bytes, the call returns true and leaves the vector equal to `v` followed by `r`, so
the elements of `v` are unchanged and stay in front; on any readable file the
vector after the call starts with `v`; when the file cannot be opened the call
returns false and leaves the vector unchanged. -/
theorem load_vectors_appends (v r : List Vec2fBits) (tail : List Nat)
    (hr : ∀ u ∈ r, u.1 < 4294967296 ∧ u.2 < 4294967296) (ht : tail.length < 8) :
    load_vectors (some (r.flatMap vec_bytes ++ tail)) v = (true, v ++ r) ∧
    (∀ k, k < v.length →
      (load_vectors (some (r.flatMap vec_bytes ++ tail)) v).2[k]? = v[k]?) ∧
    (∀ bytes : List Nat, ∃ recs, load_vectors (some bytes) v = (true, v ++ recs)) ∧
    load_vectors none v = (false, v) := by
  have h1 : load_vectors (some (r.flatMap vec_bytes ++ tail)) v = (true, v ++ r) := by
    unfold load_vectors
    simp only []
    rw [load_records_tail _ tail v (by rw [records_bytes_length]; omega) ht,
      load_records_records r v hr]
  refine ⟨h1, ?_, ?_, rfl⟩
  · intro k hk
    rw [h1]
    exact List.getElem?_append_left hk
  · intro bytes
    exact ⟨_, congrArg (Prod.mk true) (load_records_eq bytes v)⟩

/-- Witness of C32: the vector holds `(5, 6)`; the file holds the record of
`(1.0f, -1.0f)` followed by one stray byte. -/
theorem load_vectors_appends_witness :
    load_vectors (some ([(1065353216, 3212836864)].flatMap vec_bytes ++ [7])) [(5, 6)]
      = (true, [(5, 6)] ++ [(1065353216, 3212836864)]) ∧
    (∀ k, k < [((5, 6) : Vec2fBits)].length →
      (load_vectors (some ([(1065353216, 3212836864)].flatMap vec_bytes ++ [7]))
        [(5, 6)]).2[k]? = [((5, 6) : Vec2fBits)][k]?) ∧
    (∀ bytes : List Nat, ∃ recs,
      load_vectors (some bytes) [(5, 6)] = (true, [(5, 6)] ++ recs)) ∧
    load_vectors none [(5, 6)] = (false, [(5, 6)]) :=
  load_vectors_appends [(5, 6)] [(1065353216, 3212836864)] [7] (by decide) (by decide)

end TechDemo
